import Mathlib

/-!
# JuPedSim core (jpscore): floor-field router and fast-marching floor field

A shallow embedding of the parts of

* `libcore/src/routing/ff_router/ffRouter.cpp` (door-graph router),
* `libcore/src/routing/ff_router/UnivFFviaFM.cpp` (fast-marching floor field), and
* `libcore/src/geometry/Point.cpp`, `libcore/src/geometry/Line.cpp` (points and lines)

that the routing and floor-field properties below are about.  All definitions come first;
the theorems follow in the second part of the file.

## Numbers

The C++ code computes with `double`.  The embedding uses exact arithmetic:
a finite `double` is a rational number, and the two special values the router
works with, `std::numeric_limits<double>::max()` and
`std::numeric_limits<double>::infinity()`, are two symbols above every finite
value (`Dbl.dmax < Dbl.inf`).  Rounding is not modelled.

## Maps

`_distMatrix` and `_pathsMatrix` are `std::map<std::pair<int,int>, ...>`.
`CalculateFloorFields` creates the key `(id1, id2)` for every pair of door UIDs
before anything reads the maps, and every later write is an `erase` followed by
an `insert` of the same key, so the maps are total on door pairs; they are
embedded as functions `Int → Int → _`.
-/

namespace JPSCore

/-! ## Idealised doubles -/

/-- A `double` of the router: a finite value, max-double, or plus infinity. -/
inductive Dbl
  | fin (q : ℚ)
  | dmax
  | inf
deriving DecidableEq

namespace Dbl

/-- The comparison `a < b` on doubles. -/
def lt : Dbl → Dbl → Bool
  | fin a, fin b => decide (a < b)
  | fin _, dmax => true
  | fin _, inf => true
  | dmax, inf => true
  | _, _ => false

/-- The sum `a + b` on doubles; a finite summand does not move max-double. -/
def add : Dbl → Dbl → Dbl
  | fin a, fin b => fin (a + b)
  | fin _, dmax => dmax
  | dmax, fin _ => dmax
  | _, _ => inf

/-- The value is finite and at least zero, or one of the two special values. -/
def nonneg : Dbl → Bool
  | fin a => decide (0 ≤ a)
  | _ => true

/-- The value is finite and strictly positive, or one of the two special values. -/
def pos : Dbl → Bool
  | fin a => decide (0 < a)
  | _ => true

/-- The value is below max-double, which is how `FloydWarshall` tests for a usable entry. -/
def isFin (d : Dbl) : Bool := lt d dmax

end Dbl

/-! ## The two matrices of the router -/

/-- The members `_distMatrix` and `_pathsMatrix` of `FFRouter`. -/
structure Matrices where
  dist : Int → Int → Dbl
  path : Int → Int → Int

/-- Replace the value stored under the key `(i, j)`: `erase(key)` then `insert(key, v)`. -/
def setKey {α : Type} (f : Int → Int → α) (i j : Int) (v : α) : Int → Int → α :=
  fun a b => if a = i ∧ b = j then v else f a b

/-! ## `FFRouter::FloydWarshall` -/

/-- The body of the innermost loop of `FFRouter::FloydWarshall` for the doors `k`, `i`, `j`.

The new values are read *after* `key_ij` has been erased.  If `key_ik` or `key_kj` is the
erased key (`k = j` or `k = i`), `operator[]` re-creates it with the default value (`0.0`,
resp. `0`) and the following `insert` does not overwrite it. -/
def relaxStep (k i j : Int) (s : Matrices × Bool) : Matrices × Bool :=
  if Dbl.lt (s.1.dist i k) Dbl.dmax && Dbl.lt (s.1.dist k j) Dbl.dmax &&
      Dbl.lt (Dbl.add (s.1.dist i k) (s.1.dist k j)) (s.1.dist i j) then
    let newDist : Dbl :=
      if k = i ∨ k = j then Dbl.fin 0 else Dbl.add (s.1.dist i k) (s.1.dist k j)
    let newPath : Int := if k = j then 0 else s.1.path i k
    (⟨setKey s.1.dist i j newDist, setKey s.1.path i j newPath⟩, true)
  else s

/-- The two inner loops of `FFRouter::FloydWarshall` for a fixed intermediate door `k`. -/
def fwInner (doors : List Int) (k : Int) (s : Matrices × Bool) : Matrices × Bool :=
  doors.foldl (fun s i => doors.foldl (fun s j => relaxStep k i j s) s) s

/-- One execution of the triple loop of `FFRouter::FloydWarshall`. -/
def fwPass (doors : List Int) (s : Matrices × Bool) : Matrices × Bool :=
  doors.foldl (fun s k => fwInner doors k s) s

/-- The function `FFRouter::FloydWarshall`: run the triple loop and call itself again if any
entry changed.  The recursion depth is bounded by the fuel; `none` means the fuel ran out. -/
def FloydWarshall : Nat → List Int → Matrices → Option Matrices
  | 0, _, _ => none
  | fuel + 1, doors, m =>
    let r := fwPass doors (m, false)
    if r.2 then FloydWarshall fuel doors r.1 else some r.1

/-! ## Door sequences and their lengths -/

/-- Sum of the direct edge weights along the door sequence `i, mids, j`; `none` if one of
the edges is missing (not below max-double). -/
def walkLen (e : Int → Int → Dbl) : Int → List Int → Int → Option ℚ
  | i, [], j =>
    match e i j with
    | Dbl.fin a => some a
    | _ => none
  | i, m :: ms, j =>
    match e i m, walkLen e m ms j with
    | Dbl.fin a, some b => some (a + b)
    | _, _ => none

/-- Sum of the direct edge weights along a non-empty door sequence; a single door has
length zero.  `none` if the sequence is empty or one of its edges is missing. -/
def seqLen (e : Int → Int → Dbl) : List Int → Option ℚ
  | [] => none
  | [_] => some 0
  | x :: y :: rest =>
    match e x y, seqLen e (y :: rest) with
    | Dbl.fin a, some b => some (a + b)
    | _, _ => none

/-- The list `p` is a sequence of doors of the router that starts at `i` and ends at `j`. -/
def IsDoorSeq (doors : List Int) (i j : Int) (p : List Int) : Prop :=
  p.head? = some i ∧ p.getLast? = some j ∧ ∀ x ∈ p, x ∈ doors

/-- Every finite entry between two doors is at least zero. -/
def NonNegOn (doors : List Int) (d : Int → Int → Dbl) : Prop :=
  ∀ i ∈ doors, ∀ j ∈ doors, (d i j).nonneg = true

/-- Every finite entry between two different doors is strictly positive. -/
def PosOffDiagOn (doors : List Int) (d : Int → Int → Dbl) : Prop :=
  ∀ i ∈ doors, ∀ j ∈ doors, i ≠ j → (d i j).pos = true

/-- The diagonal entries of the doors are zero. -/
def ZeroDiagOn (doors : List Int) (d : Int → Int → Dbl) : Prop :=
  ∀ k ∈ doors, d k k = Dbl.fin 0

instance (doors : List Int) (d : Int → Int → Dbl) : Decidable (NonNegOn doors d) := by
  unfold NonNegOn; infer_instance

instance (doors : List Int) (d : Int → Int → Dbl) : Decidable (PosOffDiagOn doors d) := by
  unfold PosOffDiagOn; infer_instance

instance (doors : List Int) (d : Int → Int → Dbl) : Decidable (ZeroDiagOn doors d) := by
  unfold ZeroDiagOn; infer_instance

/-- The value `q` is the length of a shortest door sequence from `i` to `j` over the
direct edges `e`: some sequence has this length and none is shorter. -/
def IsShortest (e : Int → Int → Dbl) (doors : List Int) (i j : Int) (q : ℚ) : Prop :=
  (∃ p, IsDoorSeq doors i j p ∧ seqLen e p = some q) ∧
    ∀ p L, IsDoorSeq doors i j p → seqLen e p = some L → q ≤ L

/-- No door sequence from `i` to `j` uses only present edges of `e`. -/
def Unreachable (e : Int → Int → Dbl) (doors : List Int) (i j : Int) : Prop :=
  ∀ p, IsDoorSeq doors i j p → seqLen e p = none

/-! ## Invariants of the relaxation loop -/

/-- What every state of the relaxation loop satisfies, relative to the matrices `e`, `p0`
the first call of `FloydWarshall` started from: finite entries between doors are at least
zero, the diagonal is zero, every finite entry is the length of a door sequence over `e`
(whose first hop is the stored next hop, a door other than the first one, when `p0` was
the initial next-hop matrix), and
entries that are not finite still hold their initial values. -/
structure Good (e : Int → Int → Dbl) (p0 : Int → Int → Int) (doors : List Int)
    (m : Matrices) : Prop where
  nonneg : ∀ i ∈ doors, ∀ j ∈ doors, ∀ q, m.dist i j = Dbl.fin q → 0 ≤ q
  diag : ∀ k ∈ doors, m.dist k k = Dbl.fin 0
  walk : ∀ i j q, m.dist i j = Dbl.fin q →
    ∃ mids, (∀ x ∈ mids, x ∈ doors) ∧ walkLen e i mids j = some q ∧
      ((∀ a b, p0 a b = b) → i ≠ j →
        (mids ++ [j]).head? = some (m.path i j) ∧ m.path i j ≠ i)
  keep : ∀ i j, (∀ q, m.dist i j ≠ Dbl.fin q) → m.dist i j = e i j ∧ m.path i j = p0 i j

/-- Finite entries of `m` are finite and not larger in `n`. -/
def Mono (m n : Matrices) : Prop :=
  ∀ i j q, m.dist i j = Dbl.fin q → ∃ r, r ≤ q ∧ n.dist i j = Dbl.fin r

/-- The entry of every pair of doors is at most the length of every door sequence between
them whose intermediate doors satisfy `S`. -/
def ClosedUnder (S : Int → Prop) (e : Int → Int → Dbl) (doors : List Int)
    (m : Matrices) : Prop :=
  ∀ i ∈ doors, ∀ j ∈ doors, ∀ mids, (∀ x ∈ mids, S x) → ∀ L,
    walkLen e i mids j = some L → ∃ q, q ≤ L ∧ m.dist i j = Dbl.fin q

/-- The triangle inequality through the door `k` holds for the entry `(i, j)`. -/
def RelaxedAt (k i j : Int) (m : Matrices) : Prop :=
  ∀ a b, m.dist i k = Dbl.fin a → m.dist k j = Dbl.fin b →
    ∃ q, q ≤ a + b ∧ m.dist i j = Dbl.fin q

/-- A door matrix over the doors 1, 2, 3: the doors 1 and 2 are 4 apart, the doors 2 and
3 are 5 apart, and no distance between 1 and 3 was measured. -/
def sampleMatrices : Matrices where
  dist := fun i j =>
    if i = j then Dbl.fin 0
    else if (i = 1 ∧ j = 2) ∨ (i = 2 ∧ j = 1) then Dbl.fin 4
    else if (i = 2 ∧ j = 3) ∨ (i = 3 ∧ j = 2) then Dbl.fin 5
    else Dbl.inf
  path := fun _ j => j

/-! ## The building as `FFRouter::CalculateFloorFields` reads it -/

/-- What the router reads of a `Crossing` or `Transition`. -/
structure Door where
  /-- `GetUniqueID()` -/
  uid : Int
  /-- `IsTransition()` -/
  isTransition : Bool
  /-- `GetRoom1()->GetID()`, `none` for a null pointer -/
  room1 : Option Int
  /-- `GetRoom2()->GetID()`, `none` for a null pointer (only read for transitions) -/
  room2 : Option Int
  /-- `GetSubRoom1()->GetUID()`, `none` for a null pointer -/
  subRoom1 : Option Int
  /-- `GetSubRoom2()->GetUID()`, `none` for a null pointer -/
  subRoom2 : Option Int
  /-- `IsClose()` -/
  isClose : Bool
deriving DecidableEq

/-- A subroom of type `ESCALATOR_UP` or `ESCALATOR_DOWN`, as read in the escalator loop.
The two fields `line0`, `line1` are `GetAllGoalIDs()`, of which the code asserts that it
has exactly two elements. -/
structure Escalator where
  /-- `IsEscalatorUp()` -/
  isUp : Bool
  /-- `lineUIDs[0]` -/
  line0 : Int
  /-- `lineUIDs[1]` -/
  line1 : Int
  /-- `_doorByUID[uid]->IsInLineSegment(escalator->GetUp())` for a door UID -/
  upIn : Int → Bool

/-- The inputs of `FFRouter::CalculateFloorFields`. -/
structure Building where
  /-- `_building->GetAllTransitions()`, in iteration order -/
  transitions : List Door
  /-- `_building->GetAllCrossings()`, in iteration order -/
  crossings : List Door
  /-- the subrooms of type `ESCALATOR_UP` or `ESCALATOR_DOWN`, in iteration order -/
  escalators : List Escalator
  /-- `_config->hasDirectionalEscalators` -/
  hasDirectionalEscalators : Bool
  /-- `_floorfieldByRoomID[roomID]->GetDistanceBetweenDoors(doorUID1, doorUID2)` -/
  doorDistance : Int → Int → Int → Dbl
  /-- `GetGrid()->Gethx()`, the grid spacing of the floor fields -/
  hx : ℚ

/-- The state of the router that `FindExit` reads. -/
structure Router where
  /-- `_targetWithinSubroom` -/
  targetWithinSubroom : Bool
  /-- `_allDoorUIDs` -/
  allDoorUIDs : List Int
  /-- `_doorByUID` -/
  doorByUID : Int → Option Door
  /-- `_distMatrix` and `_pathsMatrix` -/
  m : Matrices

/-- The UIDs pushed to `_allDoorUIDs` by the two door loops, before sorting. -/
def rawDoorUIDs (b : Building) : List Int :=
  b.transitions.map Door.uid ++ b.crossings.map Door.uid

/-- The member `_allDoorUIDs` after `std::sort` and `std::unique`. -/
def allDoorUIDs (b : Building) : List Int :=
  ((rawDoorUIDs b).insertionSort (· ≤ ·)).dedup

/-- The member `_doorByUID`: `insert` keeps the first door stored under a UID, and the
transitions are inserted before the crossings.  `GetTransOrCrossByUID` is the same lookup. -/
def doorByUID (b : Building) (uid : Int) : Option Door :=
  (b.transitions ++ b.crossings).find? (fun d => d.uid = uid)

/-- The local `roomAndCroTrVector`: pairs (room ID, door UID). -/
def roomAndCroTrVector (b : Building) : List (Int × Int) :=
  (b.transitions.flatMap fun t =>
      (match t.room1 with | some r => [(r, t.uid)] | none => []) ++
      (match t.room2 with | some r => [(r, t.uid)] | none => [])) ++
  (b.crossings.flatMap fun c =>
      match c.room1 with | some r => [(r, c.uid)] | none => [])

/-- The matrices after the initialisation loop: zero on the diagonal, infinity elsewhere,
and `j` as next hop from `i` to `j`. -/
def initMatrices : Matrices where
  dist := fun i j => if i = j then Dbl.fin 0 else Dbl.inf
  path := fun _ j => j

/-- The test whether two doors have a subroom in common (lines 222 to 238). -/
def shareSubRoom (a c : Door) : Bool :=
  let thisUID1 := a.subRoom1.getD (-10)
  let thisUID2 := a.subRoom2.getD (-20)
  let otherUID1 := c.subRoom1.getD (-30)
  let otherUID2 := c.subRoom2.getD (-40)
  !(thisUID1 != otherUID1 && thisUID1 != otherUID2 && thisUID2 != otherUID1 &&
    thisUID2 != otherUID2)

/-- The body of the double loop over `roomAndCroTrVector` that enters the floor-field
distances of door pairs (lines 211 to 264).  The lookups `_doorByUID.at` cannot fail, as
every UID of `roomAndCroTrVector` is a key of `_doorByUID`. -/
def distStep (b : Building) (p1 p2 : Int × Int) (d : Int → Int → Dbl) : Int → Int → Dbl :=
  if p2.1 ≠ p1.1 then d
  else if p2.2 ≤ p1.2 then d
  else
    match doorByUID b p1.2, doorByUID b p2.2 with
    | some a, some c =>
      if !shareSubRoom a c then d
      else
        let tempDistance := b.doorDistance p1.1 p1.2 p2.2
        if Dbl.lt tempDistance (Dbl.fin b.hx) then d
        else if Dbl.lt tempDistance (d p2.2 p1.2) then
          setKey (setKey d p2.2 p1.2 tempDistance) p1.2 p2.2 tempDistance
        else d
    | _, _ => d

/-- The distance matrix after the double loop over `roomAndCroTrVector`. -/
def measuredDist (b : Building) : Int → Int → Dbl :=
  (roomAndCroTrVector b).foldl
    (fun d p1 => (roomAndCroTrVector b).foldl (fun d p2 => distStep b p1 p2 d) d)
    initMatrices.dist

/-- The key that the escalator loop appends to `penaltyList` for one escalator. -/
def escalatorPenalty (esc : Escalator) : Int × Int :=
  if esc.isUp then
    if esc.upIn esc.line0 then (esc.line0, esc.line1) else (esc.line1, esc.line0)
  else
    if esc.upIn esc.line0 then (esc.line1, esc.line0) else (esc.line0, esc.line1)

/-- The keys that the closed-door loop appends to `penaltyList`.  The test
`_distMatrix.find(connection1) != _distMatrix.end()` succeeds for every pair of doors. -/
def closedDoorPenalties (b : Building) : List (Int × Int) :=
  (allDoorUIDs b).flatMap fun doorID =>
    match doorByUID b doorID with
    | some door =>
      if door.isClose then
        (allDoorUIDs b).flatMap fun doorID2 =>
          if doorID = doorID2 then [] else [(doorID, doorID2), (doorID2, doorID)]
      else []
    | none => []

/-- The local `penaltyList` of `CalculateFloorFields`. -/
def penaltyList (b : Building) : List (Int × Int) :=
  (if b.hasDirectionalEscalators then b.escalators.map escalatorPenalty else []) ++
    closedDoorPenalties b

/-- The matrices that `CalculateFloorFields` hands to `FloydWarshall`: the measured
distances with max-double written under every key of `penaltyList`. -/
def edgeMatrices (b : Building) : Matrices where
  dist := (penaltyList b).foldl (fun d key => setKey d key.1 key.2 Dbl.dmax) (measuredDist b)
  path := initMatrices.path

/-- The function `FFRouter::CalculateFloorFields`, as far as the door lists and the two
matrices are concerned.  `targetWithinSubroom` is the member `_targetWithinSubroom`;
the fuel bounds the recursion of `FloydWarshall`. -/
def CalculateFloorFields (fuel : Nat) (targetWithinSubroom : Bool) (b : Building) :
    Option Router :=
  (FloydWarshall fuel (allDoorUIDs b) (edgeMatrices b)).map fun m =>
    { targetWithinSubroom := targetWithinSubroom
      allDoorUIDs := allDoorUIDs b
      doorByUID := doorByUID b
      m := m }

/-- Follow the next hops of `P` from `u` towards `v`: the doors visited, `u` first and `v`
last, if `v` is reached within `n` hops. -/
def followHops (P : Int → Int → Int) (v : Int) : Nat → Int → Option (List Int)
  | 0, u => if u = v then some [u] else none
  | n + 1, u => if u = v then some [u] else (followHops P v n (P u v)).map (fun p => u :: p)

/-- The building is well formed for the router: the two doors of an escalator differ and
the grid spacing is not negative. -/
def Building.WellFormed (b : Building) : Prop :=
  0 ≤ b.hx ∧ ∀ esc ∈ b.escalators, esc.line0 ≠ esc.line1

/-- The diagonal of the matrix is zero and every finite entry off the diagonal is at
least `hx`. -/
def EdgeOK (hx : ℚ) (d : Int → Int → Dbl) : Prop :=
  (∀ k, d k k = Dbl.fin 0) ∧ ∀ i j, i ≠ j → ∀ q, d i j = Dbl.fin q → hx ≤ q

/-- The door `c` is a closed door of the building. -/
def IsClosedDoor (b : Building) (c : Int) : Prop :=
  c ∈ allDoorUIDs b ∧ ∃ door, doorByUID b c = some door ∧ door.isClose = true

/-- The matrices of the router that `CalculateFloorFields` builds (one round of the triple
loop of `FloydWarshall` on the matrices handed to it; a second round changes nothing). -/
def routerMatrices (b : Building) : Matrices :=
  (fwPass (allDoorUIDs b) (edgeMatrices b, false)).1

/-- An escalator running upwards whose upper door is door 1 and whose lower door is
door 2. -/
def sampleEscalator : Escalator where
  isUp := true
  line0 := 1
  line1 := 2
  upIn := fun uid => uid == 1

/-- A one-room building with four crossings.  Subroom 10 is the escalator between the
upper hall (subroom 11) and the lower hall (subroom 12): door 1 joins the escalator and
the upper hall, door 2 the escalator and the lower hall.  Door 3 is a staircase door
joining the two halls directly, and door 4 is a closed door of the upper hall. -/
def sampleBuilding : Building where
  transitions := []
  crossings :=
    [ { uid := 1, isTransition := false, room1 := some 0, room2 := none,
        subRoom1 := some 10, subRoom2 := some 11, isClose := false },
      { uid := 2, isTransition := false, room1 := some 0, room2 := none,
        subRoom1 := some 10, subRoom2 := some 12, isClose := false },
      { uid := 3, isTransition := false, room1 := some 0, room2 := none,
        subRoom1 := some 11, subRoom2 := some 12, isClose := false },
      { uid := 4, isTransition := false, room1 := some 0, room2 := none,
        subRoom1 := some 11, subRoom2 := none, isClose := true } ]
  escalators := [sampleEscalator]
  hasDirectionalEscalators := true
  doorDistance := fun _ u v =>
    if u = 1 ∧ v = 2 then Dbl.fin 5
    else if u = 1 ∧ v = 3 then Dbl.fin 4
    else if u = 2 ∧ v = 3 then Dbl.fin 4
    else if u = 1 ∧ v = 4 then Dbl.fin 2
    else if u = 3 ∧ v = 4 then Dbl.fin 2
    else Dbl.inf
  hx := 1 / 8

/-! ## `FFRouter::FindExit` -/

/-- What `FindExit` reads of the agent and of the building around the agent. -/
structure ExitQuery where
  /-- if the final goal is a `WaitingArea`: `GetRoomID()`, `GetSubRoomID()` and
  `GetCentreCrossing()->GetUniqueID()` -/
  waitingArea : Option (Int × Int × Int)
  /-- `ped_roomid` -/
  pedRoom : Int
  /-- `ped_subroomid` -/
  pedSubRoom : Int
  /-- the vector `validFinalDoor` (lines 354 to 374) -/
  validFinalDoor : List Int
  /-- the vector `DoorUIDsOfRoom` (lines 376 to 403) -/
  doorUIDsOfRoom : List Int
  /-- `GetDistance2Target(p, doorUID)` -/
  locDist : Int → Dbl
  /-- `_building->GetSubRoom(p->GetPos())->GetAllGoalIDs()` -/
  subroomDoors : List Int

/-- What `FindExit` writes of the agent: the destination and the exit line (by UID). -/
structure Pedestrian where
  destination : Int
  exitLine : Option Int
deriving DecidableEq

/-- The locals `minDist`, `bestDoor` and `bestFinalDoor` of `FindExit`. -/
structure MinState where
  minDist : Dbl
  bestDoor : Int
  bestFinalDoor : Int
deriving DecidableEq

/-- The maps `_distMatrix` and `_pathsMatrix` have the key `(a, c)`: both are doors. -/
def hasKey (r : Router) (a c : Int) : Bool :=
  decide (a ∈ r.allDoorUIDs) && decide (c ∈ r.allDoorUIDs)

/-- The values of the locals before the minimisation loop. -/
def minInit : MinState := ⟨Dbl.inf, -1, -1⟩

/-- The body of the inner loop of the minimisation (lines 409 to 435) for the terminal
door `finalDoor` and the scope door `doorUID`.  `J_EPS` is the constant of that name. -/
def minStep (J_EPS : ℚ) (r : Router) (q : ExitQuery) (finalDoor doorUID : Int)
    (s : MinState) : MinState :=
  let locDistToDoor := q.locDist doorUID
  if Dbl.lt locDistToDoor (Dbl.fin (-J_EPS)) then s
  else if hasKey r doorUID finalDoor = false then s
  else if r.m.dist doorUID finalDoor ≠ Dbl.inf then
    if Dbl.lt (Dbl.add (r.m.dist doorUID finalDoor) locDistToDoor) s.minDist then
      { minDist := Dbl.add (r.m.dist doorUID finalDoor) locDistToDoor
        bestDoor :=
          if r.m.path doorUID finalDoor ∈ q.subroomDoors then r.m.path doorUID finalDoor
          else doorUID
        bestFinalDoor := finalDoor }
    else s
  else s

/-- The minimisation loop of `FindExit` (lines 405 to 437). -/
def minimise (J_EPS : ℚ) (r : Router) (q : ExitQuery) : MinState :=
  q.validFinalDoor.foldl
    (fun s finalDoor =>
      q.doorUIDsOfRoom.foldl (fun s doorUID => minStep J_EPS r q finalDoor doorUID s) s)
    minInit

/-- The loop of lines 441 to 444: replace the door by its next hop until it is a
transition.  `none` if the fuel runs out or a UID without door is reached (the code then
dereferences a null pointer). -/
def walkToTransition (r : Router) (bestFinalDoor : Int) : Nat → Int → Option Int
  | 0, _ => none
  | fuel + 1, bestDoor =>
    match r.doorByUID bestDoor with
    | none => none
    | some d =>
      if d.isTransition then some bestDoor
      else walkToTransition r bestFinalDoor fuel (r.m.path bestDoor bestFinalDoor)

/-- The door that the waiting-area shortcut of `FindExit` returns (lines 336 to 352), if
it applies. -/
def waitingAreaDoor (r : Router) (q : ExitQuery) : Option Int :=
  match q.waitingArea with
  | none => none
  | some (room, subRoom, centre) =>
    if !r.targetWithinSubroom && room == q.pedRoom then some centre
    else if r.targetWithinSubroom && room == q.pedRoom && subRoom == q.pedSubRoom then
      some centre
    else none

/-- The function `FFRouter::FindExit`: the returned door and the agent afterwards.
`none` if the call does not return (fuel of the next-hop loop, `_doorByUID.at` throwing,
null pointer). -/
def FindExit (J_EPS : ℚ) (fuel : Nat) (r : Router) (q : ExitQuery) (p : Pedestrian) :
    Option (Int × Pedestrian) :=
  match waitingAreaDoor r q with
  | some bestDoor =>
    match r.doorByUID bestDoor with
    | some _ => some (bestDoor, { destination := bestDoor, exitLine := some bestDoor })
    | none => none
  | none =>
    let s := minimise J_EPS r q
    let walked : Option Int :=
      if !r.targetWithinSubroom && (r.doorByUID s.bestDoor).isSome then
        walkToTransition r s.bestFinalDoor fuel s.bestDoor
      else some s.bestDoor
    walked.map fun bestDoor =>
      if (r.doorByUID bestDoor).isSome then
        (bestDoor, { destination := bestDoor, exitLine := some bestDoor })
      else (bestDoor, p)

/-- The pairs (terminal door, scope door) in the order in which the minimisation loop
visits them. -/
def candidatePairs (q : ExitQuery) : List (Int × Int) :=
  q.validFinalDoor.flatMap fun t => q.doorUIDsOfRoom.map fun d => (t, d)

/-- The pair (terminal door, scope door) passes the guards of the minimisation loop: the
local distance is not below `-J_EPS`, the key exists and the matrix distance is not
plus infinity. -/
def admissible (J_EPS : ℚ) (r : Router) (q : ExitQuery) (x : Int × Int) : Bool :=
  !(Dbl.lt (q.locDist x.2) (Dbl.fin (-J_EPS))) && hasKey r x.2 x.1 &&
    decide (r.m.dist x.2 x.1 ≠ Dbl.inf)

/-- The sum `D[door][terminal] + local_distance(agent, door)` of a pair. -/
def pairCost (r : Router) (q : ExitQuery) (x : Int × Int) : Dbl :=
  Dbl.add (r.m.dist x.2 x.1) (q.locDist x.2)

/-- The door that the loop stores in `bestDoor` for a pair: the next hop of the scope door
towards the terminal door if that is a door of the agent's subroom, else the scope door. -/
def selectedDoor (r : Router) (q : ExitQuery) (x : Int × Int) : Int :=
  if r.m.path x.2 x.1 ∈ q.subroomDoors then r.m.path x.2 x.1 else x.2

/-- The door `d` is in the agent's scope and, with some terminal door `t`, minimises
`local_distance(agent, d) + D[d][t]` over all scope doors and terminal doors with finite
matrix distance. -/
def IsScopeMinimiser (r : Router) (q : ExitQuery) (d : Int) : Prop :=
  d ∈ q.doorUIDsOfRoom ∧ ∃ t ∈ q.validFinalDoor, (r.m.dist d t).isFin = true ∧
    ∀ d2 ∈ q.doorUIDsOfRoom, ∀ t2 ∈ q.validFinalDoor, (r.m.dist d2 t2).isFin = true →
      Dbl.lt (pairCost r q (t2, d2)) (pairCost r q (t, d)) = false

instance (r : Router) (q : ExitQuery) (d : Int) : Decidable (IsScopeMinimiser r q d) := by
  unfold IsScopeMinimiser; infer_instance

/-- The router that `CalculateFloorFields` builds for `sampleBuilding` in subroom scope. -/
def sampleRouter : Router where
  targetWithinSubroom := true
  allDoorUIDs := allDoorUIDs sampleBuilding
  doorByUID := doorByUID sampleBuilding
  m := routerMatrices sampleBuilding

/-- An agent in the upper hall of `sampleBuilding` (doors 1, 3 and the closed door 4) whose
terminal door is the lower door 2 of the escalator.  The agent is at distance 1 from
door 1, 6 from door 3 and 3 from door 4. -/
def sampleQuery : ExitQuery where
  waitingArea := none
  pedRoom := 0
  pedSubRoom := 11
  validFinalDoor := [2]
  doorUIDsOfRoom := [1, 3, 4]
  locDist := fun d => if d = 1 then Dbl.fin 1 else if d = 3 then Dbl.fin 6 else Dbl.fin 3
  subroomDoors := [1, 3, 4]

/-- The same agent at distance 5 from door 3, with the doors of the scope listed in the
order 3, 1, 4. -/
def tieQuery : ExitQuery where
  waitingArea := none
  pedRoom := 0
  pedSubRoom := 11
  validFinalDoor := [2]
  doorUIDsOfRoom := [3, 1, 4]
  locDist := fun d => if d = 1 then Dbl.fin 1 else if d = 3 then Dbl.fin 5 else Dbl.fin 3
  subroomDoors := [1, 3, 4]

/-- An agent without destination. -/
def samplePedestrian : Pedestrian := ⟨-1, none⟩

/-- The state `s` of the minimisation after the pairs `l`: either no pair passed the
guards with a sum below infinity and the locals still hold their initial values, or the
locals describe the first pair of `l` that attains the least sum among the pairs passing
the guards. -/
def FirstMinimum (J_EPS : ℚ) (r : Router) (q : ExitQuery) (l : List (Int × Int))
    (s : MinState) : Prop :=
  (s = minInit ∧
      ∀ x ∈ l, admissible J_EPS r q x = true → Dbl.lt (pairCost r q x) Dbl.inf = false) ∨
    ∃ pre x post, l = pre ++ x :: post ∧ admissible J_EPS r q x = true ∧
      Dbl.lt (pairCost r q x) Dbl.inf = true ∧
      s = ⟨pairCost r q x, selectedDoor r q x, x.1⟩ ∧
      (∀ y ∈ pre, admissible J_EPS r q y = true →
        Dbl.lt (pairCost r q x) (pairCost r q y) = true) ∧
      (∀ y ∈ post, admissible J_EPS r q y = true →
        Dbl.lt (pairCost r q y) (pairCost r q x) = false)

/-- The integer square root, by linear search. -/
def natSqrt (n : Nat) : Nat :=
  (List.range (n + 1)).foldl (fun r k => if k * k ≤ n then k else r) 0

/-- A square root on the rationals that is exact on squares of rationals. -/
def sqrtQ (q : ℚ) : ℚ := (natSqrt q.num.toNat : ℚ) / (natSqrt q.den : ℚ)

/-- The function `UnivFFviaFM::OnesidedCalc`. -/
def OnesidedCalc (xy : Dbl) (hDivF : ℚ) : Dbl := Dbl.add xy (Dbl.fin hDivF)

/-- The function `UnivFFviaFM::TwosidedCalc` on finite arguments, over any ordered field
of numbers (the rationals in the embedding of `CalcCost`). -/
def TwosidedCalc {K : Type} [LinearOrderedField K] (sqrt : K → K) (x y hDivF : K) : K :=
  let determinante := 2 * hDivF * hDivF - (x - y) * (x - y)
  if determinante ≥ 0 then (x + y + sqrt determinante) / 2
  else if x < y then x + hDivF else y + hDivF

/-- The left-hand side of the discretised eikonal equation at the value `u` with the
neighbour costs `ux` and `uy`. -/
def eikonalLhs {K : Type} [LinearOrderedField K] (u ux uy : K) : K :=
  (max 0 (u - ux)) ^ 2 + (max 0 (u - uy)) ^ 2

/-- The function `UnivFFviaFM::TwosidedCalc` on doubles.  With an operand that is not
finite the determinant is minus infinity and the else-branch returns the smaller operand
plus `hDivF`; with both operands equal and not finite the sum is infinite. -/
def TwosidedCalcD (sqrt : ℚ → ℚ) (x y : Dbl) (hDivF : ℚ) : Dbl :=
  match x, y with
  | Dbl.fin a, Dbl.fin b => Dbl.fin (TwosidedCalc sqrt a b hDivF)
  | Dbl.fin a, _ => Dbl.fin (a + hDivF)
  | _, Dbl.fin b => Dbl.fin (b + hDivF)
  | Dbl.dmax, Dbl.inf => Dbl.dmax
  | Dbl.inf, Dbl.dmax => Dbl.dmax
  | _, _ => Dbl.inf

/-- The values of `_gridCode`. -/
inductive CellCode
  | WALL
  | OUTSIDE
  | INSIDE
  | CLOSED_CROSSING
  | CLOSED_TRANSITION
  | DOOR (uid : Int)
deriving DecidableEq

/-- What `CalcFF` and `CalcCost` read of the floor field and its grid. -/
structure FloorField where
  /-- `_grid->GetiMax()`, the number of grid points in a row -/
  iMax : Nat
  /-- `_nPoints` -/
  nPoints : Nat
  /-- `_grid->Gethx()` -/
  hx : ℚ
  /-- `_grid->Gethy()` -/
  hy : ℚ
  /-- `_gridCode` -/
  gridCode : Nat → CellCode
  /-- `magicnum(UNKNOWN_COST)` -/
  unknownCost : ℚ
  /-- `magicnum(UNKNOWN_DISTANCE)` -/
  unknownDistance : ℚ
  /-- the function `sqrt` -/
  sqrt : ℚ → ℚ

/-- Modelled from the spec: `RectGrid::GetNeighbors(key).key[0]` (the file
`mesh/RectGrid.hpp` is not among the sources).  The grid is 4-connected and row-major;
`key[0]` is the right neighbour `key + 1`, as `CalcCost` reads `cost[key + 1]` for it.
`none` stands for the value -2 of a missing neighbour. -/
def nbRight (F : FloorField) (key : Nat) : Option Nat :=
  if key % F.iMax + 1 < F.iMax ∧ key + 1 < F.nPoints then some (key + 1) else none

/-- Modelled from the spec: `RectGrid::GetNeighbors(key).key[1]`, the upper neighbour
`key + iMax`. -/
def nbUp (F : FloorField) (key : Nat) : Option Nat :=
  if key + F.iMax < F.nPoints then some (key + F.iMax) else none

/-- Modelled from the spec: `RectGrid::GetNeighbors(key).key[2]`, the left neighbour
`key - 1`. -/
def nbLeft (F : FloorField) (key : Nat) : Option Nat :=
  if 0 < key % F.iMax then some (key - 1) else none

/-- Modelled from the spec: `RectGrid::GetNeighbors(key).key[3]`, the lower neighbour
`key - iMax`. -/
def nbDown (F : FloorField) (key : Nat) : Option Nat :=
  if F.iMax ≤ key then some (key - F.iMax) else none

/-- The four neighbours `key[0]`, ..., `key[3]` of a grid point. -/
def neighbours (F : FloorField) (key : Nat) : List (Option Nat) :=
  [nbRight F key, nbUp F key, nbLeft F key, nbDown F key]

/-- The test of `CalcCost` that the neighbour `aux` is a grid point holding a calculated
value and no wall; the value it holds, if so. -/
def knownAt (F : FloorField) (cost : Nat → Dbl) (aux : Option Nat) : Option Dbl :=
  match aux with
  | none => none
  | some a =>
    if cost a ≠ Dbl.fin F.unknownCost ∧ cost a ≠ Dbl.fin F.unknownDistance ∧
        F.gridCode a ≠ CellCode.WALL then some (cost a)
    else none

/-- The local `row` (resp. `col`) of `CalcCost` after the two neighbours of one axis have
been inspected: the first neighbour's value (max-double if it is negative), replaced by the
second neighbour's value if that is smaller. -/
def axisMin (F : FloorField) (cost : Nat → Dbl) (first second : Option Nat) : Dbl :=
  let r0 : Dbl :=
    match knownAt F cost first with
    | some c => if Dbl.lt c (Dbl.fin 0) then Dbl.dmax else c
    | none => Dbl.dmax
  match knownAt F cost second with
  | some c => if Dbl.lt c r0 then c else r0
  | none => r0

/-- Write `v` to `cost[key]`. -/
def setCost (cost : Nat → Dbl) (key : Nat) (v : Dbl) : Nat → Dbl :=
  fun k => if k = key then v else cost k

/-- The function `UnivFFviaFM::CalcCost`, as far as the cost array is concerned.  The
writes to the direction array do not touch the costs and are left out; `speed key` is the
speed at the grid point, a finite number other than zero. -/
def CalcCost (F : FloorField) (speed : Nat → ℚ) (key : Nat) (cost : Nat → Dbl) : Nat → Dbl :=
  let row := axisMin F cost (nbRight F key) (nbLeft F key)
  let col := axisMin F cost (nbUp F key) (nbDown F key)
  if col = Dbl.dmax then setCost cost key (OnesidedCalc row (F.hx / speed key))
  else if row = Dbl.dmax then setCost cost key (OnesidedCalc col (F.hy / speed key))
  else
    let precheck := TwosidedCalcD F.sqrt row col (F.hx / speed key)
    if Dbl.lt precheck (Dbl.fin 0) then cost else setCost cost key precheck

/-- One of the four blocks of `CalcFF` that inspect a neighbour `aux`: if it is a grid
point, neither wall nor outside, with negative cost, compute its cost and put it into the
queue `trialfield`. -/
def visit (F : FloorField) (speed : Nat → ℚ) (aux : Option Nat)
    (s : (Nat → Dbl) × List Nat) : (Nat → Dbl) × List Nat :=
  match aux with
  | none => s
  | some a =>
    if F.gridCode a ≠ CellCode.WALL ∧ F.gridCode a ≠ CellCode.OUTSIDE ∧
        Dbl.lt (s.1 a) (Dbl.fin 0) = true then
      (CalcCost F speed a s.1, s.2 ++ [a])
    else s

/-- The four blocks of `CalcFF` for the neighbours of the grid point `key`. -/
def visitAll (F : FloorField) (speed : Nat → ℚ) (key : Nat)
    (s : (Nat → Dbl) × List Nat) : (Nat → Dbl) × List Nat :=
  visit F speed (nbDown F key) (visit F speed (nbLeft F key)
    (visit F speed (nbUp F key) (visit F speed (nbRight F key) s)))

/-- The first loop of `CalcFF`: the neighbours of every grid point with cost `0.0`. -/
def initTrial (F : FloorField) (speed : Nat → ℚ) (cost : Nat → Dbl) :
    (Nat → Dbl) × List Nat :=
  (List.range F.nPoints).foldl
    (fun s i => if s.1 i = Dbl.fin 0 then visitAll F speed i s else s) (cost, [])

/-- The second loop of `CalcFF`: take a grid point out of the queue and inspect its
neighbours, until the queue is empty.  The comparator `CompareCostTrips` is not among the
sources; `top cost queue` is the position in the queue of the element that
`trialfield.top()` returns.  `none` if the fuel runs out. -/
def marchLoop (F : FloorField) (speed : Nat → ℚ) (top : (Nat → Dbl) → List Nat → Nat) :
    Nat → (Nat → Dbl) × List Nat → Option (Nat → Dbl)
  | 0, s => if s.2 = [] then some s.1 else none
  | fuel + 1, s =>
    if s.2 = [] then some s.1
    else
      let idx := top s.1 s.2 % s.2.length
      marchLoop F speed top fuel (visitAll F speed (s.2.getD idx 0) (s.1, s.2.eraseIdx idx))

/-- The function `UnivFFviaFM::CalcFF`, as far as the cost array is concerned. -/
def CalcFF (F : FloorField) (speed : Nat → ℚ) (top : (Nat → Dbl) → List Nat → Nat)
    (fuel : Nat) (cost : Nat → Dbl) : Option (Nat → Dbl) :=
  marchLoop F speed top fuel (initTrial F speed cost)

/-- The grid point `c` can be reached from the grid point `t` by a 4-neighbour path of
grid points that are neither wall nor outside. -/
inductive Reach (F : FloorField) (t : Nat) : Nat → Prop
  | start : F.gridCode t ≠ CellCode.WALL → F.gridCode t ≠ CellCode.OUTSIDE → Reach F t t
  | step (c a : Nat) : Reach F t c → some a ∈ neighbours F c →
      F.gridCode a ≠ CellCode.WALL → F.gridCode a ≠ CellCode.OUTSIDE → Reach F t a

/-- A floor field on a grid of two rows of two grid points with spacing 1/8, without
walls: the grid points 0 and 1 form the lower row, 2 and 3 the upper row. -/
def sampleField : FloorField where
  iMax := 2
  nPoints := 4
  hx := 1 / 8
  hy := 1 / 8
  gridCode := fun _ => CellCode.INSIDE
  unknownCost := -7
  unknownDistance := -8
  sqrt := sqrtQ

/-- A cost array on `sampleField`: the grid point 2 is a target, the grid point 1 holds
the cost 7/40, and the grid points 0 and 3 are unknown. -/
def sampleCost : Nat → Dbl :=
  fun k => if k = 2 then Dbl.fin 0 else if k = 1 then Dbl.fin (7 / 40) else Dbl.fin (-7)

/-- A cost array on `sampleField` as `AddTarget` initialises it: the grid point 2 is the
target and all other grid points are unknown. -/
def sampleInitCost : Nat → Dbl :=
  fun k => if k = 2 then Dbl.fin 0 else Dbl.fin (-7)

/-- The element of the queue with the least cost (the first of them), as a position. -/
def minTop (cost : Nat → Dbl) (queue : List Nat) : Nat :=
  (List.range queue.length).foldl
    (fun best i => if Dbl.lt (cost (queue.getD i 0)) (cost (queue.getD best 0)) then i else best) 0

/-! ## Invariants of `CalcFF` -/

/-- The grid point holds a finite cost that is not negative. -/
def Known (cost : Nat → Dbl) (k : Nat) : Prop := ∃ q, 0 ≤ q ∧ cost k = Dbl.fin q

/-- What `CalcFF` assumes of the grid, the speed field and the constants: a row has at
least one grid point, the spacings and the speed at every grid point are strictly
positive, the two magic numbers for unknown values are negative, and the square root of a
non-negative number is not negative. -/
structure FFAssumptions (F : FloorField) (speed : Nat → ℚ) : Prop where
  iMax_pos : 0 < F.iMax
  hx_pos : 0 < F.hx
  hy_pos : 0 < F.hy
  speed_pos : ∀ k, 0 < speed k
  unknownCost_neg : F.unknownCost < 0
  unknownDistance_neg : F.unknownDistance < 0
  sqrt_nonneg : ∀ d, 0 ≤ d → 0 ≤ F.sqrt d

/-- The shape of the cost array during `CalcFF`: no wall holds the target value 0, and
every other grid point holds the unknown-cost value or a finite cost that is not
negative. -/
structure CostInv (F : FloorField) (cost : Nat → Dbl) : Prop where
  wall : ∀ k, F.gridCode k = CellCode.WALL → cost k ≠ Dbl.fin 0
  free : ∀ k, F.gridCode k ≠ CellCode.WALL → cost k = Dbl.fin F.unknownCost ∨ Known cost k

/-- All neighbours of `c` that are neither wall nor outside hold a known cost. -/
def Done (F : FloorField) (cost : Nat → Dbl) (c : Nat) : Prop :=
  ∀ a, some a ∈ neighbours F c → F.gridCode a ≠ CellCode.WALL →
    F.gridCode a ≠ CellCode.OUTSIDE → Known cost a

/-- The cost array has the shape `CostInv` and every element of the queue is a grid
point, no wall, with a known cost. -/
structure TrialInv (F : FloorField) (s : (Nat → Dbl) × List Nat) : Prop where
  cost : CostInv F s.1
  queue : ∀ k ∈ s.2, k < F.nPoints ∧ F.gridCode k ≠ CellCode.WALL ∧ Known s.1 k

/-- The state `t` extends the state `s`: known costs are unchanged, the queue has only
grown, and every grid point (no wall) whose cost became known is in the queue. -/
def Ext (F : FloorField) (s t : (Nat → Dbl) × List Nat) : Prop :=
  (∀ k, Known s.1 k → t.1 k = s.1 k) ∧ (∀ k ∈ s.2, k ∈ t.2) ∧
    ∀ k, F.gridCode k ≠ CellCode.WALL → Known t.1 k → Known s.1 k ∨ k ∈ t.2

/-- The number of grid points with a negative cost. -/
def negCount (F : FloorField) (cost : Nat → Dbl) : Nat :=
  (List.range F.nPoints).countP (fun k => Dbl.lt (cost k) (Dbl.fin 0))

/-- The termination measure of `CalcFF`. -/
def trialMeasure (F : FloorField) (s : (Nat → Dbl) × List Nat) : Nat :=
  2 * negCount F s.1 + s.2.length

/-- Every grid point (no wall) with a known cost is in the queue, or all its neighbours are
done, or it is a target that the first loop has not reached yet (index at least `i`). -/
def Frontier (F : FloorField) (i : Nat) (s : (Nat → Dbl) × List Nat) : Prop :=
  ∀ k, k < F.nPoints → F.gridCode k ≠ CellCode.WALL → Known s.1 k →
    k ∈ s.2 ∨ Done F s.1 k ∨ (i ≤ k ∧ s.1 k = Dbl.fin 0)

/-! ## `UnivFFviaFM::GetCostToDestination`: snapping to a neighbour -/

/-- The outcome of the snapping step: the key afterwards and the indices at which
`_gridCode` was read, in order. -/
structure Snap where
  key : Int
  reads : List Int
deriving DecidableEq

/-- The grid point is neither outside nor a wall. -/
def isFree (c : CellCode) : Bool := c != CellCode.OUTSIDE && c != CellCode.WALL

/-- The indices at which the snapping step has read `_gridCode` after `stage` of its four
tests: the key itself, and for each test whose bound check held the neighbour it inspects
(`&&` evaluates its right operand only if the left one holds). -/
def snapReads (nPoints iMax key : Int) (stage : Nat) : List Int :=
  [key] ++ (if 1 ≤ stage ∧ key + 1 ≤ nPoints then [key + 1] else []) ++
    (if 2 ≤ stage ∧ key - 1 ≥ 0 then [key - 1] else []) ++
    (if 3 ≤ stage ∧ key ≥ iMax then [key - iMax] else []) ++
    (if 4 ≤ stage ∧ key < nPoints - iMax then [key + iMax] else [])

/-- The snapping step of `UnivFFviaFM::GetCostToDestination(destID, position)` (lines 1368
to 1390).  `gridCode i` is what a read of `_gridCode[i]` yields, also for an index outside
the array. -/
def snapKey (nPoints iMax : Int) (gridCode : Int → CellCode) (key : Int) : Snap :=
  if gridCode key = CellCode.OUTSIDE ∨ gridCode key = CellCode.WALL then
    if key + 1 ≤ nPoints ∧ isFree (gridCode (key + 1)) = true then
      ⟨key + 1, snapReads nPoints iMax key 1⟩
    else if key - 1 ≥ 0 ∧ isFree (gridCode (key - 1)) = true then
      ⟨key - 1, snapReads nPoints iMax key 2⟩
    else if key ≥ iMax ∧ isFree (gridCode (key - iMax)) = true then
      ⟨key - iMax, snapReads nPoints iMax key 3⟩
    else if key < nPoints - iMax ∧ isFree (gridCode (key + iMax)) = true then
      ⟨key + iMax, snapReads nPoints iMax key 4⟩
    else ⟨key, snapReads nPoints iMax key 4⟩
  else ⟨key, snapReads nPoints iMax key 0⟩

/-! ## Points, lines and the inside points of `UnivFFviaFM` -/

/-- The class `Point`. -/
structure Point where
  x : ℚ
  y : ℚ
deriving DecidableEq

/-- `Point::operator+` -/
def Point.add (p q : Point) : Point := ⟨p.x + q.x, p.y + q.y⟩

/-- `Point::operator-` -/
def Point.sub (p q : Point) : Point := ⟨p.x - q.x, p.y - q.y⟩

/-- `operator*(const Point&, double)` -/
def Point.mul (p : Point) (f : ℚ) : Point := ⟨p.x * f, p.y * f⟩

/-- `operator/(const Point&, double)` -/
def Point.div (J_EPS : ℚ) (p : Point) (f : ℚ) : Point :=
  if f > J_EPS * J_EPS then ⟨p.x / f, p.y / f⟩ else ⟨p.x, p.y⟩

/-- `Point::NormSquare` (declared in `Point.hpp`): the sum of the squared coordinates. -/
def Point.NormSquare (p : Point) : ℚ := p.x * p.x + p.y * p.y

/-- `Point::Norm` -/
def Point.Norm (sqrt : ℚ → ℚ) (p : Point) : ℚ := sqrt p.NormSquare

/-- `Point::Normalized` -/
def Point.Normalized (sqrt : ℚ → ℚ) (J_EPS : ℚ) (p : Point) : Point :=
  let norm := p.Norm sqrt
  if norm > J_EPS then Point.div J_EPS ⟨p.x, p.y⟩ norm else ⟨0, 0⟩

/-- The class `Line`, as far as its two end points are concerned. -/
structure Line where
  point1 : Point
  point2 : Point
deriving DecidableEq

/-- `Line::GetCentre`: the member `_centre`, which every constructor and setter sets to
`(_point1 + _point2) * 0.5`. -/
def Line.GetCentre (l : Line) : Point := (l.point1.add l.point2).mul (1 / 2)

/-- `Line::NormalVec` -/
def Line.NormalVec (sqrt : ℚ → ℚ) (J_EPS : ℚ) (l : Line) : Point :=
  let r := l.point2.sub l.point1
  Point.Normalized sqrt J_EPS ⟨-r.y, r.x⟩

/-- What the constructor of `UnivFFviaFM` reads of a subroom to find its inside point. -/
structure SubRoom where
  /-- `GetAllCrossings()`, as lines -/
  crossings : List Line
  /-- `GetAllTransitions()`, as lines -/
  transitions : List Line
  /-- `IsInSubRoom(point)` -/
  isInSubRoom : Point → Bool

/-- The local `door` of the constructor: the first transition if the subroom has one,
else the first crossing, else a null pointer. -/
def chosenDoor (s : SubRoom) : Option Line :=
  match s.transitions.head? with
  | some t => some t
  | none => s.crossings.head?

/-- The local `candidate01`: the centre of the door plus 0.25 times its normal. -/
def candidate01 (sqrt : ℚ → ℚ) (J_EPS : ℚ) (door : Line) : Point :=
  door.GetCentre.add ((door.NormalVec sqrt J_EPS).mul (1 / 4))

/-- The local `candidate02`: the centre of the door minus 0.25 times its normal. -/
def candidate02 (sqrt : ℚ → ℚ) (J_EPS : ℚ) (door : Line) : Point :=
  door.GetCentre.sub ((door.NormalVec sqrt J_EPS).mul (1 / 4))

/-- The inside point that the constructor records for one subroom, or the message of the
`std::logic_error` it throws. -/
def insidePoint (sqrt : ℚ → ℚ) (J_EPS : ℚ) (s : SubRoom) : Except String Point :=
  match chosenDoor s with
  | none => Except.error "No door in room. Can not initialize floor field."
  | some door =>
    if s.isInSubRoom (candidate01 sqrt J_EPS door) then
      Except.ok (candidate01 sqrt J_EPS door)
    else if s.isInSubRoom (candidate02 sqrt J_EPS door) then
      Except.ok (candidate02 sqrt J_EPS door)
    else
      Except.error
        "In UnivFF InsidePoint Analysis. No point inside the room could be found, room may be too tiny."

/-- The loop over the subrooms in the constructor `UnivFFviaFM::UnivFFviaFM(Room*, ...)`,
as far as the member `_subRoomPtrTOinsidePoint` is concerned: the recorded pairs of subroom
and inside point, or the error thrown at the first subroom without inside point. -/
def insidePoints (sqrt : ℚ → ℚ) (J_EPS : ℚ) : List SubRoom → Except String (List (SubRoom × Point))
  | [] => Except.ok []
  | s :: rest =>
    match insidePoint sqrt J_EPS s with
    | Except.error e => Except.error e
    | Except.ok p =>
      match insidePoints sqrt J_EPS rest with
      | Except.error e => Except.error e
      | Except.ok ps => Except.ok ((s, p) :: ps)

/-- The point `p` is the inside point that the rule of the constructor gives the subroom
`s`: the first candidate if it lies in the subroom, else the second candidate, which then
lies in the subroom. -/
def IsSeed (sqrt : ℚ → ℚ) (J_EPS : ℚ) (s : SubRoom) (p : Point) : Prop :=
  ∃ door, chosenDoor s = some door ∧
    ((s.isInSubRoom (candidate01 sqrt J_EPS door) = true ∧ p = candidate01 sqrt J_EPS door) ∨
      (s.isInSubRoom (candidate01 sqrt J_EPS door) = false ∧
        s.isInSubRoom (candidate02 sqrt J_EPS door) = true ∧
        p = candidate02 sqrt J_EPS door))

/-- The subroom has no door, or neither candidate point lies in the subroom. -/
def HasNoSeed (sqrt : ℚ → ℚ) (J_EPS : ℚ) (s : SubRoom) : Prop :=
  chosenDoor s = none ∨
    ∃ door, chosenDoor s = some door ∧
      s.isInSubRoom (candidate01 sqrt J_EPS door) = false ∧
      s.isInSubRoom (candidate02 sqrt J_EPS door) = false

/-! ## PedDistributor::Distribute, the allocation of a room-level start distribution

Embedded from `src/libcore/src/pedestrian/PedDistributor.cpp`, lines 163–241
(the loop body "then continue the distribution according to the rooms"); the
older `src/pedestrian/PedDistributor.cpp` has the same statements.  Doubles
are exact rationals and `int` values are unbounded integers (all of them lie
between 0 and the larger of `N` and the number of free positions). -/

/-- What Distribute reads of one subroom: `GetArea()` and the number of free
positions `allFreePosInRoom[is].size()`. -/
structure SubRoomSlot where
  area : ℚ
  free : Nat

/-- The conversion of a double to `int`: the fractional part is discarded. -/
def truncToInt (q : ℚ) : Int := if 0 ≤ q then ⌊q⌋ else ⌈q⌉

/-- The loop `while(anz > max_anz[is]) anz--`, run for at most `k` rounds. -/
def capLoop : Nat → Int → Int → Int
  | 0, anz, _ => anz
  | k + 1, anz, mx => if anz > mx then capLoop k (anz - 1) mx else anz

/-- The body of the second loop over the subrooms: `anz` for one subroom. -/
def initialCount (ppm : ℚ) (s : SubRoomSlot) : Int :=
  let anz := truncToInt (s.area * ppm + 1 / 2)
  capLoop (anz - (s.free : Int)).toNat anz (s.free : Int)

/-- The loop `while(ges_anz < N)`: one agent more for each subroom in turn
that still has a free position.  `none` means that the fuel ran out. -/
def fillUp : Nat → List Int → List Int → Int → Int → Nat → Option (List Int × Int)
  | 0, _, _, _, _, _ => none
  | fuel + 1, max_anz, akt_anz, ges_anz, N, j =>
    if ges_anz < N then
      if akt_anz.getD j 0 < max_anz.getD j 0 then
        fillUp fuel max_anz (akt_anz.set j (akt_anz.getD j 0 + 1)) (ges_anz + 1) N
          ((j + 1) % max_anz.length)
      else
        fillUp fuel max_anz akt_anz ges_anz N ((j + 1) % max_anz.length)
    else some (akt_anz, ges_anz)

/-- The loop `while(ges_anz > N)`: one agent less for each subroom in turn
that still has one. -/
def drain : Nat → List Int → List Int → Int → Int → Nat → Option (List Int × Int)
  | 0, _, _, _, _, _ => none
  | fuel + 1, max_anz, akt_anz, ges_anz, N, j =>
    if ges_anz > N then
      if akt_anz.getD j 0 > 0 then
        drain fuel max_anz (akt_anz.set j (akt_anz.getD j 0 - 1)) (ges_anz - 1) N
          ((j + 1) % max_anz.length)
      else
        drain fuel max_anz akt_anz ges_anz N ((j + 1) % max_anz.length)
    else some (akt_anz, ges_anz)

/-- The outcome of the allocation block for one room-level distribution. -/
inductive Allocation where
  /-- The distribution is ignored (`N < 0`, "continue"). -/
  | ignored
  /-- Distribute returns false: the room has fewer free positions than `N`. -/
  | impossible
  /-- The vector `akt_anz` handed on to DistributeInSubRoom. -/
  | counts (akt_anz : List Int)
deriving DecidableEq

/-- The allocation block of `PedDistributor::Distribute` for one room-level
distribution of `N` agents over the subrooms `subs`; `none` means that one of
the two rebalancing loops ran out of fuel. -/
def Distribute (fuel : Nat) (subs : List SubRoomSlot) (N : Int) : Option Allocation :=
  if N < 0 then some Allocation.ignored
  else
    let sum_area := (subs.map fun s => s.area).sum
    let max_anz : List Int := subs.map fun s => (s.free : Int)
    let max_pos := max_anz.sum
    if max_pos < N then some Allocation.impossible
    else
      let ppm := (N : ℚ) / sum_area
      let akt_anz := subs.map (initialCount ppm)
      let ges_anz := akt_anz.sum
      match fillUp fuel max_anz akt_anz ges_anz N 0 with
      | none => none
      | some (akt1, ges1) =>
        match drain fuel max_anz akt1 ges1 N 0 with
        | none => none
        | some (akt2, _) => some (Allocation.counts akt2)

/-- A room of three subrooms with areas 10, 10 and 1 and 3, 20 and 0 free
positions. -/
def sampleSlots : List SubRoomSlot := [⟨10, 3⟩, ⟨10, 20⟩, ⟨1, 0⟩]

/-- The invariant of both rebalancing loops: every count lies between 0 and
the number of free positions of its subroom, and `ges_anz` is their sum. -/
def CountsInv (max_anz akt_anz : List Int) (ges_anz : Int) : Prop :=
  akt_anz.length = max_anz.length ∧
  (∀ i, i < max_anz.length → 0 ≤ akt_anz.getD i 0 ∧ akt_anz.getD i 0 ≤ max_anz.getD i 0) ∧
  ges_anz = akt_anz.sum

/-! ## More of `Point` and `Line`, and the walking-direction strategies

`Point.hpp` is not among the sources; `ScalarProduct` and `CrossProduct` are
declared there. -/

/-- `Point::Rotate` -/
def Point.Rotate (p : Point) (ctheta stheta : ℚ) : Point :=
  ⟨p.x * ctheta - p.y * stheta, p.x * stheta + p.y * ctheta⟩

/-- `Point::TransformToEllipseCoordinates` -/
def Point.TransformToEllipseCoordinates (p center : Point) (cphi sphi : ℚ) : Point :=
  (Point.sub ⟨p.x, p.y⟩ center).Rotate cphi (-sphi)

/-- `Point::TransformToCartesianCoordinates` -/
def Point.TransformToCartesianCoordinates (p center : Point) (cphi sphi : ℚ) : Point :=
  (Point.Rotate ⟨p.x, p.y⟩ cphi sphi).add center

/-- `Point::operator==`: equality up to `J_EPS` in both coordinates. -/
def Point.opEq (J_EPS : ℚ) (p q : Point) : Bool :=
  decide (|p.x - q.x| < J_EPS ∧ |p.y - q.y| < J_EPS)

/-- `Point::operator!=` -/
def Point.opNe (J_EPS : ℚ) (p q : Point) : Bool :=
  decide (|p.x - q.x| > J_EPS ∨ |p.y - q.y| > J_EPS)

/-- Modelled from the spec: `Point::ScalarProduct`, the scalar product of two
vectors (the test `PointTest.cpp`, section "Scalar Product", requires
`p1.ScalarProduct(p2)` to be `p1.x * p2.x + p1.y * p2.y`). -/
def Point.ScalarProduct (p v : Point) : ℚ := p.x * v.x + p.y * v.y

/-- Modelled from the spec: `Point::CrossProduct`, the 2D cross product of two
vectors (the same value as `Determinant`, which the test `PointTest.cpp`,
section "Determinant", requires to be `p1.x * p2.y - p1.y * p2.x`). -/
def Point.CrossProduct (p v : Point) : ℚ := p.x * v.y - p.y * v.x

/-- `Line::LotPoint`: the foot of the perpendicular from `p` on the line. -/
def Line.LotPoint (l : Line) (p : Point) : Point :=
  let t := l.point1.sub l.point2
  let tmp := p.sub l.point2
  let lambda := tmp.ScalarProduct t / t.ScalarProduct t
  l.point2.add (t.mul lambda)

/-- `Line::ShortestPoint`: the point of the segment that is nearest to `p`. -/
def Line.ShortestPoint (J_EPS : ℚ) (l : Line) (p : Point) : Point :=
  if Point.opEq J_EPS l.point1 l.point2 then l.point1
  else
    let t := l.point1.sub l.point2
    let lambda := (p.sub l.point2).ScalarProduct t / t.ScalarProduct t
    if lambda < 0 then l.point2
    else if lambda > 1 then l.point1
    else l.point2.add (t.mul lambda)

/-- `Line::IsInLineSegment` -/
def Line.IsInLineSegment (l : Line) (p : Point) : Bool :=
  let differenceTwoAndOne := l.point2.sub l.point1
  let differencePAndOne := p.sub l.point1
  let crossProduct := differenceTwoAndOne.CrossProduct differencePAndOne
  if |crossProduct| > 1 / 10000 then false
  else
    let dotp := differencePAndOne.ScalarProduct differenceTwoAndOne
    if dotp < 0 then false
    else decide (dotp ≤ differenceTwoAndOne.NormSquare)

/-- `Line::DistTo`: the distance of `p` from the segment. -/
def Line.DistTo (sqrt : ℚ → ℚ) (J_EPS : ℚ) (l : Line) (p : Point) : ℚ :=
  (p.sub (l.ShortestPoint J_EPS p)).Norm sqrt

/-- `DirectionMinSeperationShorterLine::GetTarget` for an agent with ellipse
axis `bmin` at position `pos` and exit line `exitLine`. -/
def DirectionMinSeperationShorterLine.GetTarget (sqrt : ℚ → ℚ) (J_EPS : ℚ) (bmin : ℚ)
    (exitLine : Line) (pos : Point) : Point :=
  let d := bmin + 1 / 10
  let p1 := exitLine.point1
  let p2 := exitLine.point2
  if Point.opEq J_EPS p1 p2 then p1
  else
    let length := (p1.sub p2).Norm sqrt
    if d ≥ 1 / 2 * length then (p1.add p2).mul (1 / 2)
    else
      let u := d / length
      let e_neu : Line := ⟨p1.add ((p2.sub p1).mul u), p1.add ((p2.sub p1).mul (1 - u))⟩
      e_neu.ShortestPoint J_EPS pos

/-- `DirectionInRangeBottleneck::GetTarget` -/
def DirectionInRangeBottleneck.GetTarget (sqrt : ℚ → ℚ) (J_EPS : ℚ) (exitLine : Line)
    (pos : Point) : Point :=
  let p1 := exitLine.point1
  let p2 := exitLine.point2
  let ExitLine : Line := ⟨p1, p2⟩
  let Lot := ExitLine.LotPoint pos
  let ExitMiddle := (p1.add p2).mul (1 / 2)
  let d : ℚ := 2 / 10
  let diff := (Point.Normalized sqrt J_EPS (p1.sub p2)).mul d
  let e_neu : Line := ⟨p1.sub diff, p2.add diff⟩
  if e_neu.IsInLineSegment Lot then Lot else ExitMiddle

/-! ## PedDistributor::PossiblePositions

Embedded from `src/libcore/src/pedestrian/PedDistributor.cpp`, lines 368–478
and 508–530.  Walls, transitions and crossings are lines; `IsInSubRoom` and
`Obstacle::Contains` are not among the sources and are parameters. -/

/-- An obstacle: its walls and its test `Contains`. -/
structure Obstacle where
  walls : List Line
  Contains : Point → Bool

/-- What PossiblePositions reads of a subroom. -/
structure SubRoomGeometry where
  /-- `GetPolygon()` -/
  polygon : List Point
  /-- `GetAllWalls()` -/
  walls : List Line
  /-- `GetAllTransitions()` -/
  transitions : List Line
  /-- `GetAllCrossings()` -/
  crossings : List Line
  /-- `GetAllObstacles()` -/
  obstacles : List Obstacle
  /-- `IsInSubRoom(pos)` -/
  IsInSubRoom : Point → Bool

/-- `PedDistributor::GetA_dist`: the largest `GetAminMean()` of the agents
parameters (pairs of `GetAminMean()` and `GetBmaxMean()`), at least 0. -/
def GetA_dist (agentsParameters : List (ℚ × ℚ)) : ℚ :=
  agentsParameters.foldl (fun A_dist AP => if A_dist > AP.1 then A_dist else AP.1) 0

/-- `PedDistributor::GetB_dist`: the largest `GetBmaxMean()`, at least 0. -/
def GetB_dist (agentsParameters : List (ℚ × ℚ)) : ℚ :=
  agentsParameters.foldl (fun B_dist AP => if B_dist > AP.2 then B_dist else AP.2) 0

/-- The value of `*min_element(xs.begin(), xs.end())` for a non-empty vector. -/
def minElement (x0 : ℚ) (xs : List ℚ) : ℚ := xs.foldl (fun m x => if x < m then x else m) x0

/-- The value of `*max_element(xs.begin(), xs.end())` for a non-empty vector. -/
def maxElement (x0 : ℚ) (xs : List ℚ) : ℚ := xs.foldl (fun m x => if m < x then x else m) x0

/-- A loop `for (w : lines) if (w.DistTo(pos) < max_buf) { tooNear = true; break; }`:
the value of `tooNear` after it, when it was false before. -/
def tooNearLines (sqrt : ℚ → ℚ) (J_EPS : ℚ) (lines : List Line) (pos : Point)
    (max_buf : ℚ) : Bool :=
  lines.any fun w => decide (w.DistTo sqrt J_EPS pos < max_buf)

/-- The loop over the obstacles in the grid branch: the value of `tooNear` after
it.  An obstacle with a wall nearer than `max_buf` sets `tooNear` and continues
with the next obstacle; an obstacle that contains `pos` sets it and breaks. -/
def obstacleLoop (sqrt : ℚ → ℚ) (J_EPS : ℚ) (pos : Point) (max_buf : ℚ) :
    List Obstacle → Bool → Bool
  | [], tooNear => tooNear
  | obst :: rest, tooNear =>
    let tooNear1 := if tooNearLines sqrt J_EPS obst.walls pos max_buf then true else tooNear
    if tooNear1 then obstacleLoop sqrt J_EPS pos max_buf rest tooNear1
    else if obst.Contains pos then true
    else obstacleLoop sqrt J_EPS pos max_buf rest tooNear1

/-- The body of the inner grid loop after `pos` has been built: whether `pos`
is pushed to `all_positions`. -/
def positionAccepted (sqrt : ℚ → ℚ) (J_EPS : ℚ) (r : SubRoomGeometry) (max_buf : ℚ)
    (pos : Point) : Bool :=
  if !r.IsInSubRoom pos then false
  else if tooNearLines sqrt J_EPS r.walls pos max_buf then false
  else if tooNearLines sqrt J_EPS r.transitions pos max_buf then false
  else if tooNearLines sqrt J_EPS r.crossings pos max_buf then false
  else !obstacleLoop sqrt J_EPS pos max_buf r.obstacles false

/-- The loop `while(y < *max_y)` of the grid branch; `none` when the fuel runs out. -/
def gridInner (sqrt : ℚ → ℚ) (J_EPS : ℚ) (r : SubRoomGeometry) (max_buf max_size max_y x : ℚ) :
    Nat → ℚ → List Point → Option (List Point)
  | 0, _, _ => none
  | fuel + 1, y, all_positions =>
    if y < max_y then
      let y1 := y + max_size
      let pos : Point := ⟨x, y1⟩
      if positionAccepted sqrt J_EPS r max_buf pos then
        gridInner sqrt J_EPS r max_buf max_size max_y x fuel y1 (all_positions ++ [pos])
      else gridInner sqrt J_EPS r max_buf max_size max_y x fuel y1 all_positions
    else some all_positions

/-- The loop `while(x < *max_x)` of the grid branch. -/
def gridOuter (sqrt : ℚ → ℚ) (J_EPS : ℚ) (r : SubRoomGeometry)
    (max_buf max_size max_x min_y max_y : ℚ) : Nat → ℚ → List Point → Option (List Point)
  | 0, _, _ => none
  | fuel + 1, x, all_positions =>
    if x < max_x then
      match gridInner sqrt J_EPS r max_buf max_size max_y x fuel min_y all_positions with
      | none => none
      | some all_positions1 =>
        gridOuter sqrt J_EPS r max_buf max_size max_x min_y max_y fuel (x + max_size)
          all_positions1
    else some all_positions

/-- `PedDistributor::PossiblePositions`.  The results of `PositionsOnFixY` and
`PositionsOnFixX` are the parameters `onFixY` and `onFixX`; `none` means that
the polygon is empty (the minimum of an empty vector is read) or that the fuel
ran out. -/
def PossiblePositions (sqrt : ℚ → ℚ) (J_EPS : ℚ) (agentsParameters : List (ℚ × ℚ))
    (onFixY onFixX : List Point) (r : SubRoomGeometry) (fuel : Nat) : Option (List Point) :=
  let uni : ℚ := 7 / 10
  let amin := GetA_dist agentsParameters
  let bmax := GetB_dist agentsParameters
  let bufx := GetA_dist agentsParameters
  let bufy := GetB_dist agentsParameters
  let dx := 2 * amin
  let dy := 2 * bmax
  let max_buf := max bufx bufy
  let max_size := max dx dy
  match r.polygon with
  | [] => none
  | p0 :: poly =>
    let min_x := minElement p0.x (poly.map fun p => p.x)
    let max_x := maxElement p0.x (poly.map fun p => p.x)
    let min_y := minElement p0.y (poly.map fun p => p.y)
    let max_y := maxElement p0.y (poly.map fun p => p.y)
    if max_y - min_y < uni then some onFixY
    else if max_x - min_x < uni then some onFixX
    else gridOuter sqrt J_EPS r max_buf max_size max_x min_y max_y fuel min_x []

/-- A square room of side 2 with one square obstacle in its upper right part. -/
def sampleGeometry : SubRoomGeometry where
  polygon := [⟨0, 0⟩, ⟨2, 0⟩, ⟨2, 2⟩, ⟨0, 2⟩]
  walls := [⟨⟨0, 0⟩, ⟨2, 0⟩⟩, ⟨⟨2, 0⟩, ⟨2, 2⟩⟩, ⟨⟨2, 2⟩, ⟨0, 2⟩⟩]
  transitions := [⟨⟨0, 2⟩, ⟨0, 0⟩⟩]
  crossings := []
  obstacles := [⟨[], fun p => decide (1 < p.x ∧ 1 < p.y)⟩]
  IsInSubRoom := fun p => decide (0 ≤ p.x ∧ p.x ≤ 2 ∧ 0 ≤ p.y ∧ p.y ≤ 2)

/-- What the claim says of a returned position: it lies inside the subroom,
outside every obstacle, and at distance at least `max_buf` from every wall,
transition, crossing and obstacle wall. -/
def GoodPosition (sqrt : ℚ → ℚ) (J_EPS : ℚ) (r : SubRoomGeometry) (max_buf : ℚ)
    (p : Point) : Prop :=
  r.IsInSubRoom p = true ∧
  (∀ o ∈ r.obstacles, o.Contains p = false) ∧
  (∀ w ∈ r.walls, max_buf ≤ w.DistTo sqrt J_EPS p) ∧
  (∀ t ∈ r.transitions, max_buf ≤ t.DistTo sqrt J_EPS p) ∧
  (∀ c ∈ r.crossings, max_buf ≤ c.DistTo sqrt J_EPS p) ∧
  (∀ o ∈ r.obstacles, ∀ w ∈ o.walls, max_buf ≤ w.DistTo sqrt J_EPS p)

/-- The points of the grid that starts at `(min_x, min_y)` with spacing `max_size`. -/
def OnGrid (min_x min_y max_size : ℚ) (p : Point) : Prop :=
  ∃ i j : ℕ, p = ⟨min_x + i * max_size, min_y + j * max_size⟩

/-! ## Simulation::Iterate and Simulation::UpdateRoutes

Embedded from `src/libcore/src/Simulation.cpp`, lines 73–148 and 295–327.
`Iterate` is a straight sequence of calls on other objects; the embedding
records which calls are made, in their order. -/

/-- The calls that `Simulation::Iterate` makes. -/
inductive Phase where
  /-- `_building->UpdateGrid()` -/
  | UpdateGrid
  /-- `toxAnalysis->Update(t_in_sec)` -/
  | ToxicityUpdate
  /-- `walkingSpeed->Update(t_in_sec)` -/
  | WalkingSpeedUpdate
  /-- `directionManager->Update(t_in_sec)` -/
  | DirectionManagerUpdate
  /-- `_config->GetModel()->Update(t_in_sec)` -/
  | ModelUpdate
  /-- `_routingEngine->UpdateTime(t_in_sec)` -/
  | RoutingUpdateTime
  /-- `_operationalModel->ComputeNextTimeStep(...)` -/
  | ComputeNextTimeStep
  /-- `_old_em->ProcessEvents(t_in_sec)` -/
  | ProcessEvents
  /-- `GetDirectionStrategy()->Init(_building.get())` -/
  | DirectionStrategyInit
  /-- `ffrouter->ReInit()` and `ffrouter->SetRecalc(t_in_sec)` -/
  | FFRouterReInit
  /-- `_routingEngine->UpdateRouter()` -/
  | UpdateRouter
  /-- `UpdateRoutesAndLocations()` -/
  | UpdateRoutesAndLocations
  /-- `gm.update(t_in_sec)` of the goal manager -/
  | GoalManagerUpdate
  /-- `ped->ConductToxicityAnalysis()` for all pedestrians -/
  | ConductToxicityAnalysis
  /-- `++_frame` and `_clock.Advance()` -/
  | ClockAdvance
deriving DecidableEq

/-- What one call of `Simulation::Iterate` reads from the objects it calls. -/
structure StepInput where
  /-- `_clock.ElapsedTime()` -/
  t_in_sec : ℚ
  /-- `Pedestrian::GetMinPremovementTime()` -/
  minPremovementTime : ℚ
  /-- `_config->GetToxicityAnalysis()` is not null -/
  toxAnalysis : Bool
  /-- `_config->GetWalkingSpeed()` is not null -/
  walkingSpeed : Bool
  /-- `_config->GetDirectionManager()` is not null -/
  directionManager : Bool
  /-- the value that `ProcessEvents` returns: an event was processed -/
  eventProcessed : Bool
  /-- `_routingEngine->NeedsUpdate()` when Iterate is entered -/
  needsUpdate : Bool
  /-- the quickest router exists and `ffrouter->MustReInit()` -/
  mustReInit : Bool
  /-- `fmod(_clock.ElapsedTime(), 3) == 0` -/
  toxicityDue : Bool

/-- Modelled from the spec: the flag of the routing engine after
`setNeedUpdate(eventProcessed || NeedsUpdate())`, as `NeedsUpdate()` returns it
(the class RoutingEngine is not among the sources). -/
def needUpdateAfterEvents (inp : StepInput) : Bool := inp.eventProcessed || inp.needsUpdate

/-- The calls of the block `if(t_in_sec > Pedestrian::GetMinPremovementTime())`. -/
def movementBlock (inp : StepInput) : List Phase :=
  [Phase.ComputeNextTimeStep, Phase.ProcessEvents] ++
  (if inp.eventProcessed then [Phase.DirectionStrategyInit]
   else if inp.mustReInit then [Phase.FFRouterReInit] else []) ++
  (if needUpdateAfterEvents inp then [Phase.UpdateRouter] else []) ++
  [Phase.UpdateRoutesAndLocations, Phase.GoalManagerUpdate]

/-- `Simulation::Iterate`: the calls of one step, in their order. -/
def Iterate (inp : StepInput) : List Phase :=
  [Phase.UpdateGrid] ++
  (if inp.toxAnalysis then [Phase.ToxicityUpdate] else []) ++
  (if inp.walkingSpeed then [Phase.WalkingSpeedUpdate] else []) ++
  (if inp.directionManager then [Phase.DirectionManagerUpdate] else []) ++
  [Phase.ModelUpdate, Phase.RoutingUpdateTime] ++
  (if inp.t_in_sec > inp.minPremovementTime then movementBlock inp else []) ++
  (if inp.toxicityDue then [Phase.ConductToxicityAnalysis] else []) ++
  [Phase.ClockAdvance]

/-- The call `a` is made before the call `b` in the sequence `l`. -/
def Before (a b : Phase) (l : List Phase) : Prop :=
  ∃ i, i < l.length ∧ ∃ j, j < l.length ∧ i < j ∧ l[i]? = some a ∧ l[j]? = some b

instance (a b : Phase) (l : List Phase) : Decidable (Before a b l) := by
  unfold Before; infer_instance

/-- A step after the premovement time in which an event is processed. -/
def sampleStep : StepInput where
  t_in_sec := 5
  minPremovementTime := 0
  toxAnalysis := false
  walkingSpeed := false
  directionManager := true
  eventProcessed := true
  needsUpdate := false
  mustReInit := false
  toxicityDue := false

/-- A step before the premovement time of every agent has passed. -/
def earlyStep : StepInput where
  t_in_sec := 0
  minPremovementTime := 1
  toxAnalysis := false
  walkingSpeed := false
  directionManager := true
  eventProcessed := true
  needsUpdate := true
  mustReInit := false
  toxicityDue := false

/-- Modelled from the spec: the door states OPEN, CLOSED and TEMP_CLOSED. -/
inductive DoorState where
  | OPEN
  | CLOSE
  | TEMP_CLOSE
deriving DecidableEq

/-- What `UpdateRoutes` reads of the line that `GetTransOrCrossByUID(target)`
returns. -/
structure RouteDoor where
  /-- the cast to `Crossing` succeeds: the line is a crossing or a transition -/
  isCrossing : Bool
  /-- `IsInRoom(roomID)` -/
  IsInRoom : Int → Bool
  /-- `IsInSubRoom(subRoomID)` -/
  IsInSubRoom : Int → Bool
  /-- the door state -/
  state : DoorState

/-- Modelled from the spec: `Crossing::IsOpen`, the door state is OPEN. -/
def RouteDoor.IsOpen (d : RouteDoor) : Bool := decide (d.state = DoorState.OPEN)

/-- Modelled from the spec: `Crossing::IsTempClose`, the door state is TEMP_CLOSED. -/
def RouteDoor.IsTempClose (d : RouteDoor) : Bool := decide (d.state = DoorState.TEMP_CLOSE)

/-- What `UpdateRoutes` reads and writes of one agent. -/
structure RoutedPed where
  /-- the waiting flag, `IsWaiting()` -/
  waiting : Bool
  /-- the value of `FindRoute()` -/
  target : Int
  /-- `GetRoomID()` -/
  roomID : Int
  /-- `GetSubRoomID()` -/
  subRoomID : Int
  /-- `IsInsideWaitingAreaWaiting(t)`, given the waiting flag at the time of the call -/
  IsInsideWaitingAreaWaiting : Bool → Bool

/-- Modelled from the spec: `Pedestrian::StartWaiting` sets the waiting flag. -/
def RoutedPed.StartWaiting (p : RoutedPed) : RoutedPed := { p with waiting := true }

/-- Modelled from the spec: `Pedestrian::EndWaiting` clears the waiting flag. -/
def RoutedPed.EndWaiting (p : RoutedPed) : RoutedPed := { p with waiting := false }

/-- Modelled from the spec: the constant `FINAL_DEST_OUT`. -/
def FINAL_DEST_OUT : Int := -1

/-- The body of the loop of `Simulation::UpdateRoutes` for one agent;
`GetTransOrCrossByUID` maps a UID to a line or to null. -/
def updateRoutesBody (GetTransOrCrossByUID : Int → Option RouteDoor) (ped : RoutedPed) :
    RoutedPed :=
  let target := ped.target
  let ped1 :=
    if target = FINAL_DEST_OUT then ped.StartWaiting
    else if ped.waiting && !ped.IsInsideWaitingAreaWaiting ped.waiting then ped.EndWaiting
    else ped
  if target ≠ FINAL_DEST_OUT then
    match GetTransOrCrossByUID target with
    | none => ped1
    | some cross =>
      if cross.isCrossing then
        if cross.IsInRoom ped1.roomID && cross.IsInSubRoom ped1.subRoomID then
          let ped2 :=
            if !ped1.waiting && cross.IsTempClose then ped1.StartWaiting else ped1
          if ped2.waiting && cross.IsOpen && !ped2.IsInsideWaitingAreaWaiting ped2.waiting then
            ped2.EndWaiting
          else ped2
        else ped1
      else ped1
  else ped1

/-- `Simulation::UpdateRoutes`: the loop over all pedestrians. -/
def UpdateRoutes (GetTransOrCrossByUID : Int → Option RouteDoor) (peds : List RoutedPed) :
    List RoutedPed :=
  peds.map (updateRoutesBody GetTransOrCrossByUID)

/-- A door of room 0, subroom 0 that is temporarily closed. -/
def sampleRouteDoor : RouteDoor where
  isCrossing := true
  IsInRoom := fun r => decide (r = 0)
  IsInSubRoom := fun s => decide (s = 0)
  state := DoorState.TEMP_CLOSE

/-- An agent of room 0, subroom 0 that is not waiting and is routed to door 7. -/
def sampleRoutedPed : RoutedPed where
  waiting := false
  target := 7
  roomID := 0
  subRoomID := 0
  IsInsideWaitingAreaWaiting := fun _ => false

/-! ## More of `Line`: intersection with a circle, equality, UIDs, overlap, sides

Embedded from `src/libcore/src/geometry/Line.cpp`. -/

/-- `Line::IntersectionWithCircle` -/
def Line.IntersectionWithCircle (sqrt : ℚ → ℚ) (J_EPS : ℚ) (l : Line) (centre : Point)
    (radius : ℚ) : Bool :=
  let p1 := l.point1.sub centre
  let p2 := l.point2.sub centre
  let dr2 := (p2.sub p1).ScalarProduct (p2.sub p1)
  let D2 := p1.CrossProduct p2 * p1.CrossProduct p2
  let r2 := radius * radius
  let delta := r2 * dr2 - D2
  if delta ≤ 0 then false
  else
    let a := dr2
    let b := 2 * 2 * (p2.sub p1).ScalarProduct p1
    let c := p1.ScalarProduct p1 - radius * radius
    let delta := b * b - 4 * a * c
    if Point.opEq J_EPS p1 p2 then false
    else if delta < 0 then false
    else
      let t1 := (-b + sqrt delta) / (2 * a)
      let t2 := (-b - sqrt delta) / (2 * a)
      if t1 < 0 ∨ t1 > 1 then false
      else !(decide (t2 < 0 ∨ t2 > 1))

/-- `Line::IntersectionPointsWithCircle`: the points of the segment on the
circle; here `b = 2 (p2 . (p1 - p2))` and each root is tested on its own. -/
def Line.IntersectionPointsWithCircle (sqrt : ℚ → ℚ) (J_EPS : ℚ) (l : Line) (centre : Point)
    (radius : ℚ) : List Point :=
  let p1 := l.point1.sub centre
  let p2 := l.point2.sub centre
  let a := (p1.x - p2.x) ^ 2 + (p1.y - p2.y) ^ 2
  let b := 2 * (p2.x * (p1.x - p2.x) + p2.y * (p1.y - p2.y))
  let c := p2.x ^ 2 + p2.y ^ 2 - radius ^ 2
  let discriminant := b ^ 2 - 4 * a * c
  if discriminant < 0 then []
  else if |discriminant| < J_EPS then
    let t := -b / (2 * a)
    [Point.add ⟨t * p1.x + (1 - t) * p2.x, t * p1.y + (1 - t) * p2.y⟩ centre]
  else
    let t1 := (-b + sqrt (b ^ 2 - 4 * a * c)) / (2 * a)
    let t2 := (-b - sqrt (b ^ 2 - 4 * a * c)) / (2 * a)
    (if t1 ≥ 0 ∧ t1 ≤ 1 then
      [Point.add ⟨t1 * p1.x + (1 - t1) * p2.x, t1 * p1.y + (1 - t1) * p2.y⟩ centre] else []) ++
    (if t2 ≥ 0 ∧ t2 ≤ 1 then
      [Point.add ⟨t2 * p1.x + (1 - t2) * p2.x, t2 * p1.y + (1 - t2) * p2.y⟩ centre] else [])

/-- `Line::operator==` -/
def Line.opEq (J_EPS : ℚ) (this l : Line) : Bool :=
  (Point.opEq J_EPS this.point1 l.point1 && Point.opEq J_EPS this.point2 l.point2) ||
  (Point.opEq J_EPS this.point2 l.point1 && Point.opEq J_EPS this.point1 l.point2)

/-- `Line::operator!=` -/
def Line.opNe (J_EPS : ℚ) (this l : Line) : Bool := !(Line.opEq J_EPS this l)

/-- `Line::HasEndPoint` -/
def Line.HasEndPoint (J_EPS : ℚ) (l : Line) (point : Point) : Bool :=
  if Point.opEq J_EPS l.point1 point then true else Point.opEq J_EPS l.point2 point

/-- Modelled from the spec: `Point::Determinant` (the test `PointTest.cpp`,
section "Determinant", requires `p1.Determinant(p2)` to be
`p1.x * p2.y - p1.y * p2.x`). -/
def Point.Determinant (p v : Point) : ℚ := p.x * v.y - p.y * v.x

/-- `Line::Overlapp` -/
def Line.Overlapp (J_EPS : ℚ) (this l : Line) : Bool :=
  let vecAB := l.point2.sub l.point1
  let vecDC := this.point1.sub this.point2
  if |vecAB.Determinant vecDC| < J_EPS then
    if this.IsInLineSegment l.point1 && !this.HasEndPoint J_EPS l.point1 then true
    else if this.IsInLineSegment l.point2 && !this.HasEndPoint J_EPS l.point2 then true
    else false
  else false

/-- `Line::IsLeft` -/
def Line.IsLeft (l : Line) (pt : Point) : Bool :=
  let test := (l.point2.x - l.point1.x) * (pt.y - l.point1.y) -
    (l.point2.y - l.point1.y) * (pt.x - l.point1.x)
  decide (test > 0)

/-- `Line::WichSide` -/
def Line.WichSide (l : Line) (pt : Point) : Int :=
  if l.IsLeft pt then 0 else 1

/-- The class `Line` with all its members.  The member `_uid` is `none` as long
as no value has been assigned to it (the three-argument constructor with
`count == 0` leaves it uninitialised). -/
structure LineObj where
  point1 : Point
  point2 : Point
  centre : Point
  length : ℚ
  uid : Option Int

/-- The end points of a line object. -/
def LineObj.toLine (l : LineObj) : Line := ⟨l.point1, l.point2⟩

/-- `Line::operator==` on line objects: only the end points are read. -/
def LineObj.opEq (J_EPS : ℚ) (this l : LineObj) : Bool :=
  (Point.opEq J_EPS this.point1 l.point1 && Point.opEq J_EPS this.point2 l.point2) ||
  (Point.opEq J_EPS this.point2 l.point1 && Point.opEq J_EPS this.point1 l.point2)

/-- `Line::operator!=` on line objects. -/
def LineObj.opNe (J_EPS : ℚ) (this l : LineObj) : Bool := !(LineObj.opEq J_EPS this l)

/-- The value that a 32-bit `int` holds after an operation whose exact result is `x`:
the two's complement wrap-around into the range from `-2^31` to `2^31 - 1`.  (C++ leaves
the overflow of a signed `int` undefined; the wrap-around is what the compiled program
does.) -/
def wrapInt32 (x : Int) : Int := (x + 2147483648) % 4294967296 - 2147483648

/-- The static counter `Line::_static_UID`, a 32-bit `int`, and the line objects created
so far, in the order of their creation. -/
structure LineWorld where
  static_UID : Int
  lines : List LineObj

/-- The state at program start: `int Line::_static_UID = 0`, no line object. -/
def LineWorld.init : LineWorld := ⟨0, []⟩

/-- The operations on lines of `Line.cpp` that create a line object or write to
its members. -/
inductive LineOp where
  /-- `Line::Line()` -/
  | default
  /-- `Line::Line(const Point& p1, const Point& p2)` -/
  | twoPoint (p1 p2 : Point)
  /-- `Line::Line(const Point& p1, const Point& p2, int count)` -/
  | threeArg (p1 p2 : Point) (count : Int)
  /-- The implicit copy constructor applied to the `i`-th line object: every
  member is copied. -/
  | copy (i : Nat)
  /-- `SetPoint1(p)` on the `i`-th line object -/
  | setPoint1 (i : Nat) (p : Point)
  /-- `SetPoint2(p)` on the `i`-th line object -/
  | setPoint2 (i : Nat) (p : Point)

/-- `Line::SetPoint1` -/
def LineObj.SetPoint1 (sqrt : ℚ → ℚ) (l : LineObj) (p : Point) : LineObj :=
  { point1 := p
    point2 := l.point2
    centre := (p.add l.point2).mul (1 / 2)
    length := (p.sub l.point2).Norm sqrt
    uid := l.uid }

/-- `Line::SetPoint2` -/
def LineObj.SetPoint2 (sqrt : ℚ → ℚ) (l : LineObj) (p : Point) : LineObj :=
  { point1 := l.point1
    point2 := p
    centre := (l.point1.add p).mul (1 / 2)
    length := (l.point1.sub p).Norm sqrt
    uid := l.uid }

/-- The members that the constructors set from two points, with the given UID. -/
def LineObj.make (sqrt : ℚ → ℚ) (p1 p2 : Point) (uid : Option Int) : LineObj :=
  { point1 := p1
    point2 := p2
    centre := (p1.add p2).mul (1 / 2)
    length := (p1.sub p2).Norm sqrt
    uid := uid }

/-- One operation on the lines of the program.  The statement `_uid = _static_UID++`
stores the value of the counter and then increments the counter as an `int`. -/
def LineWorld.step (sqrt : ℚ → ℚ) (w : LineWorld) : LineOp → LineWorld
  | LineOp.default =>
    ⟨wrapInt32 (w.static_UID + 1),
      w.lines ++ [LineObj.make sqrt ⟨0, 0⟩ ⟨0, 0⟩ (some w.static_UID)]⟩
  | LineOp.twoPoint p1 p2 =>
    ⟨wrapInt32 (w.static_UID + 1), w.lines ++ [LineObj.make sqrt p1 p2 (some w.static_UID)]⟩
  | LineOp.threeArg p1 p2 count =>
    if count ≠ 0 then
      ⟨wrapInt32 (w.static_UID + 1),
        w.lines ++ [LineObj.make sqrt p1 p2 (some w.static_UID)]⟩
    else ⟨w.static_UID, w.lines ++ [LineObj.make sqrt p1 p2 none]⟩
  | LineOp.copy i =>
    match w.lines[i]? with
    | some l => ⟨w.static_UID, w.lines ++ [l]⟩
    | none => w
  | LineOp.setPoint1 i p =>
    match w.lines[i]? with
    | some l => ⟨w.static_UID, w.lines.set i (l.SetPoint1 sqrt p)⟩
    | none => w
  | LineOp.setPoint2 i p =>
    match w.lines[i]? with
    | some l => ⟨w.static_UID, w.lines.set i (l.SetPoint2 sqrt p)⟩
    | none => w

/-- A run of operations, from the state at program start. -/
def LineWorld.run (sqrt : ℚ → ℚ) (ops : List LineOp) : LineWorld :=
  ops.foldl (LineWorld.step sqrt) LineWorld.init

/-- The operation takes a UID from the counter: the default constructor, the two-point
constructor, and the three-argument constructor with `count != 0`. -/
def LineOp.counts : LineOp → Bool
  | LineOp.default => true
  | LineOp.twoPoint _ _ => true
  | LineOp.threeArg _ _ count => decide (count ≠ 0)
  | _ => false

/-- The number of lines of a run that took a UID from the counter. -/
def countedLines (ops : List LineOp) : Nat := ops.countP LineOp.counts

/-- The invariant of the line objects: every assigned UID is a value that the
counter has already passed, and centre and length belong to the end points. -/
def LineWorld.Inv (sqrt : ℚ → ℚ) (w : LineWorld) : Prop :=
  ∀ l ∈ w.lines,
    (∀ u, l.uid = some u → u < w.static_UID) ∧
    l.centre = (l.point1.add l.point2).mul (1 / 2) ∧
    l.length = (l.point1.sub l.point2).Norm sqrt

/-! ## GeoFileParser: waiting areas and the reference points of stairs

Embedded from `src/libcore/src/IO/GeoFileParser.cpp`, lines 740–842 and
134–186.  The conversions `xmltoi` and `xmltof` are not among the sources and
are parameters; an attribute is `none` when `Attribute(name)` returns null. -/

/-- The members of a `WaitingArea` that `parseWaitingAreaNode` sets from the
optional attributes. -/
structure WaitingArea where
  minNumPed : Int
  maxNumPed : Int
  waitingTime : ℚ
  transitionID : Int
  isOpen : Bool
  globalTimer : Bool
deriving DecidableEq

/-- The optional attributes of a `waiting_area` element. -/
structure WaitingAreaNode where
  min_peds : Option String
  max_peds : Option String
  waiting_time : Option String
  transition_id : Option String
  is_open : Option String
  global_timer : Option String

/-- The block that reads one integer attribute: the value is stored if it
passes the test `ok` and the attribute is the decimal form of the value. -/
def readIntAttribute (xmltoi : String → Int → Int) (attr? : Option String)
    (ok : Int → Bool) (set : Int → WaitingArea → WaitingArea) (wa : WaitingArea) :
    WaitingArea :=
  match attr? with
  | some attr =>
    let value := xmltoi attr (-1)
    if ok value ∧ attr = toString value then set value wa else wa
  | none => wa

/-- The lower-case form of an attribute, `std::transform(..., ::tolower)`. -/
def lowerCase (s : String) : String := String.mk (s.data.map Char.toLower)

/-- Lines 740 to 817 of `parseWaitingAreaNode`: the waiting area after the
attributes `min_peds`, `max_peds`, `waiting_time`, `transition_id`, `is_open`
and `global_timer` have been read. -/
def readPolicies (xmltoi : String → Int → Int) (e : WaitingAreaNode) (wa : WaitingArea) :
    WaitingArea :=
  let wa := readIntAttribute xmltoi e.min_peds (fun v => decide (v > 0))
    (fun v w => { w with minNumPed := v }) wa
  let wa := readIntAttribute xmltoi e.max_peds (fun v => decide (v > 0))
    (fun v w => { w with maxNumPed := v }) wa
  let wa := readIntAttribute xmltoi e.waiting_time (fun v => decide (v ≥ 0))
    (fun v w => { w with waitingTime := (v : ℚ) }) wa
  let wa := readIntAttribute xmltoi e.transition_id (fun v => decide (v > -1))
    (fun v w => { w with transitionID := v }) wa
  let wa :=
    match e.is_open with
    | some attr =>
      if lowerCase attr = "false" then { wa with isOpen := false }
      else if lowerCase attr = "true" then { wa with isOpen := true }
      else { wa with isOpen := true }
    | none => wa
  match e.global_timer with
  | some attr =>
    if lowerCase attr = "false" then { wa with globalTimer := false }
    else if lowerCase attr = "true" then { wa with globalTimer := true }
    else { wa with globalTimer := false }
  | none => wa

/-- The local `usesMinPedWaitingTime` of `parseWaitingAreaNode`. -/
def usesMinPedWaitingTime (wa : WaitingArea) : Bool :=
  decide (wa.minNumPed > 0) && decide (wa.maxNumPed > 0) && decide (wa.waitingTime ≥ 0)

/-- The local `usesTransition`. -/
def usesTransition (wa : WaitingArea) : Bool := decide (wa.transitionID > 0)

/-- The local `usesGlobalTimer`. -/
def usesGlobalTimer (wa : WaitingArea) : Bool :=
  wa.globalTimer && decide (wa.waitingTime ≥ 0)

/-- `GeoFileParser::parseWaitingAreaNode` from line 740 on, for the waiting
area `wa` built from the required attributes: `none` is the null pointer.  The
part after the test of the policies (the elements `next_wa` and `polygon`) is
the parameter `rest`. -/
def parseWaitingAreaNode (xmltoi : String → Int → Int) (e : WaitingAreaNode)
    (wa : WaitingArea) (rest : WaitingArea → Option WaitingArea) : Option WaitingArea :=
  let wa := readPolicies xmltoi e wa
  if !usesMinPedWaitingTime wa && !usesTransition wa && !usesGlobalTimer wa then none
  else rest wa

/-- The number of triggering policies that are configured. -/
def policyCount (wa : WaitingArea) : Nat :=
  (if usesMinPedWaitingTime wa then 1 else 0) + (if usesTransition wa then 1 else 0) +
    (if usesGlobalTimer wa then 1 else 0)

/-- A conversion of a string of decimal digits to an integer, with the default
for every other string. -/
def sampleXmltoi (s : String) (d : Int) : Int :=
  match s.data with
  | [] => d
  | cs =>
    if cs.all Char.isDigit then Int.ofNat (cs.foldl (fun n c => 10 * n + (c.toNat - 48)) 0)
    else d

/-- A freshly built waiting area with no policy set. -/
def sampleWaitingArea : WaitingArea := ⟨-1, -1, -1, -1, true, false⟩

/-- A `waiting_area` element with `min_peds`, `max_peds`, `waiting_time` and
`transition_id`. -/
def twoPolicyNode : WaitingAreaNode := ⟨some "3", some "5", some "10", some "7", none, none⟩

/-- An element of the geometry file, as far as its attributes are read. -/
structure XmlElement where
  /-- `Attribute(name)` -/
  Attribute : String → Option String

/-- A `subroom` element, as far as the choice of the subroom class reads it. -/
structure XmlSubRoom where
  /-- the attribute `class` -/
  type : String
  /-- `Attribute("speed")` -/
  speed : Option String
  /-- `FirstChildElement("up")` -/
  up : Option XmlElement
  /-- `FirstChildElement("down")` -/
  down : Option XmlElement

/-- The subroom object that `LoadGeometry` creates for a `subroom` element. -/
inductive LoadedSubRoom where
  /-- `new Stair()` with `SetUp` and `SetDown` -/
  | Stair (up down : Point)
  /-- `new Escalator()` with `SetUp`, `SetDown`, the direction and the speed -/
  | Escalator (up down : Point) (isUp : Bool) (speed : ℚ)
  /-- `new NormalSubRoom()` -/
  | NormalSubRoom
deriving DecidableEq

/-- How the block that creates the subroom ends. -/
inductive LoadOutcome where
  /-- `return false` -/
  | failed
  /-- a member of a null pointer is read -/
  | nullPointer
  /-- the subroom is created -/
  | created (s : LoadedSubRoom)
deriving DecidableEq

/-- The block of `GeoFileParser::LoadGeometry` that creates the subroom object
of a `subroom` element (lines 134 to 186). -/
def loadSubRoom (xmltof : Option String → ℚ → ℚ) (x : XmlSubRoom) : LoadOutcome :=
  if x.type = "stair" ∨ x.type = "escalator" ∨ x.type = "idle_escalator" then
    match x.up with
    | none => LoadOutcome.failed
    | some up =>
      let up_x := xmltof (up.Attribute "px") 0
      let up_y := xmltof (up.Attribute "py") 0
      match x.down with
      | none => LoadOutcome.nullPointer
      | some down =>
        let down_x := xmltof (down.Attribute "py") 0
        let down_y := xmltof (down.Attribute "py") 0
        LoadOutcome.created (LoadedSubRoom.Stair ⟨up_x, up_y⟩ ⟨down_x, down_y⟩)
  else if x.type = "escalator_up" then
    match x.up, x.down with
    | some up, some down =>
      let speed_up := xmltof x.speed 0
      let up_x := xmltof (up.Attribute "px") 0
      let up_y := xmltof (up.Attribute "py") 0
      let down_x := xmltof (down.Attribute "py") 0
      let down_y := xmltof (down.Attribute "py") 0
      LoadOutcome.created (LoadedSubRoom.Escalator ⟨up_x, up_y⟩ ⟨down_x, down_y⟩ true speed_up)
    | _, _ => LoadOutcome.failed
  else if x.type = "escalator_down" then
    match x.up, x.down with
    | some up, some down =>
      let speed_down := xmltof x.speed 0
      let up_x := xmltof (up.Attribute "px") 0
      let up_y := xmltof (up.Attribute "py") 0
      let down_x := xmltof (down.Attribute "py") 0
      let down_y := xmltof (down.Attribute "py") 0
      LoadOutcome.created
        (LoadedSubRoom.Escalator ⟨up_x, up_y⟩ ⟨down_x, down_y⟩ false speed_down)
    | _, _ => LoadOutcome.failed
  else LoadOutcome.created LoadedSubRoom.NormalSubRoom

/-- A conversion of an attribute to a number: decimal digits, or the default. -/
def sampleXmltof (a : Option String) (d : ℚ) : ℚ :=
  match a with
  | some s => if s.data.all Char.isDigit ∧ s.data ≠ [] then (sampleXmltoi s 0 : ℚ) else d
  | none => d

/-- An element with the attributes `px` and `py`. -/
def pointElement (px py : String) : XmlElement :=
  ⟨fun name => if name = "px" then some px else if name = "py" then some py else none⟩

/-- A stair whose `up` element is `px="1" py="2"` and whose `down` element is
`px="3" py="4"`. -/
def sampleStair (type : String) : XmlSubRoom :=
  ⟨type, some "1", some (pointElement "1" "2"), some (pointElement "3" "4")⟩

/-- The known neighbour costs on one axis of a grid point: the values of the two
neighbours of that axis that pass the test of `CalcCost`. -/
def axisKnown (F : FloorField) (cost : Nat → Dbl) (first second : Option Nat) : List Dbl :=
  (knownAt F cost first).toList ++ (knownAt F cost second).toList

/-- The door `w` is the first transition in the door sequence `p`: all doors
before it are doors of the router that are no transitions. -/
def FirstTransition (r : Router) (p : List Int) (w : Int) : Prop :=
  ∃ pre post, p = pre ++ w :: post ∧
    (∀ x ∈ pre, ∃ d, r.doorByUID x = some d ∧ d.isTransition = false) ∧
    ∃ d, r.doorByUID w = some d ∧ d.isTransition = true

/-- A building of two rooms: room 0 with the crossing 1 between its subrooms 10
and 11 and the exit 2 (a transition) of subroom 11, at distance 3 from each
other; and room 1 with the closed crossing 3 between its subrooms 20 and 21. -/
def exitBuilding : Building where
  transitions :=
    [ { uid := 2, isTransition := true, room1 := some 0, room2 := none,
        subRoom1 := some 11, subRoom2 := none, isClose := false } ]
  crossings :=
    [ { uid := 1, isTransition := false, room1 := some 0, room2 := none,
        subRoom1 := some 10, subRoom2 := some 11, isClose := false },
      { uid := 3, isTransition := false, room1 := some 1, room2 := none,
        subRoom1 := some 20, subRoom2 := some 21, isClose := true } ]
  escalators := []
  hasDirectionalEscalators := false
  doorDistance := fun _ u v => if u = 1 ∧ v = 2 then Dbl.fin 3 else Dbl.inf
  hx := 1 / 8

/-- An agent in subroom 10 of room 0 of `exitBuilding` with no final goal: the
terminal door is the exit 2, the doors of the room are 2 and 1, and the agent
is at distance 1 from door 1 and 9 from door 2. -/
def exitQuery : ExitQuery where
  waitingArea := none
  pedRoom := 0
  pedSubRoom := 10
  validFinalDoor := [2]
  doorUIDsOfRoom := [2, 1]
  locDist := fun d => if d = 1 then Dbl.fin 1 else Dbl.fin 9
  subroomDoors := [1]

/-- An agent in subroom 10 of room 0 of `exitBuilding` heading for a waiting
area of room 1, whose only door is the closed crossing 3 (the centre crossing
of the waiting area has UID 9).  The agent is at distance 1 from door 1, and
the floor field holds the value -7 of an unreachable point for door 2. -/
def closedGoalQuery : ExitQuery where
  waitingArea := some (1, 20, 9)
  pedRoom := 0
  pedSubRoom := 10
  validFinalDoor := [3]
  doorUIDsOfRoom := [2, 1]
  locDist := fun d => if d = 1 then Dbl.fin 1 else Dbl.fin (-7)
  subroomDoors := [1]

/-- The router that `CalculateFloorFields` builds for `exitBuilding` in room
scope. -/
def exitRouter : Router :=
  ⟨false, allDoorUIDs exitBuilding, doorByUID exitBuilding, routerMatrices exitBuilding⟩

/-! ## `UnivFFviaFM::CreateReduWallSpeed` -/

/-- The function `UnivFFviaFM::CreateReduWallSpeed`.  `wallDstAlias` is the distance-to-wall
field `_costFieldWithKey[0]`; `reduWallSpeed` is the array handed in, which `Create`
allocates with `new double[_nPoints]` and does not fill.  The result is the array after
the loop. -/
def CreateReduWallSpeed (nPoints : Nat) (wallAvoidDistance : ℚ) (wallDstAlias : Nat → ℚ)
    (reduWallSpeed : Nat → ℚ) : Nat → ℚ :=
  let factor := 1 / wallAvoidDistance
  (List.range nPoints).foldl
    (fun arr i =>
      if wallDstAlias i > 0 then
        Function.update arr i
          (if wallDstAlias i > wallAvoidDistance then 1 else factor * wallDstAlias i)
      else arr)
    reduWallSpeed

/-- The double loop of `CalculateFloorFields` over `roomAndCroTrVector` measures the pair of
doors `u`, `v` in the floor field of room `r`: both doors are listed for the room, `u` has
the smaller UID, and the two doors have a subroom in common. -/
def MeasuredIn (b : Building) (r u v : Int) : Prop :=
  (r, u) ∈ roomAndCroTrVector b ∧ (r, v) ∈ roomAndCroTrVector b ∧ u < v ∧
    ∃ a c, doorByUID b u = some a ∧ doorByUID b v = some c ∧ shareSubRoom a c = true

/-! ## `GlobalRouter::FloydWarshall` -/

/-- The constant `FLT_MAX` of `<cfloat>`, which `GlobalRouter::init` stores for a missing
edge. -/
def FLT_MAX : ℚ := 340282346638528859811704183484516925440

/-- The members `_distMatrix` and `_pathsMatrix` of `GlobalRouter`, two square arrays. -/
structure GlobalMatrices where
  dist : Nat → Nat → ℚ
  path : Nat → Nat → Int

/-- The assignment `a[i][j] = v`. -/
def setCell {α : Type} (f : Nat → Nat → α) (i j : Nat) (v : α) : Nat → Nat → α :=
  fun a b => if a = i ∧ b = j then v else f a b

/-- The initialisation loop of `GlobalRouter::init` (lines 98 to 105): all nodes are
disconnected. -/
def GlobalRouter.initMatrices : GlobalMatrices where
  dist := fun p r => if r = p then 0 else FLT_MAX
  path := fun p _ => (p : Int)

/-- The body of the innermost loop of `GlobalRouter::FloydWarshall`. -/
def GlobalRouter.relax (k i j : Nat) (m : GlobalMatrices) : GlobalMatrices :=
  if m.dist i k + m.dist k j < m.dist i j then
    ⟨setCell m.dist i j (m.dist i k + m.dist k j), setCell m.path i j (m.path k j)⟩
  else m

/-- The function `GlobalRouter::FloydWarshall` on `n` nodes. -/
def GlobalRouter.FloydWarshall (n : Nat) (m : GlobalMatrices) : GlobalMatrices :=
  (List.range n).foldl
    (fun m k => (List.range n).foldl
      (fun m i => (List.range n).foldl (fun m j => GlobalRouter.relax k i j m) m) m) m

/-- There is a path from `i` to `j` among the `n` nodes: a chain of one or more edges of
the matrix `e` that are present (below `FLT_MAX`). -/
def HasPath (n : Nat) (e : Nat → Nat → ℚ) (i j : Nat) : Prop :=
  Relation.TransGen (fun a b => a < n ∧ b < n ∧ e a b < FLT_MAX) i j

/-- The entries stay between zero and `FLT_MAX`, and an entry below `FLT_MAX` is carried by
a path of the matrix `e` the function started from. -/
def GlobalSound (n : Nat) (e : Nat → Nat → ℚ) (d : Nat → Nat → ℚ) : Prop :=
  ∀ i j, i < n → j < n → 0 ≤ d i j ∧ d i j ≤ FLT_MAX ∧ (d i j < FLT_MAX → HasPath n e i j)

/-- Two nodes without any edge: the matrices right after `GlobalRouter::init`. -/
def twoIsolatedNodes : GlobalMatrices := GlobalRouter.initMatrices

/-- `Line::operator<`: "basically the same as !=". -/
def Line.opLt (J_EPS : ℚ) (this l : Line) : Bool := !(Line.opEq J_EPS this l)

/-- The local variable `discriminant` of `Line::IntersectionPointsWithCircle`. -/
def Line.circleDiscriminant (l : Line) (centre : Point) (radius : ℚ) : ℚ :=
  let p1 := l.point1.sub centre
  let p2 := l.point2.sub centre
  let a := (p1.x - p2.x) ^ 2 + (p1.y - p2.y) ^ 2
  let b := 2 * (p2.x * (p1.x - p2.x) + p2.y * (p1.y - p2.y))
  let c := p2.x ^ 2 + p2.y ^ 2 - radius ^ 2
  b ^ 2 - 4 * a * c

/-! ## `Simulation::RunBody` -/

/-- The local constant `writeInterval` of `Simulation::RunBody`:
`static_cast<int>((1. / _fps) / _deltaT + 0.5)`. -/
def Simulation.writeInterval (fps deltaT : ℚ) : Int :=
  truncToInt ((1 / fps) / deltaT + 1 / 2)

/-- The test `0 == _frame % writeInterval` of `Simulation::RunBody` for the frame counter
`frame`: whether `WriteFrame` is called.  `none` stands for the integer division by zero,
on which the program has no defined behaviour. -/
def Simulation.writesFrame (fps deltaT : ℚ) (frame : Int) : Option Bool :=
  if Simulation.writeInterval fps deltaT = 0 then none
  else some (decide (0 = Int.tmod frame (Simulation.writeInterval fps deltaT)))

/-! ## `WaitingStrategy::GetTarget` -/

/-- What `WaitingStrategy::GetTarget` reads of the pedestrian. -/
structure WaitingPed where
  /-- `GetWaitingPos()`; `none` stands for the point both of whose coordinates are
  max-double, which marks a waiting position that is not set -/
  waitingPos : Option Point
  /-- `GetPos()` -/
  pos : Point
  /-- `GetV0Norm()` -/
  v0Norm : ℚ

/-- The loop `do { target = GetWaitingPosition(room, ped, time); }
while(!subroom->IsInSubRoom(target));` of `WaitingStrategy::GetTarget`.
`IsInSubRoom` is the membership test of the subroom of the pedestrian,
`GetWaitingPosition n` is what the `n`-th call of the virtual function returns, the first
argument bounds the number of rounds, and `none` means that the bound was reached. -/
def WaitingStrategy.loop (IsInSubRoom : Point → Bool) (GetWaitingPosition : Nat → Point) :
    Nat → Nat → Option Point
  | 0, _ => none
  | fuel + 1, n =>
    let target := GetWaitingPosition n
    if !IsInSubRoom target then WaitingStrategy.loop IsInSubRoom GetWaitingPosition fuel (n + 1)
    else some target

/-- The function `WaitingStrategy::GetTarget`. -/
def WaitingStrategy.GetTarget (sqrt : ℚ → ℚ) (fuel : Nat) (IsInSubRoom : Point → Bool)
    (GetWaitingPosition : Nat → Point) (ped : WaitingPed) : Option Point :=
  match ped.waitingPos with
  | none => WaitingStrategy.loop IsInSubRoom GetWaitingPosition fuel 0
  | some waitingPos =>
    if (waitingPos.sub ped.pos).Norm sqrt ≤ 1 / 10 ∧ ped.v0Norm < 1 / 2 then some ped.pos
    else some waitingPos

/-- The function `WaitingMiddle::GetWaitingPosition`: `goalCentroid` is the centroid of
the waiting area `GetFinalGoal(ped->GetLastGoalID())` and `subRoomCentroid` the centroid of
the subroom of the room that holds the pedestrian. -/
def WaitingMiddle.GetWaitingPosition (IsInsideWaitingAreaWaiting : Bool)
    (goalCentroid subRoomCentroid : Point) : Point :=
  if IsInsideWaitingAreaWaiting then goalCentroid else subRoomCentroid

/-- Modelled from the spec: the centroid of a polygon given by its vertices in order
(`SubRoom::GetCentroid` is not among the sources), by the area formula
`Cx = sum (x_i + x_j) (x_i y_j - x_j y_i) / (6 A)` with `A = sum (x_i y_j - x_j y_i) / 2`,
where `j` is the vertex after `i`. -/
def polygonCentroid (vs : List Point) : Point :=
  let edges := vs.zip (vs.rotate 1)
  let cross := fun (e : Point × Point) => e.1.x * e.2.y - e.2.x * e.1.y
  let area := (edges.map cross).sum / 2
  ⟨(edges.map fun e => (e.1.x + e.2.x) * cross e).sum / (6 * area),
   (edges.map fun e => (e.1.y + e.2.y) * cross e).sum / (6 * area)⟩

/-- The corners of a U-shaped subroom: the square from `(0, 0)` to `(3, 3)` without the
notch between `x = 1` and `x = 2` above `y = 1`. -/
def uShapeVertices : List Point :=
  [⟨0, 0⟩, ⟨3, 0⟩, ⟨3, 3⟩, ⟨2, 3⟩, ⟨2, 1⟩, ⟨1, 1⟩, ⟨1, 3⟩, ⟨0, 3⟩]

/-- The membership test of the U-shaped subroom with the corners `uShapeVertices`. -/
def uShapeIsInSubRoom (p : Point) : Bool :=
  decide (0 ≤ p.x ∧ p.x ≤ 3 ∧ 0 ≤ p.y ∧ p.y ≤ 3 ∧ ¬ (1 < p.x ∧ p.x < 2 ∧ 1 < p.y))

/-- A pedestrian in the left arm of the U-shaped subroom whose waiting position is not
set. -/
def uShapePed : WaitingPed := ⟨none, ⟨1 / 2, 2⟩, 1⟩

/-! ## `UnivFFviaFM::DrawLinesOnGrid` -/

/-- The guarded write of `DrawLinesOnGrid` at the cell `(iDot, jDot)`:
`if(_gridCode[key] != WALL && _gridCode[key] != CLOSED_CROSSING &&
_gridCode[key] != CLOSED_TRANSITION) target[key] = value` with `key = jDot * iMax + iDot`. -/
def drawCell {α : Type} (gridCode : Int → CellCode) (iMax : Int) (value : α)
    (iDot jDot : Int) (target : Int → α) : Int → α :=
  if gridCode (jDot * iMax + iDot) ≠ CellCode.WALL ∧
      gridCode (jDot * iMax + iDot) ≠ CellCode.CLOSED_CROSSING ∧
      gridCode (jDot * iMax + iDot) ≠ CellCode.CLOSED_TRANSITION then
    Function.update target (jDot * iMax + iDot) value
  else target

/-- What a run of `DrawLinesOnGrid` leaves: the cells `(iDot, jDot)` it visited, in the
order of the visits, and the array `target`. -/
structure DrawResult (α : Type) where
  visited : List (Int × Int)
  target : Int → α

/-- The loop `for(i = 0; iDot < xe; ++i)` of `DrawLinesOnGrid` (the branch
`deltaY1 <= deltaX1`), for at most `fuel` rounds; `none` if the bound is reached. -/
def drawLoopX {α : Type} (gridCode : Int → CellCode) (iMax : Int) (value : α)
    (deltaX deltaY deltaX1 deltaY1 xe : Int) :
    Nat → Int → Int → Int → (Int → α) → Option (DrawResult α)
  | 0, iDot, _, _, target => if iDot < xe then none else some ⟨[], target⟩
  | fuel + 1, iDot, jDot, px, target =>
    if iDot < xe then
      let iDot := iDot + 1
      let jDot :=
        if px < 0 then jDot
        else if (deltaX < 0 ∧ deltaY < 0) ∨ (deltaX > 0 ∧ deltaY > 0) then jDot + 1
        else jDot - 1
      let px := if px < 0 then px + 2 * deltaY1 else px + 2 * (deltaY1 - deltaX1)
      (drawLoopX gridCode iMax value deltaX deltaY deltaX1 deltaY1 xe fuel iDot jDot px
          (drawCell gridCode iMax value iDot jDot target)).map
        fun r => ⟨(iDot, jDot) :: r.visited, r.target⟩
    else some ⟨[], target⟩

/-- The loop `for(i = 0; jDot < ye; ++i)` of `DrawLinesOnGrid` (the branch
`deltaY1 > deltaX1`), for at most `fuel` rounds; `none` if the bound is reached. -/
def drawLoopY {α : Type} (gridCode : Int → CellCode) (iMax : Int) (value : α)
    (deltaX deltaY deltaX1 deltaY1 ye : Int) :
    Nat → Int → Int → Int → (Int → α) → Option (DrawResult α)
  | 0, _, jDot, _, target => if jDot < ye then none else some ⟨[], target⟩
  | fuel + 1, iDot, jDot, py, target =>
    if jDot < ye then
      let jDot := jDot + 1
      let iDot :=
        if py ≤ 0 then iDot
        else if (deltaX < 0 ∧ deltaY < 0) ∨ (deltaX > 0 ∧ deltaY > 0) then iDot + 1
        else iDot - 1
      let py := if py ≤ 0 then py + 2 * deltaX1 else py + 2 * (deltaX1 - deltaY1)
      (drawLoopY gridCode iMax value deltaX deltaY deltaX1 deltaY1 ye fuel iDot jDot py
          (drawCell gridCode iMax value iDot jDot target)).map
        fun r => ⟨(iDot, jDot) :: r.visited, r.target⟩
    else some ⟨[], target⟩

/-- The function `UnivFFviaFM::DrawLinesOnGrid(Line&, T* target, const T value)`.
`(iStart, jStart)` and `(iEnd, jEnd)` are the grid cells of the two end points of the line,
as `GetKeyAtPoint`, `GetIFromKey` and `GetJFromKey` give them; `gridCode` is `_gridCode`
before the call.  (When `target` is `_gridCode` itself, a cell is read before it is
written, and a write stores `value` whatever the earlier writes were.)  The fuel bounds
the number of rounds of the loop. -/
def DrawLinesOnGrid {α : Type} (fuel : Nat) (gridCode : Int → CellCode) (iMax : Int)
    (iStart jStart iEnd jEnd : Int) (target : Int → α) (value : α) :
    Option (DrawResult α) :=
  let deltaX := iEnd - iStart
  let deltaY := jEnd - jStart
  let deltaX1 := |iEnd - iStart|
  let deltaY1 := |jEnd - jStart|
  let px := 2 * deltaY1 - deltaX1
  let py := 2 * deltaX1 - deltaY1
  if deltaY1 ≤ deltaX1 then
    let iDot := if deltaX ≥ 0 then iStart else iEnd
    let jDot := if deltaX ≥ 0 then jStart else jEnd
    let xe := if deltaX ≥ 0 then iEnd else iStart
    (drawLoopX gridCode iMax value deltaX deltaY deltaX1 deltaY1 xe fuel iDot jDot px
        (drawCell gridCode iMax value iDot jDot target)).map
      fun r => ⟨(iDot, jDot) :: r.visited, r.target⟩
  else
    let iDot := if deltaY ≥ 0 then iStart else iEnd
    let jDot := if deltaY ≥ 0 then jStart else jEnd
    let ye := if deltaY ≥ 0 then jEnd else jStart
    (drawLoopY gridCode iMax value deltaX deltaY deltaX1 deltaY1 ye fuel iDot jDot py
        (drawCell gridCode iMax value iDot jDot target)).map
      fun r => ⟨(iDot, jDot) :: r.visited, r.target⟩

/-- Two cells are the same or neighbours in the 8-neighbourhood. -/
def Adjacent8 (a b : Int × Int) : Prop := |b.1 - a.1| ≤ 1 ∧ |b.2 - a.2| ≤ 1

/-- The code of the cell lets `DrawLinesOnGrid` write. -/
def Writable (c : CellCode) : Prop :=
  c ≠ CellCode.WALL ∧ c ≠ CellCode.CLOSED_CROSSING ∧ c ≠ CellCode.CLOSED_TRANSITION

instance (c : CellCode) : Decidable (Writable c) := by unfold Writable; infer_instance

/-- A grid code with a wall on the cell `(2, 1)` of a grid with `iMax = 10`. -/
def sampleGridCode (key : Int) : CellCode :=
  if key = 12 then CellCode.WALL else CellCode.INSIDE

/-! ## `UnivFFviaFM::MarkSubroom` -/

/-- The test `_gridCode[aux] == INSIDE || _gridCode[aux] == OUTSIDE` of `MarkSubroom`. -/
def Fillable (c : CellCode) : Prop := c = CellCode.INSIDE ∨ c = CellCode.OUTSIDE

instance (c : CellCode) : Decidable (Fillable c) := by unfold Fillable; infer_instance

/-- The state of `MarkSubroom`: the members `_gridCode` and `_subrooms` (`none` is the null
pointer) and the local set `wavefront`. -/
structure MarkState where
  gridCode : Nat → CellCode
  subrooms : Nat → Option Int
  wavefront : List Nat

/-- The two statements `wavefront.insert(aux); _subrooms[aux] = value;`. -/
def markInsert (value : Int) (aux : Nat) (s : MarkState) : MarkState :=
  ⟨s.gridCode, Function.update s.subrooms aux (some value),
    if aux ∈ s.wavefront then s.wavefront else aux :: s.wavefront⟩

/-- The treatment of one neighbour of the seed point (before the loop):
`if((aux != -2) && (_gridCode[aux] == INSIDE || _gridCode[aux] == OUTSIDE))`. -/
def markSeedNeighbor (value : Int) (s : MarkState) (aux : Option Nat) : MarkState :=
  match aux with
  | none => s
  | some a => if Fillable (s.gridCode a) then markInsert value a s else s

/-- The treatment of one neighbour of `current` in the loop: as for the seed point, with
the further test `_subrooms[aux] == nullptr`. -/
def markNeighbor (value : Int) (s : MarkState) (aux : Option Nat) : MarkState :=
  match aux with
  | none => s
  | some a =>
    if Fillable (s.gridCode a) ∧ s.subrooms a = none then markInsert value a s else s

/-- The loop `while(!wavefront.empty())` of `MarkSubroom`, for at most `fuel` rounds;
`none` if the bound is reached.  `begin` is the element `*(wavefront.begin())` of a
non-empty set; `erase` removes it. -/
def markLoop (F : FloorField) (begin : List Nat → Nat) (value : Int) :
    Nat → MarkState → Option MarkState
  | 0, s => if s.wavefront = [] then some s else none
  | fuel + 1, s =>
    if s.wavefront = [] then some s
    else
      let current := begin s.wavefront
      markLoop F begin value fuel
        ((neighbours F current).foldl (markNeighbor value)
          ⟨Function.update s.gridCode current CellCode.INSIDE, s.subrooms,
            s.wavefront.filter (fun k => k ≠ current)⟩)

/-- The function `UnivFFviaFM::MarkSubroom`.  `F.gridCode` is `_gridCode` and `subrooms`
is `_subrooms` before the call (all null if not yet allocated); `value` is the subroom
pointer, `includesPoint` is `_grid->IncludesPoint(insidePoint)` and `seedKey` is
`_grid->GetKeyAtPoint(insidePoint)`. -/
def MarkSubroom (fuel : Nat) (F : FloorField) (begin : List Nat → Nat)
    (subrooms : Nat → Option Int) (includesPoint : Bool) (seedKey : Nat)
    (value : Option Int) : Option MarkState :=
  match value with
  | none => some ⟨F.gridCode, subrooms, []⟩
  | some v =>
    if !includesPoint then some ⟨F.gridCode, subrooms, []⟩
    else
      markLoop F begin v fuel
        ((neighbours F seedKey).foldl (markSeedNeighbor v)
          ⟨Function.update F.gridCode seedKey CellCode.INSIDE,
            Function.update subrooms seedKey (some v), []⟩)

/-- The cell `b` is a 4-neighbour of the cell `a` and its code before the call is `INSIDE`
or `OUTSIDE`. -/
def FillStep (F : FloorField) (a b : Nat) : Prop :=
  some b ∈ neighbours F a ∧ Fillable (F.gridCode b)

/-- The cell `k` is connected to the seed by a 4-neighbour path of cells whose code before
the call is `INSIDE` or `OUTSIDE`. -/
def FillReach (F : FloorField) (seed k : Nat) : Prop :=
  Relation.TransGen (FillStep F) seed k

/-- The number of grid points whose entry of `_subrooms` is null. -/
def nullCount (n : Nat) (subrooms : Nat → Option Int) : Nat :=
  (List.range n).countP (fun k => decide (subrooms k = none))

/-- A grid of three by two points: the lower row is `OUTSIDE`, `WALL`, `OUTSIDE`, the
upper row is `OUTSIDE`, `WALL`, `DOOR 7`. -/
def markField : FloorField where
  iMax := 3
  nPoints := 6
  hx := 1
  hy := 1
  gridCode := fun k =>
    if k = 1 ∨ k = 4 then CellCode.WALL
    else if k = 5 then CellCode.DOOR 7
    else CellCode.OUTSIDE
  unknownCost := -7
  unknownDistance := -8
  sqrt := sqrtQ

/-- What every state of `MarkSubroom` satisfies, relative to the grid codes `F.gridCode`
before the call: the cells of the wave front are grid points with a subroom entry, and
every cell whose code differs from the code before the call is `INSIDE` and has a subroom
entry; each of these cells is the seed or a cell that was `INSIDE` or `OUTSIDE` and is
connected to the seed.  The seed is `INSIDE`. -/
def MarkInv (F : FloorField) (seed : Nat) (s : MarkState) : Prop :=
  (∀ k ∈ s.wavefront, k < F.nPoints ∧ s.subrooms k ≠ none ∧
    (k = seed ∨ (Fillable (F.gridCode k) ∧ FillReach F seed k))) ∧
  (∀ k, s.gridCode k ≠ F.gridCode k → s.gridCode k = CellCode.INSIDE ∧
    s.subrooms k ≠ none ∧ (k = seed ∨ (Fillable (F.gridCode k) ∧ FillReach F seed k))) ∧
  s.gridCode seed = CellCode.INSIDE

/-- Two transitions 1 and 2 that both join the subroom 10 of room 0 and the subroom 20 of
room 1: the floor field of room 0 measures the distance 1/16 between them, the floor field
of room 1 the distance 5, and the grid spacing is 1/8. -/
def twoRoomBuilding : Building where
  transitions :=
    [ { uid := 1, isTransition := true, room1 := some 0, room2 := some 1,
        subRoom1 := some 10, subRoom2 := some 20, isClose := false },
      { uid := 2, isTransition := true, room1 := some 0, room2 := some 1,
        subRoom1 := some 10, subRoom2 := some 20, isClose := false } ]
  crossings := []
  escalators := []
  hasDirectionalEscalators := false
  doorDistance := fun r _ _ => if r = 0 then Dbl.fin (1 / 16) else Dbl.fin 5
  hx := 1 / 8

/-! # Theorems -/

/-! ## Folds -/

theorem foldl_inv_mem {α β : Type} (f : β → α → β) (Inv : β → Prop) (l : List α)
    (h : ∀ s x, x ∈ l → Inv s → Inv (f s x)) (s : β) (hs : Inv s) :
    Inv (l.foldl f s) := by
  induction l generalizing s with
  | nil => simpa using hs
  | cons a t ih =>
    simp only [List.foldl_cons]
    exact ih (fun s x hx => h s x (List.mem_cons_of_mem _ hx)) _
      (h s a (List.mem_cons_self _ _) hs)

theorem foldl_establish {α β : Type} (f : β → α → β) (Inv : β → Prop) (Q : α → β → Prop)
    (l : List α)
    (hinv : ∀ s x, x ∈ l → Inv s → Inv (f s x))
    (hest : ∀ s x, x ∈ l → Inv s → Q x (f s x))
    (hpres : ∀ s x y, x ∈ l → Inv s → Q y s → Q y (f s x))
    (s : β) (hs : Inv s) : ∀ y ∈ l, Q y (l.foldl f s) := by
  induction l generalizing s with
  | nil => intro y hy; cases hy
  | cons a t ih =>
    intro y hy
    simp only [List.foldl_cons]
    have hinv_t : ∀ s x, x ∈ t → Inv s → Inv (f s x) :=
      fun s x hx => hinv s x (List.mem_cons_of_mem _ hx)
    have hsa : Inv (f s a) := hinv s a (List.mem_cons_self _ _) hs
    rcases List.mem_cons.mp hy with rfl | hyt
    · have hq : Q y (f s y) := hest s y (List.mem_cons_self _ _) hs
      have := foldl_inv_mem f (fun s => Inv s ∧ Q y s) t
        (fun s x hx hsx => ⟨hinv_t s x hx hsx.1,
          hpres s x y (List.mem_cons_of_mem _ hx) hsx.1 hsx.2⟩) (f s y) ⟨hsa, hq⟩
      exact this.2
    · exact ih hinv_t (fun s x hx => hest s x (List.mem_cons_of_mem _ hx))
        (fun s x y hx => hpres s x y (List.mem_cons_of_mem _ hx)) (f s a) hsa y hyt

/-! ## Idealised doubles -/

theorem Dbl.lt_dmax_iff (d : Dbl) : Dbl.lt d Dbl.dmax = true ↔ ∃ a, d = Dbl.fin a := by
  cases d <;> simp [Dbl.lt]

theorem Dbl.lt_fin_iff (a : ℚ) (d : Dbl) :
    Dbl.lt (Dbl.fin a) d = true ↔ ∀ q, d = Dbl.fin q → a < q := by
  cases d <;> simp [Dbl.lt]

theorem Dbl.not_lt_fin (a : ℚ) (d : Dbl) (h : ¬ Dbl.lt (Dbl.fin a) d = true) :
    ∃ q, q ≤ a ∧ d = Dbl.fin q := by
  cases d with
  | fin q => exact ⟨q, by simpa [Dbl.lt] using h, rfl⟩
  | dmax => simp [Dbl.lt] at h
  | inf => simp [Dbl.lt] at h

/-! ## One relaxation step -/

theorem setKey_ne {α : Type} (f : Int → Int → α) (i j x y : Int) (v : α)
    (h : ¬ (x = i ∧ y = j)) : setKey f i j v x y = f x y := by
  simp [setKey, h]

theorem setKey_eq {α : Type} (f : Int → Int → α) (i j : Int) (v : α) :
    setKey f i j v i j = v := by
  simp [setKey]

theorem relaxStep_cases (doors : List Int) (k i j : Int) (s : Matrices × Bool)
    (hk : k ∈ doors) (hz : ∀ k ∈ doors, s.1.dist k k = Dbl.fin 0) :
    relaxStep k i j s = s ∨
      ∃ a b, s.1.dist i k = Dbl.fin a ∧ s.1.dist k j = Dbl.fin b ∧
        (∀ q, s.1.dist i j = Dbl.fin q → a + b < q) ∧ k ≠ i ∧ k ≠ j ∧
        relaxStep k i j s =
          (⟨setKey s.1.dist i j (Dbl.fin (a + b)), setKey s.1.path i j (s.1.path i k)⟩, true) := by
  unfold relaxStep
  split
  · rename_i hc
    right
    simp only [Bool.and_eq_true] at hc
    obtain ⟨⟨h1, h2⟩, h3⟩ := hc
    obtain ⟨a, ha⟩ := (Dbl.lt_dmax_iff _).mp h1
    obtain ⟨b, hb⟩ := (Dbl.lt_dmax_iff _).mp h2
    rw [ha, hb] at h3
    have h3' : ∀ q, s.1.dist i j = Dbl.fin q → a + b < q := by
      simpa [Dbl.add] using (Dbl.lt_fin_iff (a + b) (s.1.dist i j)).mp h3
    have hki : k ≠ i := by
      intro h
      subst h
      have h0 := hz k hk
      rw [ha] at h0
      injection h0 with h0
      have := h3' b hb
      rw [h0] at this
      simp at this
    have hkj : k ≠ j := by
      intro h
      subst h
      have h0 := hz k hk
      rw [hb] at h0
      injection h0 with h0
      have := h3' a ha
      rw [h0] at this
      simp at this
    refine ⟨a, b, ha, hb, h3', hki, hkj, ?_⟩
    simp [hki, hkj, ha, hb, Dbl.add]
  · left; rfl

theorem walkLen_cons (e : Int → Int → Dbl) (i m j : Int) (ms : List Int) :
    walkLen e i (m :: ms) j =
      match e i m, walkLen e m ms j with
      | Dbl.fin a, some b => some (a + b)
      | _, _ => none := rfl

theorem walkLen_append (e : Int → Int → Dbl) (k j : Int) (m2 : List Int) :
    ∀ (m1 : List Int) (i : Int) (a b : ℚ), walkLen e i m1 k = some a →
      walkLen e k m2 j = some b → walkLen e i (m1 ++ k :: m2) j = some (a + b) := by
  intro m1
  induction m1 with
  | nil =>
    intro i a b h1 h2
    simp only [walkLen] at h1
    simp only [List.nil_append, walkLen]
    cases hik : e i k with
    | fin c => rw [hik] at h1; simp at h1; simp [h2, h1]
    | dmax => rw [hik] at h1; simp at h1
    | inf => rw [hik] at h1; simp at h1
  | cons x xs ih =>
    intro i a b h1 h2
    rw [walkLen_cons] at h1
    rw [List.cons_append, walkLen_cons]
    cases hix : e i x with
    | fin c =>
      rw [hix] at h1
      cases hw : walkLen e x xs k with
      | none => rw [hw] at h1; simp at h1
      | some d =>
        rw [hw] at h1
        simp at h1
        rw [ih x d b hw h2]
        simp [← h1, add_assoc]
    | dmax => rw [hix] at h1; simp at h1
    | inf => rw [hix] at h1; simp at h1

theorem walkLen_split (e : Int → Int → Dbl) (k j : Int) (m2 : List Int) :
    ∀ (m1 : List Int) (i : Int) (L : ℚ), walkLen e i (m1 ++ k :: m2) j = some L →
      ∃ a b, walkLen e i m1 k = some a ∧ walkLen e k m2 j = some b ∧ L = a + b := by
  intro m1
  induction m1 with
  | nil =>
    intro i L h
    simp only [List.nil_append, walkLen] at h
    cases hik : e i k with
    | fin c =>
      rw [hik] at h
      cases hw : walkLen e k m2 j with
      | none => rw [hw] at h; simp at h
      | some d =>
        rw [hw] at h
        simp at h
        exact ⟨c, d, by simp [walkLen, hik], rfl, h.symm⟩
    | dmax => rw [hik] at h; simp at h
    | inf => rw [hik] at h; simp at h
  | cons x xs ih =>
    intro i L h
    rw [List.cons_append, walkLen_cons] at h
    cases hix : e i x with
    | fin c =>
      rw [hix] at h
      cases hw : walkLen e x (xs ++ k :: m2) j with
      | none => rw [hw] at h; simp at h
      | some d =>
        rw [hw] at h
        simp at h
        obtain ⟨a, b, h1, h2, h3⟩ := ih x d hw
        refine ⟨c + a, b, ?_, h2, ?_⟩
        · simp [walkLen, hix, h1]
        · rw [← h, h3, add_assoc]
    | dmax => rw [hix] at h; simp at h
    | inf => rw [hix] at h; simp at h

theorem relaxStep_cases_relaxed (doors : List Int) (k i j : Int) (s : Matrices × Bool)
    (hk : k ∈ doors) (hz : ∀ k ∈ doors, s.1.dist k k = Dbl.fin 0) :
    (relaxStep k i j s = s ∧ RelaxedAt k i j s.1) ∨
      ∃ a b, s.1.dist i k = Dbl.fin a ∧ s.1.dist k j = Dbl.fin b ∧
        (∀ q, s.1.dist i j = Dbl.fin q → a + b < q) ∧ k ≠ i ∧ k ≠ j ∧
        relaxStep k i j s =
          (⟨setKey s.1.dist i j (Dbl.fin (a + b)), setKey s.1.path i j (s.1.path i k)⟩, true) := by
  by_cases hc : (Dbl.lt (s.1.dist i k) Dbl.dmax && Dbl.lt (s.1.dist k j) Dbl.dmax &&
      Dbl.lt (Dbl.add (s.1.dist i k) (s.1.dist k j)) (s.1.dist i j)) = true
  · right
    rcases relaxStep_cases doors k i j s hk hz with h | h
    · exfalso
      -- the step changed the entry, so the state cannot be the same
      simp only [Bool.and_eq_true] at hc
      obtain ⟨⟨h1, h2⟩, h3⟩ := hc
      obtain ⟨a, ha⟩ := (Dbl.lt_dmax_iff _).mp h1
      obtain ⟨b, hb⟩ := (Dbl.lt_dmax_iff _).mp h2
      have hki : k ≠ i := by
        intro hki
        subst hki
        have h0 := hz k hk
        rw [ha] at h0
        injection h0 with h0
        rw [ha, hb, h0] at h3
        simp [Dbl.add, Dbl.lt] at h3
      have hkj : k ≠ j := by
        intro hkj
        subst hkj
        have h0 := hz k hk
        rw [hb] at h0
        injection h0 with h0
        rw [ha, hb, h0] at h3
        simp [Dbl.add, Dbl.lt] at h3
      have hd : (relaxStep k i j s).1.dist i j = Dbl.fin (a + b) := by
        unfold relaxStep
        rw [if_pos (by simp [h1, h2, h3])]
        simp [setKey, hki, hkj, ha, hb, Dbl.add]
      rw [h] at hd
      rw [ha, hb, hd] at h3
      simp [Dbl.add, Dbl.lt] at h3
    · exact h
  · left
    refine ⟨by unfold relaxStep; rw [if_neg hc], ?_⟩
    intro a b ha hb
    apply Dbl.not_lt_fin
    intro hlt
    apply hc
    rw [ha, hb]
    show (Dbl.lt (Dbl.fin a) Dbl.dmax && Dbl.lt (Dbl.fin b) Dbl.dmax &&
      Dbl.lt (Dbl.fin (a + b)) (s.1.dist i j)) = true
    rw [hlt]
    rfl

theorem head_append_mid (m1 m2 : List Int) (k j : Int) :
    (m1 ++ k :: m2 ++ [j]).head? = (m1 ++ [k]).head? := by
  cases m1 <;> simp

theorem relaxStep_good (e : Int → Int → Dbl) (p0 : Int → Int → Int) (doors : List Int)
    (k i j : Int) (s : Matrices × Bool) (hk : k ∈ doors) (hi : i ∈ doors) (hj : j ∈ doors)
    (hg : Good e p0 doors s.1) : Good e p0 doors (relaxStep k i j s).1 := by
  rcases relaxStep_cases doors k i j s hk hg.diag with h | ⟨a, b, ha, hb, hlt, hki, hkj, h⟩
  · rw [h]; exact hg
  · rw [h]
    have ha0 : 0 ≤ a := hg.nonneg i hi k hk a ha
    have hb0 : 0 ≤ b := hg.nonneg k hk j hj b hb
    refine ⟨?_, ?_, ?_, ?_⟩
    · intro x hx y hy q hq
      by_cases hc : x = i ∧ y = j
      · simp [setKey, hc] at hq
        rw [← hq]; exact add_nonneg ha0 hb0
      · simp only [setKey, if_neg hc] at hq
        exact hg.nonneg x hx y hy q hq
    · intro x hx
      by_cases hc : x = i ∧ x = j
      · exfalso
        obtain ⟨h1, h2⟩ := hc
        subst h1
        subst h2
        have := hlt 0 (hg.diag x hx)
        linarith
      · simp only [setKey, if_neg hc]
        exact hg.diag x hx
    · intro x y q hq
      by_cases hc : x = i ∧ y = j
      · obtain ⟨h1, h2⟩ := hc
        subst h1
        subst h2
        simp [setKey] at hq
        obtain ⟨m1, hm1, hw1, hp1⟩ := hg.walk x k a ha
        obtain ⟨m2, hm2, hw2, _⟩ := hg.walk k y b hb
        refine ⟨m1 ++ k :: m2, ?_, ?_, ?_⟩
        · intro z hz
          rcases List.mem_append.mp hz with hz | hz
          · exact hm1 z hz
          · rcases List.mem_cons.mp hz with hz | hz
            · rw [hz]; exact hk
            · exact hm2 z hz
        · rw [← hq]; exact walkLen_append e k y m2 m1 x a b hw1 hw2
        · intro hp hxy
          simp only [setKey, and_self, if_true]
          rw [head_append_mid]
          exact hp1 hp (fun h => hki h.symm)
      · simp only [setKey, if_neg hc] at hq ⊢
        exact hg.walk x y q hq
    · intro x y hq
      by_cases hc : x = i ∧ y = j
      · exfalso
        exact hq (a + b) (by simp [setKey, hc])
      · simp only [setKey, if_neg hc] at hq ⊢
        exact hg.keep x y hq

theorem Mono.monoRefl (m : Matrices) : Mono m m := fun _ _ q h => ⟨q, le_refl q, h⟩

theorem Mono.monoTrans {m n o : Matrices} (h1 : Mono m n) (h2 : Mono n o) : Mono m o := by
  intro i j q hq
  obtain ⟨r, hr, hn⟩ := h1 i j q hq
  obtain ⟨t, ht, ho⟩ := h2 i j r hn
  exact ⟨t, le_trans ht hr, ho⟩

theorem relaxStep_mono (doors : List Int) (k i j : Int) (s : Matrices × Bool)
    (hk : k ∈ doors) (hz : ∀ k ∈ doors, s.1.dist k k = Dbl.fin 0) :
    Mono s.1 (relaxStep k i j s).1 := by
  rcases relaxStep_cases doors k i j s hk hz with h | ⟨a, b, _, _, hlt, _, _, h⟩
  · rw [h]; exact Mono.monoRefl _
  · rw [h]
    intro x y q hq
    by_cases hc : x = i ∧ y = j
    · obtain ⟨h1, h2⟩ := hc
      subst h1
      subst h2
      exact ⟨a + b, le_of_lt (hlt q hq), by simp [setKey]⟩
    · exact ⟨q, le_refl q, by simp only [setKey, if_neg hc]; exact hq⟩

theorem relaxStep_establish (doors : List Int) (k i j : Int) (s : Matrices × Bool)
    (hk : k ∈ doors) (hz : ∀ k ∈ doors, s.1.dist k k = Dbl.fin 0) :
    RelaxedAt k i j (relaxStep k i j s).1 := by
  rcases relaxStep_cases_relaxed doors k i j s hk hz with
    ⟨h, hr⟩ | ⟨a, b, ha, hb, _, hki, hkj, h⟩
  · rw [h]; exact hr
  · rw [h]
    intro a' b' ha' hb'
    have h1 : ¬ (i = i ∧ k = j) := fun hc => hkj hc.2
    have h2 : ¬ (k = i ∧ j = j) := fun hc => hki hc.1
    simp only [setKey_ne _ _ _ _ _ _ h1] at ha'
    simp only [setKey_ne _ _ _ _ _ _ h2] at hb'
    rw [ha] at ha'
    rw [hb] at hb'
    injection ha' with ha'
    injection hb' with hb'
    exact ⟨a + b, by rw [ha', hb'], by simp [setKey]⟩

theorem relaxStep_keeps_relaxed (doors : List Int) (k i j x y : Int) (s : Matrices × Bool)
    (hk : k ∈ doors) (hz : ∀ k ∈ doors, s.1.dist k k = Dbl.fin 0)
    (hr : RelaxedAt k x y s.1) : RelaxedAt k x y (relaxStep k i j s).1 := by
  have hmono := relaxStep_mono doors k i j s hk hz
  rcases relaxStep_cases doors k i j s hk hz with h | ⟨a, b, _, _, _, hki, hkj, h⟩
  · rw [h]; exact hr
  · intro a' b' ha' hb'
    rw [h] at ha' hb'
    have h1 : ¬ (x = i ∧ k = j) := fun hc => hkj hc.2
    have h2 : ¬ (k = i ∧ y = j) := fun hc => hki hc.1
    simp only [setKey_ne _ _ _ _ _ _ h1] at ha'
    simp only [setKey_ne _ _ _ _ _ _ h2] at hb'
    obtain ⟨q, hq, hd⟩ := hr a' b' ha' hb'
    obtain ⟨r, hr', hd'⟩ := hmono x y q hd
    exact ⟨r, le_trans hr' hq, hd'⟩

/-! ## The loops of `FloydWarshall` -/

theorem innerLoop_inv (doors : List Int) (k i : Int) (Inv : Matrices × Bool → Prop)
    (h : ∀ s j, j ∈ doors → Inv s → Inv (relaxStep k i j s)) (s : Matrices × Bool)
    (hs : Inv s) : Inv (doors.foldl (fun s j => relaxStep k i j s) s) :=
  foldl_inv_mem (fun s j => relaxStep k i j s) Inv doors h s hs

theorem fwInner_inv (doors : List Int) (k : Int) (Inv : Matrices × Bool → Prop)
    (h : ∀ s i j, i ∈ doors → j ∈ doors → Inv s → Inv (relaxStep k i j s))
    (s : Matrices × Bool) (hs : Inv s) : Inv (fwInner doors k s) := by
  unfold fwInner
  exact foldl_inv_mem _ Inv doors
    (fun s i hi hs => innerLoop_inv doors k i Inv (fun s j hj => h s i j hi hj) s hs) s hs

theorem fwInner_good (e : Int → Int → Dbl) (p0 : Int → Int → Int) (doors : List Int)
    (k : Int) (hk : k ∈ doors) (s : Matrices × Bool) (hg : Good e p0 doors s.1) :
    Good e p0 doors (fwInner doors k s).1 ∧ Mono s.1 (fwInner doors k s).1 :=
  fwInner_inv doors k (fun t => Good e p0 doors t.1 ∧ Mono s.1 t.1)
    (fun t i j hi hj ht => ⟨relaxStep_good e p0 doors k i j t hk hi hj ht.1,
      ht.2.monoTrans (relaxStep_mono doors k i j t hk ht.1.diag)⟩) s ⟨hg, Mono.monoRefl _⟩

theorem fwInner_relaxed (e : Int → Int → Dbl) (p0 : Int → Int → Int) (doors : List Int)
    (k : Int) (hk : k ∈ doors) (s : Matrices × Bool) (hg : Good e p0 doors s.1) :
    ∀ i ∈ doors, ∀ j ∈ doors, RelaxedAt k i j (fwInner doors k s).1 := by
  unfold fwInner
  refine foldl_establish (fun s i => doors.foldl (fun s j => relaxStep k i j s) s)
    (fun t => Good e p0 doors t.1) (fun i t => ∀ j ∈ doors, RelaxedAt k i j t.1) doors
    ?_ ?_ ?_ s hg
  · intro t i hi ht
    exact innerLoop_inv doors k i (fun t => Good e p0 doors t.1)
      (fun t j hj ht => relaxStep_good e p0 doors k i j t hk hi hj ht) t ht
  · intro t i hi ht
    exact foldl_establish (fun s j => relaxStep k i j s)
      (fun t => Good e p0 doors t.1) (fun j t => RelaxedAt k i j t.1) doors
      (fun t j hj ht => relaxStep_good e p0 doors k i j t hk hi hj ht)
      (fun t j _ ht => relaxStep_establish doors k i j t hk ht.diag)
      (fun t j y _ ht hq => relaxStep_keeps_relaxed doors k i j i y t hk ht.diag hq) t ht
  · intro t i y hi ht hq j hj
    have := innerLoop_inv doors k i
      (fun t => Good e p0 doors t.1 ∧ RelaxedAt k y j t.1)
      (fun t j' hj' ht => ⟨relaxStep_good e p0 doors k i j' t hk hi hj' ht.1,
        relaxStep_keeps_relaxed doors k i j' y j t hk ht.1.diag ht.2⟩) t ⟨ht, hq j hj⟩
    exact this.2

theorem ClosedUnder.mono (S : Int → Prop) (e : Int → Int → Dbl) (doors : List Int)
    (m n : Matrices) (hc : ClosedUnder S e doors m) (hmn : Mono m n) :
    ClosedUnder S e doors n := by
  intro i hi j hj mids hm L hL
  obtain ⟨q, hq, hd⟩ := hc i hi j hj mids hm L hL
  obtain ⟨r, hr, hd'⟩ := hmn i j q hd
  exact ⟨r, le_trans hr hq, hd'⟩

theorem ClosedUnder.extend (S : Int → Prop) (e : Int → Int → Dbl) (doors : List Int)
    (m : Matrices) (k : Int) (hk : k ∈ doors) (hc : ClosedUnder S e doors m)
    (hr : ∀ i ∈ doors, ∀ j ∈ doors, RelaxedAt k i j m) :
    ClosedUnder (fun x => S x ∨ x = k) e doors m := by
  have key : ∀ n, ∀ (mids : List Int) (i j : Int), i ∈ doors → j ∈ doors →
      mids.length = n → (∀ x ∈ mids, S x ∨ x = k) → ∀ L, walkLen e i mids j = some L →
      ∃ q, q ≤ L ∧ m.dist i j = Dbl.fin q := by
    intro n
    induction n using Nat.strong_induction_on with
    | _ n ih =>
      intro mids i j hi hj hn hm L hL
      by_cases hmem : k ∈ mids
      · obtain ⟨m1, m2, rfl⟩ := List.append_of_mem hmem
        obtain ⟨a, b, h1, h2, h3⟩ := walkLen_split e k j m2 m1 i L hL
        have hlen1 : m1.length < n := by rw [← hn, List.length_append, List.length_cons]; omega
        have hlen2 : m2.length < n := by rw [← hn, List.length_append, List.length_cons]; omega
        obtain ⟨qa, hqa, hda⟩ := ih m1.length hlen1 m1 i k hi hk rfl
          (fun x hx => hm x (List.mem_append_left _ hx)) a h1
        obtain ⟨qb, hqb, hdb⟩ := ih m2.length hlen2 m2 k j hk hj rfl
          (fun x hx => hm x (List.mem_append_right _ (List.mem_cons_of_mem _ hx))) b h2
        obtain ⟨q, hq, hd⟩ := hr i hi j hj qa qb hda hdb
        exact ⟨q, by rw [h3]; linarith, hd⟩
      · refine hc i hi j hj mids (fun x hx => ?_) L hL
        rcases hm x hx with h | h
        · exact h
        · exact absurd (h ▸ hx) hmem
  intro i hi j hj mids hm L hL
  exact key mids.length mids i j hi hj rfl hm L hL

theorem fwLoop_closed (e : Int → Int → Dbl) (p0 : Int → Int → Int) (doors : List Int) :
    ∀ (ks : List Int) (S : Int → Prop) (s : Matrices × Bool), (∀ k ∈ ks, k ∈ doors) →
      Good e p0 doors s.1 → ClosedUnder S e doors s.1 →
      Good e p0 doors (ks.foldl (fun s k => fwInner doors k s) s).1 ∧
      Mono s.1 (ks.foldl (fun s k => fwInner doors k s) s).1 ∧
      ClosedUnder (fun x => S x ∨ x ∈ ks) e doors
        (ks.foldl (fun s k => fwInner doors k s) s).1 := by
  intro ks
  induction ks with
  | nil =>
    intro S s _ hg hc
    refine ⟨hg, Mono.monoRefl _, ?_⟩
    intro i hi j hj mids hm L hL
    exact hc i hi j hj mids (fun x hx => by simpa using hm x hx) L hL
  | cons k ks ih =>
    intro S s hks hg hc
    have hk : k ∈ doors := hks k (List.mem_cons_self _ _)
    obtain ⟨hg1, hmono1⟩ := fwInner_good e p0 doors k hk s hg
    have hrel := fwInner_relaxed e p0 doors k hk s hg
    have hc1 := ClosedUnder.extend S e doors _ k hk
      (ClosedUnder.mono S e doors _ _ hc hmono1) hrel
    obtain ⟨hg2, hmono2, hc2⟩ := ih (fun x => S x ∨ x = k) (fwInner doors k s)
      (fun x hx => hks x (List.mem_cons_of_mem _ hx)) hg1 hc1
    simp only [List.foldl_cons]
    refine ⟨hg2, hmono1.monoTrans hmono2, ?_⟩
    intro i hi j hj mids hm L hL
    refine hc2 i hi j hj mids (fun x hx => ?_) L hL
    rcases hm x hx with h | h
    · exact Or.inl (Or.inl h)
    · rcases List.mem_cons.mp h with h | h
      · exact Or.inl (Or.inr h)
      · exact Or.inr h

/-! ## The result of `FloydWarshall` -/

theorem good_init (e : Int → Int → Dbl) (p0 : Int → Int → Int) (doors : List Int)
    (hdiag : ZeroDiagOn doors e) (hnn : NonNegOn doors e) : Good e p0 doors ⟨e, p0⟩ := by
  refine ⟨?_, hdiag, ?_, ?_⟩
  · intro i hi j hj q hq
    have := hnn i hi j hj
    simp only at hq
    rw [hq] at this
    simpa [Dbl.nonneg] using this
  · intro i j q hq
    refine ⟨[], by simp, ?_, ?_⟩
    · simp only at hq
      simp [walkLen, hq]
    · intro hp hij
      simp only [List.nil_append, List.head?_cons, hp, ne_eq, true_and]
      exact fun h => hij h.symm
  · intro i j _
    exact ⟨rfl, rfl⟩

theorem closed_init (e : Int → Int → Dbl) (p0 : Int → Int → Int) (doors : List Int) :
    ClosedUnder (fun _ => False) e doors ⟨e, p0⟩ := by
  intro i _ j _ mids hm L hL
  cases mids with
  | nil =>
    simp only [walkLen] at hL
    cases h : e i j with
    | fin a => rw [h] at hL; simp at hL; exact ⟨a, le_of_eq hL, h⟩
    | dmax => rw [h] at hL; simp at hL
    | inf => rw [h] at hL; simp at hL
  | cons x xs => exact absurd (hm x (List.mem_cons_self _ _)) id

theorem fwPass_spec (e : Int → Int → Dbl) (p0 : Int → Int → Int) (doors : List Int)
    (c : Bool) (hdiag : ZeroDiagOn doors e) (hnn : NonNegOn doors e) :
    Good e p0 doors (fwPass doors (⟨e, p0⟩, c)).1 ∧
      Mono ⟨e, p0⟩ (fwPass doors (⟨e, p0⟩, c)).1 ∧
      ClosedUnder (fun x => x ∈ doors) e doors (fwPass doors (⟨e, p0⟩, c)).1 := by
  obtain ⟨hg, hm, hc⟩ := fwLoop_closed e p0 doors doors (fun _ => False) (⟨e, p0⟩, c)
    (fun _ h => h) (good_init e p0 doors hdiag hnn) (closed_init e p0 doors)
  refine ⟨hg, hm, ?_⟩
  intro i hi j hj mids hmids L hL
  exact hc i hi j hj mids (fun x hx => Or.inr (hmids x hx)) L hL

theorem relaxStep_fixed (e : Int → Int → Dbl) (p0 : Int → Int → Int) (doors : List Int)
    (k i j : Int) (hk : k ∈ doors) (hi : i ∈ doors) (hj : j ∈ doors) (s : Matrices × Bool)
    (hg : Good e p0 doors s.1) (hc : ClosedUnder (fun x => x ∈ doors) e doors s.1) :
    relaxStep k i j s = s := by
  rcases relaxStep_cases doors k i j s hk hg.diag with h | ⟨a, b, ha, hb, hlt, _, _, _⟩
  · exact h
  · exfalso
    obtain ⟨m1, hm1, hw1, _⟩ := hg.walk i k a ha
    obtain ⟨m2, hm2, hw2, _⟩ := hg.walk k j b hb
    have hw := walkLen_append e k j m2 m1 i a b hw1 hw2
    have hmem : ∀ x ∈ m1 ++ k :: m2, x ∈ doors := by
      intro x hx
      rcases List.mem_append.mp hx with hx | hx
      · exact hm1 x hx
      · rcases List.mem_cons.mp hx with hx | hx
        · rw [hx]; exact hk
        · exact hm2 x hx
    obtain ⟨q, hq, hd⟩ := hc i hi j hj _ hmem _ hw
    have := hlt q hd
    linarith

theorem fwPass_fixed (e : Int → Int → Dbl) (p0 : Int → Int → Int) (doors : List Int)
    (m : Matrices) (hg : Good e p0 doors m)
    (hc : ClosedUnder (fun x => x ∈ doors) e doors m) :
    fwPass doors (m, false) = (m, false) := by
  unfold fwPass
  refine foldl_inv_mem _ (fun s => s = (m, false)) doors ?_ (m, false) rfl
  intro s k hk hs
  refine fwInner_inv doors k (fun s => s = (m, false)) ?_ s hs
  intro t i j hi hj ht
  rw [ht]
  exact relaxStep_fixed e p0 doors k i j hk hi hj (m, false) hg hc

theorem floydWarshall_eq (e : Int → Int → Dbl) (p0 : Int → Int → Int) (doors : List Int)
    (fuel : Nat) (hdiag : ZeroDiagOn doors e) (hnn : NonNegOn doors e) :
    FloydWarshall (fuel + 2) doors ⟨e, p0⟩ = some (fwPass doors (⟨e, p0⟩, false)).1 := by
  obtain ⟨hg, _, hc⟩ := fwPass_spec e p0 doors false hdiag hnn
  have hfix := fwPass_fixed e p0 doors _ hg hc
  show (if (fwPass doors (⟨e, p0⟩, false)).2 then
      FloydWarshall (fuel + 1) doors (fwPass doors (⟨e, p0⟩, false)).1
    else some (fwPass doors (⟨e, p0⟩, false)).1) = _
  split
  · show (if (fwPass doors ((fwPass doors (⟨e, p0⟩, false)).1, false)).2 then
        FloydWarshall fuel doors (fwPass doors ((fwPass doors (⟨e, p0⟩, false)).1, false)).1
      else some (fwPass doors ((fwPass doors (⟨e, p0⟩, false)).1, false)).1) = _
    rw [hfix]
    simp
  · rfl

/-! ## Door sequences -/

theorem seqLen_eq_walkLen (e : Int → Int → Dbl) (j : Int) :
    ∀ (mids : List Int) (i : Int), seqLen e (i :: (mids ++ [j])) = walkLen e i mids j := by
  intro mids
  induction mids with
  | nil =>
    intro i
    simp only [List.nil_append, seqLen, walkLen]
    cases e i j <;> simp
  | cons x xs ih =>
    intro i
    have := ih x
    simp only [List.cons_append] at this ⊢
    rw [walkLen_cons, ← this]
    rfl

theorem getLast?_cons_snoc (a b : Int) (L : List Int) :
    (a :: (L ++ [b])).getLast? = some b :=
  List.getLast?_concat (a :: L)

theorem doorSeq_cases (doors : List Int) (i j : Int) (p : List Int)
    (h : IsDoorSeq doors i j p) :
    (p = [i] ∧ i = j) ∨ ∃ mids, p = i :: (mids ++ [j]) ∧ ∀ x ∈ mids, x ∈ doors := by
  obtain ⟨h1, h2, h3⟩ := h
  cases p with
  | nil => simp at h1
  | cons a t =>
    simp only [List.head?_cons, Option.some.injEq] at h1
    subst h1
    rcases List.eq_nil_or_concat t with ht | ⟨L, b, ht⟩
    · subst ht
      left
      simp at h2
      exact ⟨rfl, h2⟩
    · rw [List.concat_eq_append] at ht
      subst ht
      right
      rw [getLast?_cons_snoc] at h2
      injection h2 with hb
      subst hb
      exact ⟨L, rfl, fun x hx => h3 x (by simp [hx])⟩

theorem doorSeq_of_walk (doors : List Int) (i j : Int) (mids : List Int)
    (hi : i ∈ doors) (hj : j ∈ doors) (hm : ∀ x ∈ mids, x ∈ doors) :
    IsDoorSeq doors i j (i :: (mids ++ [j])) := by
  refine ⟨rfl, getLast?_cons_snoc i j mids, ?_⟩
  intro x hx
  rcases List.mem_cons.mp hx with h | h
  · rw [h]; exact hi
  · rcases List.mem_append.mp h with h | h
    · exact hm x h
    · rw [List.mem_singleton.mp h]; exact hj

/-- C1. `FFRouter::FloydWarshall` returns on every door matrix with zero diagonal and
non-negative direct edge weights (two rounds of the triple loop suffice), and then, for
all doors `i` and `j`, the entry `D[i][j]` is the minimum over all door sequences from `i`
to `j` of the sum of the direct edge weights that were in the matrix before the call,
entries not below max-double counting as missing edges; if no such sequence exists,
`D[i][j]` still holds its initial value. -/
theorem floydWarshall_shortest (doors : List Int) (m : Matrices) (fuel : Nat)
    (hdiag : ZeroDiagOn doors m.dist) (hnn : NonNegOn doors m.dist) :
    ∃ r, FloydWarshall (fuel + 2) doors m = some r ∧
      ∀ i ∈ doors, ∀ j ∈ doors,
        (∃ q, r.dist i j = Dbl.fin q ∧ IsShortest m.dist doors i j q) ∨
        (Unreachable m.dist doors i j ∧ r.dist i j = m.dist i j) := by
  obtain ⟨e, p0⟩ := m
  refine ⟨_, floydWarshall_eq e p0 doors fuel hdiag hnn, ?_⟩
  obtain ⟨hg, _, hc⟩ := fwPass_spec e p0 doors false hdiag hnn
  intro i hi j hj
  have hbound : ∀ p L, IsDoorSeq doors i j p → seqLen e p = some L →
      ∃ q, q ≤ L ∧ (fwPass doors (⟨e, p0⟩, false)).1.dist i j = Dbl.fin q := by
    intro p L hp hL
    rcases doorSeq_cases doors i j p hp with ⟨rfl, rfl⟩ | ⟨mids, rfl, hm⟩
    · simp only [seqLen, Option.some.injEq] at hL
      exact ⟨0, le_of_eq hL, hg.diag i hi⟩
    · rw [seqLen_eq_walkLen] at hL
      exact hc i hi j hj mids hm L hL
  cases h : (fwPass doors (⟨e, p0⟩, false)).1.dist i j with
  | fin q =>
    left
    refine ⟨q, rfl, ?_, ?_⟩
    · obtain ⟨mids, hm, hw, _⟩ := hg.walk i j q h
      exact ⟨i :: (mids ++ [j]), doorSeq_of_walk doors i j mids hi hj hm,
        by rw [seqLen_eq_walkLen]; exact hw⟩
    · intro p L hp hL
      obtain ⟨q', hq', hd⟩ := hbound p L hp hL
      rw [h] at hd
      injection hd with hd
      rw [hd]; exact hq'
  | dmax =>
    right
    refine ⟨?_, ?_⟩
    · intro p hp
      cases hL : seqLen e p with
      | none => rfl
      | some L =>
        obtain ⟨q', _, hd⟩ := hbound p L hp hL
        rw [h] at hd
        cases hd
    · rw [← h]
      exact (hg.keep i j (by rw [h]; intro q hq; cases hq)).1
  | inf =>
    right
    refine ⟨?_, ?_⟩
    · intro p hp
      cases hL : seqLen e p with
      | none => rfl
      | some L =>
        obtain ⟨q', _, hd⟩ := hbound p L hp hL
        rw [h] at hd
        cases hd
    · rw [← h]
      exact (hg.keep i j (by rw [h]; intro q hq; cases hq)).1

theorem floydWarshall_shortest_witness :
    ZeroDiagOn [1, 2, 3] sampleMatrices.dist ∧ NonNegOn [1, 2, 3] sampleMatrices.dist ∧
      ∃ r, FloydWarshall 2 [1, 2, 3] sampleMatrices = some r ∧
        ∀ i ∈ [1, 2, 3], ∀ j ∈ [1, 2, 3],
          (∃ q, r.dist i j = Dbl.fin q ∧ IsShortest sampleMatrices.dist [1, 2, 3] i j q) ∨
          (Unreachable sampleMatrices.dist [1, 2, 3] i j ∧
            r.dist i j = sampleMatrices.dist i j) :=
  ⟨by decide, by decide,
    floydWarshall_shortest [1, 2, 3] sampleMatrices 0 (by decide) (by decide)⟩

/-! ## The matrices handed to `FloydWarshall` -/

theorem penalise_apply (l : List (Int × Int)) :
    ∀ (d : Int → Int → Dbl) (i j : Int),
      (l.foldl (fun d key => setKey d key.1 key.2 Dbl.dmax) d) i j =
        if (i, j) ∈ l then Dbl.dmax else d i j := by
  induction l with
  | nil => intro d i j; simp
  | cons a t ih =>
    intro d i j
    rw [List.foldl_cons, ih]
    by_cases ht : (i, j) ∈ t
    · simp [ht]
    · by_cases ha : i = a.1 ∧ j = a.2
      · have : (i, j) = a := by
          obtain ⟨h1, h2⟩ := ha
          subst h1; subst h2; rfl
        simp [ht, setKey, ha, this]
      · have : (i, j) ≠ a := by
          intro h
          apply ha
          rw [← h]
          exact ⟨rfl, rfl⟩
        simp [ht, setKey, ha, this]

theorem distStep_ok (b : Building) (p1 p2 : Int × Int) (d : Int → Int → Dbl)
    (h : EdgeOK b.hx d) : EdgeOK b.hx (distStep b p1 p2 d) := by
  unfold distStep
  split
  · exact h
  · split
    · exact h
    · rename_i hlt
      split
      · split
        · exact h
        · dsimp only
          split
          · exact h
          · rename_i hhx
            split
            · have hne : p1.2 ≠ p2.2 := by omega
              have hbound : ∀ q, b.doorDistance p1.1 p1.2 p2.2 = Dbl.fin q → b.hx ≤ q := by
                intro q hq
                rw [hq] at hhx
                simpa [Dbl.lt] using hhx
              refine ⟨?_, ?_⟩
              · intro k
                have h1 : ¬ (k = p1.2 ∧ k = p2.2) := fun hc => hne (hc.1 ▸ hc.2)
                have h2 : ¬ (k = p2.2 ∧ k = p1.2) := fun hc => hne (hc.2 ▸ hc.1)
                rw [setKey_ne _ _ _ _ _ _ h1, setKey_ne _ _ _ _ _ _ h2]
                exact h.1 k
              · intro i j hij q hq
                by_cases h1 : i = p1.2 ∧ j = p2.2
                · simp only [setKey, h1, and_self, if_true] at hq
                  exact hbound q hq
                · rw [setKey_ne _ _ _ _ _ _ h1] at hq
                  by_cases h2 : i = p2.2 ∧ j = p1.2
                  · simp only [setKey, h2, and_self, if_true] at hq
                    exact hbound q hq
                  · rw [setKey_ne _ _ _ _ _ _ h2] at hq
                    exact h.2 i j hij q hq
            · exact h
      · exact h

theorem measuredDist_ok (b : Building) : EdgeOK b.hx (measuredDist b) := by
  unfold measuredDist
  refine foldl_inv_mem _ (EdgeOK b.hx) _ ?_ _ ?_
  · intro d p1 _ hd
    exact foldl_inv_mem _ (EdgeOK b.hx) _ (fun d p2 _ hd => distStep_ok b p1 p2 d hd) d hd
  · refine ⟨fun k => by simp [initMatrices], ?_⟩
    intro i j hij q hq
    simp [initMatrices, hij] at hq

theorem mem_closedDoorPenalties (b : Building) (i j : Int) :
    (i, j) ∈ closedDoorPenalties b ↔
      i ≠ j ∧ i ∈ allDoorUIDs b ∧ j ∈ allDoorUIDs b ∧ (IsClosedDoor b i ∨ IsClosedDoor b j) := by
  unfold closedDoorPenalties IsClosedDoor
  simp only [List.mem_flatMap]
  constructor
  · rintro ⟨c, hc, hmem⟩
    cases hd : doorByUID b c with
    | none => rw [hd] at hmem; simp at hmem
    | some door =>
      rw [hd] at hmem
      simp only at hmem
      by_cases hcl : door.isClose = true
      · rw [if_pos hcl] at hmem
        simp only [List.mem_flatMap] at hmem
        obtain ⟨c2, hc2, hmem⟩ := hmem
        by_cases hcc : c = c2
        · simp [hcc] at hmem
        · rw [if_neg hcc] at hmem
          simp only [List.mem_cons, Prod.mk.injEq, List.mem_singleton, List.not_mem_nil,
            or_false] at hmem
          rcases hmem with ⟨h1, h2⟩ | ⟨h1, h2⟩
          · subst h1; subst h2
            exact ⟨hcc, hc, hc2, Or.inl ⟨hc, door, hd, hcl⟩⟩
          · subst h1; subst h2
            exact ⟨fun h => hcc h.symm, hc2, hc, Or.inr ⟨hc, door, hd, hcl⟩⟩
      · rw [if_neg hcl] at hmem
        simp at hmem
  · rintro ⟨hij, hi, hj, hcl | hcl⟩
    · obtain ⟨_, door, hd, hcl⟩ := hcl
      refine ⟨i, hi, ?_⟩
      rw [hd]
      simp only [hcl, if_true, List.mem_flatMap]
      exact ⟨j, hj, by simp [hij]⟩
    · obtain ⟨_, door, hd, hcl⟩ := hcl
      refine ⟨j, hj, ?_⟩
      rw [hd]
      simp only [hcl, if_true, List.mem_flatMap]
      exact ⟨i, hi, by simp [Ne.symm hij]⟩

theorem escalatorPenalty_ne (esc : Escalator) (h : esc.line0 ≠ esc.line1) :
    (escalatorPenalty esc).1 ≠ (escalatorPenalty esc).2 := by
  unfold escalatorPenalty
  split <;> split <;> simp [h, Ne.symm h]

theorem penaltyList_offdiag (b : Building) (hwf : b.WellFormed) (k : Int) :
    (k, k) ∉ penaltyList b := by
  unfold penaltyList
  intro h
  rcases List.mem_append.mp h with h | h
  · split at h
    · obtain ⟨esc, hesc, he⟩ := List.mem_map.mp h
      have := escalatorPenalty_ne esc (hwf.2 esc hesc)
      rw [he] at this
      exact this rfl
    · cases h
  · exact ((mem_closedDoorPenalties b k k).mp h).1 rfl

theorem edgeMatrices_dist (b : Building) (i j : Int) :
    (edgeMatrices b).dist i j =
      if (i, j) ∈ penaltyList b then Dbl.dmax else measuredDist b i j := by
  unfold edgeMatrices
  exact penalise_apply (penaltyList b) (measuredDist b) i j

theorem edgeMatrices_ok (b : Building) (hwf : b.WellFormed) :
    EdgeOK b.hx (edgeMatrices b).dist := by
  obtain ⟨h1, h2⟩ := measuredDist_ok b
  refine ⟨?_, ?_⟩
  · intro k
    rw [edgeMatrices_dist, if_neg (penaltyList_offdiag b hwf k)]
    exact h1 k
  · intro i j hij q hq
    rw [edgeMatrices_dist] at hq
    split at hq
    · cases hq
    · exact h2 i j hij q hq

theorem edgeMatrices_zeroDiag (b : Building) (hwf : b.WellFormed) :
    ZeroDiagOn (allDoorUIDs b) (edgeMatrices b).dist :=
  fun k _ => (edgeMatrices_ok b hwf).1 k

theorem edgeMatrices_nonNeg (b : Building) (hwf : b.WellFormed) :
    NonNegOn (allDoorUIDs b) (edgeMatrices b).dist := by
  intro i _ j _
  cases h : (edgeMatrices b).dist i j with
  | fin q =>
    simp only [Dbl.nonneg, decide_eq_true_eq]
    by_cases hij : i = j
    · subst hij
      rw [(edgeMatrices_ok b hwf).1 i] at h
      injection h with h
      rw [← h]
    · exact le_trans hwf.1 ((edgeMatrices_ok b hwf).2 i j hij q h)
  | dmax => rfl
  | inf => rfl

/-! ## The router built by `CalculateFloorFields` -/

theorem calculateFloorFields_eq (b : Building) (tws : Bool) (fuel : Nat)
    (hwf : b.WellFormed) :
    CalculateFloorFields (fuel + 2) tws b =
      some { targetWithinSubroom := tws, allDoorUIDs := allDoorUIDs b,
             doorByUID := doorByUID b, m := routerMatrices b } := by
  unfold CalculateFloorFields routerMatrices
  have h := floydWarshall_eq (edgeMatrices b).dist (edgeMatrices b).path (allDoorUIDs b) fuel
    (edgeMatrices_zeroDiag b hwf) (edgeMatrices_nonNeg b hwf)
  have hm : edgeMatrices b = ⟨(edgeMatrices b).dist, (edgeMatrices b).path⟩ := rfl
  rw [← hm] at h
  rw [h]
  rfl

theorem routerMatrices_spec (b : Building) (hwf : b.WellFormed) :
    Good (edgeMatrices b).dist (fun _ j => j) (allDoorUIDs b) (routerMatrices b) ∧
      ClosedUnder (fun x => x ∈ allDoorUIDs b) (edgeMatrices b).dist (allDoorUIDs b)
        (routerMatrices b) := by
  obtain ⟨hg, _, hc⟩ := fwPass_spec (edgeMatrices b).dist (edgeMatrices b).path
    (allDoorUIDs b) false (edgeMatrices_zeroDiag b hwf) (edgeMatrices_nonNeg b hwf)
  exact ⟨hg, hc⟩

theorem hop_edge (e : Int → Int → Dbl) (doors : List Int) (m : Matrices)
    (hg : Good e (fun _ j => j) doors m) (u v : Int) (hv : v ∈ doors) (huv : u ≠ v) (q : ℚ)
    (hq : m.dist u v = Dbl.fin q) :
    m.path u v ∈ doors ∧ m.path u v ≠ u ∧ ∃ a, e u (m.path u v) = Dbl.fin a := by
  obtain ⟨mids, hm, hw, hp⟩ := hg.walk u v q hq
  obtain ⟨hhead, hne⟩ := hp (fun _ _ => rfl) huv
  cases mids with
  | nil =>
    simp only [List.nil_append, List.head?_cons, Option.some.injEq] at hhead
    rw [← hhead]
    refine ⟨hv, by rw [hhead]; exact hne, ?_⟩
    simp only [walkLen] at hw
    cases h : e u v with
    | fin a => exact ⟨a, rfl⟩
    | dmax => rw [h] at hw; simp at hw
    | inf => rw [h] at hw; simp at hw
  | cons x xs =>
    simp only [List.cons_append, List.head?_cons, Option.some.injEq] at hhead
    rw [← hhead]
    refine ⟨hm x (List.mem_cons_self _ _), by rw [hhead]; exact hne, ?_⟩
    rw [walkLen_cons] at hw
    cases h : e u x with
    | fin a => exact ⟨a, rfl⟩
    | dmax => rw [h] at hw; simp at hw
    | inf => rw [h] at hw; simp at hw

theorem hop_equation (e : Int → Int → Dbl) (doors : List Int) (m : Matrices)
    (hg : Good e (fun _ j => j) doors m)
    (hc : ClosedUnder (fun x => x ∈ doors) e doors m) (u v : Int) (hu : u ∈ doors)
    (hv : v ∈ doors) (huv : u ≠ v) (q : ℚ) (hq : m.dist u v = Dbl.fin q) :
    ∃ a c, e u (m.path u v) = Dbl.fin a ∧ m.dist (m.path u v) v = Dbl.fin c ∧ q = a + c := by
  obtain ⟨mids, hm, hw, hp⟩ := hg.walk u v q hq
  obtain ⟨hhead, _⟩ := hp (fun _ _ => rfl) huv
  cases mids with
  | nil =>
    simp only [List.nil_append, List.head?_cons, Option.some.injEq] at hhead
    rw [← hhead]
    simp only [walkLen] at hw
    cases h : e u v with
    | fin a =>
      rw [h] at hw
      simp only [Option.some.injEq] at hw
      exact ⟨a, 0, rfl, hg.diag v hv, by rw [hw]; simp⟩
    | dmax => rw [h] at hw; simp at hw
    | inf => rw [h] at hw; simp at hw
  | cons x xs =>
    simp only [List.cons_append, List.head?_cons, Option.some.injEq] at hhead
    rw [← hhead]
    have hx : x ∈ doors := hm x (List.mem_cons_self _ _)
    rw [walkLen_cons] at hw
    cases h : e u x with
    | fin a =>
      rw [h] at hw
      cases hL : walkLen e x xs v with
      | none => rw [hL] at hw; simp at hw
      | some L =>
        rw [hL] at hw
        simp only [Option.some.injEq] at hw
        obtain ⟨c, hcL, hdc⟩ := hc x hx v hv xs
          (fun y hy => hm y (List.mem_cons_of_mem _ hy)) L hL
        obtain ⟨m2, hm2, hw2, _⟩ := hg.walk x v c hdc
        have hw3 : walkLen e u (x :: m2) v = some (a + c) := by
          rw [walkLen_cons, h, hw2]
        have hmem : ∀ y ∈ x :: m2, y ∈ doors := by
          intro y hy
          rcases List.mem_cons.mp hy with hy | hy
          · rw [hy]; exact hx
          · exact hm2 y hy
        obtain ⟨q', hq', hd'⟩ := hc u hu v hv (x :: m2) hmem (a + c) hw3
        rw [hq] at hd'
        injection hd' with hd'
        refine ⟨a, c, rfl, hdc, ?_⟩
        linarith
    | dmax => rw [h] at hw; simp at hw
    | inf => rw [h] at hw; simp at hw

theorem countP_lt_of_imp {α : Type} (p q : α → Bool) (w : α) (hqw : q w = true)
    (hpw : p w = false) :
    ∀ (l : List α), (∀ x ∈ l, p x = true → q x = true) → w ∈ l →
      l.countP p < l.countP q := by
  intro l
  induction l with
  | nil => intro _ hw; cases hw
  | cons a t ih =>
    intro hpq hw
    have hle : t.countP p ≤ t.countP q :=
      List.countP_mono_left (fun x hx => hpq x (List.mem_cons_of_mem _ hx))
    rw [List.countP_cons, List.countP_cons]
    rcases List.mem_cons.mp hw with h | h
    · subst h
      simp only [hpw, hqw, if_true]
      simp only [Bool.false_eq_true, if_false]
      omega
    · have := ih (fun x hx => hpq x (List.mem_cons_of_mem _ hx)) h
      by_cases hpa : p a = true
      · have hqa := hpq a (List.mem_cons_self _ _) hpa
        simp only [hpa, hqa, if_true]
        omega
      · have hpa2 : p a = false := by simpa using hpa
        rw [hpa2]
        cases hqa : q a <;> simp <;> omega

theorem followHops_route (e : Int → Int → Dbl) (doors : List Int) (m : Matrices)
    (hg : Good e (fun _ j => j) doors m)
    (hc : ClosedUnder (fun x => x ∈ doors) e doors m)
    (hpos : PosOffDiagOn doors e) (v : Int) (hv : v ∈ doors) :
    ∀ (n : Nat) (u : Int), u ∈ doors →
      doors.countP (fun x => Dbl.lt (m.dist x v) (m.dist u v)) = n →
      ∀ q, m.dist u v = Dbl.fin q →
        ∃ k p, followHops m.path v k u = some p ∧ IsDoorSeq doors u v p ∧
          seqLen e p = some q := by
  intro n
  induction n using Nat.strong_induction_on with
  | _ n ih =>
    intro u hu hn q hq
    by_cases huv : u = v
    · subst huv
      have h0 := hg.diag u hu
      rw [hq] at h0
      injection h0 with h0
      refine ⟨0, [u], by simp [followHops], ⟨rfl, rfl, ?_⟩, by simp [seqLen, h0]⟩
      intro x hx
      rw [List.mem_singleton.mp hx]; exact hu
    · obtain ⟨hw, hwu, _⟩ := hop_edge e doors m hg u v hv huv q hq
      obtain ⟨a, c, hea, hdc, hqac⟩ := hop_equation e doors m hg hc u v hu hv huv q hq
      have ha : 0 < a := by
        have := hpos u hu (m.path u v) hw (fun h => hwu h.symm)
        rw [hea] at this
        simpa [Dbl.pos] using this
      have hcq : c < q := by linarith
      have hrank : doors.countP (fun x => Dbl.lt (m.dist x v) (m.dist (m.path u v) v)) < n := by
        rw [← hn]
        refine countP_lt_of_imp _ _ (m.path u v) ?_ ?_ doors ?_ hw
        · simp only [hdc, hq, Dbl.lt, decide_eq_true_eq]; exact hcq
        · simp [hdc, Dbl.lt]
        · intro x _ hx
          rw [hdc] at hx
          rw [hq]
          cases hxv : m.dist x v with
          | fin t =>
            rw [hxv] at hx
            simp only [Dbl.lt, decide_eq_true_eq] at hx ⊢
            linarith
          | dmax => rw [hxv] at hx; simp [Dbl.lt] at hx
          | inf => rw [hxv] at hx; simp [Dbl.lt] at hx
      obtain ⟨k, p, hf, hseq, hlen⟩ := ih _ hrank (m.path u v) hw rfl c hdc
      obtain ⟨hhead, hlast, hmem⟩ := hseq
      cases p with
      | nil => simp at hhead
      | cons y ys =>
        simp only [List.head?_cons, Option.some.injEq] at hhead
        subst hhead
        refine ⟨k + 1, u :: m.path u v :: ys, ?_, ⟨rfl, ?_, ?_⟩, ?_⟩
        · simp [followHops, huv, hf]
        · rw [List.getLast?_cons_cons]; exact hlast
        · intro x hx
          rcases List.mem_cons.mp hx with h | h
          · rw [h]; exact hu
          · exact hmem x h
        · show (match e u (m.path u v), seqLen e (m.path u v :: ys) with
            | Dbl.fin a, some b => some (a + b)
            | _, _ => none) = some q
          rw [hea, hlen, hqac]

theorem edgeMatrices_pos (b : Building) (hwf : b.WellFormed) (hpos : 0 < b.hx) :
    PosOffDiagOn (allDoorUIDs b) (edgeMatrices b).dist := by
  intro i _ j _ hij
  cases h : (edgeMatrices b).dist i j with
  | fin q =>
    simp only [Dbl.pos, decide_eq_true_eq]
    exact lt_of_lt_of_le hpos ((edgeMatrices_ok b hwf).2 i j hij q h)
  | dmax => rfl
  | inf => rfl

/-- C2. After `FFRouter::CalculateFloorFields` on a building whose measured door distances
are positive (grid spacing `hx > 0`), for all doors `u ≠ v` with `D[u][v]` finite, the next
hop `w = P[u][v]` is joined to `u` by a direct edge and `D[u][v] = edge(u, w) + D[w][v]`;
following the next hops from `u` reaches `v` after finitely many steps, along a door
sequence of total length `D[u][v]`. -/
theorem calculateFloorFields_nextHop (b : Building) (tws : Bool) (fuel : Nat)
    (hwf : b.WellFormed) (hpos : 0 < b.hx) :
    ∃ r, CalculateFloorFields (fuel + 2) tws b = some r ∧
      ∀ u ∈ allDoorUIDs b, ∀ v ∈ allDoorUIDs b, u ≠ v → ∀ q, r.m.dist u v = Dbl.fin q →
        (∃ a c, (edgeMatrices b).dist u (r.m.path u v) = Dbl.fin a ∧
          r.m.dist (r.m.path u v) v = Dbl.fin c ∧ q = a + c) ∧
        ∃ n p, followHops r.m.path v n u = some p ∧ IsDoorSeq (allDoorUIDs b) u v p ∧
          seqLen (edgeMatrices b).dist p = some q := by
  refine ⟨_, calculateFloorFields_eq b tws fuel hwf, ?_⟩
  obtain ⟨hg, hc⟩ := routerMatrices_spec b hwf
  intro u hu v hv huv q hq
  exact ⟨hop_equation _ _ _ hg hc u v hu hv huv q hq,
    followHops_route _ _ _ hg hc (edgeMatrices_pos b hwf hpos) v hv _ u hu rfl q hq⟩

theorem sampleBuilding_wellFormed : sampleBuilding.WellFormed := by
  refine ⟨by norm_num [sampleBuilding], ?_⟩
  intro esc hesc
  simp only [sampleBuilding, List.mem_singleton] at hesc
  subst hesc
  decide

theorem calculateFloorFields_nextHop_witness :
    sampleBuilding.WellFormed ∧ 0 < sampleBuilding.hx ∧
      ∃ r, CalculateFloorFields 2 false sampleBuilding = some r ∧
        ∀ u ∈ allDoorUIDs sampleBuilding, ∀ v ∈ allDoorUIDs sampleBuilding, u ≠ v →
          ∀ q, r.m.dist u v = Dbl.fin q →
            (∃ a c, (edgeMatrices sampleBuilding).dist u (r.m.path u v) = Dbl.fin a ∧
              r.m.dist (r.m.path u v) v = Dbl.fin c ∧ q = a + c) ∧
            ∃ n p, followHops r.m.path v n u = some p ∧
              IsDoorSeq (allDoorUIDs sampleBuilding) u v p ∧
              seqLen (edgeMatrices sampleBuilding).dist p = some q :=
  ⟨sampleBuilding_wellFormed, by norm_num [sampleBuilding],
    calculateFloorFields_nextHop sampleBuilding false 0 sampleBuilding_wellFormed
      (by norm_num [sampleBuilding])⟩

/-! ## Closed doors -/

theorem edge_closed (b : Building) (c d : Int) (hc : IsClosedDoor b c)
    (hd : d ∈ allDoorUIDs b) (hdc : d ≠ c) :
    (edgeMatrices b).dist c d = Dbl.dmax ∧ (edgeMatrices b).dist d c = Dbl.dmax := by
  have h1 : (c, d) ∈ penaltyList b :=
    List.mem_append_right _
      ((mem_closedDoorPenalties b c d).mpr ⟨fun h => hdc h.symm, hc.1, hd, Or.inl hc⟩)
  have h2 : (d, c) ∈ penaltyList b :=
    List.mem_append_right _
      ((mem_closedDoorPenalties b d c).mpr ⟨hdc, hd, hc.1, Or.inr hc⟩)
  rw [edgeMatrices_dist, edgeMatrices_dist, if_pos h1, if_pos h2]
  exact ⟨rfl, rfl⟩

theorem seqLen_through_isolated (e : Int → Int → Dbl) (doors : List Int) (c : Int)
    (hcl : ∀ d ∈ doors, d ≠ c → e c d = Dbl.dmax ∧ e d c = Dbl.dmax) :
    ∀ (p : List Int) (L : ℚ), (∀ x ∈ p, x ∈ doors) → seqLen e p = some L → c ∈ p →
      ∀ x ∈ p, x = c := by
  intro p
  induction p with
  | nil => intro L _ h; simp [seqLen] at h
  | cons x t ih =>
    intro L hmem hlen hc
    cases t with
    | nil =>
      intro y hy
      rw [List.mem_singleton] at hy hc
      rw [hy, hc]
    | cons y rest =>
      have hx : x ∈ doors := hmem x (List.mem_cons_self _ _)
      have hy : y ∈ doors := hmem y (List.mem_cons_of_mem _ (List.mem_cons_self _ _))
      have hlen2 : (match e x y, seqLen e (y :: rest) with
          | Dbl.fin a, some b => some (a + b)
          | _, _ => none) = some L := hlen
      cases hexy : e x y with
      | fin a =>
        rw [hexy] at hlen2
        cases hrest : seqLen e (y :: rest) with
        | none => rw [hrest] at hlen2; simp at hlen2
        | some L2 =>
          have hmem2 : ∀ z ∈ y :: rest, z ∈ doors :=
            fun z hz => hmem z (List.mem_cons_of_mem _ hz)
          by_cases hxc : x = c
          · have hyc : y = c := by
              by_contra hyc
              have := (hcl y hy hyc).1
              rw [← hxc, hexy] at this
              cases this
            have hall := ih L2 hmem2 hrest (by rw [hyc]; exact List.mem_cons_self _ _)
            intro z hz
            rcases List.mem_cons.mp hz with h | h
            · rw [h]; exact hxc
            · exact hall z h
          · exfalso
            have hc2 : c ∈ y :: rest := by
              rcases List.mem_cons.mp hc with h | h
              · exact absurd h.symm hxc
              · exact h
            have hyc : y = c := ih L2 hmem2 hrest hc2 y (List.mem_cons_self _ _)
            have := (hcl x hx hxc).2
            rw [← hyc, hexy] at this
            cases this
      | dmax => rw [hexy] at hlen2; simp at hlen2
      | inf => rw [hexy] at hlen2; simp at hlen2

theorem entry_realised (e : Int → Int → Dbl) (p0 : Int → Int → Int) (doors : List Int)
    (m : Matrices) (hg : Good e p0 doors m) (i j : Int) (hi : i ∈ doors) (hj : j ∈ doors)
    (q : ℚ) (hq : m.dist i j = Dbl.fin q) :
    ∃ mids, IsDoorSeq doors i j (i :: (mids ++ [j])) ∧
      seqLen e (i :: (mids ++ [j])) = some q := by
  obtain ⟨mids, hm, hw, _⟩ := hg.walk i j q hq
  exact ⟨mids, doorSeq_of_walk doors i j mids hi hj hm, by rw [seqLen_eq_walkLen]; exact hw⟩

/-- C4. After `FFRouter::CalculateFloorFields`, for every closed door `c` and every other
door `d`, the entries `D[c][d]` and `D[d][c]` are not below max-double; every finite entry
`D[i][j]` other than `D[c][c]` is the length of a door sequence from `i` to `j` that does
not contain `c`; and a door sequence of finite length that contains `c` consists of `c`
only, so `c` is neither start, end nor intermediate door of a finite-length route. -/
theorem calculateFloorFields_closedDoor (b : Building) (tws : Bool) (fuel : Nat)
    (hwf : b.WellFormed) :
    ∃ r, CalculateFloorFields (fuel + 2) tws b = some r ∧
      ∀ c, IsClosedDoor b c →
        (∀ d ∈ allDoorUIDs b, d ≠ c →
          Dbl.lt (r.m.dist c d) Dbl.dmax = false ∧ Dbl.lt (r.m.dist d c) Dbl.dmax = false) ∧
        (∀ i ∈ allDoorUIDs b, ∀ j ∈ allDoorUIDs b, ∀ q, r.m.dist i j = Dbl.fin q →
          (i ≠ c ∨ j ≠ c) →
          ∃ p, IsDoorSeq (allDoorUIDs b) i j p ∧ seqLen (edgeMatrices b).dist p = some q ∧
            c ∉ p) ∧
        (∀ p L, (∀ x ∈ p, x ∈ allDoorUIDs b) → seqLen (edgeMatrices b).dist p = some L →
          c ∈ p → ∀ x ∈ p, x = c) := by
  refine ⟨_, calculateFloorFields_eq b tws fuel hwf, ?_⟩
  obtain ⟨hg, _⟩ := routerMatrices_spec b hwf
  intro c hc
  have hiso := seqLen_through_isolated (edgeMatrices b).dist (allDoorUIDs b) c
    (fun d hd hdc => edge_closed b c d hc hd hdc)
  have hroute : ∀ i ∈ allDoorUIDs b, ∀ j ∈ allDoorUIDs b, ∀ q,
      (routerMatrices b).dist i j = Dbl.fin q → (i ≠ c ∨ j ≠ c) →
      ∃ p, IsDoorSeq (allDoorUIDs b) i j p ∧ seqLen (edgeMatrices b).dist p = some q ∧
        c ∉ p := by
    intro i hi j hj q hq hne
    obtain ⟨mids, hseq, hlen⟩ := entry_realised _ _ _ _ hg i j hi hj q hq
    refine ⟨_, hseq, hlen, ?_⟩
    intro hcp
    have hall := hiso _ q hseq.2.2 hlen hcp
    rcases hne with h | h
    · exact h (hall i (List.mem_cons_self _ _))
    · exact h (hall j (by simp))
  have hnot : ∀ i ∈ allDoorUIDs b, ∀ j ∈ allDoorUIDs b, (i = c ∨ j = c) → i ≠ j →
      Dbl.lt ((routerMatrices b).dist i j) Dbl.dmax = false := by
    intro i hi j hj hc2 hij
    cases hd : (routerMatrices b).dist i j with
    | fin q =>
      exfalso
      have hne : i ≠ c ∨ j ≠ c := by
        by_contra hcon
        push_neg at hcon
        exact hij (hcon.1.trans hcon.2.symm)
      obtain ⟨p, hseq, _, hcp⟩ := hroute i hi j hj q hd hne
      apply hcp
      rcases hc2 with h | h
      · rw [← h]
        obtain ⟨hh, _, _⟩ := hseq
        cases p with
        | nil => simp at hh
        | cons x t =>
          simp only [List.head?_cons, Option.some.injEq] at hh
          rw [hh]; exact List.mem_cons_self _ _
      · rw [← h]
        exact List.mem_of_mem_getLast? hseq.2.1
    | dmax => rfl
    | inf => rfl
  refine ⟨?_, hroute, hiso⟩
  intro d hd hdc
  exact ⟨hnot c hc.1 d hd (Or.inl rfl) (fun h => hdc h.symm),
    hnot d hd c hc.1 (Or.inr rfl) hdc⟩

theorem calculateFloorFields_closedDoor_witness :
    sampleBuilding.WellFormed ∧
      ∃ r, CalculateFloorFields 2 false sampleBuilding = some r ∧
        ∀ c, IsClosedDoor sampleBuilding c →
          (∀ d ∈ allDoorUIDs sampleBuilding, d ≠ c →
            Dbl.lt (r.m.dist c d) Dbl.dmax = false ∧
              Dbl.lt (r.m.dist d c) Dbl.dmax = false) ∧
          (∀ i ∈ allDoorUIDs sampleBuilding, ∀ j ∈ allDoorUIDs sampleBuilding, ∀ q,
            r.m.dist i j = Dbl.fin q → (i ≠ c ∨ j ≠ c) →
            ∃ p, IsDoorSeq (allDoorUIDs sampleBuilding) i j p ∧
              seqLen (edgeMatrices sampleBuilding).dist p = some q ∧ c ∉ p) ∧
          (∀ p L, (∀ x ∈ p, x ∈ allDoorUIDs sampleBuilding) →
            seqLen (edgeMatrices sampleBuilding).dist p = some L → c ∈ p →
            ∀ x ∈ p, x = c) :=
  ⟨sampleBuilding_wellFormed,
    calculateFloorFields_closedDoor sampleBuilding false 0 sampleBuilding_wellFormed⟩

/-! ## Directional escalators -/

theorem Dbl.lt_trans {a b c : Dbl} (h1 : Dbl.lt a b = true) (h2 : Dbl.lt b c = true) :
    Dbl.lt a c = true := by
  cases a <;> cases b <;> cases c <;> simp [Dbl.lt] at h1 h2 ⊢
  exact h1.trans h2

theorem Dbl.lt_of_lt_of_not_lt {a b c : Dbl} (h1 : Dbl.lt a b = true)
    (h2 : Dbl.lt c b = false) : Dbl.lt a c = true := by
  cases a <;> cases b <;> cases c <;> simp [Dbl.lt] at h1 h2 ⊢
  exact lt_of_lt_of_le h1 h2

theorem Dbl.lt_inf_false {a : Dbl} (h : Dbl.lt a Dbl.inf = false) : a = Dbl.inf := by
  cases a <;> simp [Dbl.lt] at h ⊢

theorem foldl_flatMap_map {α β γ : Type} (g : γ → α × β → γ) (l1 : List α) (l2 : List β) :
    ∀ s : γ, (l1.flatMap fun t => l2.map fun d => (t, d)).foldl g s =
      l1.foldl (fun s t => l2.foldl (fun s d => g s (t, d)) s) s := by
  induction l1 with
  | nil => intro s; rfl
  | cons a t ih =>
    intro s
    rw [List.flatMap_cons, List.foldl_append, List.foldl_cons, ih, List.foldl_map]

theorem minimise_eq_foldl (J_EPS : ℚ) (r : Router) (q : ExitQuery) :
    minimise J_EPS r q =
      (candidatePairs q).foldl (fun s x => minStep J_EPS r q x.1 x.2 s) minInit := by
  unfold minimise candidatePairs
  rw [foldl_flatMap_map]

theorem minStep_eq (J_EPS : ℚ) (r : Router) (q : ExitQuery) (x : Int × Int) (s : MinState) :
    minStep J_EPS r q x.1 x.2 s =
      if admissible J_EPS r q x = true ∧ Dbl.lt (pairCost r q x) s.minDist = true then
        ⟨pairCost r q x, selectedDoor r q x, x.1⟩
      else s := by
  unfold minStep admissible pairCost selectedDoor
  by_cases h1 : Dbl.lt (q.locDist x.2) (Dbl.fin (-J_EPS)) = true
  · simp [h1]
  · by_cases h2 : hasKey r x.2 x.1 = false
    · simp [h1, h2]
    · by_cases h3 : r.m.dist x.2 x.1 ≠ Dbl.inf
      · by_cases h4 : Dbl.lt (Dbl.add (r.m.dist x.2 x.1) (q.locDist x.2)) s.minDist = true
        · simp [h1, h2, h3, h4]
        · simp [h1, h2, h3, h4]
      · simp [h1, h2, h3]

theorem firstMinimum_step (J_EPS : ℚ) (r : Router) (q : ExitQuery) (l : List (Int × Int))
    (x : Int × Int) (s : MinState) (h : FirstMinimum J_EPS r q l s) :
    FirstMinimum J_EPS r q (l ++ [x]) (minStep J_EPS r q x.1 x.2 s) := by
  rw [minStep_eq]
  by_cases hc : admissible J_EPS r q x = true ∧ Dbl.lt (pairCost r q x) s.minDist = true
  · rw [if_pos hc]
    obtain ⟨hadm, hlt⟩ := hc
    right
    rcases h with ⟨hs, hall⟩ | ⟨pre, y, post, hl, hy, hyinf, hs, hpre, hpost⟩
    · rw [hs] at hlt
      refine ⟨l, x, [], rfl, hadm, hlt, rfl, ?_, by simp⟩
      intro z hz hzadm
      rw [Dbl.lt_inf_false (hall z hz hzadm)]
      exact hlt
    · rw [hs] at hlt
      simp only at hlt
      refine ⟨l, x, [], rfl, hadm, Dbl.lt_trans hlt hyinf, rfl, ?_, by simp⟩
      intro z hz hzadm
      rw [hl] at hz
      rcases List.mem_append.mp hz with hz | hz
      · exact Dbl.lt_trans hlt (hpre z hz hzadm)
      · rcases List.mem_cons.mp hz with hz | hz
        · rw [hz]; exact hlt
        · exact Dbl.lt_of_lt_of_not_lt hlt (hpost z hz hzadm)
  · rw [if_neg hc]
    rcases h with ⟨hs, hall⟩ | ⟨pre, y, post, hl, hy, hyinf, hs, hpre, hpost⟩
    · left
      refine ⟨hs, ?_⟩
      intro z hz hzadm
      rcases List.mem_append.mp hz with hz | hz
      · exact hall z hz hzadm
      · rw [List.mem_singleton.mp hz] at hzadm ⊢
        rw [hs] at hc
        by_contra hcon
        exact hc ⟨hzadm, by simpa [minInit] using hcon⟩
    · right
      refine ⟨pre, y, post ++ [x], by rw [hl]; simp, hy, hyinf, hs, hpre, ?_⟩
      intro z hz hzadm
      rcases List.mem_append.mp hz with hz | hz
      · exact hpost z hz hzadm
      · rw [List.mem_singleton.mp hz] at hzadm ⊢
        rw [hs] at hc
        by_contra hcon
        exact hc ⟨hzadm, by simpa using hcon⟩

theorem firstMinimum_foldl (J_EPS : ℚ) (r : Router) (q : ExitQuery) :
    ∀ (l pre : List (Int × Int)) (s : MinState), FirstMinimum J_EPS r q pre s →
      FirstMinimum J_EPS r q (pre ++ l)
        (l.foldl (fun s x => minStep J_EPS r q x.1 x.2 s) s) := by
  intro l
  induction l with
  | nil => intro pre s h; simpa using h
  | cons x t ih =>
    intro pre s h
    have := ih (pre ++ [x]) _ (firstMinimum_step J_EPS r q pre x s h)
    simpa using this

/-- C3 (as the code has it). The minimisation step of `FindExit` visits the pairs of a
terminal door `t` (outer loop) and a scope door `d` (inner loop) and keeps the first pair
that attains the least sum `D[d][t] + local_distance(agent, d)` among the pairs that pass
its guards (local distance not below `-J_EPS`, matrix distance not plus infinity); the
door it selects for that pair is the next hop `P[d][t]` if that is a door of the agent's
subroom and `d` otherwise.  If no pair passes the guards with a sum below infinity, the
selected door is still -1. -/
theorem findExit_minimisation (J_EPS : ℚ) (r : Router) (q : ExitQuery) :
    FirstMinimum J_EPS r q (candidatePairs q) (minimise J_EPS r q) := by
  rw [minimise_eq_foldl]
  have := firstMinimum_foldl J_EPS r q (candidatePairs q) [] minInit
    (Or.inl ⟨rfl, fun x hx => by cases hx⟩)
  simpa using this

/-- C3 fails as stated.  For the router of `sampleBuilding` and the agent of `sampleQuery`,
door 1 minimises the sum (1 + 8 = 9, against 6 + 4 = 10 for door 3), yet the minimisation
step selects door 3, the next hop from door 1, which does not minimise it.  For the agent
of `tieQuery` the doors 3 and 1 both attain the least sum 9, and the step selects door 3,
which it visits first, not the door with the smallest UID. -/
theorem findExit_minimisation_counterexample :
    CalculateFloorFields 2 true sampleBuilding = some sampleRouter ∧
      (minimise (1 / 1000) sampleRouter sampleQuery).bestDoor = 3 ∧
      IsScopeMinimiser sampleRouter sampleQuery 1 ∧
      ¬ IsScopeMinimiser sampleRouter sampleQuery 3 ∧
      (minimise (1 / 1000) sampleRouter tieQuery).bestDoor = 3 ∧
      pairCost sampleRouter tieQuery (2, 1) = pairCost sampleRouter tieQuery (2, 3) ∧
      IsScopeMinimiser sampleRouter tieQuery 1 ∧ IsScopeMinimiser sampleRouter tieQuery 3 :=
  ⟨calculateFloorFields_eq sampleBuilding true 0 sampleBuilding_wellFormed, by decide!⟩

/-! ## `FindExit` without a usable door -/

/-- C7 (as the code has it). Let `u = TwosidedCalc(ux, uy, h)` with `h > 0`, computed with
a square root that is exact at the determinant `2 h² - (ux - uy)²`.  If the determinant is
not negative, `u` solves the equation without the clamping,
`(u - ux)² + (u - uy)² = h²`.  The discretised eikonal equation
`(max(0, u - ux))² + (max(0, u - uy))² = h²` holds if `|ux - uy| ≤ h` and if the
determinant is negative (then `u` is the smaller neighbour cost plus `h`). -/
theorem twosidedCalc_eikonal {K : Type} [LinearOrderedField K] (sqrt : K → K) (x y h : K)
    (hh : 0 < h)
    (hs : 0 ≤ 2 * h * h - (x - y) * (x - y) →
      0 ≤ sqrt (2 * h * h - (x - y) * (x - y)) ∧
      sqrt (2 * h * h - (x - y) * (x - y)) * sqrt (2 * h * h - (x - y) * (x - y)) =
        2 * h * h - (x - y) * (x - y)) :
    (0 ≤ 2 * h * h - (x - y) * (x - y) →
      (TwosidedCalc sqrt x y h - x) ^ 2 + (TwosidedCalc sqrt x y h - y) ^ 2 = h ^ 2) ∧
    (|x - y| ≤ h → eikonalLhs (TwosidedCalc sqrt x y h) x y = h ^ 2) ∧
    (2 * h * h - (x - y) * (x - y) < 0 →
      eikonalLhs (TwosidedCalc sqrt x y h) x y = h ^ 2) := by
  refine ⟨?_, ?_, ?_⟩
  · intro hd
    obtain ⟨_, hsq⟩ := hs hd
    unfold TwosidedCalc
    simp only [ge_iff_le, hd, if_true]
    have e1 : (x + y + sqrt (2 * h * h - (x - y) * (x - y))) / 2 - x =
        (y - x + sqrt (2 * h * h - (x - y) * (x - y))) / 2 := by ring
    have e2 : (x + y + sqrt (2 * h * h - (x - y) * (x - y))) / 2 - y =
        (x - y + sqrt (2 * h * h - (x - y) * (x - y))) / 2 := by ring
    rw [e1, e2]
    generalize sqrt (2 * h * h - (x - y) * (x - y)) = s at hsq
    have : ((y - x + s) / 2) ^ 2 + ((x - y + s) / 2) ^ 2 = ((x - y) * (x - y) + s * s) / 2 := by
      ring
    rw [this, hsq]
    ring
  · intro habs
    have hxy := abs_le.mp habs
    have hd : 0 ≤ 2 * h * h - (x - y) * (x - y) := by nlinarith [hxy.1, hxy.2]
    obtain ⟨hs0, hsq⟩ := hs hd
    unfold TwosidedCalc eikonalLhs
    simp only [ge_iff_le, hd, if_true]
    generalize sqrt (2 * h * h - (x - y) * (x - y)) = s at hsq hs0
    have hsh : h ≤ s := by
      by_contra hcon
      push_neg at hcon
      nlinarith [hxy.1, hxy.2]
    have h1 : 0 ≤ (x + y + s) / 2 - x := by linarith [hxy.1, hxy.2]
    have h2 : 0 ≤ (x + y + s) / 2 - y := by linarith [hxy.1, hxy.2]
    rw [max_eq_right h1, max_eq_right h2]
    have : ((x + y + s) / 2 - x) ^ 2 + ((x + y + s) / 2 - y) ^ 2 =
        ((x - y) * (x - y) + s * s) / 2 := by ring
    rw [this, hsq]
    ring
  · intro hd
    unfold TwosidedCalc eikonalLhs
    have hd2 : ¬ (0 ≤ 2 * h * h - (x - y) * (x - y)) := not_le.mpr hd
    simp only [ge_iff_le, hd2, if_false]
    by_cases hxy : x < y
    · rw [if_pos hxy]
      have h1 : x + h - x = h := by ring
      have h2 : x + h - y ≤ 0 := by
        by_contra hcon
        push_neg at hcon
        nlinarith
      rw [h1, max_eq_right (le_of_lt hh), max_eq_left h2]
      ring
    · rw [if_neg hxy]
      push_neg at hxy
      have h1 : y + h - y = h := by ring
      have h2 : y + h - x ≤ 0 := by
        by_contra hcon
        push_neg at hcon
        nlinarith
      rw [h1, max_eq_right (le_of_lt hh), max_eq_left h2]
      ring

theorem twosidedCalc_eikonal_witness :
    (0 : ℚ) < 1 / 8 ∧
      (0 ≤ 2 * (1 / 8 : ℚ) * (1 / 8) - (1 / 8 - 0) * (1 / 8 - 0) →
        0 ≤ sqrtQ (2 * (1 / 8) * (1 / 8) - (1 / 8 - 0) * (1 / 8 - 0)) ∧
        sqrtQ (2 * (1 / 8) * (1 / 8) - (1 / 8 - 0) * (1 / 8 - 0)) *
          sqrtQ (2 * (1 / 8) * (1 / 8) - (1 / 8 - 0) * (1 / 8 - 0)) =
            2 * (1 / 8) * (1 / 8) - (1 / 8 - 0) * (1 / 8 - 0)) ∧
      ((0 ≤ 2 * (1 / 8 : ℚ) * (1 / 8) - (1 / 8 - 0) * (1 / 8 - 0) →
        (TwosidedCalc sqrtQ (1 / 8) 0 (1 / 8) - 1 / 8) ^ 2 +
          (TwosidedCalc sqrtQ (1 / 8) 0 (1 / 8) - 0) ^ 2 = (1 / 8) ^ 2) ∧
      (|(1 / 8 : ℚ) - 0| ≤ 1 / 8 →
        eikonalLhs (TwosidedCalc sqrtQ (1 / 8) 0 (1 / 8)) (1 / 8) 0 = (1 / 8) ^ 2) ∧
      (2 * (1 / 8 : ℚ) * (1 / 8) - (1 / 8 - 0) * (1 / 8 - 0) < 0 →
        eikonalLhs (TwosidedCalc sqrtQ (1 / 8) 0 (1 / 8)) (1 / 8) 0 = (1 / 8) ^ 2)) :=
  ⟨by norm_num, fun _ => by decide!,
    twosidedCalc_eikonal sqrtQ (1 / 8) 0 (1 / 8) (by norm_num) (fun _ => by decide!)⟩

/-- C7 fails as stated.  With the grid spacing 1/8 and speed 1, the known neighbour costs
`ux = 7/40` and `uy = 0` have the determinant 1/1600, whose square root 1/40 is exact, and
`TwosidedCalc` returns `u = 1/10`, which `CalcCost` stores for the grid point 0 of
`sampleField`; as `u < ux`, the left-hand side of the discretised eikonal equation is
`u² = 1/100`, not `(1/8)² = 1/64`. -/
theorem twosidedCalc_counterexample :
    sqrtQ (1 / 1600) * sqrtQ (1 / 1600) = 1 / 1600 ∧
      TwosidedCalc sqrtQ (7 / 40) 0 (1 / 8) = 1 / 10 ∧
      CalcCost sampleField (fun _ => 1) 0 sampleCost 0 = Dbl.fin (1 / 10) ∧
      eikonalLhs (1 / 10 : ℚ) (7 / 40) 0 = 1 / 100 ∧
      eikonalLhs (1 / 10 : ℚ) (7 / 40) 0 ≠ (1 / 8) ^ 2 := by
  decide!

/-! ## The fast-marching loop `CalcFF` -/

theorem succ_mod_of_lt (c n : Nat) (h : c % n + 1 < n) : (c + 1) % n = c % n + 1 := by
  have h1 : 1 % n = 1 := Nat.mod_eq_of_lt (by omega)
  rw [Nat.add_mod, h1, Nat.mod_eq_of_lt h]

theorem pred_mod_of_pos (c n : Nat) (hn : 0 < n) (h : 0 < c % n) :
    (c - 1) % n + 1 = c % n ∧ 1 ≤ c := by
  have hc : 1 ≤ c := by
    rcases Nat.eq_zero_or_pos c with h0 | h0
    · rw [h0] at h; simp at h
    · exact h0
  refine ⟨?_, hc⟩
  have hlt : (c - 1) % n < n := Nat.mod_lt _ hn
  by_cases hcase : (c - 1) % n + 1 < n
  · have := succ_mod_of_lt (c - 1) n hcase
    rw [Nat.sub_add_cancel hc] at this
    exact this.symm
  · exfalso
    have heq : (c - 1) % n + 1 = n := by omega
    have : c % n = 0 := by
      by_cases h1 : n = 1
      · subst h1; exact Nat.mod_one c
      · have h2 : c = (c - 1) + 1 := (Nat.sub_add_cancel hc).symm
        have h3 : 1 % n = 1 := Nat.mod_eq_of_lt (by omega)
        rw [h2, Nat.add_mod, h3, heq, Nat.mod_self]
    omega

theorem nb_symm (F : FloorField) (hi : 0 < F.iMax) (c a : Nat) (hc : c < F.nPoints)
    (h : some a ∈ neighbours F c) : some c ∈ neighbours F a ∧ a < F.nPoints := by
  simp only [neighbours, List.mem_cons, List.mem_singleton, List.not_mem_nil, or_false] at h ⊢
  rcases h with h | h | h | h
  · unfold nbRight at h
    split at h
    · rename_i hcond
      injection h with h
      subst h
      refine ⟨Or.inr (Or.inr (Or.inl ?_)), hcond.2⟩
      unfold nbLeft
      rw [if_pos (by rw [succ_mod_of_lt c F.iMax hcond.1]; omega)]
      simp
    · cases h
  · unfold nbUp at h
    split at h
    · rename_i hcond
      injection h with h
      subst h
      refine ⟨Or.inr (Or.inr (Or.inr ?_)), hcond⟩
      unfold nbDown
      rw [if_pos (by omega)]
      simp
    · cases h
  · unfold nbLeft at h
    split at h
    · rename_i hcond
      injection h with h
      subst h
      obtain ⟨hmod, hc1⟩ := pred_mod_of_pos c F.iMax hi hcond
      refine ⟨Or.inl ?_, by omega⟩
      unfold nbRight
      have hlt : c % F.iMax < F.iMax := Nat.mod_lt _ hi
      rw [if_pos ⟨by omega, by omega⟩]
      congr 1
      omega
    · cases h
  · unfold nbDown at h
    split at h
    · rename_i hcond
      injection h with h
      subst h
      refine ⟨Or.inr (Or.inl ?_), by omega⟩
      unfold nbUp
      rw [if_pos (by omega)]
      congr 1
      omega
    · cases h

theorem twosidedCalc_nonneg (sqrt : ℚ → ℚ) (hs : ∀ d, 0 ≤ d → 0 ≤ sqrt d) (x y h : ℚ)
    (hx : 0 ≤ x) (hy : 0 ≤ y) (hh : 0 < h) : 0 ≤ TwosidedCalc sqrt x y h := by
  unfold TwosidedCalc
  simp only [ge_iff_le]
  split
  · rename_i hd
    have := hs _ hd
    linarith
  · split <;> linarith

theorem knownAt_val (F : FloorField) (cost : Nat → Dbl)
    (hinv : CostInv F cost) (aux : Option Nat) (v : Dbl) (h : knownAt F cost aux = some v) :
    ∃ q, 0 ≤ q ∧ v = Dbl.fin q := by
  unfold knownAt at h
  cases aux with
  | none => simp at h
  | some a =>
    simp only at h
    split at h
    · rename_i hcond
      injection h with h
      rcases hinv.free a hcond.2.2 with hfree | ⟨q, hq, hcq⟩
      · exact absurd hfree hcond.1
      · exact ⟨q, hq, by rw [← h, hcq]⟩
    · cases h

theorem knownAt_known (F : FloorField) (hu : F.unknownCost < 0) (hd : F.unknownDistance < 0)
    (cost : Nat → Dbl) (c : Nat) (hcw : F.gridCode c ≠ CellCode.WALL) (q : ℚ) (hq : 0 ≤ q)
    (hc : cost c = Dbl.fin q) : knownAt F cost (some c) = some (Dbl.fin q) := by
  unfold knownAt
  simp only
  rw [if_pos, hc]
  refine ⟨?_, ?_, hcw⟩
  · rw [hc]; intro h; injection h with h; linarith
  · rw [hc]; intro h; injection h with h; linarith

theorem axisMin_cases (F : FloorField) (cost : Nat → Dbl)
    (hinv : CostInv F cost) (first second : Option Nat) :
    axisMin F cost first second = Dbl.dmax ∨
      ∃ q, 0 ≤ q ∧ axisMin F cost first second = Dbl.fin q := by
  unfold axisMin
  have hr0 : ∀ r0 : Dbl, (r0 = Dbl.dmax ∨ ∃ q, 0 ≤ q ∧ r0 = Dbl.fin q) →
      ((match knownAt F cost second with
        | some c => if Dbl.lt c r0 then c else r0
        | none => r0) = Dbl.dmax ∨
      ∃ q, 0 ≤ q ∧ (match knownAt F cost second with
        | some c => if Dbl.lt c r0 then c else r0
        | none => r0) = Dbl.fin q) := by
    intro r0 hr0
    cases h2 : knownAt F cost second with
    | none => simpa using hr0
    | some c =>
      obtain ⟨q, hq, hc⟩ := knownAt_val F cost hinv second c h2
      simp only
      split
      · exact Or.inr ⟨q, hq, hc⟩
      · exact hr0
  apply hr0
  cases h1 : knownAt F cost first with
  | none => exact Or.inl rfl
  | some c =>
    obtain ⟨q, hq, hc⟩ := knownAt_val F cost hinv first c h1
    simp only
    rw [hc]
    have : Dbl.lt (Dbl.fin q) (Dbl.fin 0) = false := by simp [Dbl.lt, hq]
    rw [this]
    exact Or.inr ⟨q, hq, rfl⟩

theorem axisMin_known (F : FloorField) (hu : F.unknownCost < 0) (hd : F.unknownDistance < 0)
    (cost : Nat → Dbl) (hinv : CostInv F cost) (first second : Option Nat) (c : Nat)
    (hc : first = some c ∨ second = some c) (hcw : F.gridCode c ≠ CellCode.WALL)
    (hck : Known cost c) : ∃ q, 0 ≤ q ∧ axisMin F cost first second = Dbl.fin q := by
  obtain ⟨qc, hqc, hcc⟩ := hck
  have hk := knownAt_known F hu hd cost c hcw qc hqc hcc
  rcases axisMin_cases F cost hinv first second with h | h
  · exfalso
    unfold axisMin at h
    rcases hc with hc | hc
    · subst hc
      rw [hk] at h
      have hlt : Dbl.lt (Dbl.fin qc) (Dbl.fin 0) = false := by simp [Dbl.lt, hqc]
      simp only [hlt] at h
      cases h2 : knownAt F cost second with
      | none => rw [h2] at h; simp at h
      | some v =>
        rw [h2] at h
        obtain ⟨q, _, hv⟩ := knownAt_val F cost hinv second v h2
        subst hv
        simp only [Bool.false_eq_true, if_false] at h
        by_cases hlt2 : Dbl.lt (Dbl.fin q) (Dbl.fin qc) = true
        · rw [if_pos hlt2] at h; cases h
        · rw [if_neg hlt2] at h; cases h
    · subst hc
      rw [hk] at h
      simp only at h
      split at h
      · cases h
      · rename_i hnlt
        rw [h] at hnlt
        simp [Dbl.lt] at hnlt
  · exact h

theorem calcCost_known (F : FloorField) (speed : Nat → ℚ) (hA : FFAssumptions F speed)
    (cost : Nat → Dbl) (hinv : CostInv F cost) (a c : Nat)
    (hc : some c ∈ neighbours F a) (hcw : F.gridCode c ≠ CellCode.WALL)
    (hck : Known cost c) :
    ∃ q, 0 ≤ q ∧ CalcCost F speed a cost = setCost cost a (Dbl.fin q) := by
  have hhx : 0 < F.hx / speed a := div_pos hA.hx_pos (hA.speed_pos a)
  have hhy : 0 < F.hy / speed a := div_pos hA.hy_pos (hA.speed_pos a)
  have hside : (nbRight F a = some c ∨ nbLeft F a = some c) ∨
      (nbUp F a = some c ∨ nbDown F a = some c) := by
    simp only [neighbours, List.mem_cons, List.mem_singleton, List.not_mem_nil,
      or_false] at hc
    rcases hc with h | h | h | h
    · exact Or.inl (Or.inl h.symm)
    · exact Or.inr (Or.inl h.symm)
    · exact Or.inl (Or.inr h.symm)
    · exact Or.inr (Or.inr h.symm)
  have hrow := axisMin_cases F cost hinv (nbRight F a) (nbLeft F a)
  have hcol := axisMin_cases F cost hinv (nbUp F a) (nbDown F a)
  unfold CalcCost
  simp only
  rcases hcol with hcol | ⟨cq, hcq, hcol⟩
  · rw [if_pos hcol]
    rcases hside with hs | hs
    · obtain ⟨r, hr, hrow2⟩ := axisMin_known F hA.unknownCost_neg hA.unknownDistance_neg
        cost hinv _ _ c hs hcw hck
      rw [hrow2]
      exact ⟨r + F.hx / speed a, by linarith, rfl⟩
    · obtain ⟨r, _, hcol2⟩ := axisMin_known F hA.unknownCost_neg hA.unknownDistance_neg
        cost hinv _ _ c hs hcw hck
      rw [hcol] at hcol2
      cases hcol2
  · have hne : axisMin F cost (nbUp F a) (nbDown F a) ≠ Dbl.dmax := by
      rw [hcol]; intro h; cases h
    rw [if_neg hne]
    rcases hrow with hrow | ⟨r, hr, hrow⟩
    · rw [if_pos hrow, hcol]
      exact ⟨cq + F.hy / speed a, by linarith, rfl⟩
    · have hne2 : axisMin F cost (nbRight F a) (nbLeft F a) ≠ Dbl.dmax := by
        rw [hrow]; intro h; cases h
      rw [if_neg hne2, hrow, hcol]
      have hnn := twosidedCalc_nonneg F.sqrt hA.sqrt_nonneg r cq (F.hx / speed a) hr hcq hhx
      have hlt : Dbl.lt (TwosidedCalcD F.sqrt (Dbl.fin r) (Dbl.fin cq) (F.hx / speed a))
          (Dbl.fin 0) = false := by
        simp [TwosidedCalcD, Dbl.lt, hnn]
      rw [hlt]
      exact ⟨_, hnn, rfl⟩

theorem Known.not_neg {cost : Nat → Dbl} {k : Nat} (h : Known cost k) :
    Dbl.lt (cost k) (Dbl.fin 0) = false := by
  obtain ⟨q, hq, hc⟩ := h
  rw [hc]
  simp [Dbl.lt, hq]

theorem known_of_not_neg (F : FloorField) (speed : Nat → ℚ) (hA : FFAssumptions F speed)
    (cost : Nat → Dbl) (hinv : CostInv F cost) (a : Nat)
    (haw : F.gridCode a ≠ CellCode.WALL) (h : ¬ Dbl.lt (cost a) (Dbl.fin 0) = true) :
    Known cost a := by
  rcases hinv.free a haw with hf | hk
  · exfalso
    apply h
    rw [hf]
    simp [Dbl.lt, hA.unknownCost_neg]
  · exact hk

theorem Ext.extRefl (F : FloorField) (s : (Nat → Dbl) × List Nat) : Ext F s s :=
  ⟨fun _ _ => rfl, fun _ h => h, fun _ _ h => Or.inl h⟩

theorem Ext.known {F : FloorField} {s t : (Nat → Dbl) × List Nat} (h : Ext F s t) (k : Nat)
    (hk : Known s.1 k) : Known t.1 k := by
  obtain ⟨q, hq, hc⟩ := hk
  exact ⟨q, hq, by rw [h.1 k ⟨q, hq, hc⟩]; exact hc⟩

theorem Ext.extTrans {F : FloorField} {s t u : (Nat → Dbl) × List Nat} (h1 : Ext F s t)
    (h2 : Ext F t u) : Ext F s u := by
  refine ⟨?_, ?_, ?_⟩
  · intro k hk
    rw [h2.1 k (h1.known k hk), h1.1 k hk]
  · intro k hk
    exact h2.2.1 k (h1.2.1 k hk)
  · intro k hkw hk
    rcases h2.2.2 k hkw hk with h | h
    · rcases h1.2.2 k hkw h with h | h
      · exact Or.inl h
      · exact Or.inr (h2.2.1 k h)
    · exact Or.inr h

theorem Ext.done {F : FloorField} {s t : (Nat → Dbl) × List Nat} (h : Ext F s t) (c : Nat)
    (hd : Done F s.1 c) : Done F t.1 c :=
  fun a ha haw hao => h.known a (hd a ha haw hao)

theorem visit_spec (F : FloorField) (speed : Nat → ℚ) (hA : FFAssumptions F speed)
    (c : Nat) (aux : Option Nat) (s : (Nat → Dbl) × List Nat) (hinv : TrialInv F s)
    (hc : c < F.nPoints) (hcw : F.gridCode c ≠ CellCode.WALL) (hck : Known s.1 c)
    (haux : aux ∈ neighbours F c) :
    TrialInv F (visit F speed aux s) ∧ Ext F s (visit F speed aux s) ∧
      trialMeasure F (visit F speed aux s) ≤ trialMeasure F s ∧
      ∀ a, aux = some a → F.gridCode a ≠ CellCode.WALL →
        F.gridCode a ≠ CellCode.OUTSIDE → Known (visit F speed aux s).1 a := by
  cases aux with
  | none =>
    exact ⟨hinv, Ext.extRefl F s, le_refl _, fun a h => by cases h⟩
  | some a =>
    unfold visit
    simp only
    by_cases hcond : F.gridCode a ≠ CellCode.WALL ∧ F.gridCode a ≠ CellCode.OUTSIDE ∧
        Dbl.lt (s.1 a) (Dbl.fin 0) = true
    · rw [if_pos hcond]
      obtain ⟨haw, _, hneg⟩ := hcond
      obtain ⟨hsym, han⟩ := nb_symm F hA.iMax_pos c a hc haux
      obtain ⟨q, hq, hcalc⟩ := calcCost_known F speed hA s.1 hinv.cost a c hsym hcw hck
      rw [hcalc]
      have hne : ∀ k, Known s.1 k → k ≠ a := by
        intro k hk hka
        rw [hka] at hk
        rw [hk.not_neg] at hneg
        cases hneg
      have hknew : Known (setCost s.1 a (Dbl.fin q)) a := ⟨q, hq, by simp [setCost]⟩
      have hkeep : ∀ k, Known s.1 k → Known (setCost s.1 a (Dbl.fin q)) k := by
        intro k hk
        obtain ⟨r, hr, hkr⟩ := hk
        exact ⟨r, hr, by simp [setCost, hne k ⟨r, hr, hkr⟩, hkr]⟩
      refine ⟨⟨⟨?_, ?_⟩, ?_⟩, ⟨?_, ?_, ?_⟩, ?_, ?_⟩
      · intro k hkw
        have hka : k ≠ a := fun h => haw (h ▸ hkw)
        simp only [setCost, if_neg hka]
        exact hinv.cost.wall k hkw
      · intro k hkw
        by_cases hka : k = a
        · rw [hka]; exact Or.inr hknew
        · rcases hinv.cost.free k hkw with h | h
          · left; simp only [setCost, if_neg hka]; exact h
          · exact Or.inr (hkeep k h)
      · intro k hk
        rcases List.mem_append.mp hk with h | h
        · obtain ⟨h1, h2, h3⟩ := hinv.queue k h
          exact ⟨h1, h2, hkeep k h3⟩
        · rw [List.mem_singleton.mp h]
          exact ⟨han, haw, hknew⟩
      · intro k hk
        simp only [setCost, if_neg (hne k hk)]
      · intro k hk
        exact List.mem_append_left _ hk
      · intro k _ hk
        by_cases hka : k = a
        · right; rw [hka]; simp
        · left
          obtain ⟨r, hr, hkr⟩ := hk
          simp only [setCost, if_neg hka] at hkr
          exact ⟨r, hr, hkr⟩
      · unfold trialMeasure negCount
        simp only [List.length_append, List.length_singleton]
        have hlt := countP_lt_of_imp
          (fun k => Dbl.lt (setCost s.1 a (Dbl.fin q) k) (Dbl.fin 0))
          (fun k => Dbl.lt (s.1 k) (Dbl.fin 0)) a hneg (by simp [setCost, Dbl.lt, hq])
          (List.range F.nPoints)
          (by
            intro k _ hk
            by_cases hka : k = a
            · rw [hka]; exact hneg
            · simpa [setCost, hka] using hk)
          (List.mem_range.mpr han)
        omega
      · intro a2 ha2 _ _
        injection ha2 with ha2
        rw [← ha2]
        exact hknew
    · rw [if_neg hcond]
      refine ⟨hinv, Ext.extRefl F s, le_refl _, ?_⟩
      intro a2 ha2 haw hao
      injection ha2 with ha2
      rw [← ha2] at haw hao
      rw [← ha2]
      apply known_of_not_neg F speed hA s.1 hinv.cost a haw
      intro hneg
      exact hcond ⟨haw, hao, hneg⟩

theorem visitAll_spec (F : FloorField) (speed : Nat → ℚ) (hA : FFAssumptions F speed)
    (c : Nat) (s : (Nat → Dbl) × List Nat) (hinv : TrialInv F s)
    (hc : c < F.nPoints) (hcw : F.gridCode c ≠ CellCode.WALL) (hck : Known s.1 c) :
    TrialInv F (visitAll F speed c s) ∧ Ext F s (visitAll F speed c s) ∧
      trialMeasure F (visitAll F speed c s) ≤ trialMeasure F s ∧
      Done F (visitAll F speed c s).1 c := by
  have m0 : nbRight F c ∈ neighbours F c := by simp [neighbours]
  have m1 : nbUp F c ∈ neighbours F c := by simp [neighbours]
  have m2 : nbLeft F c ∈ neighbours F c := by simp [neighbours]
  have m3 : nbDown F c ∈ neighbours F c := by simp [neighbours]
  obtain ⟨i0, e0, l0, k0⟩ := visit_spec F speed hA c _ s hinv hc hcw hck m0
  obtain ⟨i1, e1, l1, k1⟩ := visit_spec F speed hA c _ _ i0 hc hcw (e0.known c hck) m1
  obtain ⟨i2, e2, l2, k2⟩ := visit_spec F speed hA c _ _ i1 hc hcw
    (e1.known c (e0.known c hck)) m2
  obtain ⟨i3, e3, l3, k3⟩ := visit_spec F speed hA c _ _ i2 hc hcw
    (e2.known c (e1.known c (e0.known c hck))) m3
  refine ⟨i3, (e0.extTrans e1).extTrans (e2.extTrans e3), by unfold visitAll; omega, ?_⟩
  intro a ha haw hao
  simp only [neighbours, List.mem_cons, List.mem_singleton, List.not_mem_nil,
    or_false] at ha
  unfold visitAll
  rcases ha with h | h | h | h
  · exact e3.known a (e2.known a (e1.known a (k0 a h.symm haw hao)))
  · exact e3.known a (e2.known a (k1 a h.symm haw hao))
  · exact e3.known a (k2 a h.symm haw hao)
  · exact k3 a h.symm haw hao

theorem frontier_after (F : FloorField) (speed : Nat → ℚ) (hA : FFAssumptions F speed)
    (c i : Nat) (s : (Nat → Dbl) × List Nat) (hinv : TrialInv F s)
    (hc : c < F.nPoints) (hcw : F.gridCode c ≠ CellCode.WALL) (hck : Known s.1 c)
    (hfr : ∀ k, k < F.nPoints → F.gridCode k ≠ CellCode.WALL → Known s.1 k →
      k ∈ s.2 ∨ Done F s.1 k ∨ (i ≤ k ∧ s.1 k = Dbl.fin 0) ∨ k = c) :
    Frontier F i (visitAll F speed c s) := by
  obtain ⟨_, hext, _, hdone⟩ := visitAll_spec F speed hA c s hinv hc hcw hck
  intro k hk hkw hkk
  rcases hext.2.2 k hkw hkk with hold | hq
  · rcases hfr k hk hkw hold with h | h | h | h
    · exact Or.inl (hext.2.1 k h)
    · exact Or.inr (Or.inl (hext.done k h))
    · exact Or.inr (Or.inr ⟨h.1, by rw [hext.1 k hold]; exact h.2⟩)
    · rw [h]; exact Or.inr (Or.inl hdone)
  · exact Or.inl hq

theorem initTrial_spec (F : FloorField) (speed : Nat → ℚ) (hA : FFAssumptions F speed)
    (cost0 : Nat → Dbl) (hinv0 : CostInv F cost0)
    (hinit : ∀ k, F.gridCode k ≠ CellCode.WALL →
      cost0 k = Dbl.fin 0 ∨ cost0 k = Dbl.fin F.unknownCost) :
    ∀ n, n ≤ F.nPoints →
      TrialInv F ((List.range n).foldl
        (fun s i => if s.1 i = Dbl.fin 0 then visitAll F speed i s else s) (cost0, [])) ∧
      Ext F (cost0, []) ((List.range n).foldl
        (fun s i => if s.1 i = Dbl.fin 0 then visitAll F speed i s else s) (cost0, [])) ∧
      trialMeasure F ((List.range n).foldl
        (fun s i => if s.1 i = Dbl.fin 0 then visitAll F speed i s else s) (cost0, []))
          ≤ 2 * F.nPoints ∧
      Frontier F n ((List.range n).foldl
        (fun s i => if s.1 i = Dbl.fin 0 then visitAll F speed i s else s) (cost0, [])) := by
  intro n
  induction n with
  | zero =>
    intro _
    refine ⟨⟨hinv0, fun k hk => by cases hk⟩, Ext.extRefl F _, ?_, ?_⟩
    · unfold trialMeasure negCount
      have := List.countP_le_length (fun k => Dbl.lt (cost0 k) (Dbl.fin 0))
        (l := List.range F.nPoints)
      simp only [List.length_range] at this
      simp only [List.range_zero, List.foldl_nil, List.length_nil]
      omega
    · intro k _ hkw hkk
      right; right
      refine ⟨Nat.zero_le _, ?_⟩
      simp only [List.range_zero, List.foldl_nil] at hkk ⊢
      rcases hinit k hkw with h | h
      · exact h
      · exfalso
        have := hkk.not_neg
        rw [h] at this
        simp [Dbl.lt, hA.unknownCost_neg] at this
  | succ n ih =>
    intro hn
    obtain ⟨hinv, hext, hmeas, hfr⟩ := ih (by omega)
    rw [List.range_succ, List.foldl_append]
    simp only [List.foldl_cons, List.foldl_nil]
    generalize (List.range n).foldl
      (fun s i => if s.1 i = Dbl.fin 0 then visitAll F speed i s else s) (cost0, []) = s
      at hinv hext hmeas hfr
    by_cases h0 : s.1 n = Dbl.fin 0
    · rw [if_pos h0]
      have hnw : F.gridCode n ≠ CellCode.WALL := fun h => hinv.cost.wall n h h0
      have hnk : Known s.1 n := ⟨0, le_refl 0, h0⟩
      obtain ⟨hinv2, hext2, hmeas2, _⟩ := visitAll_spec F speed hA n s hinv (by omega) hnw hnk
      refine ⟨hinv2, hext.extTrans hext2, by omega, ?_⟩
      apply frontier_after F speed hA n (n + 1) s hinv (by omega) hnw hnk
      intro k hk hkw hkk
      rcases hfr k hk hkw hkk with h | h | h
      · exact Or.inl h
      · exact Or.inr (Or.inl h)
      · by_cases hkn : k = n
        · exact Or.inr (Or.inr (Or.inr hkn))
        · exact Or.inr (Or.inr (Or.inl ⟨by omega, h.2⟩))
    · rw [if_neg h0]
      refine ⟨hinv, hext, hmeas, ?_⟩
      intro k hk hkw hkk
      rcases hfr k hk hkw hkk with h | h | h
      · exact Or.inl h
      · exact Or.inr (Or.inl h)
      · right; right
        refine ⟨?_, h.2⟩
        by_contra hcon
        have hkn : k = n := by omega
        rw [hkn] at h
        exact h0 h.2

theorem mem_eraseIdx_of_ne (l : List Nat) (idx k : Nat) (hk : k ∈ l)
    (hne : l.getD idx 0 ≠ k) : k ∈ l.eraseIdx idx := by
  rw [List.mem_eraseIdx_iff_getElem?]
  obtain ⟨i, hi⟩ := List.mem_iff_getElem?.mp hk
  refine ⟨i, ?_, hi⟩
  intro hidx
  apply hne
  rw [← hidx]
  simp [hi]

theorem marchLoop_spec (F : FloorField) (speed : Nat → ℚ) (hA : FFAssumptions F speed)
    (top : (Nat → Dbl) → List Nat → Nat) :
    ∀ (fuel : Nat) (s : (Nat → Dbl) × List Nat), TrialInv F s → Frontier F F.nPoints s →
      trialMeasure F s ≤ fuel →
      ∃ cost, marchLoop F speed top fuel s = some cost ∧ CostInv F cost ∧
        (∀ k, Known s.1 k → cost k = s.1 k) ∧
        ∀ k, k < F.nPoints → F.gridCode k ≠ CellCode.WALL → Known cost k →
          Done F cost k := by
  have hempty : ∀ s : (Nat → Dbl) × List Nat, TrialInv F s → Frontier F F.nPoints s →
      s.2 = [] →
      CostInv F s.1 ∧ (∀ k, Known s.1 k → s.1 k = s.1 k) ∧
        ∀ k, k < F.nPoints → F.gridCode k ≠ CellCode.WALL → Known s.1 k → Done F s.1 k := by
    intro s hinv hfr hq
    refine ⟨hinv.cost, fun _ _ => rfl, ?_⟩
    intro k hk hkw hkk
    rcases hfr k hk hkw hkk with h | h | h
    · rw [hq] at h; cases h
    · exact h
    · omega
  intro fuel
  induction fuel with
  | zero =>
    intro s hinv hfr hm
    have hq : s.2 = [] := by
      unfold trialMeasure at hm
      exact List.length_eq_zero.mp (by omega)
    exact ⟨s.1, by simp [marchLoop, hq], hempty s hinv hfr hq⟩
  | succ fuel ih =>
    intro s hinv hfr hm
    by_cases hq : s.2 = []
    · exact ⟨s.1, by simp [marchLoop, hq], hempty s hinv hfr hq⟩
    · have hlen : 0 < s.2.length := List.length_pos.mpr hq
      have hidx : top s.1 s.2 % s.2.length < s.2.length := Nat.mod_lt _ hlen
      have hmem : s.2.getD (top s.1 s.2 % s.2.length) 0 ∈ s.2 := by
        rw [List.getD_eq_getElem _ _ hidx]
        exact List.getElem_mem _
      obtain ⟨hc, hcw, hck⟩ := hinv.queue _ hmem
      have hinv1 : TrialInv F (s.1, s.2.eraseIdx (top s.1 s.2 % s.2.length)) :=
        ⟨hinv.cost, fun k hk => hinv.queue k (List.mem_of_mem_eraseIdx hk)⟩
      have hm1 : trialMeasure F (s.1, s.2.eraseIdx (top s.1 s.2 % s.2.length)) ≤ fuel := by
        unfold trialMeasure at hm ⊢
        simp only [List.length_eraseIdx_of_lt hidx]
        omega
      obtain ⟨hinv2, hext2, hm2, _⟩ := visitAll_spec F speed hA _ _ hinv1 hc hcw hck
      have hfr2 := frontier_after F speed hA _ F.nPoints _ hinv1 hc hcw hck (by
        intro k hk hkw hkk
        rcases hfr k hk hkw hkk with h | h | h
        · by_cases hkc : s.2.getD (top s.1 s.2 % s.2.length) 0 = k
          · exact Or.inr (Or.inr (Or.inr hkc.symm))
          · exact Or.inl (mem_eraseIdx_of_ne _ _ _ h hkc)
        · exact Or.inr (Or.inl h)
        · omega)
      obtain ⟨cost, hrun, hci, hkeep, hdone⟩ := ih _ hinv2 hfr2 (by omega)
      refine ⟨cost, ?_, hci, ?_, hdone⟩
      · rw [marchLoop, if_neg hq]
        exact hrun
      · intro k hk
        rw [hkeep k (hext2.known k hk), hext2.1 k hk]

/-- C8. Let the cost grid hold 0 at the target grid points and the negative unknown value
at all other grid points that are no wall (no wall holds 0), with strictly positive speed
and grid spacing.  Then `UnivFFviaFM::CalcFF` returns (the second loop runs at most
`2 * nPoints` times, whatever the order of the queue), and every grid point that is
connected to a target grid point by a 4-neighbour path of grid points that are neither
wall nor outside holds a finite cost that is not negative. -/
theorem calcFF_reachable (F : FloorField) (speed : Nat → ℚ)
    (top : (Nat → Dbl) → List Nat → Nat) (fuel : Nat) (cost0 : Nat → Dbl)
    (hA : FFAssumptions F speed)
    (hwall : ∀ k, F.gridCode k = CellCode.WALL → cost0 k ≠ Dbl.fin 0)
    (hinit : ∀ k, F.gridCode k ≠ CellCode.WALL →
      cost0 k = Dbl.fin 0 ∨ cost0 k = Dbl.fin F.unknownCost)
    (hfuel : 2 * F.nPoints ≤ fuel) :
    ∃ cost, CalcFF F speed top fuel cost0 = some cost ∧
      ∀ t c, t < F.nPoints → cost0 t = Dbl.fin 0 → Reach F t c →
        ∃ q, 0 ≤ q ∧ cost c = Dbl.fin q := by
  have hinv0 : CostInv F cost0 := by
    refine ⟨hwall, ?_⟩
    intro k hkw
    rcases hinit k hkw with h | h
    · exact Or.inr ⟨0, le_refl 0, h⟩
    · exact Or.inl h
  obtain ⟨hinv, hext, hmeas, hfr⟩ := initTrial_spec F speed hA cost0 hinv0 hinit F.nPoints
    (le_refl _)
  obtain ⟨cost, hrun, _, hkeep, hdone⟩ := marchLoop_spec F speed hA top fuel _ hinv hfr
    (by omega)
  refine ⟨cost, hrun, ?_⟩
  intro t c ht ht0 hreach
  have hkt : Known cost t := by
    have h1 : Known cost0 t := ⟨0, le_refl 0, ht0⟩
    have h2 := hext.known t h1
    obtain ⟨q, hq, hc⟩ := h2
    exact ⟨q, hq, by rw [hkeep t ⟨q, hq, hc⟩]; exact hc⟩
  have key : c < F.nPoints ∧ F.gridCode c ≠ CellCode.WALL ∧ Known cost c := by
    induction hreach with
    | start hw _ => exact ⟨ht, hw, hkt⟩
    | step c a _ hnb haw hao ih =>
      obtain ⟨hc, hcw, hck⟩ := ih
      exact ⟨(nb_symm F hA.iMax_pos c a hc hnb).2, haw, hdone c hc hcw hck a hnb haw hao⟩
  exact key.2.2

theorem sampleField_assumptions : FFAssumptions sampleField (fun _ => 1) := by
  refine ⟨by decide, by norm_num [sampleField], by norm_num [sampleField],
    fun _ => by norm_num, by norm_num [sampleField], by norm_num [sampleField], ?_⟩
  intro d _
  show 0 ≤ sqrtQ d
  unfold sqrtQ
  exact div_nonneg (Nat.cast_nonneg _) (Nat.cast_nonneg _)

theorem calcFF_reachable_witness :
    FFAssumptions sampleField (fun _ => 1) ∧
      (∀ k, sampleField.gridCode k = CellCode.WALL → sampleInitCost k ≠ Dbl.fin 0) ∧
      (∀ k, sampleField.gridCode k ≠ CellCode.WALL →
        sampleInitCost k = Dbl.fin 0 ∨ sampleInitCost k = Dbl.fin sampleField.unknownCost) ∧
      2 * sampleField.nPoints ≤ 8 ∧
      ∃ cost, CalcFF sampleField (fun _ => 1) minTop 8 sampleInitCost = some cost ∧
        ∀ t c, t < sampleField.nPoints → sampleInitCost t = Dbl.fin 0 →
          Reach sampleField t c → ∃ q, 0 ≤ q ∧ cost c = Dbl.fin q :=
  ⟨sampleField_assumptions,
    fun k h => by simp [sampleField] at h,
    fun k _ => by
      by_cases hk : k = 2
      · left; simp [sampleInitCost, hk]
      · right; simp [sampleInitCost, hk, sampleField],
    by decide,
    calcFF_reachable sampleField (fun _ => 1) minTop 8 sampleInitCost
      sampleField_assumptions
      (fun k h => by simp [sampleField] at h)
      (fun k _ => by
        by_cases hk : k = 2
        · left; simp [sampleInitCost, hk]
        · right; simp [sampleInitCost, hk, sampleField])
      (by decide)⟩

/-! ## Snapping in `GetCostToDestination` -/

/-- C9, the failing input. On a grid of 4 grid points (2 in a row) that are all outside, the
snapping step for the last grid point, key 3, reads `_gridCode[4]`, one past the end of the
array; and if that read yields a value that is neither outside nor wall, the key becomes 4,
which denotes no grid point. -/
theorem snapKey_reads_past_end :
    (snapKey 4 2 (fun _ => CellCode.OUTSIDE) 3).reads = [3, 4, 2, 1] ∧
      (snapKey 4 2 (fun i => if i = 4 then CellCode.INSIDE else CellCode.OUTSIDE) 3).key = 4 := by
  decide

theorem mem_snapReads (nPoints iMax key : Int) (stage : Nat) (i : Int)
    (h : i ∈ snapReads nPoints iMax key stage) :
    i = key ∨ (i = key + 1 ∧ key + 1 ≤ nPoints) ∨ (i = key - 1 ∧ key - 1 ≥ 0) ∨
      (i = key - iMax ∧ key ≥ iMax) ∨ (i = key + iMax ∧ key < nPoints - iMax) := by
  unfold snapReads at h
  simp only [List.mem_append, List.mem_singleton] at h
  rcases h with (((h | h) | h) | h) | h
  · exact Or.inl h
  · split at h
    · rename_i hc
      exact Or.inr (Or.inl ⟨List.mem_singleton.mp h, hc.2⟩)
    · cases h
  · split at h
    · rename_i hc
      exact Or.inr (Or.inr (Or.inl ⟨List.mem_singleton.mp h, hc.2⟩))
    · cases h
  · split at h
    · rename_i hc
      exact Or.inr (Or.inr (Or.inr (Or.inl ⟨List.mem_singleton.mp h, hc.2⟩)))
    · cases h
  · split at h
    · rename_i hc
      exact Or.inr (Or.inr (Or.inr (Or.inr ⟨List.mem_singleton.mp h, hc.2⟩)))
    · cases h

theorem snapKey_reads (nPoints iMax : Int) (gridCode : Int → CellCode) (key : Int) :
    ∃ stage, (snapKey nPoints iMax gridCode key).reads = snapReads nPoints iMax key stage := by
  unfold snapKey
  split
  · split
    · exact ⟨1, rfl⟩
    · split
      · exact ⟨2, rfl⟩
      · split
        · exact ⟨3, rfl⟩
        · split
          · exact ⟨4, rfl⟩
          · exact ⟨4, rfl⟩
  · exact ⟨0, rfl⟩

theorem snapKey_inBounds (nPoints iMax : Int) (gridCode : Int → CellCode) (key : Int)
    (h0 : 0 ≤ key) (h1 : key + 1 < nPoints) (hi : 0 < iMax) :
    (∀ i ∈ (snapKey nPoints iMax gridCode key).reads, 0 ≤ i ∧ i < nPoints) ∧
      ((snapKey nPoints iMax gridCode key).key ≠ key →
        isFree (gridCode (snapKey nPoints iMax gridCode key).key) = true) := by
  refine ⟨?_, ?_⟩
  · intro i hmem
    obtain ⟨stage, hst⟩ := snapKey_reads nPoints iMax gridCode key
    rw [hst] at hmem
    rcases mem_snapReads nPoints iMax key stage i hmem with h | h | h | h | h <;> omega
  · unfold snapKey
    split
    · split
      · rename_i hc; exact fun _ => hc.2
      · split
        · rename_i hc; exact fun _ => hc.2
        · split
          · rename_i hc; exact fun _ => hc.2
          · split
            · rename_i hc; exact fun _ => hc.2
            · exact fun h => absurd rfl h
    · exact fun h => absurd rfl h

/-! ## The inside points of the constructor of `UnivFFviaFM` -/

theorem insidePoint_ok (sqrt : ℚ → ℚ) (J_EPS : ℚ) (s : SubRoom) (p : Point)
    (h : insidePoint sqrt J_EPS s = Except.ok p) :
    IsSeed sqrt J_EPS s p ∧ s.isInSubRoom p = true := by
  unfold insidePoint at h
  cases hd : chosenDoor s with
  | none => rw [hd] at h; cases h
  | some door =>
    rw [hd] at h
    simp only at h
    by_cases h1 : s.isInSubRoom (candidate01 sqrt J_EPS door) = true
    · rw [if_pos h1] at h
      injection h with h
      subst h
      exact ⟨⟨door, hd, Or.inl ⟨h1, rfl⟩⟩, h1⟩
    · rw [if_neg h1] at h
      by_cases h2 : s.isInSubRoom (candidate02 sqrt J_EPS door) = true
      · rw [if_pos h2] at h
        injection h with h
        subst h
        exact ⟨⟨door, hd, Or.inr ⟨by simpa using h1, h2, rfl⟩⟩, h2⟩
      · rw [if_neg h2] at h
        cases h

theorem insidePoint_error (sqrt : ℚ → ℚ) (J_EPS : ℚ) (s : SubRoom) :
    (∃ e, insidePoint sqrt J_EPS s = Except.error e) ↔ HasNoSeed sqrt J_EPS s := by
  unfold insidePoint HasNoSeed
  cases hd : chosenDoor s with
  | none => simp
  | some door =>
    simp only [Option.some.injEq, exists_eq_left', false_or]
    by_cases h1 : s.isInSubRoom (candidate01 sqrt J_EPS door) = true
    · simp [h1]
    · by_cases h2 : s.isInSubRoom (candidate02 sqrt J_EPS door) = true
      · simp [h1, h2]
      · simp [h1, h2]

/-- C10. For the subrooms of the room, the constructor of `UnivFFviaFM` either records an
inside point for every subroom, in order, or throws a logic error.  The point recorded for a
subroom is the centre of the chosen door (the first transition, else the first crossing)
plus 0.25 times the door's normal vector if that point lies in the subroom, otherwise the
centre minus 0.25 times the normal vector, which then lies in the subroom; so every
recorded point lies inside its subroom.  The constructor throws exactly if some subroom
has no crossing and no transition or neither of its two candidate points lies in it. -/
theorem constructor_insidePoints (sqrt : ℚ → ℚ) (J_EPS : ℚ) (subrooms : List SubRoom) :
    (∀ ps, insidePoints sqrt J_EPS subrooms = Except.ok ps →
      ps.map Prod.fst = subrooms ∧
        ∀ sp ∈ ps, IsSeed sqrt J_EPS sp.1 sp.2 ∧ sp.1.isInSubRoom sp.2 = true) ∧
    ((∃ e, insidePoints sqrt J_EPS subrooms = Except.error e) ↔
      ∃ s ∈ subrooms, HasNoSeed sqrt J_EPS s) := by
  induction subrooms with
  | nil =>
    refine ⟨?_, ?_⟩
    · intro ps h
      simp only [insidePoints] at h
      injection h with h
      subst h
      exact ⟨rfl, fun sp hsp => by cases hsp⟩
    · simp [insidePoints]
  | cons s rest ih =>
    obtain ⟨ihok, iherr⟩ := ih
    cases hs : insidePoint sqrt J_EPS s with
    | error e =>
      have hno : HasNoSeed sqrt J_EPS s := (insidePoint_error sqrt J_EPS s).mp ⟨e, hs⟩
      refine ⟨?_, ?_⟩
      · intro ps h
        simp only [insidePoints, hs] at h
        cases h
      · constructor
        · intro _
          exact ⟨s, List.mem_cons_self _ _, hno⟩
        · intro _
          exact ⟨e, by simp only [insidePoints, hs]⟩
    | ok p =>
      obtain ⟨hseed, hin⟩ := insidePoint_ok sqrt J_EPS s p hs
      have hyes : ¬ HasNoSeed sqrt J_EPS s := by
        intro hno
        obtain ⟨e, he⟩ := (insidePoint_error sqrt J_EPS s).mpr hno
        rw [hs] at he
        cases he
      cases hr : insidePoints sqrt J_EPS rest with
      | error e =>
        refine ⟨?_, ?_⟩
        · intro ps h
          simp only [insidePoints, hs, hr] at h
          cases h
        · constructor
          · intro _
            obtain ⟨t, ht, hno⟩ := iherr.mp ⟨e, hr⟩
            exact ⟨t, List.mem_cons_of_mem _ ht, hno⟩
          · intro _
            exact ⟨e, by simp only [insidePoints, hs, hr]⟩
      | ok qs =>
        obtain ⟨hmap, hall⟩ := ihok qs hr
        refine ⟨?_, ?_⟩
        · intro ps h
          simp only [insidePoints, hs, hr] at h
          injection h with h
          subst h
          refine ⟨by simp [hmap], ?_⟩
          intro sp hsp
          rcases List.mem_cons.mp hsp with h | h
          · rw [h]; exact ⟨hseed, hin⟩
          · exact hall sp h
        · constructor
          · rintro ⟨e, he⟩
            simp only [insidePoints, hs, hr] at he
            cases he
          · rintro ⟨t, ht, hno⟩
            exfalso
            rcases List.mem_cons.mp ht with h | h
            · rw [h] at hno; exact hyes hno
            · obtain ⟨e, he⟩ := iherr.mpr ⟨t, h, hno⟩
              rw [hr] at he
              cases he

theorem normalVec_unit (sqrt : ℚ → ℚ) (J_EPS : ℚ) (l : Line) (hJ0 : 0 < J_EPS)
    (hJ1 : J_EPS ≤ 1)
    (hsq : sqrt (Point.NormSquare ⟨-(l.point2.sub l.point1).y, (l.point2.sub l.point1).x⟩) *
        sqrt (Point.NormSquare ⟨-(l.point2.sub l.point1).y, (l.point2.sub l.point1).x⟩) =
      Point.NormSquare ⟨-(l.point2.sub l.point1).y, (l.point2.sub l.point1).x⟩)
    (hlen : J_EPS <
      sqrt (Point.NormSquare ⟨-(l.point2.sub l.point1).y, (l.point2.sub l.point1).x⟩)) :
    (l.NormalVec sqrt J_EPS).NormSquare = 1 := by
  unfold Line.NormalVec Point.Normalized Point.Norm
  simp only
  generalize hn : sqrt (Point.NormSquare
    ⟨-(l.point2.sub l.point1).y, (l.point2.sub l.point1).x⟩) = n at hsq hlen
  have hn0 : 0 < n := lt_trans hJ0 hlen
  have hJ2 : J_EPS * J_EPS < n := by nlinarith
  rw [if_pos hlen]
  unfold Point.div
  rw [if_pos hJ2]
  unfold Point.NormSquare at hsq ⊢
  simp only at hsq ⊢
  have hne : n ≠ 0 := ne_of_gt hn0
  field_simp
  nlinarith [hsq]

/-! ## Distribute: the counts per subroom -/

theorem capLoop_eq (k : Nat) : ∀ (anz mx : Int), (anz - mx).toNat ≤ k →
    capLoop k anz mx = min anz mx := by
  induction k with
  | zero =>
    intro anz mx h
    have : anz ≤ mx := by omega
    simp [capLoop, this]
  | succ k ih =>
    intro anz mx h
    unfold capLoop
    split
    · rename_i hgt
      rw [ih (anz - 1) mx (by omega)]
      omega
    · rename_i hgt
      omega

theorem truncToInt_nonneg (q : ℚ) (h : 0 ≤ q) : 0 ≤ truncToInt q := by
  unfold truncToInt
  rw [if_pos h]
  exact Int.floor_nonneg.mpr h

theorem initialCount_bounds (ppm : ℚ) (s : SubRoomSlot) (ha : 0 ≤ s.area) (hp : 0 ≤ ppm) :
    0 ≤ initialCount ppm s ∧ initialCount ppm s ≤ (s.free : Int) := by
  unfold initialCount
  dsimp only
  rw [capLoop_eq _ _ _ (le_refl _)]
  have h0 : 0 ≤ truncToInt (s.area * ppm + 1 / 2) :=
    truncToInt_nonneg _ (by positivity)
  have h1 : (0 : Int) ≤ (s.free : Int) := Int.ofNat_nonneg _
  omega

theorem getD_set_self (l : List Int) (j : Nat) (v : Int) (h : j < l.length) :
    (l.set j v).getD j 0 = v := by
  induction l generalizing j with
  | nil => simp at h
  | cons a l ih =>
    cases j with
    | zero => simp
    | succ j =>
      simp only [List.set_cons_succ, List.getD_cons_succ]
      exact ih j (by simpa using h)

theorem getD_set_other (l : List Int) (j i : Nat) (v : Int) (h : i ≠ j) :
    (l.set j v).getD i 0 = l.getD i 0 := by
  induction l generalizing j i with
  | nil => simp
  | cons a l ih =>
    cases j with
    | zero =>
      cases i with
      | zero => exact absurd rfl h
      | succ i => simp
    | succ j =>
      cases i with
      | zero => simp
      | succ i =>
        simp only [List.set_cons_succ, List.getD_cons_succ]
        exact ih j i (by omega)

theorem sum_set_getD (l : List Int) (j : Nat) (v : Int) (h : j < l.length) :
    (l.set j v).sum = l.sum - l.getD j 0 + v := by
  induction l generalizing j with
  | nil => simp at h
  | cons a l ih =>
    cases j with
    | zero => simp; ring
    | succ j =>
      simp only [List.set_cons_succ, List.sum_cons, List.getD_cons_succ]
      rw [ih j (by simpa using h)]
      ring


theorem exists_slack (mx akt : List Int) (hl : akt.length = mx.length)
    (hle : ∀ i, i < mx.length → akt.getD i 0 ≤ mx.getD i 0) (hs : akt.sum < mx.sum) :
    ∃ i, i < mx.length ∧ akt.getD i 0 < mx.getD i 0 := by
  induction mx generalizing akt with
  | nil =>
    cases akt with
    | nil => simp at hs
    | cons a akt => simp at hl
  | cons m mx ih =>
    cases akt with
    | nil => simp at hl
    | cons a akt =>
      by_cases ha : a < m
      · exact ⟨0, by simp, by simpa using ha⟩
      · have h0 := hle 0 (by simp)
        simp only [List.getD_cons_zero] at h0
        have hs2 : akt.sum < mx.sum := by
          simp only [List.sum_cons] at hs
          omega
        obtain ⟨i, hi, hlt⟩ := ih akt (by simpa using hl)
          (fun i hi => by
            have := hle (i + 1) (by simpa using hi)
            simpa using this) hs2
        exact ⟨i + 1, by simpa using hi, by simpa using hlt⟩

theorem exists_positive (akt : List Int) (hs : 0 < akt.sum) :
    ∃ i, i < akt.length ∧ 0 < akt.getD i 0 := by
  induction akt with
  | nil => simp at hs
  | cons a akt ih =>
    by_cases ha : 0 < a
    · exact ⟨0, by simp, by simpa using ha⟩
    · have hs2 : 0 < akt.sum := by
        simp only [List.sum_cons] at hs
        omega
      obtain ⟨i, hi, hlt⟩ := ih hs2
      exact ⟨i + 1, by simpa using hi, by simpa using hlt⟩

theorem cyclic_offset (n i j : Nat) (hi : i < n) (hj : j < n) :
    ∃ k, (j + k) % n = i := by
  by_cases h : j ≤ i
  · refine ⟨i - j, ?_⟩
    have : j + (i - j) = i := by omega
    rw [this, Nat.mod_eq_of_lt hi]
  · refine ⟨i + n - j, ?_⟩
    have : j + (i + n - j) = i + n := by omega
    rw [this, Nat.add_mod_right, Nat.mod_eq_of_lt hi]
theorem fillUp_advance (mx : List Int) (N : Int) (k : Nat) :
    ∀ (akt : List Int) (ges : Int) (j : Nat), CountsInv mx akt ges → j < mx.length →
      ges < N → akt.getD ((j + k) % mx.length) 0 < mx.getD ((j + k) % mx.length) 0 →
      ∃ steps akt2 j2, CountsInv mx akt2 (ges + 1) ∧ j2 < mx.length ∧
        ∀ f, fillUp (steps + f) mx akt ges N j = fillUp f mx akt2 (ges + 1) N j2 := by
  induction k with
  | zero =>
    intro akt ges j hinv hj hlt hslack
    rw [Nat.add_zero, Nat.mod_eq_of_lt hj] at hslack
    obtain ⟨hl, hb, hsum⟩ := hinv
    refine ⟨1, akt.set j (akt.getD j 0 + 1), (j + 1) % mx.length, ⟨?_, ?_, ?_⟩,
      Nat.mod_lt _ (by omega), ?_⟩
    · simpa using hl
    · intro i hi
      by_cases hij : i = j
      · subst hij
        rw [getD_set_self _ _ _ (by omega)]
        have := hb i hi
        omega
      · rw [getD_set_other _ _ _ _ hij]
        exact hb i hi
    · rw [sum_set_getD _ _ _ (by omega)]
      omega
    · intro f
      rw [Nat.add_comm 1 f, fillUp, if_pos hlt, if_pos hslack]
  | succ k ih =>
    intro akt ges j hinv hj hlt hslack
    by_cases hnow : akt.getD j 0 < mx.getD j 0
    · obtain ⟨hl, hb, hsum⟩ := hinv
      refine ⟨1, akt.set j (akt.getD j 0 + 1), (j + 1) % mx.length, ⟨?_, ?_, ?_⟩,
        Nat.mod_lt _ (by omega), ?_⟩
      · simpa using hl
      · intro i hi
        by_cases hij : i = j
        · subst hij
          rw [getD_set_self _ _ _ (by omega)]
          have := hb i hi
          omega
        · rw [getD_set_other _ _ _ _ hij]
          exact hb i hi
      · rw [sum_set_getD _ _ _ (by omega)]
        omega
      · intro f
        rw [Nat.add_comm 1 f, fillUp, if_pos hlt, if_pos hnow]
    · have hj2 : (j + 1) % mx.length < mx.length := Nat.mod_lt _ (by omega)
      have hidx : ((j + 1) % mx.length + k) % mx.length = (j + (k + 1)) % mx.length := by
        rw [Nat.mod_add_mod]
        congr 1
        omega
      obtain ⟨steps, akt2, j2, hinv2, hj2b, hrun⟩ :=
        ih akt ges ((j + 1) % mx.length) hinv hj2 hlt (by rw [hidx]; exact hslack)
      refine ⟨steps + 1, akt2, j2, hinv2, hj2b, ?_⟩
      intro f
      have : steps + 1 + f = (steps + f) + 1 := by omega
      rw [this, fillUp, if_pos hlt, if_neg hnow]
      exact hrun f

theorem fillUp_terminates (mx : List Int) (N : Int) (hN : N ≤ mx.sum) (d : Nat) :
    ∀ (akt : List Int) (ges : Int) (j : Nat), CountsInv mx akt ges → j < mx.length →
      (N - ges).toNat = d →
      ∃ steps akt2 ges2, CountsInv mx akt2 ges2 ∧ N ≤ ges2 ∧
        ∀ f, fillUp (steps + f + 1) mx akt ges N j = some (akt2, ges2) := by
  induction d with
  | zero =>
    intro akt ges j hinv hj hd
    refine ⟨0, akt, ges, hinv, by omega, ?_⟩
    intro f
    rw [fillUp, if_neg (by omega)]
  | succ d ih =>
    intro akt ges j hinv hj hd
    have hlt : ges < N := by omega
    obtain ⟨i, hi, hslack⟩ := exists_slack mx akt hinv.1 (fun i hi => (hinv.2.1 i hi).2)
      (by rw [← hinv.2.2]; omega)
    obtain ⟨k, hk⟩ := cyclic_offset mx.length i j hi hj
    obtain ⟨s1, akt1, j1, hinv1, hj1, hrun1⟩ :=
      fillUp_advance mx N k akt ges j hinv hj hlt (by rw [hk]; exact hslack)
    obtain ⟨s2, akt2, ges2, hinv2, hge, hrun2⟩ := ih akt1 (ges + 1) j1 hinv1 hj1 (by omega)
    refine ⟨s1 + s2, akt2, ges2, hinv2, hge, ?_⟩
    intro f
    have : s1 + s2 + f + 1 = s1 + (s2 + f + 1) := by omega
    rw [this, hrun1, hrun2]

theorem drain_advance (mx : List Int) (N : Int) (k : Nat) :
    ∀ (akt : List Int) (ges : Int) (j : Nat), CountsInv mx akt ges → j < mx.length →
      ges > N → akt.getD ((j + k) % mx.length) 0 > 0 →
      ∃ steps akt2 j2, CountsInv mx akt2 (ges - 1) ∧ j2 < mx.length ∧
        ∀ f, drain (steps + f) mx akt ges N j = drain f mx akt2 (ges - 1) N j2 := by
  induction k with
  | zero =>
    intro akt ges j hinv hj hlt hslack
    rw [Nat.add_zero, Nat.mod_eq_of_lt hj] at hslack
    obtain ⟨hl, hb, hsum⟩ := hinv
    refine ⟨1, akt.set j (akt.getD j 0 - 1), (j + 1) % mx.length, ⟨?_, ?_, ?_⟩,
      Nat.mod_lt _ (by omega), ?_⟩
    · simpa using hl
    · intro i hi
      by_cases hij : i = j
      · subst hij
        rw [getD_set_self _ _ _ (by omega)]
        have := hb i hi
        omega
      · rw [getD_set_other _ _ _ _ hij]
        exact hb i hi
    · rw [sum_set_getD _ _ _ (by omega)]
      omega
    · intro f
      rw [Nat.add_comm 1 f, drain, if_pos hlt, if_pos hslack]
  | succ k ih =>
    intro akt ges j hinv hj hlt hslack
    by_cases hnow : akt.getD j 0 > 0
    · obtain ⟨hl, hb, hsum⟩ := hinv
      refine ⟨1, akt.set j (akt.getD j 0 - 1), (j + 1) % mx.length, ⟨?_, ?_, ?_⟩,
        Nat.mod_lt _ (by omega), ?_⟩
      · simpa using hl
      · intro i hi
        by_cases hij : i = j
        · subst hij
          rw [getD_set_self _ _ _ (by omega)]
          have := hb i hi
          omega
        · rw [getD_set_other _ _ _ _ hij]
          exact hb i hi
      · rw [sum_set_getD _ _ _ (by omega)]
        omega
      · intro f
        rw [Nat.add_comm 1 f, drain, if_pos hlt, if_pos hnow]
    · have hj2 : (j + 1) % mx.length < mx.length := Nat.mod_lt _ (by omega)
      have hidx : ((j + 1) % mx.length + k) % mx.length = (j + (k + 1)) % mx.length := by
        rw [Nat.mod_add_mod]
        congr 1
        omega
      obtain ⟨steps, akt2, j2, hinv2, hj2b, hrun⟩ :=
        ih akt ges ((j + 1) % mx.length) hinv hj2 hlt (by rw [hidx]; exact hslack)
      refine ⟨steps + 1, akt2, j2, hinv2, hj2b, ?_⟩
      intro f
      have : steps + 1 + f = (steps + f) + 1 := by omega
      rw [this, drain, if_pos hlt, if_neg hnow]
      exact hrun f

theorem drain_terminates (mx : List Int) (N : Int) (hN : 0 ≤ N) (d : Nat) :
    ∀ (akt : List Int) (ges : Int) (j : Nat), CountsInv mx akt ges → j < mx.length →
      N ≤ ges → (ges - N).toNat = d →
      ∃ steps akt2, CountsInv mx akt2 N ∧
        ∀ f, drain (steps + f + 1) mx akt ges N j = some (akt2, N) := by
  induction d with
  | zero =>
    intro akt ges j hinv hj hge hd
    have : ges = N := by omega
    subst this
    refine ⟨0, akt, hinv, ?_⟩
    intro f
    rw [drain, if_neg (by omega)]
  | succ d ih =>
    intro akt ges j hinv hj hge hd
    have hlt : ges > N := by omega
    obtain ⟨i, hi, hslack⟩ := exists_positive akt (by rw [← hinv.2.2]; omega)
    rw [hinv.1] at hi
    obtain ⟨k, hk⟩ := cyclic_offset mx.length i j hi hj
    obtain ⟨s1, akt1, j1, hinv1, hj1, hrun1⟩ :=
      drain_advance mx N k akt ges j hinv hj hlt (by rw [hk]; exact hslack)
    obtain ⟨s2, akt2, hinv2, hrun2⟩ :=
      ih akt1 (ges - 1) j1 hinv1 hj1 (by omega) (by omega)
    refine ⟨s1 + s2, akt2, hinv2, ?_⟩
    intro f
    have : s1 + s2 + f + 1 = s1 + (s2 + f + 1) := by omega
    rw [this, hrun1, hrun2]
theorem initialCounts_bounds (ppm : ℚ) (hp : 0 ≤ ppm) (subs : List SubRoomSlot)
    (harea : ∀ s ∈ subs, 0 ≤ s.area) :
    ∀ i, i < subs.length →
      0 ≤ (subs.map (initialCount ppm)).getD i 0 ∧
      (subs.map (initialCount ppm)).getD i 0 ≤ (subs.map fun s => (s.free : Int)).getD i 0 := by
  induction subs with
  | nil => intro i hi; simp at hi
  | cons s subs ih =>
    intro i hi
    cases i with
    | zero =>
      simpa using initialCount_bounds ppm s (harea s (List.mem_cons_self _ _)) hp
    | succ i =>
      simpa using ih (fun t ht => harea t (List.mem_cons_of_mem _ ht)) i (by simpa using hi)

/-- C11. For a room-level start distribution of `N ≥ 0` agents over
subrooms of non-negative area with positive total area and at least `N` free
positions in total, both rebalancing loops of `PedDistributor::Distribute`
terminate (with enough fuel the allocation block returns its counts), every
count `n_i` satisfies `0 ≤ n_i ≤ max_i`, and the counts add up to `N`. -/
theorem distribute_counts (subs : List SubRoomSlot) (N : Int) (hN : 0 ≤ N)
    (harea : ∀ s ∈ subs, 0 ≤ s.area) (hsum : 0 < (subs.map fun s => s.area).sum)
    (hcap : N ≤ (subs.map fun s => (s.free : Int)).sum) :
    ∃ fuel0, ∀ fuel, fuel0 ≤ fuel → ∃ n : List Int,
      Distribute fuel subs N = some (Allocation.counts n) ∧
      n.length = subs.length ∧
      (∀ i, i < subs.length →
        0 ≤ n.getD i 0 ∧ n.getD i 0 ≤ (subs.map fun s => (s.free : Int)).getD i 0) ∧
      n.sum = N := by
  have hne : 0 < (subs.map fun s => (s.free : Int)).length := by
    cases subs with
    | nil => simp at hsum
    | cons s subs => simp
  have hp : (0 : ℚ) ≤ (N : ℚ) / (subs.map fun s => s.area).sum :=
    div_nonneg (by exact_mod_cast hN) hsum.le
  have hinv0 : CountsInv (subs.map fun s => (s.free : Int))
      (subs.map (initialCount ((N : ℚ) / (subs.map fun s => s.area).sum)))
      (subs.map (initialCount ((N : ℚ) / (subs.map fun s => s.area).sum))).sum := by
    refine ⟨by simp, ?_, rfl⟩
    intro i hi
    exact initialCounts_bounds _ hp subs harea i (by simpa using hi)
  obtain ⟨s1, akt1, ges1, hinv1, hge1, hrun1⟩ :=
    fillUp_terminates _ N hcap _ _ _ 0 hinv0 hne rfl
  obtain ⟨s2, akt2, hinv2, hrun2⟩ :=
    drain_terminates (subs.map fun s => (s.free : Int)) N hN _ akt1 ges1 0 hinv1 hne hge1 rfl
  refine ⟨max s1 s2 + 1, ?_⟩
  intro fuel hfuel
  have e1 : fuel = s1 + (fuel - s1 - 1) + 1 := by omega
  have e2 : fuel = s2 + (fuel - s2 - 1) + 1 := by omega
  refine ⟨akt2, ?_, ?_, ?_, ?_⟩
  · unfold Distribute
    rw [if_neg (by omega)]
    dsimp only
    rw [if_neg (by omega)]
    have h1 := hrun1 (fuel - s1 - 1)
    rw [← e1] at h1
    rw [h1]
    dsimp only
    have h2 := hrun2 (fuel - s2 - 1)
    rw [← e2] at h2
    rw [h2]
  · rw [hinv2.1]; simp
  · intro i hi
    exact hinv2.2.1 i (by simpa using hi)
  · exact hinv2.2.2.symm

theorem distribute_counts_witness :
    ∃ fuel0, ∀ fuel, fuel0 ≤ fuel → ∃ n : List Int,
      Distribute fuel sampleSlots 12 = some (Allocation.counts n) ∧
      n.length = sampleSlots.length ∧
      (∀ i, i < sampleSlots.length →
        0 ≤ n.getD i 0 ∧
        n.getD i 0 ≤ (sampleSlots.map fun s => (s.free : Int)).getD i 0) ∧
      n.sum = 12 :=
  distribute_counts sampleSlots 12 (by decide) (by decide!) (by decide!) (by decide)

theorem distribute_sample :
    Distribute 100 sampleSlots 12 = some (Allocation.counts [3, 9, 0]) := by decide!

/-! ## Point: normalisation, division, coordinate transformations, equality -/

/-- C17. With `0 ≤ J_EPS ≤ 1`, `Point::Normalized` returns `(0, 0)` if
`Norm(p) ≤ J_EPS` and otherwise `(p.x / Norm(p), p.y / Norm(p))`; that vector is
a positive multiple of `p`, and it has Euclidean norm 1 when the square root is
exact at `NormSquare(p)` and at 1. -/
theorem normalized_spec (sqrt : ℚ → ℚ) (J_EPS : ℚ) (p : Point) (hJ0 : 0 ≤ J_EPS)
    (hJ1 : J_EPS ≤ 1) :
    (p.Norm sqrt ≤ J_EPS → p.Normalized sqrt J_EPS = ⟨0, 0⟩) ∧
    (J_EPS < p.Norm sqrt →
      p.Normalized sqrt J_EPS = ⟨p.x / p.Norm sqrt, p.y / p.Norm sqrt⟩ ∧
      (0 < 1 / p.Norm sqrt ∧ p.Normalized sqrt J_EPS = p.mul (1 / p.Norm sqrt)) ∧
      (p.Norm sqrt * p.Norm sqrt = p.NormSquare →
        (p.Normalized sqrt J_EPS).NormSquare = 1 ∧
        (sqrt 1 = 1 → (p.Normalized sqrt J_EPS).Norm sqrt = 1))) := by
  constructor
  · intro h
    unfold Point.Normalized
    simp only
    rw [if_neg (not_lt.mpr h)]
  · intro h
    have hn0 : 0 < p.Norm sqrt := lt_of_le_of_lt hJ0 h
    have hJ2 : J_EPS * J_EPS < p.Norm sqrt := by nlinarith
    have hres : p.Normalized sqrt J_EPS = ⟨p.x / p.Norm sqrt, p.y / p.Norm sqrt⟩ := by
      unfold Point.Normalized
      simp only
      rw [if_pos h]
      unfold Point.div
      rw [if_pos hJ2]
    refine ⟨hres, ⟨by positivity, ?_⟩, ?_⟩
    · rw [hres]
      unfold Point.mul
      simp only [Point.mk.injEq]
      constructor <;> ring
    · intro hsq
      have hne : p.Norm sqrt ≠ 0 := ne_of_gt hn0
      have hns : (p.Normalized sqrt J_EPS).NormSquare = 1 := by
        rw [hres]
        unfold Point.NormSquare at hsq ⊢
        simp only
        field_simp
        linarith
      refine ⟨hns, ?_⟩
      intro h1
      unfold Point.Norm
      rw [hns, h1]

theorem normalized_spec_witness :
    (Point.Norm sqrtQ ⟨3, 4⟩ ≤ 1 / 1000 →
      Point.Normalized sqrtQ (1 / 1000) ⟨3, 4⟩ = ⟨0, 0⟩) ∧
    ((1 / 1000 : ℚ) < Point.Norm sqrtQ ⟨3, 4⟩ →
      Point.Normalized sqrtQ (1 / 1000) ⟨3, 4⟩ =
        ⟨(3 : ℚ) / Point.Norm sqrtQ ⟨3, 4⟩, (4 : ℚ) / Point.Norm sqrtQ ⟨3, 4⟩⟩ ∧
      (0 < 1 / Point.Norm sqrtQ ⟨3, 4⟩ ∧
        Point.Normalized sqrtQ (1 / 1000) ⟨3, 4⟩ =
          Point.mul ⟨3, 4⟩ (1 / Point.Norm sqrtQ ⟨3, 4⟩)) ∧
      (Point.Norm sqrtQ ⟨3, 4⟩ * Point.Norm sqrtQ ⟨3, 4⟩ = Point.NormSquare ⟨3, 4⟩ →
        (Point.Normalized sqrtQ (1 / 1000) ⟨3, 4⟩).NormSquare = 1 ∧
        (sqrtQ 1 = 1 → (Point.Normalized sqrtQ (1 / 1000) ⟨3, 4⟩).Norm sqrtQ = 1))) :=
  normalized_spec sqrtQ (1 / 1000) ⟨3, 4⟩ (by norm_num) (by norm_num)

theorem normalized_sample :
    Point.Normalized sqrtQ (1 / 1000) ⟨3, 4⟩ = ⟨3 / 5, 4 / 5⟩ ∧
    Point.Normalized sqrtQ (1 / 1000) ⟨0, 0⟩ = ⟨0, 0⟩ ∧
    Point.Norm sqrtQ ⟨3, 4⟩ * Point.Norm sqrtQ ⟨3, 4⟩ = Point.NormSquare ⟨3, 4⟩ ∧
    sqrtQ 1 = 1 := by decide!

/-- With `J_EPS > 1` the guard of the division is stronger than the guard of
`Normalized`, and a vector with `J_EPS < Norm ≤ J_EPS²` is returned as it is. -/
theorem normalized_large_eps :
    Point.Normalized sqrtQ 2 ⟨3, 0⟩ = ⟨3, 0⟩ := by decide!

/-- C18. The quotient `p / f` is `(p.x / f, p.y / f)` when `f > J_EPS * J_EPS`
(and then `f` is not zero), and `p` itself otherwise; in particular a zero or
negative divisor leaves the point unchanged. -/
theorem div_spec (J_EPS : ℚ) (p : Point) (f : ℚ) :
    (J_EPS * J_EPS < f → Point.div J_EPS p f = ⟨p.x / f, p.y / f⟩ ∧ f ≠ 0) ∧
    (f ≤ J_EPS * J_EPS → Point.div J_EPS p f = p) ∧
    (f ≤ 0 → Point.div J_EPS p f = p) := by
  refine ⟨?_, ?_, ?_⟩
  · intro h
    refine ⟨?_, ?_⟩
    · unfold Point.div
      rw [if_pos h]
    · have : 0 ≤ J_EPS * J_EPS := mul_self_nonneg _
      exact ne_of_gt (lt_of_le_of_lt this h)
  · intro h
    unfold Point.div
    rw [if_neg (not_lt.mpr h)]
  · intro h
    have : 0 ≤ J_EPS * J_EPS := mul_self_nonneg _
    unfold Point.div
    rw [if_neg (not_lt.mpr (le_trans h this))]

theorem div_sample :
    Point.div (1 / 1000) ⟨1, 2⟩ (1 / 10000000) = ⟨1, 2⟩ ∧
    Point.div (1 / 1000) ⟨1, 2⟩ 2 = ⟨1 / 2, 1⟩ ∧
    Point.div (1 / 1000) ⟨1, 2⟩ 0 = ⟨1, 2⟩ ∧
    Point.div (1 / 1000) ⟨1, 2⟩ (-2) = ⟨1, 2⟩ := by decide!

theorem rotate_rotate (p : Point) (c s : ℚ) (h : c ^ 2 + s ^ 2 = 1) :
    (p.Rotate c (-s)).Rotate c s = p ∧ (p.Rotate c s).Rotate c (-s) = p := by
  cases p with
  | mk x y =>
    unfold Point.Rotate
    simp only [Point.mk.injEq]
    refine ⟨⟨?_, ?_⟩, ⟨?_, ?_⟩⟩
    · linear_combination x * h
    · linear_combination y * h
    · linear_combination x * h
    · linear_combination y * h

/-- C19. For `cphi² + sphi² = 1` the transformations to ellipse coordinates
and back to Cartesian coordinates are inverse to each other, in both orders. -/
theorem transform_inverse (p c : Point) (cphi sphi : ℚ) (h : cphi ^ 2 + sphi ^ 2 = 1) :
    (p.TransformToEllipseCoordinates c cphi sphi).TransformToCartesianCoordinates c cphi sphi
      = p ∧
    (p.TransformToCartesianCoordinates c cphi sphi).TransformToEllipseCoordinates c cphi sphi
      = p := by
  cases p with
  | mk x y =>
    cases c with
    | mk cx cy =>
      unfold Point.TransformToEllipseCoordinates Point.TransformToCartesianCoordinates
        Point.Rotate Point.sub Point.add
      simp only [Point.mk.injEq]
      refine ⟨⟨?_, ?_⟩, ⟨?_, ?_⟩⟩
      · linear_combination (x - cx) * h
      · linear_combination (y - cy) * h
      · linear_combination x * h
      · linear_combination y * h

theorem transform_inverse_witness :
    (Point.TransformToCartesianCoordinates
        (Point.TransformToEllipseCoordinates ⟨10, 1⟩ ⟨1, -1⟩ (3 / 5) (4 / 5))
        ⟨1, -1⟩ (3 / 5) (4 / 5) = ⟨10, 1⟩) ∧
    (Point.TransformToEllipseCoordinates
        (Point.TransformToCartesianCoordinates ⟨10, 1⟩ ⟨1, -1⟩ (3 / 5) (4 / 5))
        ⟨1, -1⟩ (3 / 5) (4 / 5) = ⟨10, 1⟩) :=
  transform_inverse ⟨10, 1⟩ ⟨1, -1⟩ (3 / 5) (4 / 5) (by norm_num)

/-- Without `cphi² + sphi² = 1` the two transformations are not inverse. -/
theorem transform_not_inverse :
    Point.TransformToCartesianCoordinates
      (Point.TransformToEllipseCoordinates ⟨10, 1⟩ ⟨1, -1⟩ 1 1) ⟨1, -1⟩ 1 1 ≠ ⟨10, 1⟩ := by
  decide!

/-- The operator `!=` implies the negation of `==`, and for `J_EPS > 0` every
point is `==` to itself and not `!=` to itself. -/
theorem opNe_imp_not_opEq (J_EPS : ℚ) (p q : Point) :
    (Point.opNe J_EPS p q = true → Point.opEq J_EPS p q = false) ∧
    (0 < J_EPS → Point.opEq J_EPS p p = true ∧ Point.opNe J_EPS p p = false) := by
  unfold Point.opNe Point.opEq
  constructor
  · intro h
    simp only [decide_eq_true_eq, decide_eq_false_iff_not, not_and, not_lt] at h ⊢
    intro hx
    rcases h with h | h
    · exact absurd hx (not_lt.mpr h.le)
    · exact h.le
  · intro h
    simp [h, h.le]

/-- At a coordinate difference of exactly `J_EPS ≥ 0` neither `==` nor `!=` holds. -/
theorem opNe_boundary (J_EPS : ℚ) (h : 0 ≤ J_EPS) (p : Point) :
    Point.opEq J_EPS p ⟨p.x + J_EPS, p.y⟩ = false ∧
    Point.opNe J_EPS p ⟨p.x + J_EPS, p.y⟩ = false := by
  unfold Point.opNe Point.opEq
  have h1 : |p.x - (p.x + J_EPS)| = J_EPS := by
    have : p.x - (p.x + J_EPS) = -J_EPS := by ring
    rw [this, abs_neg, abs_of_nonneg h]
  rw [h1]
  simp [h]

/-- C20. The operator `!=` is not the negation of `==`: for `J_EPS = 0.001`
the points `(0, 0)` and `(0.001, 0)` are neither `==` nor `!=`. -/
theorem opNe_not_negation :
    Point.opEq (1 / 1000) ⟨0, 0⟩ ⟨1 / 1000, 0⟩ = false ∧
    Point.opNe (1 / 1000) ⟨0, 0⟩ ⟨1 / 1000, 0⟩ = false := by decide!

/-! ## The walking-direction strategies -/

theorem shortestPoint_mem (J_EPS : ℚ) (l : Line) (p : Point) :
    ∃ σ : ℚ, 0 ≤ σ ∧ σ ≤ 1 ∧
      l.ShortestPoint J_EPS p = l.point2.add ((l.point1.sub l.point2).mul σ) := by
  have hone : l.point1 = l.point2.add ((l.point1.sub l.point2).mul 1) := by
    cases l with
    | mk a b =>
      cases a; cases b
      simp [Point.add, Point.sub, Point.mul]
  have hzero : l.point2 = l.point2.add ((l.point1.sub l.point2).mul 0) := by
    cases l with
    | mk a b =>
      cases a; cases b
      simp [Point.add, Point.sub, Point.mul]
  unfold Line.ShortestPoint
  split
  · exact ⟨1, by norm_num, le_refl _, hone⟩
  · dsimp only
    split
    · exact ⟨0, le_refl _, by norm_num, hzero⟩
    · split
      · exact ⟨1, by norm_num, le_refl _, hone⟩
      · rename_i h0 h1
        exact ⟨_, not_lt.mp h0, not_lt.mp h1, rfl⟩

theorem opEq_false_normSquare_pos (J_EPS : ℚ) (hJ : 0 < J_EPS) (a b : Point)
    (h : Point.opEq J_EPS a b = false) : 0 < (a.sub b).NormSquare := by
  unfold Point.opEq at h
  simp only [decide_eq_false_iff_not, not_and, not_lt] at h
  unfold Point.NormSquare Point.sub
  simp only
  by_cases hx : a.x - b.x = 0
  · have h2 := h (by rw [hx, abs_zero]; exact hJ)
    have hy : a.y - b.y ≠ 0 := by
      intro hy
      rw [hy, abs_zero] at h2
      exact absurd hJ (not_lt.mpr h2)
    have : 0 < (a.y - b.y) * (a.y - b.y) := mul_self_pos.mpr hy
    linarith [mul_self_nonneg (a.x - b.x)]
  · have : 0 < (a.x - b.x) * (a.x - b.x) := mul_self_pos.mpr hx
    linarith [mul_self_nonneg (a.y - b.y)]

theorem shortestPoint_closest (J_EPS : ℚ) (hJ : 0 < J_EPS) (l : Line) (p : Point)
    (hne : Point.opEq J_EPS l.point1 l.point2 = false) (τ : ℚ) (h0 : 0 ≤ τ) (h1 : τ ≤ 1) :
    (p.sub (l.ShortestPoint J_EPS p)).NormSquare ≤
      (p.sub (l.point2.add ((l.point1.sub l.point2).mul τ))).NormSquare := by
  have hn := opEq_false_normSquare_pos J_EPS hJ _ _ hne
  unfold Line.ShortestPoint
  rw [hne]
  simp only [Bool.false_eq_true, if_false]
  cases l with
  | mk a b =>
    cases a with
    | mk ax ay =>
      cases b with
      | mk bx by_ =>
        cases p with
        | mk px py =>
          simp only [Point.sub, Point.add, Point.mul, Point.ScalarProduct, Point.NormSquare]
            at hn ⊢
          have hn0 : (ax - bx) * (ax - bx) + (ay - by_) * (ay - by_) ≠ 0 := ne_of_gt hn
          split
          · rename_i hl
            have ha : (px - bx) * (ax - bx) + (py - by_) * (ay - by_) < 0 := by
              by_contra hc
              exact absurd hl (not_lt.mpr (div_nonneg (not_lt.mp hc) hn.le))
            simp only
            linarith [mul_nonneg (mul_nonneg h0 h0) hn.le,
              mul_nonneg h0 (neg_nonneg.mpr ha.le)]
          · split
            · rename_i hl hg
              have ha : (ax - bx) * (ax - bx) + (ay - by_) * (ay - by_) <
                  (px - bx) * (ax - bx) + (py - by_) * (ay - by_) := by
                rwa [gt_iff_lt, lt_div_iff₀ hn, one_mul] at hg
              simp only
              linarith [mul_nonneg (sub_nonneg.mpr h1) (sub_nonneg.mpr ha.le),
                mul_nonneg (mul_nonneg (sub_nonneg.mpr h1) (sub_nonneg.mpr h1)) hn.le]
            · simp only
              generalize hlam : ((px - bx) * (ax - bx) + (py - by_) * (ay - by_)) /
                ((ax - bx) * (ax - bx) + (ay - by_) * (ay - by_)) = lam
              have hmul : lam * ((ax - bx) * (ax - bx) + (ay - by_) * (ay - by_)) =
                  (px - bx) * (ax - bx) + (py - by_) * (ay - by_) := by
                rw [← hlam]
                field_simp
              have hsq := mul_nonneg hn.le (sq_nonneg (τ - lam))
              have e : (lam - τ) * ((px - bx) * (ax - bx) + (py - by_) * (ay - by_) -
                  lam * ((ax - bx) * (ax - bx) + (ay - by_) * (ay - by_))) = 0 := by
                rw [hmul]; ring
              linarith [hsq, e]
theorem getTarget_inRange_sample :
    DirectionInRangeBottleneck.GetTarget sqrtQ (1 / 1000) ⟨⟨0, 0⟩, ⟨1, 0⟩⟩ ⟨3 / 10, 1⟩ =
      ⟨3 / 10, 0⟩ := by decide!

theorem tooNearLines_false (sqrt : ℚ → ℚ) (J_EPS : ℚ) (lines : List Line) (pos : Point)
    (max_buf : ℚ) (h : tooNearLines sqrt J_EPS lines pos max_buf = false) :
    ∀ w ∈ lines, max_buf ≤ w.DistTo sqrt J_EPS pos := by
  intro w hw
  unfold tooNearLines at h
  rw [List.any_eq_false] at h
  have := h w hw
  simpa using this

theorem obstacleLoop_true (sqrt : ℚ → ℚ) (J_EPS : ℚ) (pos : Point) (max_buf : ℚ)
    (l : List Obstacle) : obstacleLoop sqrt J_EPS pos max_buf l true = true := by
  induction l with
  | nil => rfl
  | cons o l ih =>
    unfold obstacleLoop
    simp [ih]

theorem obstacleLoop_false (sqrt : ℚ → ℚ) (J_EPS : ℚ) (pos : Point) (max_buf : ℚ)
    (l : List Obstacle) (h : obstacleLoop sqrt J_EPS pos max_buf l false = false) :
    ∀ o ∈ l, tooNearLines sqrt J_EPS o.walls pos max_buf = false ∧ o.Contains pos = false := by
  induction l with
  | nil => intro o ho; simp at ho
  | cons a l ih =>
    unfold obstacleLoop at h
    cases hw : tooNearLines sqrt J_EPS a.walls pos max_buf with
    | true =>
      simp [hw, obstacleLoop_true] at h
    | false =>
      simp only [hw, Bool.false_eq_true, if_false] at h
      cases hc : a.Contains pos with
      | true => simp [hc] at h
      | false =>
        simp only [hc, Bool.false_eq_true, if_false] at h
        intro o ho
        rcases List.mem_cons.mp ho with rfl | ho
        · exact ⟨hw, hc⟩
        · exact ih h o ho

theorem positionAccepted_good (sqrt : ℚ → ℚ) (J_EPS : ℚ) (r : SubRoomGeometry) (max_buf : ℚ)
    (pos : Point) (h : positionAccepted sqrt J_EPS r max_buf pos = true) :
    GoodPosition sqrt J_EPS r max_buf pos := by
  unfold positionAccepted at h
  cases h1 : r.IsInSubRoom pos with
  | false => simp [h1] at h
  | true =>
    cases h2 : tooNearLines sqrt J_EPS r.walls pos max_buf with
    | true => simp [h1, h2] at h
    | false =>
      cases h3 : tooNearLines sqrt J_EPS r.transitions pos max_buf with
      | true => simp [h1, h2, h3] at h
      | false =>
        cases h4 : tooNearLines sqrt J_EPS r.crossings pos max_buf with
        | true => simp [h1, h2, h3, h4] at h
        | false =>
          simp only [h1, h2, h3, h4, Bool.not_true, Bool.false_eq_true, if_false,
            Bool.not_eq_true'] at h
          have ho := obstacleLoop_false sqrt J_EPS pos max_buf r.obstacles h
          exact ⟨h1, fun o hom => (ho o hom).2, tooNearLines_false _ _ _ _ _ h2,
            tooNearLines_false _ _ _ _ _ h3, tooNearLines_false _ _ _ _ _ h4,
            fun o hom => tooNearLines_false _ _ _ _ _ (ho o hom).1⟩

theorem onGrid_apart (min_x min_y s : ℚ) (p q : Point) (hp : OnGrid min_x min_y s p)
    (hq : OnGrid min_x min_y s q) (hne : p ≠ q) : s * s ≤ (p.sub q).NormSquare := by
  obtain ⟨i, j, rfl⟩ := hp
  obtain ⟨k, l, rfl⟩ := hq
  simp only [Point.sub, Point.NormSquare]
  have key : ∀ a b : ℕ, a ≠ b → (1 : ℚ) ≤ ((a : ℚ) - b) * ((a : ℚ) - b) := by
    intro a b hab
    have h1 : ((a : ℤ) - b) ≠ 0 := by omega
    have h2 : (1 : ℤ) ≤ ((a : ℤ) - b) * ((a : ℤ) - b) := by
      rcases lt_or_gt_of_ne h1 with h | h
      · nlinarith
      · nlinarith
    have : ((1 : ℤ) : ℚ) ≤ (((a : ℤ) - b) * ((a : ℤ) - b) : ℤ) := by exact_mod_cast h2
    push_cast at this
    exact this
  by_cases hik : i = k
  · have hjl : j ≠ l := by
      intro hjl
      apply hne
      rw [hik, hjl]
    have h := key j l hjl
    have e : (min_x + ↑i * s - (min_x + ↑k * s)) * (min_x + ↑i * s - (min_x + ↑k * s)) +
        (min_y + ↑j * s - (min_y + ↑l * s)) * (min_y + ↑j * s - (min_y + ↑l * s)) =
        (((i : ℚ) - k) * ((i : ℚ) - k)) * (s * s) + (((j : ℚ) - l) * ((j : ℚ) - l)) * (s * s) := by
      ring
    rw [e]
    have h0 := mul_nonneg (mul_self_nonneg ((i : ℚ) - k)) (mul_self_nonneg s)
    have h1 := mul_le_mul_of_nonneg_right h (mul_self_nonneg s)
    linarith
  · have h := key i k hik
    have e : (min_x + ↑i * s - (min_x + ↑k * s)) * (min_x + ↑i * s - (min_x + ↑k * s)) +
        (min_y + ↑j * s - (min_y + ↑l * s)) * (min_y + ↑j * s - (min_y + ↑l * s)) =
        (((i : ℚ) - k) * ((i : ℚ) - k)) * (s * s) + (((j : ℚ) - l) * ((j : ℚ) - l)) * (s * s) := by
      ring
    rw [e]
    have h0 := mul_nonneg (mul_self_nonneg ((j : ℚ) - l)) (mul_self_nonneg s)
    have h1 := mul_le_mul_of_nonneg_right h (mul_self_nonneg s)
    linarith

theorem gridInner_inv (sqrt : ℚ → ℚ) (J_EPS : ℚ) (r : SubRoomGeometry)
    (max_buf s max_y min_x min_y x : ℚ) (hx : ∃ i : ℕ, x = min_x + i * s) (fuel : Nat) :
    ∀ (y : ℚ) (acc res : List Point), (∃ j : ℕ, y = min_y + j * s) →
      (∀ p ∈ acc, GoodPosition sqrt J_EPS r max_buf p ∧ OnGrid min_x min_y s p) →
      gridInner sqrt J_EPS r max_buf s max_y x fuel y acc = some res →
      ∀ p ∈ res, GoodPosition sqrt J_EPS r max_buf p ∧ OnGrid min_x min_y s p := by
  induction fuel with
  | zero => intro y acc res _ _ h; simp [gridInner] at h
  | succ fuel ih =>
    intro y acc res hy hacc h
    unfold gridInner at h
    obtain ⟨j, hj⟩ := hy
    have hy1 : ∃ j : ℕ, y + s = min_y + j * s := ⟨j + 1, by rw [hj]; push_cast; ring⟩
    split at h
    · dsimp only at h
      split at h
      · rename_i hacc2
        refine ih (y + s) _ res hy1 ?_ h
        intro p hp
        rcases List.mem_append.mp hp with hp | hp
        · exact hacc p hp
        · rw [List.mem_singleton] at hp
          subst hp
          refine ⟨positionAccepted_good _ _ _ _ _ hacc2, ?_⟩
          obtain ⟨i, hi⟩ := hx
          obtain ⟨j1, hj1⟩ := hy1
          exact ⟨i, j1, by rw [hi, hj1]⟩
      · exact ih (y + s) acc res hy1 hacc h
    · injection h with h
      subst h
      exact hacc

theorem gridOuter_inv (sqrt : ℚ → ℚ) (J_EPS : ℚ) (r : SubRoomGeometry)
    (max_buf s max_x min_x min_y max_y : ℚ) (fuel : Nat) :
    ∀ (x : ℚ) (acc res : List Point), (∃ i : ℕ, x = min_x + i * s) →
      (∀ p ∈ acc, GoodPosition sqrt J_EPS r max_buf p ∧ OnGrid min_x min_y s p) →
      gridOuter sqrt J_EPS r max_buf s max_x min_y max_y fuel x acc = some res →
      ∀ p ∈ res, GoodPosition sqrt J_EPS r max_buf p ∧ OnGrid min_x min_y s p := by
  induction fuel with
  | zero => intro x acc res _ _ h; simp [gridOuter] at h
  | succ fuel ih =>
    intro x acc res hx hacc h
    unfold gridOuter at h
    split at h
    · cases hin : gridInner sqrt J_EPS r max_buf s max_y x fuel min_y acc with
      | none => simp [hin] at h
      | some acc1 =>
        simp only [hin] at h
        have hacc1 := gridInner_inv sqrt J_EPS r max_buf s max_y min_x min_y x hx fuel
          min_y acc acc1 ⟨0, by simp⟩ hacc hin
        obtain ⟨i, hi⟩ := hx
        exact ih (x + s) acc1 res ⟨i + 1, by rw [hi]; push_cast; ring⟩ hacc1 h
    · injection h with h
      subst h
      exact hacc

theorem gridInner_terminates (sqrt : ℚ → ℚ) (J_EPS : ℚ) (r : SubRoomGeometry)
    (max_buf s max_y x : ℚ) (n : Nat) :
    ∀ (fuel : Nat) (y : ℚ) (acc : List Point), max_y - y ≤ n * s → n < fuel →
      ∃ res, gridInner sqrt J_EPS r max_buf s max_y x fuel y acc = some res := by
  induction n with
  | zero =>
    intro fuel y acc hy hf
    obtain ⟨f, rfl⟩ : ∃ f, fuel = f + 1 := ⟨fuel - 1, by omega⟩
    unfold gridInner
    have : ¬ y < max_y := by
      simp only [Nat.cast_zero, zero_mul] at hy
      linarith
    rw [if_neg this]
    exact ⟨acc, rfl⟩
  | succ n ih =>
    intro fuel y acc hy hf
    obtain ⟨f, rfl⟩ : ∃ f, fuel = f + 1 := ⟨fuel - 1, by omega⟩
    unfold gridInner
    have hy1 : max_y - (y + s) ≤ n * s := by
      push_cast at hy
      linarith
    split
    · dsimp only
      split
      · exact ih f (y + s) _ hy1 (by omega)
      · exact ih f (y + s) _ hy1 (by omega)
    · exact ⟨acc, rfl⟩

theorem gridOuter_terminates (sqrt : ℚ → ℚ) (J_EPS : ℚ) (r : SubRoomGeometry)
    (max_buf s max_x min_y max_y : ℚ) (ny : Nat) (hny : max_y - min_y ≤ ny * s)
    (n : Nat) :
    ∀ (fuel : Nat) (x : ℚ) (acc : List Point), max_x - x ≤ n * s → n + ny + 1 < fuel →
      ∃ res, gridOuter sqrt J_EPS r max_buf s max_x min_y max_y fuel x acc = some res := by
  induction n with
  | zero =>
    intro fuel x acc hx hf
    obtain ⟨f, rfl⟩ : ∃ f, fuel = f + 1 := ⟨fuel - 1, by omega⟩
    unfold gridOuter
    have : ¬ x < max_x := by
      simp only [Nat.cast_zero, zero_mul] at hx
      linarith
    rw [if_neg this]
    exact ⟨acc, rfl⟩
  | succ n ih =>
    intro fuel x acc hx hf
    obtain ⟨f, rfl⟩ : ∃ f, fuel = f + 1 := ⟨fuel - 1, by omega⟩
    unfold gridOuter
    have hx1 : max_x - (x + s) ≤ n * s := by
      push_cast at hx
      linarith
    split
    · obtain ⟨acc1, hin⟩ := gridInner_terminates sqrt J_EPS r max_buf s max_y x ny f
        min_y acc hny (by omega)
      rw [hin]
      exact ih f (x + s) acc1 hx1 (by omega)
    · exact ⟨acc, rfl⟩

/-- C12. In the grid branch of `PedDistributor::PossiblePositions` (the
polygon is not empty and its bounding box is at least 0.7 wide in x and in y):
if the grid spacing `max(2 a_min, 2 b_max)` is positive the function returns
(with enough fuel); and every position it returns lies inside the subroom,
outside every obstacle, at distance at least `max(a_min, b_max)` from every
wall, transition, crossing and obstacle wall, and any two distinct returned
positions are at least `max(2 a_min, 2 b_max)` apart. -/
theorem possiblePositions_grid (sqrt : ℚ → ℚ) (J_EPS : ℚ) (agentsParameters : List (ℚ × ℚ))
    (onFixY onFixX : List Point) (r : SubRoomGeometry) (p0 : Point) (poly : List Point)
    (hpoly : r.polygon = p0 :: poly)
    (hy : 7 / 10 ≤ maxElement p0.y (poly.map fun p => p.y) -
      minElement p0.y (poly.map fun p => p.y))
    (hx : 7 / 10 ≤ maxElement p0.x (poly.map fun p => p.x) -
      minElement p0.x (poly.map fun p => p.x)) :
    (0 < max (2 * GetA_dist agentsParameters) (2 * GetB_dist agentsParameters) →
      ∃ fuel0, ∀ fuel, fuel0 ≤ fuel → ∃ ps,
        PossiblePositions sqrt J_EPS agentsParameters onFixY onFixX r fuel = some ps) ∧
    (∀ fuel ps, PossiblePositions sqrt J_EPS agentsParameters onFixY onFixX r fuel = some ps →
      (∀ p ∈ ps, GoodPosition sqrt J_EPS r
        (max (GetA_dist agentsParameters) (GetB_dist agentsParameters)) p) ∧
      (∀ p ∈ ps, ∀ q ∈ ps, p ≠ q →
        max (2 * GetA_dist agentsParameters) (2 * GetB_dist agentsParameters) *
          max (2 * GetA_dist agentsParameters) (2 * GetB_dist agentsParameters) ≤
          (p.sub q).NormSquare)) := by
  have hrun : ∀ fuel, PossiblePositions sqrt J_EPS agentsParameters onFixY onFixX r fuel =
      gridOuter sqrt J_EPS r (max (GetA_dist agentsParameters) (GetB_dist agentsParameters))
        (max (2 * GetA_dist agentsParameters) (2 * GetB_dist agentsParameters))
        (maxElement p0.x (poly.map fun p => p.x)) (minElement p0.y (poly.map fun p => p.y))
        (maxElement p0.y (poly.map fun p => p.y)) fuel
        (minElement p0.x (poly.map fun p => p.x)) [] := by
    intro fuel
    unfold PossiblePositions
    rw [hpoly]
    simp only
    rw [if_neg (not_lt.mpr hy), if_neg (not_lt.mpr hx)]
  constructor
  · intro hs
    obtain ⟨ny, hny⟩ := exists_nat_ge ((maxElement p0.y (poly.map fun p => p.y) -
      minElement p0.y (poly.map fun p => p.y)) /
      max (2 * GetA_dist agentsParameters) (2 * GetB_dist agentsParameters))
    obtain ⟨nx, hnx⟩ := exists_nat_ge ((maxElement p0.x (poly.map fun p => p.x) -
      minElement p0.x (poly.map fun p => p.x)) /
      max (2 * GetA_dist agentsParameters) (2 * GetB_dist agentsParameters))
    rw [div_le_iff₀ hs] at hny hnx
    refine ⟨nx + ny + 2, ?_⟩
    intro fuel hfuel
    rw [hrun]
    exact gridOuter_terminates sqrt J_EPS r _ _ _ _ _ ny hny nx fuel _ [] hnx (by omega)
  · intro fuel ps hps
    rw [hrun] at hps
    have hinv := gridOuter_inv sqrt J_EPS r _ _ _ (minElement p0.x (poly.map fun p => p.x))
      _ _ fuel _ [] ps ⟨0, by simp⟩ (by intro p hp; simp at hp) hps
    refine ⟨fun p hp => (hinv p hp).1, ?_⟩
    intro p hp q hq hne
    exact onGrid_apart _ _ _ p q (hinv p hp).2 (hinv q hq).2 hne

theorem possiblePositions_grid_witness :
    (0 < max (2 * GetA_dist [(1 / 8, 1 / 4)]) (2 * GetB_dist [(1 / 8, 1 / 4)]) →
      ∃ fuel0, ∀ fuel, fuel0 ≤ fuel → ∃ ps,
        PossiblePositions sqrtQ (1 / 1000) [(1 / 8, 1 / 4)] [] [] sampleGeometry fuel =
          some ps) ∧
    (∀ fuel ps,
      PossiblePositions sqrtQ (1 / 1000) [(1 / 8, 1 / 4)] [] [] sampleGeometry fuel = some ps →
      (∀ p ∈ ps, GoodPosition sqrtQ (1 / 1000) sampleGeometry
        (max (GetA_dist [(1 / 8, 1 / 4)]) (GetB_dist [(1 / 8, 1 / 4)])) p) ∧
      (∀ p ∈ ps, ∀ q ∈ ps, p ≠ q →
        max (2 * GetA_dist [(1 / 8, 1 / 4)]) (2 * GetB_dist [(1 / 8, 1 / 4)]) *
          max (2 * GetA_dist [(1 / 8, 1 / 4)]) (2 * GetB_dist [(1 / 8, 1 / 4)]) ≤
          (p.sub q).NormSquare)) :=
  possiblePositions_grid sqrtQ (1 / 1000) [(1 / 8, 1 / 4)] [] [] sampleGeometry ⟨0, 0⟩
    [⟨2, 0⟩, ⟨2, 2⟩, ⟨0, 2⟩] rfl (by decide!) (by decide!)

theorem possiblePositions_sample :
    PossiblePositions sqrtQ (1 / 1000) [(1 / 8, 1 / 4)] [] [] sampleGeometry 20 =
      some [⟨1 / 2, 1 / 2⟩, ⟨1 / 2, 1⟩, ⟨1 / 2, 3 / 2⟩, ⟨1, 1 / 2⟩, ⟨1, 1⟩, ⟨1, 3 / 2⟩,
        ⟨3 / 2, 1 / 2⟩, ⟨3 / 2, 1⟩] := by decide!

/-! ## The order of the calls in Simulation::Iterate -/

theorem iterate_early (inp : StepInput) (h : inp.t_in_sec ≤ inp.minPremovementTime) :
    Phase.ComputeNextTimeStep ∉ Iterate inp ∧ Phase.ProcessEvents ∉ Iterate inp ∧
    Phase.UpdateRouter ∉ Iterate inp := by
  unfold Iterate
  rw [if_neg (not_lt.mpr h)]
  cases inp.toxAnalysis <;> cases inp.walkingSpeed <;> cases inp.directionManager <;>
    cases inp.toxicityDue <;> simp

/-- C13. In a step of `Simulation::Iterate` whose time exceeds the minimal
premovement time the operational model computes the next time step first;
after it the due events are processed, then the router is updated exactly if
an event was processed or an update was pending, and then the routes and
locations are updated, all in that same step.  No event is processed and the
router is not updated before the operational model has computed the step. -/
theorem iterate_order (inp : StepInput) (h : inp.minPremovementTime < inp.t_in_sec) :
    ∃ pre mid post,
      Iterate inp = pre ++ [Phase.ComputeNextTimeStep, Phase.ProcessEvents] ++ mid ++
        [Phase.UpdateRoutesAndLocations, Phase.GoalManagerUpdate] ++ post ∧
      Phase.ComputeNextTimeStep ∉ pre ∧ Phase.ProcessEvents ∉ pre ∧ Phase.UpdateRouter ∉ pre ∧
      Phase.ComputeNextTimeStep ∉ mid ++ post ∧ Phase.ProcessEvents ∉ mid ++ post ∧
      Phase.UpdateRouter ∉ post ∧
      (Phase.UpdateRouter ∈ mid ↔ (inp.eventProcessed = true ∨ inp.needsUpdate = true)) := by
  refine ⟨[Phase.UpdateGrid] ++
      (if inp.toxAnalysis then [Phase.ToxicityUpdate] else []) ++
      (if inp.walkingSpeed then [Phase.WalkingSpeedUpdate] else []) ++
      (if inp.directionManager then [Phase.DirectionManagerUpdate] else []) ++
      [Phase.ModelUpdate, Phase.RoutingUpdateTime],
    (if inp.eventProcessed then [Phase.DirectionStrategyInit]
      else if inp.mustReInit then [Phase.FFRouterReInit] else []) ++
      (if needUpdateAfterEvents inp then [Phase.UpdateRouter] else []),
    (if inp.toxicityDue then [Phase.ConductToxicityAnalysis] else []) ++ [Phase.ClockAdvance],
    ?_, ?_, ?_, ?_, ?_, ?_, ?_, ?_⟩
  · unfold Iterate movementBlock
    rw [if_pos h]
    simp only [List.append_assoc]
  · cases inp.toxAnalysis <;> cases inp.walkingSpeed <;> cases inp.directionManager <;> simp
  · cases inp.toxAnalysis <;> cases inp.walkingSpeed <;> cases inp.directionManager <;> simp
  · cases inp.toxAnalysis <;> cases inp.walkingSpeed <;> cases inp.directionManager <;> simp
  · unfold needUpdateAfterEvents
    cases inp.eventProcessed <;> cases inp.mustReInit <;> cases inp.needsUpdate <;>
      cases inp.toxicityDue <;> simp
  · unfold needUpdateAfterEvents
    cases inp.eventProcessed <;> cases inp.mustReInit <;> cases inp.needsUpdate <;>
      cases inp.toxicityDue <;> simp
  · cases inp.toxicityDue <;> simp
  · unfold needUpdateAfterEvents
    cases inp.eventProcessed <;> cases inp.mustReInit <;> cases inp.needsUpdate <;> simp

theorem iterate_order_witness :
    ∃ pre mid post,
      Iterate sampleStep = pre ++ [Phase.ComputeNextTimeStep, Phase.ProcessEvents] ++ mid ++
        [Phase.UpdateRoutesAndLocations, Phase.GoalManagerUpdate] ++ post ∧
      Phase.ComputeNextTimeStep ∉ pre ∧ Phase.ProcessEvents ∉ pre ∧ Phase.UpdateRouter ∉ pre ∧
      Phase.ComputeNextTimeStep ∉ mid ++ post ∧ Phase.ProcessEvents ∉ mid ++ post ∧
      Phase.UpdateRouter ∉ post ∧
      (Phase.UpdateRouter ∈ mid ↔
        (sampleStep.eventProcessed = true ∨ sampleStep.needsUpdate = true)) :=
  iterate_order sampleStep (by decide!)

/-- In the step `sampleStep` (time 5, an event is due and is processed) the
operational model computes the next time step before the events are processed
and before the router is updated; in the step `earlyStep` (time 0, premovement
time 1) no event is processed at all. -/
theorem iterate_order_counterexample :
    Iterate sampleStep =
      [Phase.UpdateGrid, Phase.DirectionManagerUpdate, Phase.ModelUpdate,
        Phase.RoutingUpdateTime, Phase.ComputeNextTimeStep, Phase.ProcessEvents,
        Phase.DirectionStrategyInit, Phase.UpdateRouter, Phase.UpdateRoutesAndLocations,
        Phase.GoalManagerUpdate, Phase.ClockAdvance] ∧
    Before Phase.ComputeNextTimeStep Phase.ProcessEvents (Iterate sampleStep) ∧
    Before Phase.ComputeNextTimeStep Phase.UpdateRouter (Iterate sampleStep) ∧
    ¬ Before Phase.ProcessEvents Phase.ComputeNextTimeStep (Iterate sampleStep) ∧
    ¬ Before Phase.UpdateRouter Phase.ComputeNextTimeStep (Iterate sampleStep) ∧
    Phase.ProcessEvents ∉ Iterate earlyStep := by decide!

/-! ## Simulation::UpdateRoutes -/

theorem updateRoutesBody_tempClosed (GetTransOrCrossByUID : Int → Option RouteDoor)
    (ped : RoutedPed) (cross : RouteDoor) (hd : GetTransOrCrossByUID ped.target = some cross)
    (hc : cross.isCrossing = true) (hr : cross.IsInRoom ped.roomID = true)
    (hs : cross.IsInSubRoom ped.subRoomID = true) (ht : cross.state = DoorState.TEMP_CLOSE) :
    (updateRoutesBody GetTransOrCrossByUID ped).waiting = true ∧
    (updateRoutesBody GetTransOrCrossByUID ped).target = ped.target ∧
    (updateRoutesBody GetTransOrCrossByUID ped).roomID = ped.roomID ∧
    (updateRoutesBody GetTransOrCrossByUID ped).subRoomID = ped.subRoomID := by
  have hopen : cross.IsOpen = false := by simp [RouteDoor.IsOpen, ht]
  have htc : cross.IsTempClose = true := by simp [RouteDoor.IsTempClose, ht]
  obtain ⟨w, tg, rid, sid, f⟩ := ped
  simp only at hd hr hs
  unfold updateRoutesBody
  by_cases hout : tg = FINAL_DEST_OUT
  · simp [hout, RoutedPed.StartWaiting]
  · simp only [hout, if_false, ne_eq, not_false_eq_true, if_true, hd, hc]
    have hft : f true = true ∨ f true = false := by cases f true <;> simp
    have hff : f false = true ∨ f false = false := by cases f false <;> simp
    cases w <;> rcases hft with hft | hft <;> rcases hff with hff | hff <;>
      simp [hft, hff, hr, hs, hopen, htc, RoutedPed.StartWaiting, RoutedPed.EndWaiting]

/-- C14. After `Simulation::UpdateRoutes` every agent whose route target is
a crossing or transition of the agent's room and subroom in state TEMP_CLOSED
is waiting, whatever its waiting flag was before. -/
theorem updateRoutes_tempClosed (GetTransOrCrossByUID : Int → Option RouteDoor)
    (peds : List RoutedPed) (i : Nat) (ped : RoutedPed) (cross : RouteDoor)
    (hp : peds[i]? = some ped) (hd : GetTransOrCrossByUID ped.target = some cross)
    (hc : cross.isCrossing = true) (hr : cross.IsInRoom ped.roomID = true)
    (hs : cross.IsInSubRoom ped.subRoomID = true) (ht : cross.state = DoorState.TEMP_CLOSE) :
    ∃ ped1, (UpdateRoutes GetTransOrCrossByUID peds)[i]? = some ped1 ∧ ped1.waiting = true ∧
      ped1.target = ped.target ∧ ped1.roomID = ped.roomID ∧ ped1.subRoomID = ped.subRoomID := by
  refine ⟨updateRoutesBody GetTransOrCrossByUID ped, ?_,
    updateRoutesBody_tempClosed _ ped cross hd hc hr hs ht⟩
  unfold UpdateRoutes
  rw [List.getElem?_map, hp]
  rfl

theorem updateRoutes_tempClosed_witness :
    ∃ ped1, (UpdateRoutes (fun uid => if uid = 7 then some sampleRouteDoor else none)
        [sampleRoutedPed])[0]? = some ped1 ∧ ped1.waiting = true ∧
      ped1.target = sampleRoutedPed.target ∧ ped1.roomID = sampleRoutedPed.roomID ∧
      ped1.subRoomID = sampleRoutedPed.subRoomID :=
  updateRoutes_tempClosed (fun uid => if uid = 7 then some sampleRouteDoor else none)
    [sampleRoutedPed] 0 sampleRoutedPed sampleRouteDoor rfl rfl rfl rfl rfl rfl

/-- A waiting agent whose target door is open and who is outside a waiting
area stops waiting; one whose target door is temporarily closed keeps waiting. -/
theorem updateRoutes_sample :
    ((UpdateRoutes (fun uid => if uid = 7 then some sampleRouteDoor else none)
      [{ sampleRoutedPed with waiting := true }]).map fun p => p.waiting) = [true] ∧
    ((UpdateRoutes
      (fun uid => if uid = 7 then some { sampleRouteDoor with state := DoorState.OPEN } else none)
      [{ sampleRoutedPed with waiting := true }]).map fun p => p.waiting) = [false] := by
  decide

/-! ## Line: nearest point, circle, equality, UIDs, overlap, sides -/

/-- C21. For `J_EPS > 0`, every segment `l` and every point `p`:
`l.ShortestPoint(p)` lies on the segment; if the end points of `l` are not
equal up to `J_EPS`, or coincide, no point of the segment is closer to `p`, and
`DistTo(p)` is at most the distance `d` from `p` to any point of the segment
(when the square root is exact at the squared distance to the shortest point);
if the end points are equal up to `J_EPS` the result is the end point
`point1`. -/
theorem shortestPoint_nearest (sqrt : ℚ → ℚ) (J_EPS : ℚ) (hJ : 0 < J_EPS) (l : Line)
    (p : Point) :
    (∃ σ : ℚ, 0 ≤ σ ∧ σ ≤ 1 ∧
      l.ShortestPoint J_EPS p = l.point2.add ((l.point1.sub l.point2).mul σ)) ∧
    ((Point.opEq J_EPS l.point1 l.point2 = false ∨ l.point1 = l.point2) →
      (∀ τ : ℚ, 0 ≤ τ → τ ≤ 1 →
        (p.sub (l.ShortestPoint J_EPS p)).NormSquare ≤
          (p.sub (l.point2.add ((l.point1.sub l.point2).mul τ))).NormSquare) ∧
      (l.DistTo sqrt J_EPS p * l.DistTo sqrt J_EPS p =
          (p.sub (l.ShortestPoint J_EPS p)).NormSquare →
        ∀ τ d : ℚ, 0 ≤ τ → τ ≤ 1 → 0 ≤ d →
          d * d = (p.sub (l.point2.add ((l.point1.sub l.point2).mul τ))).NormSquare →
          l.DistTo sqrt J_EPS p ≤ d)) ∧
    (Point.opEq J_EPS l.point1 l.point2 = true → l.ShortestPoint J_EPS p = l.point1) := by
  have hclosest : (Point.opEq J_EPS l.point1 l.point2 = false ∨ l.point1 = l.point2) →
      ∀ τ : ℚ, 0 ≤ τ → τ ≤ 1 →
        (p.sub (l.ShortestPoint J_EPS p)).NormSquare ≤
          (p.sub (l.point2.add ((l.point1.sub l.point2).mul τ))).NormSquare := by
    intro h τ h0 h1
    rcases h with h | h
    · exact shortestPoint_closest J_EPS hJ l p h τ h0 h1
    · have heq : Point.opEq J_EPS l.point1 l.point2 = true := by
        rw [h]
        simp [Point.opEq, hJ]
      have hsp : l.ShortestPoint J_EPS p = l.point1 := by
        unfold Line.ShortestPoint
        rw [if_pos heq]
      have hq : l.point2.add ((l.point1.sub l.point2).mul τ) = l.point1 := by
        rw [h]
        cases l.point2
        simp [Point.add, Point.sub, Point.mul]
      rw [hsp, hq]
  refine ⟨shortestPoint_mem J_EPS l p, ?_, ?_⟩
  · intro h
    refine ⟨hclosest h, ?_⟩
    intro hsq τ d h0 h1 hd hdd
    have hle := hclosest h τ h0 h1
    rw [← hsq, ← hdd] at hle
    by_contra hc
    have hlt : d < l.DistTo sqrt J_EPS p := not_le.mp hc
    have : d * d < l.DistTo sqrt J_EPS p * l.DistTo sqrt J_EPS p :=
      mul_lt_mul'' hlt hlt hd hd
    linarith
  · intro h
    unfold Line.ShortestPoint
    rw [if_pos h]

theorem shortestPoint_nearest_witness :
    (∃ σ : ℚ, 0 ≤ σ ∧ σ ≤ 1 ∧
      Line.ShortestPoint (1 / 1000) ⟨⟨0, 0⟩, ⟨4, 0⟩⟩ ⟨1, 3⟩ =
        Point.add ⟨4, 0⟩ ((Point.sub ⟨0, 0⟩ ⟨4, 0⟩).mul σ)) ∧
    ((Point.opEq (1 / 1000) ⟨0, 0⟩ ⟨4, 0⟩ = false ∨ (⟨0, 0⟩ : Point) = ⟨4, 0⟩) →
      (∀ τ : ℚ, 0 ≤ τ → τ ≤ 1 →
        (Point.sub ⟨1, 3⟩ (Line.ShortestPoint (1 / 1000) ⟨⟨0, 0⟩, ⟨4, 0⟩⟩ ⟨1, 3⟩)).NormSquare ≤
          (Point.sub ⟨1, 3⟩
            (Point.add ⟨4, 0⟩ ((Point.sub ⟨0, 0⟩ ⟨4, 0⟩).mul τ))).NormSquare) ∧
      (Line.DistTo sqrtQ (1 / 1000) ⟨⟨0, 0⟩, ⟨4, 0⟩⟩ ⟨1, 3⟩ *
          Line.DistTo sqrtQ (1 / 1000) ⟨⟨0, 0⟩, ⟨4, 0⟩⟩ ⟨1, 3⟩ =
          (Point.sub ⟨1, 3⟩
            (Line.ShortestPoint (1 / 1000) ⟨⟨0, 0⟩, ⟨4, 0⟩⟩ ⟨1, 3⟩)).NormSquare →
        ∀ τ d : ℚ, 0 ≤ τ → τ ≤ 1 → 0 ≤ d →
          d * d = (Point.sub ⟨1, 3⟩
            (Point.add ⟨4, 0⟩ ((Point.sub ⟨0, 0⟩ ⟨4, 0⟩).mul τ))).NormSquare →
          Line.DistTo sqrtQ (1 / 1000) ⟨⟨0, 0⟩, ⟨4, 0⟩⟩ ⟨1, 3⟩ ≤ d)) ∧
    (Point.opEq (1 / 1000) ⟨0, 0⟩ ⟨4, 0⟩ = true →
      Line.ShortestPoint (1 / 1000) ⟨⟨0, 0⟩, ⟨4, 0⟩⟩ ⟨1, 3⟩ = ⟨0, 0⟩) :=
  shortestPoint_nearest sqrtQ (1 / 1000) (by norm_num) ⟨⟨0, 0⟩, ⟨4, 0⟩⟩ ⟨1, 3⟩

theorem shortestPoint_sample :
    Line.ShortestPoint (1 / 1000) ⟨⟨0, 0⟩, ⟨4, 0⟩⟩ ⟨1, 3⟩ = ⟨1, 0⟩ ∧
    Line.DistTo sqrtQ (1 / 1000) ⟨⟨0, 0⟩, ⟨4, 0⟩⟩ ⟨1, 3⟩ = 3 ∧
    Line.ShortestPoint (1 / 1000) ⟨⟨0, 0⟩, ⟨4, 0⟩⟩ ⟨7, 3⟩ = ⟨4, 0⟩ := by decide!

/-- For the segment from `(0, 0)` to `(0.0005, 0)`, whose end points are equal
up to `J_EPS = 0.001`, and the point `p = (1, 0)`, `ShortestPoint` returns
`(0, 0)`, although the end point `(0.0005, 0)` of the segment is closer to `p`. -/
theorem shortestPoint_nearest_counterexample :
    Line.ShortestPoint (1 / 1000) ⟨⟨0, 0⟩, ⟨1 / 2000, 0⟩⟩ ⟨1, 0⟩ = ⟨0, 0⟩ ∧
    Line.IsInLineSegment ⟨⟨0, 0⟩, ⟨1 / 2000, 0⟩⟩ ⟨1 / 2000, 0⟩ = true ∧
    (Point.sub ⟨1, 0⟩ ⟨1 / 2000, 0⟩).NormSquare <
      (Point.sub ⟨1, 0⟩
        (Line.ShortestPoint (1 / 1000) ⟨⟨0, 0⟩, ⟨1 / 2000, 0⟩⟩ ⟨1, 0⟩)).NormSquare := by
  decide!

/-- C22. The segment from the centre `(0, 0)` to `(2, 0)` has the point `(1, 0)`
at distance 1 from the centre, and the segment from `(-2, 0)` to `(2, 0)` has
the points `(-1, 0)` and `(1, 0)` at distance 1; `IntersectionWithCircle` with
radius 1 returns false for both, while `IntersectionPointsWithCircle` returns
these points. -/
theorem intersectionWithCircle_misses :
    (Line.IntersectionWithCircle sqrtQ (1 / 1000) ⟨⟨0, 0⟩, ⟨2, 0⟩⟩ ⟨0, 0⟩ 1 = false ∧
      Line.IsInLineSegment ⟨⟨0, 0⟩, ⟨2, 0⟩⟩ ⟨1, 0⟩ = true ∧
      (Point.sub ⟨1, 0⟩ ⟨0, 0⟩).NormSquare = 1 * 1 ∧
      Line.IntersectionPointsWithCircle sqrtQ (1 / 1000) ⟨⟨0, 0⟩, ⟨2, 0⟩⟩ ⟨0, 0⟩ 1 =
        [⟨1, 0⟩]) ∧
    (Line.IntersectionWithCircle sqrtQ (1 / 1000) ⟨⟨-2, 0⟩, ⟨2, 0⟩⟩ ⟨0, 0⟩ 1 = false ∧
      Line.IsInLineSegment ⟨⟨-2, 0⟩, ⟨2, 0⟩⟩ ⟨1, 0⟩ = true ∧
      Line.IntersectionPointsWithCircle sqrtQ (1 / 1000) ⟨⟨-2, 0⟩, ⟨2, 0⟩⟩ ⟨0, 0⟩ 1 =
        [⟨-1, 0⟩, ⟨1, 0⟩]) := by decide!

theorem point_opEq_comm (J_EPS : ℚ) (p q : Point) :
    Point.opEq J_EPS p q = Point.opEq J_EPS q p := by
  unfold Point.opEq
  rw [abs_sub_comm p.x q.x, abs_sub_comm p.y q.y]

theorem point_opEq_self (J_EPS : ℚ) (hJ : 0 < J_EPS) (p : Point) :
    Point.opEq J_EPS p p = true := by
  simp [Point.opEq, hJ]

/-- C23. For `J_EPS > 0`: two lines compare equal exactly when their end
points are equal up to `J_EPS`, in the same or in the opposite order; the
equality of lines is reflexive, symmetric, unchanged when the end points of
either line are swapped, independent of the UIDs (and of centre and length),
and `!=` is its negation. -/
theorem lineEq_spec (J_EPS : ℚ) (hJ : 0 < J_EPS) (l1 l2 : LineObj) :
    (LineObj.opEq J_EPS l1 l2 = true ↔
      (Point.opEq J_EPS l1.point1 l2.point1 = true ∧
        Point.opEq J_EPS l1.point2 l2.point2 = true) ∨
      (Point.opEq J_EPS l1.point2 l2.point1 = true ∧
        Point.opEq J_EPS l1.point1 l2.point2 = true)) ∧
    LineObj.opEq J_EPS l1 l1 = true ∧
    LineObj.opEq J_EPS l1 l2 = LineObj.opEq J_EPS l2 l1 ∧
    LineObj.opEq J_EPS { l1 with point1 := l1.point2, point2 := l1.point1 } l2 =
      LineObj.opEq J_EPS l1 l2 ∧
    LineObj.opEq J_EPS l1 { l2 with point1 := l2.point2, point2 := l2.point1 } =
      LineObj.opEq J_EPS l1 l2 ∧
    (∀ (u1 u2 : Option Int) (c1 c2 : Point) (len1 len2 : ℚ),
      LineObj.opEq J_EPS { l1 with uid := u1, centre := c1, length := len1 }
        { l2 with uid := u2, centre := c2, length := len2 } = LineObj.opEq J_EPS l1 l2) ∧
    LineObj.opNe J_EPS l1 l2 = !(LineObj.opEq J_EPS l1 l2) ∧
    LineObj.opEq J_EPS l1 l2 = Line.opEq J_EPS l1.toLine l2.toLine := by
  refine ⟨?_, ?_, ?_, ?_, ?_, ?_, rfl, rfl⟩
  · unfold LineObj.opEq
    simp only [Bool.or_eq_true, Bool.and_eq_true]
  · unfold LineObj.opEq
    simp [point_opEq_self J_EPS hJ]
  · unfold LineObj.opEq
    rw [point_opEq_comm J_EPS l1.point1 l2.point1, point_opEq_comm J_EPS l1.point2 l2.point2,
      point_opEq_comm J_EPS l1.point2 l2.point1, point_opEq_comm J_EPS l1.point1 l2.point2]
    cases Point.opEq J_EPS l2.point1 l1.point1 <;> cases Point.opEq J_EPS l2.point2 l1.point2 <;>
      cases Point.opEq J_EPS l2.point1 l1.point2 <;>
      cases Point.opEq J_EPS l2.point2 l1.point1 <;> rfl
  · unfold LineObj.opEq
    simp only
    cases Point.opEq J_EPS l1.point1 l2.point1 <;> cases Point.opEq J_EPS l1.point2 l2.point2 <;>
      cases Point.opEq J_EPS l1.point2 l2.point1 <;>
      cases Point.opEq J_EPS l1.point1 l2.point2 <;> rfl
  · unfold LineObj.opEq
    simp only
    cases Point.opEq J_EPS l1.point1 l2.point1 <;> cases Point.opEq J_EPS l1.point2 l2.point2 <;>
      cases Point.opEq J_EPS l1.point2 l2.point1 <;>
      cases Point.opEq J_EPS l1.point1 l2.point2 <;> rfl
  · intro u1 u2 c1 c2 len1 len2
    rfl

theorem lineEq_spec_witness :
    LineObj.opEq (1 / 1000) ⟨⟨0, 0⟩, ⟨1, 0⟩, ⟨1 / 2, 0⟩, 1, some 3⟩
      ⟨⟨1, 0⟩, ⟨0, 0⟩, ⟨1 / 2, 0⟩, 1, some 4⟩ =
    LineObj.opEq (1 / 1000) ⟨⟨1, 0⟩, ⟨0, 0⟩, ⟨1 / 2, 0⟩, 1, some 4⟩
      ⟨⟨0, 0⟩, ⟨1, 0⟩, ⟨1 / 2, 0⟩, 1, some 3⟩ :=
  (lineEq_spec (1 / 1000) (by norm_num) ⟨⟨0, 0⟩, ⟨1, 0⟩, ⟨1 / 2, 0⟩, 1, some 3⟩
    ⟨⟨1, 0⟩, ⟨0, 0⟩, ⟨1 / 2, 0⟩, 1, some 4⟩).2.2.1

theorem lineEq_sample :
    LineObj.opEq (1 / 1000) ⟨⟨0, 0⟩, ⟨1, 0⟩, ⟨1 / 2, 0⟩, 1, some 3⟩
      ⟨⟨1, 0⟩, ⟨0, 0⟩, ⟨1 / 2, 0⟩, 1, some 4⟩ = true ∧
    LineObj.opEq (1 / 1000) ⟨⟨0, 0⟩, ⟨1, 0⟩, ⟨1 / 2, 0⟩, 1, some 3⟩
      ⟨⟨1, 0⟩, ⟨0, 1⟩, ⟨1 / 2, 1 / 2⟩, 1, some 3⟩ = false := by decide!
theorem make_inv (sqrt : ℚ → ℚ) (p1 p2 : Point) (uid : Option Int) :
    (LineObj.make sqrt p1 p2 uid).centre =
        ((LineObj.make sqrt p1 p2 uid).point1.add (LineObj.make sqrt p1 p2 uid).point2).mul
          (1 / 2) ∧
      (LineObj.make sqrt p1 p2 uid).length =
        ((LineObj.make sqrt p1 p2 uid).point1.sub (LineObj.make sqrt p1 p2 uid).point2).Norm
          sqrt :=
  ⟨rfl, rfl⟩

theorem wrapInt32_eq (x : Int) (h0 : -2147483648 ≤ x) (h1 : x < 2147483648) :
    wrapInt32 x = x := by
  unfold wrapInt32
  rw [Int.emod_eq_of_lt (by omega) (by omega)]
  omega

theorem wrapInt32_succ (c : Int) : wrapInt32 (wrapInt32 c + 1) = wrapInt32 (c + 1) := by
  unfold wrapInt32
  have : (c + 2147483648) % 4294967296 - 2147483648 + 1 + 2147483648
      = (c + 2147483648) % 4294967296 + 1 := by ring
  rw [this, Int.emod_add_emod]
  congr 2
  ring

theorem step_inv (sqrt : ℚ → ℚ) (w : LineWorld) (hw : LineWorld.Inv sqrt w) (op : LineOp)
    (h0 : 0 ≤ w.static_UID) (hb : op.counts = true → w.static_UID + 1 < 2147483648) :
    LineWorld.Inv sqrt (w.step sqrt op) ∧
      (w.step sqrt op).static_UID = w.static_UID + (if op.counts then 1 else 0) := by
  have hnew : ∀ p1 p2 : Point, w.static_UID + 1 < 2147483648 →
      LineWorld.Inv sqrt ⟨wrapInt32 (w.static_UID + 1),
          w.lines ++ [LineObj.make sqrt p1 p2 (some w.static_UID)]⟩ ∧
        wrapInt32 (w.static_UID + 1) = w.static_UID + 1 := by
    intro p1 p2 hlt
    have hwrap : wrapInt32 (w.static_UID + 1) = w.static_UID + 1 :=
      wrapInt32_eq _ (by omega) hlt
    refine ⟨?_, hwrap⟩
    intro l hl
    simp only [List.mem_append, List.mem_singleton] at hl
    rcases hl with hl | hl
    · obtain ⟨h1, h2, h3⟩ := hw l hl
      refine ⟨?_, h2, h3⟩
      intro u hu
      have := h1 u hu
      show u < wrapInt32 (w.static_UID + 1)
      rw [hwrap]; omega
    · subst hl
      refine ⟨?_, rfl, rfl⟩
      intro u hu
      simp only [LineObj.make, Option.some.injEq] at hu
      show u < wrapInt32 (w.static_UID + 1)
      rw [hwrap]; omega
  cases op with
  | default =>
    obtain ⟨h1, h2⟩ := hnew ⟨0, 0⟩ ⟨0, 0⟩ (hb rfl)
    exact ⟨h1, by simpa [LineWorld.step, LineOp.counts] using h2⟩
  | twoPoint p1 p2 =>
    obtain ⟨h1, h2⟩ := hnew p1 p2 (hb rfl)
    exact ⟨h1, by simpa [LineWorld.step, LineOp.counts] using h2⟩
  | threeArg p1 p2 count =>
    simp only [LineWorld.step, LineOp.counts]
    by_cases hc : count ≠ 0
    · obtain ⟨h1, h2⟩ := hnew p1 p2 (hb (by simp [LineOp.counts, hc]))
      rw [if_pos hc]
      exact ⟨h1, by simpa [hc] using h2⟩
    · rw [if_neg hc]
      refine ⟨?_, by simp [hc]⟩
      intro l hl
      simp only [List.mem_append, List.mem_singleton] at hl
      rcases hl with hl | hl
      · exact hw l hl
      · subst hl
        refine ⟨?_, rfl, rfl⟩
        intro u hu
        simp [LineObj.make] at hu
  | copy i =>
    simp only [LineWorld.step, LineOp.counts]
    cases h : w.lines[i]? with
    | none => exact ⟨hw, by simp⟩
    | some l0 =>
      refine ⟨?_, by simp⟩
      intro l hl
      simp only [List.mem_append, List.mem_singleton] at hl
      rcases hl with hl | hl
      · exact hw l hl
      · subst hl
        exact hw l (List.getElem?_mem h)
  | setPoint1 i p =>
    simp only [LineWorld.step, LineOp.counts]
    cases h : w.lines[i]? with
    | none => exact ⟨hw, by simp⟩
    | some l0 =>
      refine ⟨?_, by simp⟩
      intro l hl
      rcases List.mem_or_eq_of_mem_set hl with hl | hl
      · exact hw l hl
      · subst hl
        exact ⟨(hw l0 (List.getElem?_mem h)).1, rfl, rfl⟩
  | setPoint2 i p =>
    simp only [LineWorld.step, LineOp.counts]
    cases h : w.lines[i]? with
    | none => exact ⟨hw, by simp⟩
    | some l0 =>
      refine ⟨?_, by simp⟩
      intro l hl
      rcases List.mem_or_eq_of_mem_set hl with hl | hl
      · exact hw l hl
      · subst hl
        exact ⟨(hw l0 (List.getElem?_mem h)).1, rfl, rfl⟩

theorem foldl_step_inv (sqrt : ℚ → ℚ) (ops : List LineOp) :
    ∀ w, LineWorld.Inv sqrt w → 0 ≤ w.static_UID →
      w.static_UID + (countedLines ops : Int) < 2147483648 →
      LineWorld.Inv sqrt (ops.foldl (LineWorld.step sqrt) w) ∧
        (ops.foldl (LineWorld.step sqrt) w).static_UID
          = w.static_UID + (countedLines ops : Int) := by
  induction ops with
  | nil => intro w hw _ _; exact ⟨hw, by simp [countedLines]⟩
  | cons op ops ih =>
    intro w hw h0 hb
    have hcount : (countedLines (op :: ops) : Int)
        = (if op.counts then 1 else 0) + (countedLines ops : Int) := by
      unfold countedLines
      rw [List.countP_cons]
      split <;> push_cast <;> ring
    rw [hcount] at hb ⊢
    have hnn : (0 : Int) ≤ (countedLines ops : Int) := Int.ofNat_nonneg _
    obtain ⟨h1, h2⟩ := step_inv sqrt w hw op h0 (by
      intro hc; rw [hc] at hb; simp only [if_true] at hb; omega)
    have h3 : 0 ≤ (w.step sqrt op).static_UID := by
      rw [h2]; split <;> omega
    obtain ⟨h4, h5⟩ := ih (w.step sqrt op) h1 h3 (by rw [h2]; omega)
    refine ⟨h4, ?_⟩
    rw [List.foldl_cons, h5, h2]
    ring

/-- C24. After a sequence of constructor, copy and setter calls on lines in which fewer
than `2^31` lines took a UID from the counter `_static_UID`, so that the `int` counter has
not overflowed: the counter holds the number of these lines; the default constructor and
the two-point constructor give the new line the current value of the counter as UID, which
differs from the UID of every line created before; `SetPoint1` and `SetPoint2` leave the
UID of their line, the other lines and the counter as they are, and set centre to
`(p1 + p2) / 2` and length to `|p1 - p2|`; and every line has that centre and that
length. -/
theorem lineUid_spec (sqrt : ℚ → ℚ) (ops : List LineOp)
    (hbound : (countedLines ops : Int) < 2147483648) :
    (LineWorld.run sqrt ops).static_UID = (countedLines ops : Int) ∧
    (∀ l ∈ (LineWorld.run sqrt ops).lines,
      l.uid ≠ some (LineWorld.run sqrt ops).static_UID ∧
      l.centre = (l.point1.add l.point2).mul (1 / 2) ∧
      l.length = (l.point1.sub l.point2).Norm sqrt) ∧
    ((LineWorld.run sqrt ops).step sqrt LineOp.default).lines =
      (LineWorld.run sqrt ops).lines ++
        [LineObj.make sqrt ⟨0, 0⟩ ⟨0, 0⟩ (some (LineWorld.run sqrt ops).static_UID)] ∧
    (∀ p1 p2, ((LineWorld.run sqrt ops).step sqrt (LineOp.twoPoint p1 p2)).lines =
      (LineWorld.run sqrt ops).lines ++
        [LineObj.make sqrt p1 p2 (some (LineWorld.run sqrt ops).static_UID)]) ∧
    (∀ i p l, (LineWorld.run sqrt ops).lines[i]? = some l →
      ((LineWorld.run sqrt ops).step sqrt (LineOp.setPoint1 i p)).static_UID =
        (LineWorld.run sqrt ops).static_UID ∧
      ((LineWorld.run sqrt ops).step sqrt (LineOp.setPoint1 i p)).lines =
        (LineWorld.run sqrt ops).lines.set i (l.SetPoint1 sqrt p) ∧
      (l.SetPoint1 sqrt p).uid = l.uid ∧ (l.SetPoint1 sqrt p).point1 = p ∧
      (l.SetPoint1 sqrt p).point2 = l.point2 ∧
      (l.SetPoint1 sqrt p).centre = (p.add l.point2).mul (1 / 2) ∧
      (l.SetPoint1 sqrt p).length = (p.sub l.point2).Norm sqrt) ∧
    (∀ i p l, (LineWorld.run sqrt ops).lines[i]? = some l →
      ((LineWorld.run sqrt ops).step sqrt (LineOp.setPoint2 i p)).static_UID =
        (LineWorld.run sqrt ops).static_UID ∧
      ((LineWorld.run sqrt ops).step sqrt (LineOp.setPoint2 i p)).lines =
        (LineWorld.run sqrt ops).lines.set i (l.SetPoint2 sqrt p) ∧
      (l.SetPoint2 sqrt p).uid = l.uid ∧ (l.SetPoint2 sqrt p).point1 = l.point1 ∧
      (l.SetPoint2 sqrt p).point2 = p ∧
      (l.SetPoint2 sqrt p).centre = (l.point1.add p).mul (1 / 2) ∧
      (l.SetPoint2 sqrt p).length = (l.point1.sub p).Norm sqrt) := by
  obtain ⟨hinv, hcnt⟩ := foldl_step_inv sqrt ops LineWorld.init
    (by intro l hl; simp [LineWorld.init] at hl) (le_refl _)
    (by simpa [LineWorld.init] using hbound)
  have hcnt' : (LineWorld.run sqrt ops).static_UID = (countedLines ops : Int) := by
    unfold LineWorld.run
    rw [hcnt]
    simp [LineWorld.init]
  refine ⟨hcnt', ?_, rfl, fun _ _ => rfl, ?_, ?_⟩
  · intro l hl
    obtain ⟨h1, h2, h3⟩ := hinv l hl
    refine ⟨?_, h2, h3⟩
    intro hu
    exact lt_irrefl _ (h1 _ hu)
  · intro i p l hl
    refine ⟨?_, ?_, rfl, rfl, rfl, rfl, rfl⟩
    · simp only [LineWorld.step, hl]
    · simp only [LineWorld.step, hl]
  · intro i p l hl
    refine ⟨?_, ?_, rfl, rfl, rfl, rfl, rfl⟩
    · simp only [LineWorld.step, hl]
    · simp only [LineWorld.step, hl]

theorem lineUid_spec_witness :
    (countedLines [LineOp.default, LineOp.threeArg ⟨0, 0⟩ ⟨1, 0⟩ 0,
      LineOp.twoPoint ⟨0, 0⟩ ⟨3, 4⟩, LineOp.setPoint1 2 ⟨3, 0⟩, LineOp.copy 0] : Int)
        < 2147483648 ∧
    (LineWorld.run sqrtQ [LineOp.default, LineOp.threeArg ⟨0, 0⟩ ⟨1, 0⟩ 0,
      LineOp.twoPoint ⟨0, 0⟩ ⟨3, 4⟩, LineOp.setPoint1 2 ⟨3, 0⟩, LineOp.copy 0]).static_UID
        = (countedLines [LineOp.default, LineOp.threeArg ⟨0, 0⟩ ⟨1, 0⟩ 0,
      LineOp.twoPoint ⟨0, 0⟩ ⟨3, 4⟩, LineOp.setPoint1 2 ⟨3, 0⟩, LineOp.copy 0] : Int) ∧
    ∀ l ∈ (LineWorld.run sqrtQ [LineOp.default, LineOp.threeArg ⟨0, 0⟩ ⟨1, 0⟩ 0,
        LineOp.twoPoint ⟨0, 0⟩ ⟨3, 4⟩, LineOp.setPoint1 2 ⟨3, 0⟩, LineOp.copy 0]).lines,
      l.uid ≠ some (LineWorld.run sqrtQ [LineOp.default, LineOp.threeArg ⟨0, 0⟩ ⟨1, 0⟩ 0,
        LineOp.twoPoint ⟨0, 0⟩ ⟨3, 4⟩, LineOp.setPoint1 2 ⟨3, 0⟩, LineOp.copy 0]).static_UID ∧
      l.centre = (l.point1.add l.point2).mul (1 / 2) ∧
      l.length = (l.point1.sub l.point2).Norm sqrtQ :=
  ⟨by decide,
    (lineUid_spec sqrtQ [LineOp.default, LineOp.threeArg ⟨0, 0⟩ ⟨1, 0⟩ 0,
      LineOp.twoPoint ⟨0, 0⟩ ⟨3, 4⟩, LineOp.setPoint1 2 ⟨3, 0⟩, LineOp.copy 0]
      (by decide)).1,
    (lineUid_spec sqrtQ [LineOp.default, LineOp.threeArg ⟨0, 0⟩ ⟨1, 0⟩ 0,
      LineOp.twoPoint ⟨0, 0⟩ ⟨3, 4⟩, LineOp.setPoint1 2 ⟨3, 0⟩, LineOp.copy 0]
      (by decide)).2.1⟩

theorem lineUid_sample :
    ((LineWorld.run sqrtQ [LineOp.default, LineOp.threeArg ⟨0, 0⟩ ⟨1, 0⟩ 0,
        LineOp.twoPoint ⟨0, 0⟩ ⟨3, 4⟩, LineOp.setPoint1 2 ⟨3, 0⟩, LineOp.copy 0]).lines.map
      fun l => (l.uid, l.length)) = [(some 0, 0), (none, 1), (some 1, 4), (some 0, 0)] ∧
    (LineWorld.run sqrtQ [LineOp.default, LineOp.threeArg ⟨0, 0⟩ ⟨1, 0⟩ 0,
        LineOp.twoPoint ⟨0, 0⟩ ⟨3, 4⟩, LineOp.setPoint1 2 ⟨3, 0⟩, LineOp.copy 0]).static_UID =
      2 := by decide!

theorem step_default_lines (sqrt : ℚ → ℚ) (w : LineWorld) :
    (w.step sqrt LineOp.default).lines =
      w.lines ++ [LineObj.make sqrt ⟨0, 0⟩ ⟨0, 0⟩ (some w.static_UID)] := rfl

/-- A run of default constructors only: the counter is the wrapped number of lines, and
the lines the run started from are still the first ones. -/
theorem foldl_replicate_default (sqrt : ℚ → ℚ) (n : Nat) :
    ∀ (w : LineWorld) (c : Int), w.static_UID = wrapInt32 c →
      ((List.replicate n LineOp.default).foldl (LineWorld.step sqrt) w).static_UID
          = wrapInt32 (c + n) ∧
        ∃ extra, ((List.replicate n LineOp.default).foldl (LineWorld.step sqrt) w).lines
          = w.lines ++ extra := by
  induction n with
  | zero =>
    intro w c hc
    exact ⟨by simpa using hc, [], by simp⟩
  | succ m ih =>
    intro w c hc
    rw [List.replicate_succ, List.foldl_cons]
    obtain ⟨h1, extra, h2⟩ := ih (w.step sqrt LineOp.default) (c + 1) (by
      show wrapInt32 (w.static_UID + 1) = wrapInt32 (c + 1)
      rw [hc, wrapInt32_succ])
    refine ⟨?_, [LineObj.make sqrt ⟨0, 0⟩ ⟨0, 0⟩ (some w.static_UID)] ++ extra, ?_⟩
    · rw [h1]; push_cast; congr 1; ring
    · rw [h2, step_default_lines, List.append_assoc]

theorem run_replicate_default (sqrt : ℚ → ℚ) (n : Nat) (hn : 0 < n) :
    ((LineWorld.run sqrt (List.replicate n LineOp.default)).lines.head?).map LineObj.uid
        = some (some 0) ∧
      (LineWorld.run sqrt (List.replicate n LineOp.default)).static_UID = wrapInt32 n := by
  obtain ⟨m, rfl⟩ : ∃ m, n = m + 1 := ⟨n - 1, by omega⟩
  unfold LineWorld.run
  rw [List.replicate_succ, List.foldl_cons]
  obtain ⟨h1, extra, h2⟩ := foldl_replicate_default sqrt m
    (LineWorld.init.step sqrt LineOp.default) 1 rfl
  refine ⟨?_, ?_⟩
  · rw [h2, step_default_lines]
    rfl
  · rw [h1]; push_cast; congr 1; ring

/-- C24, the claim as stated fails once the counter has overflowed: after `2^32` calls of
the default constructor the `int` counter `_static_UID` is back at 0, the UID of the first
line, so the next line created by the default constructor receives the UID 0 again. -/
theorem lineUid_counterexample :
    ((LineWorld.run sqrtQ (List.replicate 4294967296 LineOp.default)).lines.head?).map
        LineObj.uid = some (some 0) ∧
    (LineWorld.run sqrtQ (List.replicate 4294967296 LineOp.default)).static_UID = 0 ∧
    ((LineWorld.run sqrtQ (List.replicate 4294967296 LineOp.default)).step sqrtQ
        LineOp.default).lines =
      (LineWorld.run sqrtQ (List.replicate 4294967296 LineOp.default)).lines ++
        [LineObj.make sqrtQ ⟨0, 0⟩ ⟨0, 0⟩ (some 0)] := by
  obtain ⟨h1, h2⟩ := run_replicate_default sqrtQ 4294967296 (by decide)
  have h3 : (LineWorld.run sqrtQ (List.replicate 4294967296 LineOp.default)).static_UID
      = 0 := by
    rw [h2]; decide
  refine ⟨h1, h3, ?_⟩
  rw [step_default_lines, h3]

/-- C25. The segments from `(1, 0)` to `(2, 0)` and from `(0, 0)` to `(3, 0)` are
colinear and share the interval from `(1, 0)` to `(2, 0)`; `Overlapp` returns
false when the shorter one is the receiver and true when the longer one is;
for a segment and itself it returns false. -/
theorem overlapp_asymmetric :
    Line.Overlapp (1 / 1000) ⟨⟨1, 0⟩, ⟨2, 0⟩⟩ ⟨⟨0, 0⟩, ⟨3, 0⟩⟩ = false ∧
    Line.Overlapp (1 / 1000) ⟨⟨0, 0⟩, ⟨3, 0⟩⟩ ⟨⟨1, 0⟩, ⟨2, 0⟩⟩ = true ∧
    Line.IsInLineSegment ⟨⟨0, 0⟩, ⟨3, 0⟩⟩ ⟨1, 0⟩ = true ∧
    Line.IsInLineSegment ⟨⟨0, 0⟩, ⟨3, 0⟩⟩ ⟨2, 0⟩ = true ∧
    Line.Overlapp (1 / 1000) ⟨⟨0, 0⟩, ⟨3, 0⟩⟩ ⟨⟨0, 0⟩, ⟨3, 0⟩⟩ = false := by decide!

/-- A segment that starts on the receiver and leaves it at a small angle is
reported as overlapping although the two segments are not colinear. -/
theorem overlapp_not_colinear :
    Line.Overlapp (1 / 1000) ⟨⟨0, 0⟩, ⟨1, 0⟩⟩ ⟨⟨1 / 2, 0⟩, ⟨3 / 2, 1 / 2000⟩⟩ = true ∧
    (Point.sub ⟨3 / 2, 1 / 2000⟩ ⟨1 / 2, 0⟩).CrossProduct (Point.sub ⟨1, 0⟩ ⟨0, 0⟩) ≠ 0 := by
  decide!

/-- C26. `Line::WichSide(pt)` is 0 exactly if the cross product
`(p2 - p1) x (pt - p1)` is positive, and 1 otherwise; a point colinear with the
line is on side 1. -/
theorem wichSide_spec (l : Line) (pt : Point) :
    (l.WichSide pt = 0 ↔ 0 < (l.point2.sub l.point1).CrossProduct (pt.sub l.point1)) ∧
    (l.WichSide pt = 1 ↔ ¬ 0 < (l.point2.sub l.point1).CrossProduct (pt.sub l.point1)) ∧
    ((l.point2.sub l.point1).CrossProduct (pt.sub l.point1) = 0 → l.WichSide pt = 1) := by
  have hcross : (l.point2.sub l.point1).CrossProduct (pt.sub l.point1) =
      (l.point2.x - l.point1.x) * (pt.y - l.point1.y) -
        (l.point2.y - l.point1.y) * (pt.x - l.point1.x) := rfl
  rw [hcross]
  unfold Line.WichSide Line.IsLeft
  simp only [gt_iff_lt, decide_eq_true_eq]
  by_cases h : 0 < (l.point2.x - l.point1.x) * (pt.y - l.point1.y) -
      (l.point2.y - l.point1.y) * (pt.x - l.point1.x)
  · simp [h]
    intro h0
    rw [h0] at h
    exact absurd h (lt_irrefl _)
  · simp [h]

theorem wichSide_sample :
    Line.WichSide ⟨⟨0, 0⟩, ⟨1, 0⟩⟩ ⟨0, 1⟩ = 0 ∧ Line.WichSide ⟨⟨0, 0⟩, ⟨1, 0⟩⟩ ⟨0, -1⟩ = 1 ∧
    Line.WichSide ⟨⟨0, 0⟩, ⟨1, 0⟩⟩ ⟨2, 0⟩ = 1 := by decide!

/-! ## GeoFileParser -/

/-- C27. `parseWaitingAreaNode` returns no goal when none of the three
triggering policies is configured, and a goal it returns has at least one of
them configured; when one or more of them are configured the function goes on
to the remaining elements with the waiting area as read. -/
theorem parseWaitingArea_policies (xmltoi : String → Int → Int) (e : WaitingAreaNode)
    (wa : WaitingArea) (rest : WaitingArea → Option WaitingArea) :
    (policyCount (readPolicies xmltoi e wa) = 0 →
      parseWaitingAreaNode xmltoi e wa rest = none) ∧
    (∀ r, parseWaitingAreaNode xmltoi e wa rest = some r →
      1 ≤ policyCount (readPolicies xmltoi e wa)) ∧
    (1 ≤ policyCount (readPolicies xmltoi e wa) →
      parseWaitingAreaNode xmltoi e wa rest = rest (readPolicies xmltoi e wa)) := by
  unfold parseWaitingAreaNode policyCount
  simp only
  cases h1 : usesMinPedWaitingTime (readPolicies xmltoi e wa) <;>
    cases h2 : usesTransition (readPolicies xmltoi e wa) <;>
    cases h3 : usesGlobalTimer (readPolicies xmltoi e wa) <;> simp

/-- With `min_peds = 3`, `max_peds = 5`, `waiting_time = 10` and
`transition_id = 7` two triggering policies are configured, and
`parseWaitingAreaNode` does not return null at the test of the policies. -/
theorem parseWaitingArea_counterexample :
    readPolicies sampleXmltoi twoPolicyNode sampleWaitingArea = ⟨3, 5, 10, 7, true, false⟩ ∧
    usesMinPedWaitingTime (readPolicies sampleXmltoi twoPolicyNode sampleWaitingArea) = true ∧
    usesTransition (readPolicies sampleXmltoi twoPolicyNode sampleWaitingArea) = true ∧
    policyCount (readPolicies sampleXmltoi twoPolicyNode sampleWaitingArea) = 2 ∧
    parseWaitingAreaNode sampleXmltoi twoPolicyNode sampleWaitingArea some =
      some ⟨3, 5, 10, 7, true, false⟩ := by decide!

theorem parseWaitingArea_sample :
    parseWaitingAreaNode sampleXmltoi ⟨none, none, none, none, none, none⟩ sampleWaitingArea
      some = none ∧
    parseWaitingAreaNode sampleXmltoi ⟨some "3", none, some "10", none, none, none⟩
      sampleWaitingArea some = none ∧
    parseWaitingAreaNode sampleXmltoi ⟨none, none, some "10", none, none, some "TRUE"⟩
      sampleWaitingArea some = some ⟨-1, -1, 10, -1, true, true⟩ ∧
    parseWaitingAreaNode sampleXmltoi ⟨none, none, none, some "0", none, none⟩
      sampleWaitingArea some = none := by decide!

/-- For each of the five classes with reference points, the down point that
`LoadGeometry` sets has the value of the attribute `py` of the `down` element
in both coordinates. -/
theorem loadSubRoom_down (xmltof : Option String → ℚ → ℚ) (x : XmlSubRoom)
    (up down : XmlElement) (hup : x.up = some up) (hdown : x.down = some down) :
    ((x.type = "stair" ∨ x.type = "escalator" ∨ x.type = "idle_escalator") →
      loadSubRoom xmltof x = LoadOutcome.created (LoadedSubRoom.Stair
        ⟨xmltof (up.Attribute "px") 0, xmltof (up.Attribute "py") 0⟩
        ⟨xmltof (down.Attribute "py") 0, xmltof (down.Attribute "py") 0⟩)) ∧
    (x.type = "escalator_up" →
      loadSubRoom xmltof x = LoadOutcome.created (LoadedSubRoom.Escalator
        ⟨xmltof (up.Attribute "px") 0, xmltof (up.Attribute "py") 0⟩
        ⟨xmltof (down.Attribute "py") 0, xmltof (down.Attribute "py") 0⟩ true
        (xmltof x.speed 0))) ∧
    (x.type = "escalator_down" →
      loadSubRoom xmltof x = LoadOutcome.created (LoadedSubRoom.Escalator
        ⟨xmltof (up.Attribute "px") 0, xmltof (up.Attribute "py") 0⟩
        ⟨xmltof (down.Attribute "py") 0, xmltof (down.Attribute "py") 0⟩ false
        (xmltof x.speed 0))) := by
  refine ⟨?_, ?_, ?_⟩
  · intro h
    unfold loadSubRoom
    rw [if_pos h, hup, hdown]
  · intro h
    unfold loadSubRoom
    rw [if_neg (by rw [h]; decide), if_pos h, hup, hdown]
  · intro h
    unfold loadSubRoom
    rw [if_neg (by rw [h]; decide), if_neg (by rw [h]; decide), if_pos h, hup, hdown]

/-- C28. For a subroom of each of the five classes with `<up px="1" py="2"/>`
and `<down px="3" py="4"/>`, `LoadGeometry` sets the up point to `(1, 2)` and
the down point to `(4, 4)`, not to `(3, 4)`. -/
theorem loadSubRoom_down_wrong :
    loadSubRoom sampleXmltof (sampleStair "stair") =
      LoadOutcome.created (LoadedSubRoom.Stair ⟨1, 2⟩ ⟨4, 4⟩) ∧
    loadSubRoom sampleXmltof (sampleStair "escalator") =
      LoadOutcome.created (LoadedSubRoom.Stair ⟨1, 2⟩ ⟨4, 4⟩) ∧
    loadSubRoom sampleXmltof (sampleStair "idle_escalator") =
      LoadOutcome.created (LoadedSubRoom.Stair ⟨1, 2⟩ ⟨4, 4⟩) ∧
    loadSubRoom sampleXmltof (sampleStair "escalator_up") =
      LoadOutcome.created (LoadedSubRoom.Escalator ⟨1, 2⟩ ⟨4, 4⟩ true 1) ∧
    loadSubRoom sampleXmltof (sampleStair "escalator_down") =
      LoadOutcome.created (LoadedSubRoom.Escalator ⟨1, 2⟩ ⟨4, 4⟩ false 1) := by decide!

/-! ## CalcCost: the one-sided update -/

theorem axisMin_none (F : FloorField) (cost : Nat → Dbl) (first second : Option Nat)
    (h : axisKnown F cost first second = []) : axisMin F cost first second = Dbl.dmax := by
  unfold axisKnown at h
  unfold axisMin
  cases h1 : knownAt F cost first with
  | some a => simp [h1] at h
  | none =>
    cases h2 : knownAt F cost second with
    | some b => simp [h1, h2] at h
    | none => rfl

theorem axisMin_least (F : FloorField) (cost : Nat → Dbl) (first second : Option Nat) (c : ℚ)
    (hmem : Dbl.fin c ∈ axisKnown F cost first second)
    (hmin : ∀ d ∈ axisKnown F cost first second, ∃ q, d = Dbl.fin q ∧ 0 ≤ q ∧ c ≤ q) :
    axisMin F cost first second = Dbl.fin c := by
  unfold axisKnown at hmem hmin
  unfold axisMin
  cases h1 : knownAt F cost first with
  | none =>
    cases h2 : knownAt F cost second with
    | none => simp [h1, h2] at hmem
    | some b =>
      simp only [h1, h2, Option.toList, List.nil_append, List.mem_singleton] at hmem
      subst hmem
      simp [Dbl.lt]
  | some a =>
    obtain ⟨qa, rfl, hqa0, hqa⟩ := hmin a (by simp [h1])
    have hlt0 : Dbl.lt (Dbl.fin qa) (Dbl.fin 0) = false := by
      simp [Dbl.lt, hqa0]
    cases h2 : knownAt F cost second with
    | none =>
      simp only [h1, h2, Option.toList, List.append_nil, List.mem_singleton] at hmem
      injection hmem with hmem
      subst hmem
      simp [hlt0]
    | some b =>
      obtain ⟨qb, rfl, hqb0, hqb⟩ := hmin b (by simp [h2])
      simp only [h1, h2, Option.toList, List.singleton_append, List.mem_cons,
        List.mem_singleton, Dbl.fin.injEq, List.not_mem_nil, or_false] at hmem
      simp only [hlt0, Bool.false_eq_true, if_false]
      by_cases hlt : qb < qa
      · have : Dbl.lt (Dbl.fin qb) (Dbl.fin qa) = true := by simp [Dbl.lt, hlt]
        rw [if_pos this]
        rcases hmem with h | h
        · exact absurd hlt (not_lt.mpr (h ▸ hqb))
        · rw [h]
      · have : ¬ Dbl.lt (Dbl.fin qb) (Dbl.fin qa) = true := by simp [Dbl.lt, hlt]
        rw [if_neg this]
        rcases hmem with h | h
        · rw [h]
        · have : qa = qb := le_antisymm (not_lt.mp hlt) (h ▸ hqa)
          rw [h, this]

/-- C30. If at the grid point `key` no neighbour on one axis holds a known
cost, and `c` is the smallest known neighbour cost on the other axis (all
known costs on it being finite and at least 0), then `CalcCost` sets the cost
of `key` to `c + h / f`, with `h = hx` for the x-axis (`alongX`), `h = hy` for
the y-axis, and `f = speed[key]`. -/
theorem calcCost_onesided (F : FloorField) (speed : Nat → ℚ) (key : Nat) (cost : Nat → Dbl)
    (c : ℚ) (alongX : Bool)
    (hother : (if alongX then axisKnown F cost (nbUp F key) (nbDown F key)
      else axisKnown F cost (nbRight F key) (nbLeft F key)) = [])
    (hmem : Dbl.fin c ∈ (if alongX then axisKnown F cost (nbRight F key) (nbLeft F key)
      else axisKnown F cost (nbUp F key) (nbDown F key)))
    (hmin : ∀ d ∈ (if alongX then axisKnown F cost (nbRight F key) (nbLeft F key)
      else axisKnown F cost (nbUp F key) (nbDown F key)), ∃ q, d = Dbl.fin q ∧ 0 ≤ q ∧ c ≤ q) :
    CalcCost F speed key cost key =
      Dbl.fin (c + (if alongX then F.hx else F.hy) / speed key) ∧
    0 ≤ c ∧ ∀ k, k ≠ key → CalcCost F speed key cost k = cost k := by
  have hc0 : 0 ≤ c := by
    obtain ⟨q, hq, hq0, hcq⟩ := hmin _ hmem
    injection hq with hq
    rw [hq]; exact hq0
  cases alongX with
  | true =>
    simp only [if_true] at hother hmem hmin ⊢
    have hcol := axisMin_none F cost _ _ hother
    have hrow := axisMin_least F cost _ _ c hmem hmin
    unfold CalcCost
    simp only [hcol, hrow, if_true]
    refine ⟨by simp [setCost, OnesidedCalc, Dbl.add], hc0, ?_⟩
    intro k hk
    simp [setCost, hk]
  | false =>
    simp only [Bool.false_eq_true, if_false] at hother hmem hmin ⊢
    have hrow := axisMin_none F cost _ _ hother
    have hcol := axisMin_least F cost _ _ c hmem hmin
    unfold CalcCost
    simp only [hcol, hrow, if_true]
    rw [if_neg (by simp)]
    refine ⟨by simp [setCost, OnesidedCalc, Dbl.add], hc0, ?_⟩
    intro k hk
    simp [setCost, hk]

theorem calcCost_onesided_witness :
    CalcCost sampleField (fun _ => 1) 0 sampleInitCost 0 =
      Dbl.fin (0 + (if false then sampleField.hx else sampleField.hy) / 1) ∧
    (0 : ℚ) ≤ 0 ∧ ∀ k, k ≠ 0 → CalcCost sampleField (fun _ => 1) 0 sampleInitCost k =
      sampleInitCost k :=
  calcCost_onesided sampleField (fun _ => 1) 0 sampleInitCost 0 false (by decide!)
    (by decide!)
    (by
      intro d hd
      have hl : axisKnown sampleField sampleInitCost (nbUp sampleField 0)
          (nbDown sampleField 0) = [Dbl.fin 0] := by decide!
      simp only [Bool.false_eq_true, if_false, hl, List.mem_singleton] at hd
      exact ⟨0, hd, le_refl _, le_refl _⟩)

theorem calcCost_onesided_sample :
    CalcCost sampleField (fun _ => 1) 0 sampleInitCost 0 = Dbl.fin (1 / 8) ∧
    CalcCost sampleField (fun _ => 1) 3 sampleInitCost 3 = Dbl.fin (1 / 8) := by decide!
/-! ## FindExit: the walk along the next hops to a transition -/

theorem mem_allDoorUIDs_iff (b : Building) (u : Int) :
    u ∈ allDoorUIDs b ↔ ∃ d ∈ b.transitions ++ b.crossings, d.uid = u := by
  unfold allDoorUIDs rawDoorUIDs
  rw [List.mem_dedup, (List.perm_insertionSort _ _).mem_iff, ← List.map_append, List.mem_map]

theorem doorByUID_of_mem (b : Building) (u : Int) (hu : u ∈ allDoorUIDs b) :
    ∃ d, doorByUID b u = some d := by
  obtain ⟨d, hd, hdu⟩ := (mem_allDoorUIDs_iff b u).mp hu
  unfold doorByUID
  cases h : (b.transitions ++ b.crossings).find? (fun d => d.uid = u) with
  | some x => exact ⟨x, rfl⟩
  | none =>
    rw [List.find?_eq_none] at h
    have := h d hd
    simp [hdu] at this

theorem mem_of_doorByUID (b : Building) (u : Int) (d : Door) (h : doorByUID b u = some d) :
    u ∈ allDoorUIDs b := by
  unfold doorByUID at h
  have hmem := List.mem_of_find?_eq_some h
  have hp := List.find?_some h
  simp only [decide_eq_true_eq] at hp
  exact (mem_allDoorUIDs_iff b u).mpr ⟨d, hmem, hp⟩

theorem followHops_exists (e : Int → Int → Dbl) (doors : List Int) (m : Matrices)
    (hg : Good e (fun _ j => j) doors m)
    (hc : ClosedUnder (fun x => x ∈ doors) e doors m)
    (hpos : PosOffDiagOn doors e) (u v : Int) (hu : u ∈ doors) (hv : v ∈ doors) :
    ∃ k p, followHops m.path v k u = some p ∧ IsDoorSeq doors u v p := by
  by_cases hfin : ∃ q, m.dist u v = Dbl.fin q
  · obtain ⟨q, hq⟩ := hfin
    obtain ⟨k, p, hf, hseq, _⟩ := followHops_route e doors m hg hc hpos v hv _ u hu rfl q hq
    exact ⟨k, p, hf, hseq⟩
  · have hkeep := (hg.keep u v (fun q hq => hfin ⟨q, hq⟩)).2
    have huv : u ≠ v := by
      intro h
      apply hfin
      rw [h]
      exact ⟨0, hg.diag v hv⟩
    refine ⟨1, [u, v], ?_, rfl, rfl, ?_⟩
    · simp [followHops, huv, hkeep]
    · intro x hx
      simp only [List.mem_cons, List.mem_singleton, List.not_mem_nil, or_false] at hx
      rcases hx with h | h
      · rw [h]; exact hu
      · rw [h]; exact hv

theorem walk_of_followHops (r : Router) (v : Int) (dv : Door) (hv : r.doorByUID v = some dv)
    (hvt : dv.isTransition = true) (k : Nat) :
    ∀ (u : Int) (p : List Int), followHops r.m.path v k u = some p →
      (∀ x ∈ p, ∃ d, r.doorByUID x = some d) →
      ∃ w, FirstTransition r p w ∧ ∀ n, k + 1 ≤ n → walkToTransition r v n u = some w := by
  have hstop : ∀ (u : Int) (d : Door), r.doorByUID u = some d → d.isTransition = true →
      ∀ rest : List Int, ∃ w, FirstTransition r (u :: rest) w ∧
        ∀ n, 1 ≤ n → walkToTransition r v n u = some w := by
    intro u d hd hdt rest
    refine ⟨u, ⟨[], rest, rfl, by intro x hx; simp at hx, d, hd, hdt⟩, ?_⟩
    intro n hn
    obtain ⟨n, rfl⟩ : ∃ n1, n = n1 + 1 := ⟨n - 1, by omega⟩
    simp [walkToTransition, hd, hdt]
  induction k with
  | zero =>
    intro u p hf _
    simp only [followHops] at hf
    split at hf
    · rename_i huv
      injection hf with hf
      subst hf huv
      obtain ⟨w, hw, hwalk⟩ := hstop u dv hv hvt []
      exact ⟨w, hw, fun n hn => hwalk n (by omega)⟩
    · simp at hf
  | succ k ih =>
    intro u p hf hmem
    simp only [followHops] at hf
    split at hf
    · rename_i huv
      injection hf with hf
      subst hf huv
      obtain ⟨w, hw, hwalk⟩ := hstop u dv hv hvt []
      exact ⟨w, hw, fun n hn => hwalk n (by omega)⟩
    · cases hrec : followHops r.m.path v k (r.m.path u v) with
      | none => simp [hrec] at hf
      | some p1 =>
        simp only [hrec, Option.map_some', Option.some.injEq] at hf
        subst hf
        obtain ⟨du, hdu⟩ := hmem u (List.mem_cons_self _ _)
        cases hdt : du.isTransition with
        | true =>
          obtain ⟨w, hw, hwalk⟩ := hstop u du hdu hdt p1
          exact ⟨w, hw, fun n hn => hwalk n (by omega)⟩
        | false =>
          obtain ⟨w, ⟨pre, post, hp, hpre, hwt⟩, hwalk⟩ :=
            ih (r.m.path u v) p1 hrec (fun x hx => hmem x (List.mem_cons_of_mem _ hx))
          refine ⟨w, ⟨u :: pre, post, by rw [hp]; rfl, ?_, hwt⟩, ?_⟩
          · intro x hx
            rcases List.mem_cons.mp hx with h | h
            · rw [h]; exact ⟨du, hdu, hdt⟩
            · exact hpre x h
          · intro n hn
            obtain ⟨n, rfl⟩ : ∃ n1, n = n1 + 1 := ⟨n - 1, by omega⟩
            simp only [walkToTransition, hdu, hdt, Bool.false_eq_true, if_false]
            exact hwalk n (by omega)
theorem walk_step (r : Router) (v : Int) (n : Nat) (u : Int) (d : Door)
    (hd : r.doorByUID u = some d) (hdt : d.isTransition = false) :
    walkToTransition r v (n + 1) u = walkToTransition r v n (r.m.path u v) := by
  simp [walkToTransition, hd, hdt]

/-- The part of the claim on the loop of `FindExit` that holds.  In room scope, on the
router that `CalculateFloorFields` builds for a
well-formed building with grid spacing `hx > 0`: if the selected terminal door
`v` is a transition, then from every door `u` the loop of `FindExit` that
replaces the door by its next hop towards `v` terminates, at the first
transition `w` on the chain of next hops from `u` to `v`; and `FindExit`
then returns `w` and sets the agent's destination and exit line to it. -/
theorem findExit_walk (b : Building) (fuel : Nat) (hwf : b.WellFormed) (hpos : 0 < b.hx) :
    ∃ r, CalculateFloorFields (fuel + 2) false b = some r ∧
      (∀ u ∈ allDoorUIDs b, ∀ v dv, doorByUID b v = some dv → dv.isTransition = true →
        ∃ k p w, followHops r.m.path v k u = some p ∧ IsDoorSeq (allDoorUIDs b) u v p ∧
          FirstTransition r p w ∧ ∀ n, k + 1 ≤ n → walkToTransition r v n u = some w) ∧
      (∀ (J_EPS : ℚ) (q : ExitQuery) (ped : Pedestrian) (du dv : Door),
        waitingAreaDoor r q = none →
        doorByUID b (minimise J_EPS r q).bestDoor = some du →
        doorByUID b (minimise J_EPS r q).bestFinalDoor = some dv → dv.isTransition = true →
        ∃ n0 w d, r.doorByUID w = some d ∧ d.isTransition = true ∧
          ∀ n, n0 ≤ n → FindExit J_EPS n r q ped =
            some (w, { destination := w, exitLine := some w })) := by
  refine ⟨_, calculateFloorFields_eq b false fuel hwf, ?_⟩
  obtain ⟨hg, hc⟩ := routerMatrices_spec b hwf
  have hwalk : ∀ u ∈ allDoorUIDs b, ∀ v dv, doorByUID b v = some dv → dv.isTransition = true →
      ∃ k p w, followHops (routerMatrices b).path v k u = some p ∧
        IsDoorSeq (allDoorUIDs b) u v p ∧
        FirstTransition ⟨false, allDoorUIDs b, doorByUID b, routerMatrices b⟩ p w ∧
        ∀ n, k + 1 ≤ n →
          walkToTransition ⟨false, allDoorUIDs b, doorByUID b, routerMatrices b⟩ v n u =
            some w := by
    intro u hu v dv hv hvt
    obtain ⟨k, p, hf, hseq⟩ := followHops_exists _ _ _ hg hc (edgeMatrices_pos b hwf hpos)
      u v hu (mem_of_doorByUID b v dv hv)
    obtain ⟨w, hw, hn⟩ := walk_of_followHops
      ⟨false, allDoorUIDs b, doorByUID b, routerMatrices b⟩ v dv hv hvt k u p hf
      (fun x hx => doorByUID_of_mem b x (hseq.2.2 x hx))
    exact ⟨k, p, w, hf, hseq, hw, hn⟩
  refine ⟨hwalk, ?_⟩
  intro J_EPS q ped du dv hwa hdu hdv hvt
  obtain ⟨k, p, w, _, _, ⟨_, _, _, _, d, hd, hdt⟩, hn⟩ :=
    hwalk _ (mem_of_doorByUID b _ du hdu) _ dv hdv hvt
  refine ⟨k + 1, w, d, hd, hdt, ?_⟩
  intro n hnk
  unfold FindExit
  rw [hwa]
  simp only
  have hsome : (doorByUID b
      (minimise J_EPS ⟨false, allDoorUIDs b, doorByUID b, routerMatrices b⟩ q).bestDoor).isSome
      = true := by rw [hdu]; rfl
  simp only [Bool.not_false, Bool.true_and, hsome, if_true]
  rw [hn n hnk]
  simp only [Option.map_some']
  have hw : (doorByUID b w).isSome = true := by
    have : doorByUID b w = some d := hd
    rw [this]; rfl
  rw [if_pos hw]

theorem exitBuilding_wellFormed : exitBuilding.WellFormed := by
  refine ⟨by norm_num [exitBuilding], ?_⟩
  intro esc hesc
  simp [exitBuilding] at hesc

theorem findExit_walk_witness :
    ∃ r, CalculateFloorFields 2 false exitBuilding = some r ∧
      (∀ u ∈ allDoorUIDs exitBuilding, ∀ v dv, doorByUID exitBuilding v = some dv →
        dv.isTransition = true →
        ∃ k p w, followHops r.m.path v k u = some p ∧
          IsDoorSeq (allDoorUIDs exitBuilding) u v p ∧
          FirstTransition r p w ∧ ∀ n, k + 1 ≤ n → walkToTransition r v n u = some w) ∧
      (∀ (J_EPS : ℚ) (q : ExitQuery) (ped : Pedestrian) (du dv : Door),
        waitingAreaDoor r q = none →
        doorByUID exitBuilding (minimise J_EPS r q).bestDoor = some du →
        doorByUID exitBuilding (minimise J_EPS r q).bestFinalDoor = some dv →
        dv.isTransition = true →
        ∃ n0 w d, r.doorByUID w = some d ∧ d.isTransition = true ∧
          ∀ n, n0 ≤ n → FindExit J_EPS n r q ped =
            some (w, { destination := w, exitLine := some w })) :=
  findExit_walk exitBuilding 0 exitBuilding_wellFormed (by norm_num [exitBuilding])

theorem findExit_walk_sample :
    (minimise (1 / 1000) exitRouter exitQuery).bestDoor = 1 ∧
    FindExit (1 / 1000) 2 exitRouter exitQuery samplePedestrian = some (2, ⟨2, some 2⟩) := by
  decide!

/-- C29 fails, the loop of `FindExit` can run forever.  In `exitBuilding` the agent of
`closedGoalQuery` selects the crossing 1 with
the closed crossing 3 as terminal door (the distance from 1 to 3 is
max-double, not infinity); the next hop from 1 towards 3 is 3, the next hop
from 3 towards 3 is 3, and neither door is a transition: the loop does not
end, and `FindExit` does not return, whatever the fuel. -/
theorem findExit_walk_counterexample :
    CalculateFloorFields 2 false exitBuilding = some exitRouter ∧
    waitingAreaDoor exitRouter closedGoalQuery = none ∧
    (minimise (1 / 1000) exitRouter closedGoalQuery).bestDoor = 1 ∧
    (minimise (1 / 1000) exitRouter closedGoalQuery).bestFinalDoor = 3 ∧
    exitRouter.m.dist 1 3 = Dbl.dmax ∧ exitRouter.m.path 1 3 = 3 ∧
    exitRouter.m.path 3 3 = 3 ∧
    (∀ fuel, walkToTransition exitRouter 3 fuel 1 = none) ∧
    ∀ fuel, FindExit (1 / 1000) fuel exitRouter closedGoalQuery samplePedestrian = none := by
  have hd3 : exitRouter.doorByUID 3 = some
      { uid := 3, isTransition := false, room1 := some 1, room2 := none,
        subRoom1 := some 20, subRoom2 := some 21, isClose := true } := by decide
  have hd1 : exitRouter.doorByUID 1 = some
      { uid := 1, isTransition := false, room1 := some 0, room2 := none,
        subRoom1 := some 10, subRoom2 := some 11, isClose := false } := by decide
  have hp3 : exitRouter.m.path 3 3 = 3 := by decide!
  have hp1 : exitRouter.m.path 1 3 = 3 := by decide!
  have h3 : ∀ fuel, walkToTransition exitRouter 3 fuel 3 = none := by
    intro fuel
    induction fuel with
    | zero => rfl
    | succ n ih =>
      exact (walk_step exitRouter 3 n 3 _ hd3 rfl).trans
        ((congrArg (walkToTransition exitRouter 3 n) hp3).trans ih)
  have h1 : ∀ fuel, walkToTransition exitRouter 3 fuel 1 = none := by
    intro fuel
    cases fuel with
    | zero => rfl
    | succ n =>
      exact (walk_step exitRouter 3 n 1 _ hd1 rfl).trans
        ((congrArg (walkToTransition exitRouter 3 n) hp1).trans (h3 n))
  have hb : minimise (1 / 1000) exitRouter closedGoalQuery = ⟨Dbl.dmax, 1, 3⟩ := by decide!
  have hwa : waitingAreaDoor exitRouter closedGoalQuery = none := by decide
  refine ⟨calculateFloorFields_eq exitBuilding false 0 exitBuilding_wellFormed, hwa,
    by rw [hb], by rw [hb], by decide!, hp1, hp3, h1, ?_⟩
  intro fuel
  have hsome : (exitRouter.doorByUID 1).isSome = true := by rw [hd1]; rfl
  have htws : exitRouter.targetWithinSubroom = false := rfl
  unfold FindExit
  rw [hwa]
  simp only [hb, htws, hsome, Bool.not_false, Bool.true_and, if_true, h1 fuel,
    Option.map_none']

/-! ## `UnivFFviaFM::CreateReduWallSpeed` -/

theorem foldl_range_update (n : Nat) (c : Nat → Prop) [DecidablePred c] (v : Nat → ℚ)
    (init : Nat → ℚ) (i : Nat) :
    (List.range n).foldl (fun arr k => if c k then Function.update arr k (v k) else arr) init i
      = if i < n ∧ c i then v i else init i := by
  induction n with
  | zero => simp
  | succ n ih =>
    rw [List.range_succ, List.foldl_append]
    simp only [List.foldl_cons, List.foldl_nil]
    by_cases hc : c n
    · rw [if_pos hc]
      by_cases hi : i = n
      · subst hi
        simp [hc]
      · rw [Function.update_noteq hi, ih]
        have : (i < n + 1 ∧ c i) ↔ (i < n ∧ c i) := by
          constructor
          · rintro ⟨h1, h2⟩; exact ⟨by omega, h2⟩
          · rintro ⟨h1, h2⟩; exact ⟨by omega, h2⟩
        simp only [this]
    · rw [if_neg hc, ih]
      by_cases hi : i = n
      · subst hi
        simp [hc]
      · have : (i < n + 1 ∧ c i) ↔ (i < n ∧ c i) := by
          constructor
          · rintro ⟨h1, h2⟩; exact ⟨by omega, h2⟩
          · rintro ⟨h1, h2⟩; exact ⟨by omega, h2⟩
        simp only [this]

theorem createReduWallSpeed_eq (nPoints : Nat) (wallAvoidDistance : ℚ)
    (wallDstAlias reduWallSpeed : Nat → ℚ) (i : Nat) :
    CreateReduWallSpeed nPoints wallAvoidDistance wallDstAlias reduWallSpeed i =
      if i < nPoints ∧ wallDstAlias i > 0 then
        (if wallDstAlias i > wallAvoidDistance then 1
          else 1 / wallAvoidDistance * wallDstAlias i)
      else reduWallSpeed i := by
  unfold CreateReduWallSpeed
  exact foldl_range_update nPoints (fun k => wallDstAlias k > 0)
    (fun k => if wallDstAlias k > wallAvoidDistance then 1
      else 1 / wallAvoidDistance * wallDstAlias k) reduWallSpeed i

/-- C31, the claim as stated fails: a cell whose distance-to-wall value is zero is not
written at all, so it keeps the content the array had before, here 5, which is neither
`min(1, 0 / 1) = 0` nor in the unit interval. -/
theorem createReduWallSpeed_counterexample :
    CreateReduWallSpeed 1 1 (fun _ => 0) (fun _ => 5) 0 = 5 ∧
      CreateReduWallSpeed 1 1 (fun _ => 0) (fun _ => 5) 0 ≠ min 1 ((0 : ℚ) / 1) ∧
      ¬ CreateReduWallSpeed 1 1 (fun _ => 0) (fun _ => 5) 0 ≤ 1 := by
  have h : CreateReduWallSpeed 1 1 (fun _ => 0) (fun _ => 5) 0 = 5 := by
    rw [createReduWallSpeed_eq]; norm_num
  rw [h]
  norm_num

/-- C31. For a positive `wallAvoidDistance` and a grid cell `i`: if the distance-to-wall
value of the cell is positive, `CreateReduWallSpeed` writes `min(1, dist / wallAvoidDistance)`
to the cell, and this value is positive and at most one; if the distance-to-wall value is
not positive, the cell is not written and keeps its previous content. -/
theorem createReduWallSpeed_spec (nPoints : Nat) (wallAvoidDistance : ℚ)
    (wallDstAlias reduWallSpeed : Nat → ℚ) (i : Nat)
    (hw : 0 < wallAvoidDistance) (hi : i < nPoints) :
    (0 < wallDstAlias i →
      CreateReduWallSpeed nPoints wallAvoidDistance wallDstAlias reduWallSpeed i
          = min 1 (wallDstAlias i / wallAvoidDistance) ∧
        0 < CreateReduWallSpeed nPoints wallAvoidDistance wallDstAlias reduWallSpeed i ∧
        CreateReduWallSpeed nPoints wallAvoidDistance wallDstAlias reduWallSpeed i ≤ 1) ∧
    (wallDstAlias i ≤ 0 →
      CreateReduWallSpeed nPoints wallAvoidDistance wallDstAlias reduWallSpeed i
        = reduWallSpeed i) := by
  rw [createReduWallSpeed_eq]
  constructor
  · intro hd
    rw [if_pos ⟨hi, hd⟩]
    by_cases hgt : wallDstAlias i > wallAvoidDistance
    · rw [if_pos hgt]
      have h1 : 1 ≤ wallDstAlias i / wallAvoidDistance := by
        rw [le_div_iff₀ hw]; linarith
      exact ⟨(min_eq_left h1).symm, by norm_num, le_refl _⟩
    · rw [if_neg hgt]
      have hle : wallDstAlias i ≤ wallAvoidDistance := not_lt.mp hgt
      have heq : 1 / wallAvoidDistance * wallDstAlias i = wallDstAlias i / wallAvoidDistance := by
        field_simp
      rw [heq]
      have h1 : wallDstAlias i / wallAvoidDistance ≤ 1 := by
        rw [div_le_iff₀ hw]; linarith
      exact ⟨(min_eq_right h1).symm, div_pos hd hw, h1⟩
  · intro hd
    rw [if_neg (fun h => absurd h.2 (not_lt.mpr hd))]

theorem createReduWallSpeed_spec_witness :
    (0 : ℚ) < 2 ∧ 0 < 1 ∧
    ((0 < (fun _ : Nat => (1 : ℚ)) 0 →
      CreateReduWallSpeed 1 2 (fun _ => 1) (fun _ => 5) 0 = min 1 ((fun _ : Nat => (1 : ℚ)) 0 / 2) ∧
        0 < CreateReduWallSpeed 1 2 (fun _ => 1) (fun _ => 5) 0 ∧
        CreateReduWallSpeed 1 2 (fun _ => 1) (fun _ => 5) 0 ≤ 1) ∧
    ((fun _ : Nat => (1 : ℚ)) 0 ≤ 0 →
      CreateReduWallSpeed 1 2 (fun _ => 1) (fun _ => 5) 0 = (fun _ : Nat => (5 : ℚ)) 0)) :=
  ⟨by norm_num, by norm_num,
    createReduWallSpeed_spec 1 2 (fun _ => 1) (fun _ => 5) 0 (by norm_num) (by norm_num)⟩

/-! ## The measured door distances of `CalculateFloorFields` -/

theorem Dbl.lt_irrefl (a : Dbl) : Dbl.lt a a = false := by
  cases a <;> simp [Dbl.lt]

theorem Dbl.eq_of_not_lt {a b : Dbl} (h1 : Dbl.lt a b = false) (h2 : Dbl.lt b a = false) :
    a = b := by
  cases a <;> cases b <;> simp [Dbl.lt] at h1 h2 ⊢
  exact le_antisymm h2 h1

/-- What one step of the double loop does to the matrix: nothing, or it writes a measured
distance that is not below `hx` and is below the entry `(p2, p1)` under both keys. -/
theorem distStep_cases (b : Building) (p1 p2 : Int × Int) (d : Int → Int → Dbl) :
    distStep b p1 p2 d = d ∨
      (p2.1 = p1.1 ∧ p1.2 < p2.2 ∧
        (∃ a c, doorByUID b p1.2 = some a ∧ doorByUID b p2.2 = some c ∧
          shareSubRoom a c = true) ∧
        Dbl.lt (b.doorDistance p1.1 p1.2 p2.2) (Dbl.fin b.hx) = false ∧
        Dbl.lt (b.doorDistance p1.1 p1.2 p2.2) (d p2.2 p1.2) = true ∧
        distStep b p1 p2 d =
          setKey (setKey d p2.2 p1.2 (b.doorDistance p1.1 p1.2 p2.2)) p1.2 p2.2
            (b.doorDistance p1.1 p1.2 p2.2)) := by
  unfold distStep
  by_cases h1 : p2.1 ≠ p1.1
  · left; rw [if_pos h1]
  · rw [if_neg h1]
    by_cases h2 : p2.2 ≤ p1.2
    · left; rw [if_pos h2]
    · rw [if_neg h2]
      cases ha : doorByUID b p1.2 with
      | none => left; rfl
      | some a =>
        cases hc : doorByUID b p2.2 with
        | none => left; rfl
        | some c =>
          dsimp only
          cases hs : shareSubRoom a c with
          | false => left; simp
          | true =>
            cases hx : Dbl.lt (b.doorDistance p1.1 p1.2 p2.2) (Dbl.fin b.hx) with
            | true => left; simp
            | false =>
              cases hlt : Dbl.lt (b.doorDistance p1.1 p1.2 p2.2) (d p2.2 p1.2) with
              | false => left; simp
              | true =>
                right
                refine ⟨not_not.mp h1, by omega, ⟨a, c, rfl, rfl, hs⟩, rfl, rfl, ?_⟩
                simp

/-- The step of the double loop at an admissible pair leaves an entry that is not above the
measured distance. -/
theorem distStep_at (b : Building) (p1 p2 : Int × Int) (d : Int → Int → Dbl)
    (hsym : ∀ i j, d i j = d j i) (h1 : p2.1 = p1.1) (h2 : p1.2 < p2.2)
    (hm : ∃ a c, doorByUID b p1.2 = some a ∧ doorByUID b p2.2 = some c ∧
      shareSubRoom a c = true)
    (hx : Dbl.lt (b.doorDistance p1.1 p1.2 p2.2) (Dbl.fin b.hx) = false) :
    Dbl.lt (b.doorDistance p1.1 p1.2 p2.2) (distStep b p1 p2 d p1.2 p2.2) = false := by
  obtain ⟨a, c, ha, hc, hs⟩ := hm
  unfold distStep
  rw [if_neg (not_not.mpr h1), if_neg (by omega), ha, hc]
  dsimp only
  simp only [hs, hx, Bool.not_true, Bool.false_eq_true, if_false]
  cases hlt : Dbl.lt (b.doorDistance p1.1 p1.2 p2.2) (d p2.2 p1.2) with
  | false =>
    simp only [Bool.false_eq_true, if_false]
    rw [hsym]; exact hlt
  | true =>
    simp only [if_true]
    rw [setKey_eq]
    exact Dbl.lt_irrefl _

theorem distStep_sym (b : Building) (p1 p2 : Int × Int) (d : Int → Int → Dbl)
    (hsym : ∀ i j, d i j = d j i) : ∀ i j, distStep b p1 p2 d i j = distStep b p1 p2 d j i := by
  intro i j
  rcases distStep_cases b p1 p2 d with h | ⟨_, _, _, _, _, h⟩
  · rw [h]; exact hsym i j
  · rw [h]
    simp only [setKey]
    by_cases ha : i = p1.2 ∧ j = p2.2
    · have hb : j = p2.2 ∧ i = p1.2 := ⟨ha.2, ha.1⟩
      by_cases hc : j = p1.2 ∧ i = p2.2
      · simp [ha, hc]
      · simp [ha, hc, hb]
    · by_cases hb : i = p2.2 ∧ j = p1.2
      · have hc : j = p1.2 ∧ i = p2.2 := ⟨hb.2, hb.1⟩
        simp [ha, hb, hc]
      · have hc : ¬ (j = p1.2 ∧ i = p2.2) := fun h => hb ⟨h.2, h.1⟩
        have hd : ¬ (j = p2.2 ∧ i = p1.2) := fun h => ha ⟨h.2, h.1⟩
        simp only [if_neg ha, if_neg hb, if_neg hc, if_neg hd]
        exact hsym i j

/-- No step of the double loop raises an entry. -/
theorem distStep_le (b : Building) (p1 p2 : Int × Int) (d : Int → Int → Dbl)
    (hsym : ∀ i j, d i j = d j i) (x : Dbl) (i j : Int) (h : Dbl.lt x (d i j) = false) :
    Dbl.lt x (distStep b p1 p2 d i j) = false := by
  rcases distStep_cases b p1 p2 d with h1 | ⟨_, _, _, _, hlt, h1⟩
  · rw [h1]; exact h
  · rw [h1]
    simp only [setKey]
    have key : Dbl.lt x (d p2.2 p1.2) = false →
        Dbl.lt x (b.doorDistance p1.1 p1.2 p2.2) = false := by
      intro hx
      cases hc : Dbl.lt x (b.doorDistance p1.1 p1.2 p2.2) with
      | false => rfl
      | true => rw [Dbl.lt_trans hc hlt] at hx; cases hx
    by_cases ha : i = p1.2 ∧ j = p2.2
    · rw [if_pos ha]
      apply key
      rw [hsym, ← ha.1, ← ha.2]; exact h
    · rw [if_neg ha]
      by_cases hb : i = p2.2 ∧ j = p1.2
      · rw [if_pos hb]
        apply key
        rw [← hb.1, ← hb.2]; exact h
      · rw [if_neg hb]; exact h

theorem measuredDist_sym (b : Building) (i j : Int) :
    measuredDist b i j = measuredDist b j i := by
  revert i j
  unfold measuredDist
  refine foldl_inv_mem _ (fun d : Int → Int → Dbl => ∀ i j, d i j = d j i) _ ?_ _ ?_
  · intro d p1 _ hd
    exact foldl_inv_mem _ (fun d : Int → Int → Dbl => ∀ i j, d i j = d j i) _
      (fun d p2 _ hd => distStep_sym b p1 p2 d hd) d hd
  · intro i j
    simp only [initMatrices]
    by_cases h : i = j
    · subst h; rfl
    · rw [if_neg h, if_neg (fun hc => h hc.symm)]

/-- Every entry above the diagonal is infinity or a distance measured for the pair that is
not below `hx`. -/
theorem measuredDist_origin (b : Building) (u v : Int) (huv : u < v) :
    measuredDist b u v = Dbl.inf ∨
      ∃ r, MeasuredIn b r u v ∧ Dbl.lt (b.doorDistance r u v) (Dbl.fin b.hx) = false ∧
        measuredDist b u v = b.doorDistance r u v := by
  revert u v
  unfold measuredDist
  refine foldl_inv_mem _ (fun d : Int → Int → Dbl => ∀ u v, u < v → (d u v = Dbl.inf ∨
      ∃ r, MeasuredIn b r u v ∧ Dbl.lt (b.doorDistance r u v) (Dbl.fin b.hx) = false ∧
        d u v = b.doorDistance r u v)) _ ?_ _ ?_
  · intro d p1 hp1 hd
    refine foldl_inv_mem _ (fun d : Int → Int → Dbl => ∀ u v, u < v → (d u v = Dbl.inf ∨
      ∃ r, MeasuredIn b r u v ∧ Dbl.lt (b.doorDistance r u v) (Dbl.fin b.hx) = false ∧
        d u v = b.doorDistance r u v)) _ ?_ d hd
    intro d p2 hp2 hd u v huv
    rcases distStep_cases b p1 p2 d with h | ⟨hr, hlt, hm, hx, _, h⟩
    · rw [h]; exact hd u v huv
    · rw [h]
      by_cases ha : u = p1.2 ∧ v = p2.2
      · right
        refine ⟨p1.1, ⟨?_, ?_, huv, ?_⟩, ?_, ?_⟩
        · rw [ha.1]; exact hp1
        · rw [ha.2, ← hr]; exact hp2
        · rw [ha.1, ha.2]; exact hm
        · rw [ha.1, ha.2]; exact hx
        · rw [ha.1, ha.2, setKey_eq]
      · rw [setKey_ne _ _ _ _ _ _ ha]
        have hb : ¬ (u = p2.2 ∧ v = p1.2) := fun hc => by omega
        rw [setKey_ne _ _ _ _ _ _ hb]
        exact hd u v huv
  · intro u v huv
    left
    simp only [initMatrices]
    rw [if_neg (by omega)]

/-- Every distance measured for a pair that is not below `hx` bounds the entry of the pair
from above. -/
theorem measuredDist_le (b : Building) (r u v : Int) (hm : MeasuredIn b r u v)
    (hx : Dbl.lt (b.doorDistance r u v) (Dbl.fin b.hx) = false) :
    Dbl.lt (b.doorDistance r u v) (measuredDist b u v) = false := by
  obtain ⟨hu, hv, huv, hdoors⟩ := hm
  unfold measuredDist
  have houter := foldl_establish
    (fun d p1 => (roomAndCroTrVector b).foldl (fun d p2 => distStep b p1 p2 d) d)
    (fun d : Int → Int → Dbl => ∀ i j, d i j = d j i)
    (fun p1 d => p1 = (r, u) → Dbl.lt (b.doorDistance r u v) (d u v) = false)
    (roomAndCroTrVector b) ?_ ?_ ?_ initMatrices.dist ?_ (r, u) hu rfl
  · exact houter
  · intro d p1 _ hd
    exact foldl_inv_mem _ (fun d : Int → Int → Dbl => ∀ i j, d i j = d j i) _
      (fun d p2 _ hd => distStep_sym b p1 p2 d hd) d hd
  · intro d p1 _ hd hp1
    subst hp1
    have hinner := foldl_establish (fun d p2 => distStep b (r, u) p2 d)
      (fun d : Int → Int → Dbl => ∀ i j, d i j = d j i)
      (fun p2 d => p2 = (r, v) → Dbl.lt (b.doorDistance r u v) (d u v) = false)
      (roomAndCroTrVector b)
      (fun d p2 _ hd => distStep_sym b (r, u) p2 d hd)
      ?_ ?_ d hd (r, v) hv rfl
    · exact hinner
    · intro d p2 _ hd hp2
      subst hp2
      exact distStep_at b (r, u) (r, v) d hd rfl huv hdoors hx
    · intro d p2 y _ hd hq hy
      exact distStep_le b (r, u) p2 d hd _ u v (hq hy)
  · intro d p1 y _ hd hq hy
    refine foldl_inv_mem _ (fun d : Int → Int → Dbl => (∀ i j, d i j = d j i) ∧
      Dbl.lt (b.doorDistance r u v) (d u v) = false) _ ?_ d ⟨hd, hq hy⟩ |>.2
    intro d p2 _ hd
    exact ⟨distStep_sym b p1 p2 d hd.1, distStep_le b p1 p2 d hd.1 _ u v hd.2⟩
  · intro i j
    simp only [initMatrices]
    by_cases h : i = j
    · subst h; rfl
    · rw [if_neg h, if_neg (fun hc => h hc.symm)]

/-- C32. For two doors `u < v`, after the double loop over `roomAndCroTrVector` and before
the penalty and Floyd-Warshall phases: if every floor-field distance measured for the pair
(doors of one room with a subroom in common) is smaller than the grid spacing `hx`, both
entries `(u, v)` and `(v, u)` still hold the initial value infinity; and a measured
distance that is not smaller than `hx` stands in both entries `(u, v)` and `(v, u)`,
provided no other such measurement of the same pair (in another room) is smaller. -/
theorem calculateFloorFields_smallDistance (b : Building) (u v : Int) (huv : u < v) :
    ((∀ r, MeasuredIn b r u v → Dbl.lt (b.doorDistance r u v) (Dbl.fin b.hx) = true) →
      measuredDist b u v = Dbl.inf ∧ measuredDist b v u = Dbl.inf) ∧
    (∀ r, MeasuredIn b r u v → Dbl.lt (b.doorDistance r u v) (Dbl.fin b.hx) = false →
      (∀ r', MeasuredIn b r' u v → Dbl.lt (b.doorDistance r' u v) (Dbl.fin b.hx) = false →
        Dbl.lt (b.doorDistance r' u v) (b.doorDistance r u v) = false) →
      measuredDist b u v = b.doorDistance r u v ∧
        measuredDist b v u = b.doorDistance r u v) := by
  constructor
  · intro hall
    have h : measuredDist b u v = Dbl.inf := by
      rcases measuredDist_origin b u v huv with h | ⟨r, hm, hx, _⟩
      · exact h
      · rw [hall r hm] at hx; cases hx
    exact ⟨h, (measuredDist_sym b v u).trans h⟩
  · intro r hm hx hleast
    have hle := measuredDist_le b r u v hm hx
    have h : measuredDist b u v = b.doorDistance r u v := by
      rcases measuredDist_origin b u v huv with h | ⟨r', hm', hx', h⟩
      · rw [h] at hle ⊢
        exact (Dbl.lt_inf_false hle).symm
      · rw [h] at hle ⊢
        exact Dbl.eq_of_not_lt (hleast r' hm' hx') hle
    exact ⟨h, (measuredDist_sym b v u).trans h⟩

theorem calculateFloorFields_smallDistance_witness :
    (1 : Int) < 2 ∧
    (((∀ r, MeasuredIn sampleBuilding r 1 2 →
        Dbl.lt (sampleBuilding.doorDistance r 1 2) (Dbl.fin sampleBuilding.hx) = true) →
      measuredDist sampleBuilding 1 2 = Dbl.inf ∧ measuredDist sampleBuilding 2 1 = Dbl.inf) ∧
    (∀ r, MeasuredIn sampleBuilding r 1 2 →
      Dbl.lt (sampleBuilding.doorDistance r 1 2) (Dbl.fin sampleBuilding.hx) = false →
      (∀ r', MeasuredIn sampleBuilding r' 1 2 →
        Dbl.lt (sampleBuilding.doorDistance r' 1 2) (Dbl.fin sampleBuilding.hx) = false →
        Dbl.lt (sampleBuilding.doorDistance r' 1 2) (sampleBuilding.doorDistance r 1 2)
          = false) →
      measuredDist sampleBuilding 1 2 = sampleBuilding.doorDistance r 1 2 ∧
        measuredDist sampleBuilding 2 1 = sampleBuilding.doorDistance r 1 2)) :=
  ⟨by decide, calculateFloorFields_smallDistance sampleBuilding 1 2 (by decide)⟩

/-- C32, the claim as stated fails for a pair of doors that two rooms list: in
`twoRoomBuilding` the doors 1 and 2 share a subroom and their floor-field distance in
room 0 is `1/16`, smaller than `hx = 1/8`, yet both entries `(1, 2)` and `(2, 1)` hold 5,
the distance measured in the floor field of room 1. -/
theorem calculateFloorFields_smallDistance_counterexample :
    MeasuredIn twoRoomBuilding 0 1 2 ∧
    Dbl.lt (twoRoomBuilding.doorDistance 0 1 2) (Dbl.fin twoRoomBuilding.hx) = true ∧
    measuredDist twoRoomBuilding 1 2 = Dbl.fin 5 ∧
    measuredDist twoRoomBuilding 2 1 = Dbl.fin 5 := by
  refine ⟨⟨by decide, by decide, by decide, ?_⟩, by decide!, by decide!, by decide!⟩
  exact ⟨_, _, rfl, rfl, by decide⟩

/-! ## `GlobalRouter::FloydWarshall` -/

theorem setCell_eq {α : Type} (f : Nat → Nat → α) (i j : Nat) (v : α) :
    setCell f i j v i j = v := by
  simp [setCell]

theorem setCell_ne {α : Type} (f : Nat → Nat → α) (i j x y : Nat) (v : α)
    (h : ¬ (x = i ∧ y = j)) : setCell f i j v x y = f x y := by
  simp [setCell, h]

theorem globalRelax_sound (n : Nat) (e : Nat → Nat → ℚ) (k i j : Nat) (m : GlobalMatrices)
    (hk : k < n) (hi : i < n) (hj : j < n) (h : GlobalSound n e m.dist) :
    GlobalSound n e (GlobalRouter.relax k i j m).dist := by
  unfold GlobalRouter.relax
  split
  · rename_i hlt
    intro a b ha hb
    by_cases hab : a = i ∧ b = j
    · obtain ⟨rfl, rfl⟩ := hab
      simp only [setCell_eq]
      obtain ⟨h1, _, h3⟩ := h a k ha hk
      obtain ⟨h4, _, h6⟩ := h k b hk hb
      obtain ⟨_, h8, _⟩ := h a b ha hb
      refine ⟨by linarith, by linarith, fun _ => ?_⟩
      exact Relation.TransGen.trans (h3 (by linarith)) (h6 (by linarith))
    · simp only [setCell_ne _ _ _ _ _ _ hab]
      exact h a b ha hb
  · exact h

theorem globalFloydWarshall_sound (n : Nat) (e : Nat → Nat → ℚ) (m : GlobalMatrices)
    (h : GlobalSound n e m.dist) : GlobalSound n e (GlobalRouter.FloydWarshall n m).dist := by
  unfold GlobalRouter.FloydWarshall
  refine foldl_inv_mem _ (fun m : GlobalMatrices => GlobalSound n e m.dist) _ ?_ m h
  intro m k hk hm
  refine foldl_inv_mem _ (fun m : GlobalMatrices => GlobalSound n e m.dist) _ ?_ m hm
  intro m i hi hm
  refine foldl_inv_mem _ (fun m : GlobalMatrices => GlobalSound n e m.dist) _ ?_ m hm
  intro m j hj hm
  exact globalRelax_sound n e k i j m (List.mem_range.mp hk) (List.mem_range.mp hi)
    (List.mem_range.mp hj) hm

/-- On a matrix with entries between zero and `FLT_MAX` (`FLT_MAX` for a missing edge),
`GlobalRouter::FloydWarshall` leaves `FLT_MAX`, not zero, in `dist[i][j]` when there is no
path from `i` to `j`; and an entry below `FLT_MAX` in the result always belongs to a pair
joined by a path. -/
theorem globalFloydWarshall_noPath (n : Nat) (m : GlobalMatrices) (i j : Nat)
    (hi : i < n) (hj : j < n)
    (hrange : ∀ a b, a < n → b < n → 0 ≤ m.dist a b ∧ m.dist a b ≤ FLT_MAX) :
    (¬ HasPath n m.dist i j →
      (GlobalRouter.FloydWarshall n m).dist i j = FLT_MAX ∧
        (GlobalRouter.FloydWarshall n m).dist i j ≠ 0) ∧
    ((GlobalRouter.FloydWarshall n m).dist i j < FLT_MAX → HasPath n m.dist i j) := by
  have hs : GlobalSound n m.dist m.dist := fun a b ha hb =>
    ⟨(hrange a b ha hb).1, (hrange a b ha hb).2,
      fun hlt => Relation.TransGen.single ⟨ha, hb, hlt⟩⟩
  have hsound := globalFloydWarshall_sound n m.dist m hs i j hi hj
  refine ⟨fun hno => ?_, hsound.2.2⟩
  have heq : (GlobalRouter.FloydWarshall n m).dist i j = FLT_MAX := by
    rcases lt_or_eq_of_le hsound.2.1 with hlt | heq
    · exact absurd (hsound.2.2 hlt) hno
    · exact heq
  refine ⟨heq, ?_⟩
  rw [heq]
  unfold FLT_MAX
  norm_num

theorem twoIsolatedNodes_noPath : ¬ HasPath 2 twoIsolatedNodes.dist 0 1 := by
  intro h
  have key : ∀ b, HasPath 2 twoIsolatedNodes.dist 0 b → b = 0 := by
    intro b hb
    induction hb with
    | single hab =>
      by_contra hne
      have := hab.2.2
      simp only [twoIsolatedNodes, GlobalRouter.initMatrices, if_neg hne] at this
      exact lt_irrefl _ this
    | tail _ hbc ih =>
      subst ih
      by_contra hne
      have := hbc.2.2
      simp only [twoIsolatedNodes, GlobalRouter.initMatrices, if_neg hne] at this
      exact lt_irrefl _ this
  exact absurd (key 1 h) (by decide)

theorem twoIsolatedNodes_range (a b : Nat) :
    0 ≤ twoIsolatedNodes.dist a b ∧ twoIsolatedNodes.dist a b ≤ FLT_MAX := by
  simp only [twoIsolatedNodes, GlobalRouter.initMatrices]
  split
  · exact ⟨le_refl _, by unfold FLT_MAX; norm_num⟩
  · exact ⟨by unfold FLT_MAX; norm_num, le_refl _⟩

/-- C33 fails for pairs without a path: on two nodes without any edge, the matrix right
after `GlobalRouter::init` (zero diagonal, `FLT_MAX` elsewhere), there is no path from node
0 to node 1, and `GlobalRouter::FloydWarshall` leaves `dist[0][1] = FLT_MAX`, which is not
zero. -/
theorem globalFloydWarshall_unreachable :
    twoIsolatedNodes.dist 0 0 = 0 ∧ twoIsolatedNodes.dist 0 1 = FLT_MAX ∧
    ¬ HasPath 2 twoIsolatedNodes.dist 0 1 ∧
    (GlobalRouter.FloydWarshall 2 twoIsolatedNodes).dist 0 1 = FLT_MAX ∧
    (GlobalRouter.FloydWarshall 2 twoIsolatedNodes).dist 0 1 ≠ 0 :=
  ⟨rfl, rfl, twoIsolatedNodes_noPath,
    (globalFloydWarshall_noPath 2 twoIsolatedNodes 0 1 (by decide) (by decide)
      (fun a b _ _ => twoIsolatedNodes_range a b)).1 twoIsolatedNodes_noPath⟩

/-! ## The number of passes of `FFRouter::FloydWarshall` -/

/-- The matrix after one execution of the triple loop holds all shortest distances. -/
theorem fwPass_shortest (doors : List Int) (e : Int → Int → Dbl) (p0 : Int → Int → Int)
    (hdiag : ZeroDiagOn doors e) (hnn : NonNegOn doors e) :
    ∀ i ∈ doors, ∀ j ∈ doors,
      (∃ q, (fwPass doors (⟨e, p0⟩, false)).1.dist i j = Dbl.fin q ∧
        IsShortest e doors i j q) ∨
      (Unreachable e doors i j ∧ (fwPass doors (⟨e, p0⟩, false)).1.dist i j = e i j) := by
  obtain ⟨hg, _, hc⟩ := fwPass_spec e p0 doors false hdiag hnn
  intro i hi j hj
  have hbound : ∀ p L, IsDoorSeq doors i j p → seqLen e p = some L →
      ∃ q, q ≤ L ∧ (fwPass doors (⟨e, p0⟩, false)).1.dist i j = Dbl.fin q := by
    intro p L hp hL
    rcases doorSeq_cases doors i j p hp with ⟨rfl, rfl⟩ | ⟨mids, rfl, hm⟩
    · simp only [seqLen, Option.some.injEq] at hL
      exact ⟨0, le_of_eq hL, hg.diag i hi⟩
    · rw [seqLen_eq_walkLen] at hL
      exact hc i hi j hj mids hm L hL
  have hunreach : (∀ q, (fwPass doors (⟨e, p0⟩, false)).1.dist i j ≠ Dbl.fin q) →
      Unreachable e doors i j ∧ (fwPass doors (⟨e, p0⟩, false)).1.dist i j = e i j := by
    intro hnf
    refine ⟨?_, (hg.keep i j hnf).1⟩
    intro p hp
    cases hL : seqLen e p with
    | none => rfl
    | some L =>
      obtain ⟨q', _, hd⟩ := hbound p L hp hL
      exact absurd hd (hnf q')
  cases h : (fwPass doors (⟨e, p0⟩, false)).1.dist i j with
  | fin q =>
    left
    refine ⟨q, rfl, ?_, ?_⟩
    · obtain ⟨mids, hm, hw, _⟩ := hg.walk i j q h
      exact ⟨i :: (mids ++ [j]), doorSeq_of_walk doors i j mids hi hj hm,
        by rw [seqLen_eq_walkLen]; exact hw⟩
    · intro p L hp hL
      obtain ⟨q', hq', hd⟩ := hbound p L hp hL
      rw [h] at hd
      injection hd with hd
      rw [hd]; exact hq'
  | dmax =>
    right
    rw [← h]
    exact hunreach (by rw [h]; intro q hq; cases hq)
  | inf =>
    right
    rw [← h]
    exact hunreach (by rw [h]; intro q hq; cases hq)

/-- C36. On every door matrix with zero diagonal and non-negative entries, in exact
arithmetic: the first pass of the triple loop of `FFRouter::FloydWarshall` already yields
all shortest distances, a second pass over its result changes no entry and leaves the
change flag unset, and the function therefore returns the result of the first pass with a
recursion depth of two, that is after at most two passes. -/
theorem floydWarshall_twoPasses (doors : List Int) (m : Matrices)
    (hdiag : ZeroDiagOn doors m.dist) (hnn : NonNegOn doors m.dist) :
    (∀ i ∈ doors, ∀ j ∈ doors,
      (∃ q, (fwPass doors (m, false)).1.dist i j = Dbl.fin q ∧
        IsShortest m.dist doors i j q) ∨
      (Unreachable m.dist doors i j ∧ (fwPass doors (m, false)).1.dist i j = m.dist i j)) ∧
    fwPass doors ((fwPass doors (m, false)).1, false) = ((fwPass doors (m, false)).1, false) ∧
    FloydWarshall 2 doors m = some (fwPass doors (m, false)).1 := by
  obtain ⟨e, p0⟩ := m
  obtain ⟨hg, _, hc⟩ := fwPass_spec e p0 doors false hdiag hnn
  exact ⟨fwPass_shortest doors e p0 hdiag hnn, fwPass_fixed e p0 doors _ hg hc,
    floydWarshall_eq e p0 doors 0 hdiag hnn⟩

theorem floydWarshall_twoPasses_witness :
    ZeroDiagOn [1, 2, 3] sampleMatrices.dist ∧ NonNegOn [1, 2, 3] sampleMatrices.dist ∧
    (∀ i ∈ [1, 2, 3], ∀ j ∈ [1, 2, 3],
      (∃ q, (fwPass [1, 2, 3] (sampleMatrices, false)).1.dist i j = Dbl.fin q ∧
        IsShortest sampleMatrices.dist [1, 2, 3] i j q) ∨
      (Unreachable sampleMatrices.dist [1, 2, 3] i j ∧
        (fwPass [1, 2, 3] (sampleMatrices, false)).1.dist i j = sampleMatrices.dist i j)) ∧
    fwPass [1, 2, 3] ((fwPass [1, 2, 3] (sampleMatrices, false)).1, false)
      = ((fwPass [1, 2, 3] (sampleMatrices, false)).1, false) ∧
    FloydWarshall 2 [1, 2, 3] sampleMatrices
      = some (fwPass [1, 2, 3] (sampleMatrices, false)).1 :=
  ⟨by decide, by decide,
    floydWarshall_twoPasses [1, 2, 3] sampleMatrices (by decide) (by decide)⟩

/-! ## `Line::operator<` -/

theorem line_opEq_comm (J_EPS : ℚ) (a b : Line) :
    Line.opEq J_EPS a b = Line.opEq J_EPS b a := by
  unfold Line.opEq
  rw [point_opEq_comm J_EPS a.point1 b.point1, point_opEq_comm J_EPS a.point2 b.point2,
    point_opEq_comm J_EPS a.point2 b.point1, point_opEq_comm J_EPS a.point1 b.point2,
    Bool.and_comm (Point.opEq J_EPS b.point1 a.point2)]

/-- C40 fails: `Line::operator<` is symmetric, `a < b` holds exactly when `b < a` holds, so
it is not asymmetric; for the two legs of a right angle at the origin both `a < b` and
`b < a` hold, while neither line is below itself. -/
theorem lineLt_symmetric :
    (∀ (J_EPS : ℚ) (a b : Line), Line.opLt J_EPS a b = Line.opLt J_EPS b a) ∧
    Line.opLt (1 / 1000) ⟨⟨0, 0⟩, ⟨1, 0⟩⟩ ⟨⟨0, 0⟩, ⟨0, 1⟩⟩ = true ∧
    Line.opLt (1 / 1000) ⟨⟨0, 0⟩, ⟨0, 1⟩⟩ ⟨⟨0, 0⟩, ⟨1, 0⟩⟩ = true ∧
    Line.opLt (1 / 1000) ⟨⟨0, 0⟩, ⟨1, 0⟩⟩ ⟨⟨0, 0⟩, ⟨1, 0⟩⟩ = false := by
  refine ⟨fun J_EPS a b => ?_, by decide!, by decide!, by decide!⟩
  unfold Line.opLt
  rw [line_opEq_comm]

/-! ## `Line::IntersectionPointsWithCircle` -/

/-- The function returns at most two points. -/
theorem intersectionPoints_length (sqrt : ℚ → ℚ) (J_EPS : ℚ) (l : Line) (centre : Point)
    (radius : ℚ) : (Line.IntersectionPointsWithCircle sqrt J_EPS l centre radius).length ≤ 2 := by
  unfold Line.IntersectionPointsWithCircle
  dsimp only
  split
  · simp
  · split
    · simp
    · split <;> split <;> simp

theorem quadratic_root (a b c s t : ℚ) (ha : a ≠ 0) (hs : s * s = b ^ 2 - 4 * a * c)
    (ht : t = (-b + s) / (2 * a) ∨ t = (-b - s) / (2 * a)) : a * t ^ 2 + b * t + c = 0 := by
  have h2a : (2 * a) ≠ 0 := mul_ne_zero two_ne_zero ha
  have key : (2 * a * t + b) ^ 2 = s * s := by
    rcases ht with ht | ht
    · have : 2 * a * t = -b + s := by rw [ht]; field_simp
      rw [this]; ring
    · have : 2 * a * t = -b - s := by rw [ht]; field_simp
      rw [this]; ring
  have h4 : 4 * a * (a * t ^ 2 + b * t + c) = 0 := by
    have : 4 * a * (a * t ^ 2 + b * t + c) = (2 * a * t + b) ^ 2 - (b ^ 2 - 4 * a * c) := by
      ring
    rw [this, key, hs]; ring
  rcases mul_eq_zero.mp h4 with h | h
  · exact absurd (by linarith : a = 0) ha
  · exact h

/-- Outside the tangent case, and with a square root that is exact at the discriminant,
every point returned for a segment of positive length has a parameter in the unit interval
and lies at distance `radius` from the centre. -/
theorem intersectionPoints_twoRoots (sqrt : ℚ → ℚ) (J_EPS : ℚ) (l : Line) (centre : Point)
    (radius : ℚ)
    (hlen : (l.point1.sub l.point2).NormSquare ≠ 0)
    (hD : 0 ≤ l.circleDiscriminant centre radius)
    (hnt : ¬ |l.circleDiscriminant centre radius| < J_EPS)
    (hsq : sqrt (l.circleDiscriminant centre radius) * sqrt (l.circleDiscriminant centre radius)
      = l.circleDiscriminant centre radius) :
    ∀ p ∈ Line.IntersectionPointsWithCircle sqrt J_EPS l centre radius,
      (∃ t : ℚ, 0 ≤ t ∧ t ≤ 1 ∧
        p = Point.add ⟨t * (l.point1.sub centre).x + (1 - t) * (l.point2.sub centre).x,
          t * (l.point1.sub centre).y + (1 - t) * (l.point2.sub centre).y⟩ centre) ∧
      (p.sub centre).NormSquare = radius ^ 2 := by
  intro p hp
  unfold Line.circleDiscriminant at hD hnt hsq
  dsimp only at hD hnt hsq
  unfold Line.IntersectionPointsWithCircle at hp
  dsimp only at hp
  rw [if_neg (not_lt.mpr hD), if_neg hnt] at hp
  have ha : ((l.point1.sub centre).x - (l.point2.sub centre).x) ^ 2
      + ((l.point1.sub centre).y - (l.point2.sub centre).y) ^ 2 ≠ 0 := by
    intro h
    apply hlen
    simp only [Point.NormSquare, Point.sub] at h ⊢
    linarith
  rcases List.mem_append.mp hp with h | h
  · split at h
    · rename_i ht
      rw [List.mem_singleton] at h
      subst h
      refine ⟨⟨_, ht.1, ht.2, rfl⟩, ?_⟩
      have hq := quadratic_root _ _ _ _ _ ha hsq (Or.inl rfl)
      simp only [Point.NormSquare, Point.sub, Point.add] at hq ⊢
      linear_combination hq
    · cases h
  · split at h
    · rename_i ht
      rw [List.mem_singleton] at h
      subst h
      refine ⟨⟨_, ht.1, ht.2, rfl⟩, ?_⟩
      have hq := quadratic_root _ _ _ _ _ ha hsq (Or.inr rfl)
      simp only [Point.NormSquare, Point.sub, Point.add] at hq ⊢
      linear_combination hq
    · cases h

/-- C38 fails in the tangent case: the line through `(2, 1)` and `(3, 1)` touches the
circle of radius 1 around the origin in `(0, 1)`, the discriminant is zero, and
`IntersectionPointsWithCircle` returns this point without testing its parameter `t = 3`;
the point is not on the segment from `(2, 1)` to `(3, 1)`. -/
theorem intersectionPoints_tangent_offSegment :
    Line.IntersectionPointsWithCircle sqrtQ (1 / 1000) ⟨⟨2, 1⟩, ⟨3, 1⟩⟩ ⟨0, 0⟩ 1 = [⟨0, 1⟩] ∧
    Line.IsInLineSegment ⟨⟨2, 1⟩, ⟨3, 1⟩⟩ ⟨0, 1⟩ = false ∧
    (∀ t : ℚ, 0 ≤ t → t ≤ 1 →
      Point.add ⟨t * 2 + (1 - t) * 3, t * 1 + (1 - t) * 1⟩ ⟨0, 0⟩ ≠ (⟨0, 1⟩ : Point)) := by
  refine ⟨by decide!, by decide!, ?_⟩
  intro t _ h1 h
  have hx := congrArg Point.x h
  simp only [Point.add] at hx
  linarith

/-! ## `Simulation::RunBody` -/

/-- For positive `fps` and `dt` the write interval is at least one exactly when
`fps * dt` is at most two. -/
theorem writeInterval_pos_iff (fps deltaT : ℚ) (hf : 0 < fps) (hd : 0 < deltaT) :
    1 ≤ Simulation.writeInterval fps deltaT ↔ fps * deltaT ≤ 2 := by
  have hq : 0 ≤ (1 / fps) / deltaT + 1 / 2 := by positivity
  unfold Simulation.writeInterval truncToInt
  rw [if_pos hq, Int.le_floor]
  have hfd : 0 < fps * deltaT := mul_pos hf hd
  have e : (1 / fps) / deltaT = 1 / (fps * deltaT) := by field_simp
  rw [e]
  constructor
  · intro h
    have h1 : (1 : ℚ) / 2 ≤ 1 / (fps * deltaT) := by
      have : ((1 : Int) : ℚ) = 1 := by norm_num
      rw [this] at h
      linarith
    rw [le_div_iff₀ hfd] at h1
    linarith
  · intro h
    have h1 : (1 : ℚ) / 2 ≤ 1 / (fps * deltaT) := by
      rw [le_div_iff₀ hfd]
      linarith
    have : ((1 : Int) : ℚ) = 1 := by norm_num
    rw [this]
    linarith

/-- C39 fails: for `fps = 100` and `dt = 1/20` the value `(1/fps)/dt + 0.5` is `0.7`, the
write interval is its integer part `0`, and the frame test `_frame % writeInterval`
divides by zero; with `fps = 8` and `dt = 1/100` the write interval is 13 and the frames
0 and 13 are written, the frame 1 is not. -/
theorem writeInterval_zero :
    (0 : ℚ) < 100 ∧ (0 : ℚ) < 1 / 20 ∧
    (1 / (100 : ℚ)) / (1 / 20) + 1 / 2 = 7 / 10 ∧
    Simulation.writeInterval 100 (1 / 20) = 0 ∧
    Simulation.writesFrame 100 (1 / 20) 0 = none ∧
    Simulation.writeInterval 8 (1 / 100) = 13 ∧
    Simulation.writesFrame 8 (1 / 100) 0 = some true ∧
    Simulation.writesFrame 8 (1 / 100) 1 = some false ∧
    Simulation.writesFrame 8 (1 / 100) 13 = some true := by
  decide!

/-! ## `WaitingStrategy::GetTarget` -/

/-- A proposal that never lies in the subroom keeps the loop running for every bound. -/
theorem waitingLoop_none (IsInSubRoom : Point → Bool) (GetWaitingPosition : Nat → Point)
    (h : ∀ n, IsInSubRoom (GetWaitingPosition n) = false) :
    ∀ fuel n, WaitingStrategy.loop IsInSubRoom GetWaitingPosition fuel n = none := by
  intro fuel
  induction fuel with
  | zero => intro n; rfl
  | succ k ih =>
    intro n
    simp only [WaitingStrategy.loop, h n, Bool.not_false, if_true]
    exact ih (n + 1)

/-- What the loop returns lies in the subroom. -/
theorem waitingLoop_some (IsInSubRoom : Point → Bool) (GetWaitingPosition : Nat → Point) :
    ∀ fuel n t, WaitingStrategy.loop IsInSubRoom GetWaitingPosition fuel n = some t →
      IsInSubRoom t = true := by
  intro fuel
  induction fuel with
  | zero => intro n t h; cases h
  | succ k ih =>
    intro n t h
    simp only [WaitingStrategy.loop] at h
    cases hin : IsInSubRoom (GetWaitingPosition n) with
    | false =>
      rw [hin] at h
      simp only [Bool.not_false, if_true] at h
      exact ih (n + 1) t h
    | true =>
      rw [hin] at h
      simp only [Bool.not_true, Bool.false_eq_true, if_false, Option.some.injEq] at h
      rw [← h]; exact hin

/-- For a pedestrian whose waiting position is not set, with the strategy `WaitingMiddle`:
if the proposed centroid lies in the subroom of the pedestrian, `GetTarget` returns it
after one round; if it does not, `GetTarget` does not return within any number of rounds;
and with any strategy, a point that `GetTarget` returns lies in the subroom. -/
theorem getTarget_waitingMiddle (sqrt : ℚ → ℚ) (IsInSubRoom : Point → Bool)
    (inside : Bool) (goalCentroid subRoomCentroid : Point) (ped : WaitingPed)
    (hunset : ped.waitingPos = none) :
    (IsInSubRoom (WaitingMiddle.GetWaitingPosition inside goalCentroid subRoomCentroid) = true →
      ∀ fuel, WaitingStrategy.GetTarget sqrt (fuel + 1) IsInSubRoom
        (fun _ => WaitingMiddle.GetWaitingPosition inside goalCentroid subRoomCentroid) ped
        = some (WaitingMiddle.GetWaitingPosition inside goalCentroid subRoomCentroid)) ∧
    (IsInSubRoom (WaitingMiddle.GetWaitingPosition inside goalCentroid subRoomCentroid) = false →
      ∀ fuel, WaitingStrategy.GetTarget sqrt fuel IsInSubRoom
        (fun _ => WaitingMiddle.GetWaitingPosition inside goalCentroid subRoomCentroid) ped
        = none) ∧
    (∀ (GetWaitingPosition : Nat → Point) fuel t,
      WaitingStrategy.GetTarget sqrt fuel IsInSubRoom GetWaitingPosition ped = some t →
        IsInSubRoom t = true) := by
  unfold WaitingStrategy.GetTarget
  rw [hunset]
  refine ⟨?_, ?_, ?_⟩
  · intro h fuel
    simp only [WaitingStrategy.loop, h, Bool.not_true, Bool.false_eq_true, if_false]
  · intro h fuel
    exact waitingLoop_none IsInSubRoom _ (fun _ => h) fuel 0
  · intro g fuel t h
    exact waitingLoop_some IsInSubRoom g fuel 0 t h

/-- C37 fails for `WaitingMiddle` in a subroom that does not contain its centroid: the
U-shaped subroom with the corners `uShapeVertices` has the centroid `(3/2, 19/14)`, which
lies in the notch and not in the subroom, so for a pedestrian in that subroom whose
waiting position is not set the loop of `GetTarget` proposes the same point in every round
and does not return within any number of rounds. -/
theorem getTarget_waitingMiddle_loops :
    uShapePed.waitingPos = none ∧
    uShapeIsInSubRoom uShapePed.pos = true ∧
    (∀ v ∈ uShapeVertices, uShapeIsInSubRoom v = true) ∧
    polygonCentroid uShapeVertices = ⟨3 / 2, 19 / 14⟩ ∧
    uShapeIsInSubRoom (polygonCentroid uShapeVertices) = false ∧
    ∀ fuel, WaitingStrategy.GetTarget sqrtQ fuel uShapeIsInSubRoom
      (fun _ => WaitingMiddle.GetWaitingPosition false ⟨0, 0⟩ (polygonCentroid uShapeVertices))
      uShapePed = none := by
  have hc : polygonCentroid uShapeVertices = ⟨3 / 2, 19 / 14⟩ := by decide!
  have hout : uShapeIsInSubRoom (polygonCentroid uShapeVertices) = false := by
    rw [hc]; decide!
  refine ⟨rfl, by decide!, by decide!, hc, hout, ?_⟩
  exact (getTarget_waitingMiddle sqrtQ uShapeIsInSubRoom false ⟨0, 0⟩
    (polygonCentroid uShapeVertices) uShapePed rfl).2.1 hout

/-! ## `UnivFFviaFM::DrawLinesOnGrid` -/

theorem drawCell_apply {α : Type} (gridCode : Int → CellCode) (iMax : Int) (value : α)
    (iDot jDot : Int) (target : Int → α) (key : Int) :
    drawCell gridCode iMax value iDot jDot target key =
      if jDot * iMax + iDot = key ∧ Writable (gridCode key) then value else target key := by
  unfold drawCell Writable
  by_cases hk : jDot * iMax + iDot = key
  · subst hk
    by_cases hw : gridCode (jDot * iMax + iDot) ≠ CellCode.WALL ∧
        gridCode (jDot * iMax + iDot) ≠ CellCode.CLOSED_CROSSING ∧
        gridCode (jDot * iMax + iDot) ≠ CellCode.CLOSED_TRANSITION
    · rw [if_pos hw, if_pos ⟨rfl, hw⟩, Function.update_same]
    · rw [if_neg hw, if_neg (fun h => hw h.2)]
  · have hr : ¬ (jDot * iMax + iDot = key ∧ gridCode key ≠ CellCode.WALL ∧
        gridCode key ≠ CellCode.CLOSED_CROSSING ∧
        gridCode key ≠ CellCode.CLOSED_TRANSITION) := fun h => hk h.1
    rw [if_neg hr]
    split
    · rw [Function.update_noteq (Ne.symm hk)]
    · rfl

/-- The characterisation of the array after one more visited cell. -/
theorem drawTarget_cons {α : Type} (gridCode : Int → CellCode) (iMax : Int) (value : α)
    (c : Int × Int) (cells : List (Int × Int)) (target t1 : Int → α)
    (h : ∀ key, t1 key = if (∃ d ∈ cells, d.2 * iMax + d.1 = key) ∧ Writable (gridCode key)
      then value else drawCell gridCode iMax value c.1 c.2 target key) :
    ∀ key, t1 key = if (∃ d ∈ c :: cells, d.2 * iMax + d.1 = key) ∧ Writable (gridCode key)
      then value else target key := by
  intro key
  rw [h key, drawCell_apply]
  by_cases hw : Writable (gridCode key)
  · by_cases h1 : ∃ d ∈ cells, d.2 * iMax + d.1 = key
    · obtain ⟨d, hd, hk⟩ := h1
      rw [if_pos ⟨⟨d, hd, hk⟩, hw⟩, if_pos ⟨⟨d, List.mem_cons_of_mem _ hd, hk⟩, hw⟩]
    · rw [if_neg (fun h => h1 h.1)]
      by_cases h2 : c.2 * iMax + c.1 = key
      · rw [if_pos ⟨h2, hw⟩, if_pos ⟨⟨c, List.mem_cons_self _ _, h2⟩, hw⟩]
      · rw [if_neg (fun h => h2 h.1), if_neg]
        rintro ⟨⟨d, hd, hk⟩, _⟩
        rcases List.mem_cons.mp hd with rfl | hd
        · exact h2 hk
        · exact h1 ⟨d, hd, hk⟩
  · rw [if_neg (fun h => hw h.2), if_neg (fun h => hw h.2), if_neg (fun h => hw h.2)]

theorem drawLoopX_done {α : Type} (gridCode : Int → CellCode) (iMax : Int) (value : α)
    (deltaX deltaY deltaX1 deltaY1 xe : Int) (fuel : Nat) (iDot jDot px : Int)
    (target : Int → α) (h : ¬ iDot < xe) :
    drawLoopX gridCode iMax value deltaX deltaY deltaX1 deltaY1 xe fuel iDot jDot px target
      = some ⟨[], target⟩ := by
  cases fuel <;> simp [drawLoopX, h]

/-- The loop of the branch `deltaY1 <= deltaX1` from a state with `R` columns and `S`
rows to go. -/
theorem drawLoopX_spec {α : Type} (gridCode : Int → CellCode) (iMax : Int) (value : α)
    (deltaX deltaY dx dy xe s : Int) (hdx : 0 < dx) (hdy : 0 ≤ dy) (hle : dy ≤ dx)
    (hs : s = 1 ∨ s = -1)
    (hdir : ∀ j : Int, (if (deltaX < 0 ∧ deltaY < 0) ∨ (deltaX > 0 ∧ deltaY > 0) then j + 1
      else j - 1) = j + s) :
    ∀ (R fuel : Nat) (iDot jDot px S : Int) (target : Int → α),
      R ≤ fuel → xe - iDot = R → px = 2 * dy - dx - 2 * R * dy + 2 * dx * S →
      2 * dy - 2 * dx ≤ px → px < 2 * dy →
      ∃ r, drawLoopX gridCode iMax value deltaX deltaY dx dy xe fuel iDot jDot px target
          = some r ∧
        r.visited.length = R ∧
        List.Chain Adjacent8 (iDot, jDot) r.visited ∧
        ((iDot, jDot) :: r.visited).getLast? = some (xe, jDot + s * S) ∧
        (∀ c ∈ r.visited, iDot < c.1 ∧ c.1 ≤ xe ∧ 0 ≤ s * (c.2 - jDot) ∧
          s * (c.2 - jDot) ≤ S) ∧
        0 ≤ S ∧
        (∀ key, r.target key =
          if (∃ c ∈ r.visited, c.2 * iMax + c.1 = key) ∧ Writable (gridCode key) then value
          else target key) := by
  have hss : s * s = 1 := by rcases hs with h | h <;> rw [h] <;> norm_num
  intro R
  induction R with
  | zero =>
    intro fuel iDot jDot px S target _ hR hpx hlo hhi
    simp only [Nat.cast_zero, mul_zero, zero_mul, sub_zero] at hR hpx
    have hS : S = 0 := by
      have h1 : 0 ≤ S := by
        by_contra hneg
        have : dx * S ≤ dx * (-1) := mul_le_mul_of_nonneg_left (by omega) hdx.le
        linarith
      have h2 : S ≤ 0 := by
        by_contra hpos
        have : dx * 1 ≤ dx * S := mul_le_mul_of_nonneg_left (by omega) hdx.le
        linarith
      omega
    refine ⟨⟨[], target⟩, drawLoopX_done _ _ _ _ _ _ _ _ _ _ _ _ _ (by omega), rfl,
      List.Chain.nil, ?_, ?_, by omega, ?_⟩
    · have : iDot = xe := by omega
      simp [hS, this]
    · intro c hc; cases hc
    · intro key; simp
  | succ n ih =>
    intro fuel iDot jDot px S target hfuel hR hpx hlo hhi
    obtain ⟨f, rfl⟩ : ∃ f, fuel = f + 1 := ⟨fuel - 1, by omega⟩
    have hlt : iDot < xe := by
      have : (0 : Int) ≤ (n : Int) := Int.ofNat_nonneg n
      push_cast at hR
      omega
    have hR' : xe - (iDot + 1) = (n : Int) := by push_cast at hR; omega
    push_cast at hpx
    simp only [drawLoopX, if_pos hlt]
    by_cases hneg : px < 0
    · simp only [if_pos hneg]
      obtain ⟨r, hr, hlen, hchain, hlast, hmem, hS0, htar⟩ :=
        ih f (iDot + 1) jDot (px + 2 * dy) S
          (drawCell gridCode iMax value (iDot + 1) jDot target) (by omega) hR'
          (by rw [hpx]; ring) (by linarith) (by linarith)
      refine ⟨⟨(iDot + 1, jDot) :: r.visited, r.target⟩, by rw [hr]; rfl, ?_, ?_, ?_, ?_,
        hS0, ?_⟩
      · simp [hlen]
      · refine List.Chain.cons ?_ hchain
        simp [Adjacent8]
      · rw [List.getLast?_cons_cons]; exact hlast
      · intro c hc
        rcases List.mem_cons.mp hc with rfl | hc
        · refine ⟨by simp, by simp; omega, by simp, by simpa using hS0⟩
        · obtain ⟨h1, h2, h3, h4⟩ := hmem c hc
          exact ⟨by omega, h2, h3, h4⟩
      · exact drawTarget_cons gridCode iMax value (iDot + 1, jDot) r.visited target r.target
          htar
    · simp only [if_neg hneg, hdir]
      obtain ⟨r, hr, hlen, hchain, hlast, hmem, hS0, htar⟩ :=
        ih f (iDot + 1) (jDot + s) (px + 2 * (dy - dx)) (S - 1)
          (drawCell gridCode iMax value (iDot + 1) (jDot + s) target) (by omega) hR'
          (by rw [hpx]; ring) (by linarith) (by linarith)
      refine ⟨⟨(iDot + 1, jDot + s) :: r.visited, r.target⟩, by rw [hr]; rfl, ?_, ?_, ?_, ?_,
        by omega, ?_⟩
      · simp [hlen]
      · refine List.Chain.cons ?_ hchain
        rcases hs with h | h <;> simp [Adjacent8, h]
      · rw [List.getLast?_cons_cons, hlast]
        congr 2
        ring
      · intro c hc
        rcases List.mem_cons.mp hc with rfl | hc
        · refine ⟨by simp, by simp; omega, ?_, ?_⟩
          · simp only [add_sub_cancel_left, hss]; norm_num
          · simp only [add_sub_cancel_left, hss]; omega
        · obtain ⟨h1, h2, h3, h4⟩ := hmem c hc
          have e : s * (c.2 - jDot) = s * (c.2 - (jDot + s)) + 1 := by
            have : s * (c.2 - jDot) = s * (c.2 - (jDot + s)) + s * s := by ring
            rw [this, hss]
          exact ⟨by omega, h2, by omega, by omega⟩
      · exact drawTarget_cons gridCode iMax value (iDot + 1, jDot + s) r.visited target
          r.target htar

theorem drawLoopY_done {α : Type} (gridCode : Int → CellCode) (iMax : Int) (value : α)
    (deltaX deltaY deltaX1 deltaY1 ye : Int) (fuel : Nat) (iDot jDot py : Int)
    (target : Int → α) (h : ¬ jDot < ye) :
    drawLoopY gridCode iMax value deltaX deltaY deltaX1 deltaY1 ye fuel iDot jDot py target
      = some ⟨[], target⟩ := by
  cases fuel <;> simp [drawLoopY, h]

/-- The loop of the branch `deltaY1 > deltaX1` from a state with `R` rows and `S` columns
to go. -/
theorem drawLoopY_spec {α : Type} (gridCode : Int → CellCode) (iMax : Int) (value : α)
    (deltaX deltaY dx dy ye s : Int) (hdy : 0 < dy) (hdx : 0 ≤ dx) (hle : dx ≤ dy)
    (hs : s = 1 ∨ s = -1)
    (hdir : ∀ i : Int, (if (deltaX < 0 ∧ deltaY < 0) ∨ (deltaX > 0 ∧ deltaY > 0) then i + 1
      else i - 1) = i + s) :
    ∀ (R fuel : Nat) (iDot jDot py S : Int) (target : Int → α),
      R ≤ fuel → ye - jDot = R → py = 2 * dx - dy - 2 * R * dx + 2 * dy * S →
      2 * dx - 2 * dy < py → py ≤ 2 * dx →
      ∃ r, drawLoopY gridCode iMax value deltaX deltaY dx dy ye fuel iDot jDot py target
          = some r ∧
        r.visited.length = R ∧
        List.Chain Adjacent8 (iDot, jDot) r.visited ∧
        ((iDot, jDot) :: r.visited).getLast? = some (iDot + s * S, ye) ∧
        (∀ c ∈ r.visited, jDot < c.2 ∧ c.2 ≤ ye ∧ 0 ≤ s * (c.1 - iDot) ∧
          s * (c.1 - iDot) ≤ S) ∧
        0 ≤ S ∧
        (∀ key, r.target key =
          if (∃ c ∈ r.visited, c.2 * iMax + c.1 = key) ∧ Writable (gridCode key) then value
          else target key) := by
  have hss : s * s = 1 := by rcases hs with h | h <;> rw [h] <;> norm_num
  intro R
  induction R with
  | zero =>
    intro fuel iDot jDot py S target _ hR hpy hlo hhi
    simp only [Nat.cast_zero, mul_zero, zero_mul, sub_zero] at hR hpy
    have hS : S = 0 := by
      have h1 : 0 ≤ S := by
        by_contra hneg
        have : dy * S ≤ dy * (-1) := mul_le_mul_of_nonneg_left (by omega) hdy.le
        linarith
      have h2 : S ≤ 0 := by
        by_contra hpos
        have : dy * 1 ≤ dy * S := mul_le_mul_of_nonneg_left (by omega) hdy.le
        linarith
      omega
    refine ⟨⟨[], target⟩, drawLoopY_done _ _ _ _ _ _ _ _ _ _ _ _ _ (by omega), rfl,
      List.Chain.nil, ?_, ?_, by omega, ?_⟩
    · have : jDot = ye := by omega
      simp [hS, this]
    · intro c hc; cases hc
    · intro key; simp
  | succ n ih =>
    intro fuel iDot jDot py S target hfuel hR hpy hlo hhi
    obtain ⟨f, rfl⟩ : ∃ f, fuel = f + 1 := ⟨fuel - 1, by omega⟩
    have hlt : jDot < ye := by
      have : (0 : Int) ≤ (n : Int) := Int.ofNat_nonneg n
      push_cast at hR
      omega
    have hR' : ye - (jDot + 1) = (n : Int) := by push_cast at hR; omega
    push_cast at hpy
    simp only [drawLoopY, if_pos hlt]
    by_cases hneg : py ≤ 0
    · simp only [if_pos hneg]
      obtain ⟨r, hr, hlen, hchain, hlast, hmem, hS0, htar⟩ :=
        ih f iDot (jDot + 1) (py + 2 * dx) S
          (drawCell gridCode iMax value iDot (jDot + 1) target) (by omega) hR'
          (by rw [hpy]; ring) (by linarith) (by linarith)
      refine ⟨⟨(iDot, jDot + 1) :: r.visited, r.target⟩, by rw [hr]; rfl, ?_, ?_, ?_, ?_,
        hS0, ?_⟩
      · simp [hlen]
      · refine List.Chain.cons ?_ hchain
        simp [Adjacent8]
      · rw [List.getLast?_cons_cons]; exact hlast
      · intro c hc
        rcases List.mem_cons.mp hc with rfl | hc
        · refine ⟨by simp, by simp; omega, by simp, by simpa using hS0⟩
        · obtain ⟨h1, h2, h3, h4⟩ := hmem c hc
          exact ⟨by omega, h2, h3, h4⟩
      · exact drawTarget_cons gridCode iMax value (iDot, jDot + 1) r.visited target r.target
          htar
    · simp only [if_neg hneg, hdir]
      obtain ⟨r, hr, hlen, hchain, hlast, hmem, hS0, htar⟩ :=
        ih f (iDot + s) (jDot + 1) (py + 2 * (dx - dy)) (S - 1)
          (drawCell gridCode iMax value (iDot + s) (jDot + 1) target) (by omega) hR'
          (by rw [hpy]; ring) (by linarith) (by linarith)
      refine ⟨⟨(iDot + s, jDot + 1) :: r.visited, r.target⟩, by rw [hr]; rfl, ?_, ?_, ?_, ?_,
        by omega, ?_⟩
      · simp [hlen]
      · refine List.Chain.cons ?_ hchain
        rcases hs with h | h <;> simp [Adjacent8, h]
      · rw [List.getLast?_cons_cons, hlast]
        congr 2
        ring
      · intro c hc
        rcases List.mem_cons.mp hc with rfl | hc
        · refine ⟨by simp, by simp; omega, ?_, ?_⟩
          · simp only [add_sub_cancel_left, hss]; norm_num
          · simp only [add_sub_cancel_left, hss]; omega
        · obtain ⟨h1, h2, h3, h4⟩ := hmem c hc
          have e : s * (c.1 - iDot) = s * (c.1 - (iDot + s)) + 1 := by
            have : s * (c.1 - iDot) = s * (c.1 - (iDot + s)) + s * s := by ring
            rw [this, hss]
          exact ⟨by omega, h2, by omega, by omega⟩
      · exact drawTarget_cons gridCode iMax value (iDot + s, jDot + 1) r.visited target
          r.target htar

/-- The branch `deltaY1 <= deltaX1` as a whole, started in the end-point cell `(i0, j0)`
with the smaller column. -/
theorem drawX_branch {α : Type} (gridCode : Int → CellCode) (iMax : Int) (value : α)
    (deltaX deltaY dx dy s i0 j0 i1 j1 : Int) (fuel : Nat) (target : Int → α)
    (hdx : dx = i1 - i0) (hdy : 0 ≤ dy) (hle : dy ≤ dx) (hs : s = 1 ∨ s = -1)
    (hj : j1 = j0 + s * dy)
    (hdir : ∀ j : Int, (if (deltaX < 0 ∧ deltaY < 0) ∨ (deltaX > 0 ∧ deltaY > 0) then j + 1
      else j - 1) = j + s)
    (hfuel : dx.toNat ≤ fuel) :
    ∃ r, (drawLoopX gridCode iMax value deltaX deltaY dx dy i1 fuel i0 j0 (2 * dy - dx)
          (drawCell gridCode iMax value i0 j0 target)).map
          (fun r => (⟨(i0, j0) :: r.visited, r.target⟩ : DrawResult α)) = some r ∧
      (r.visited.length : Int) = dx + 1 ∧
      r.visited.head? = some (i0, j0) ∧ r.visited.getLast? = some (i1, j1) ∧
      List.Chain' Adjacent8 r.visited ∧
      (∀ c ∈ r.visited, i0 ≤ c.1 ∧ c.1 ≤ i1 ∧ 0 ≤ s * (c.2 - j0) ∧ s * (c.2 - j0) ≤ dy) ∧
      (∀ key, r.target key =
        if (∃ c ∈ r.visited, c.2 * iMax + c.1 = key) ∧ Writable (gridCode key) then value
        else target key) := by
  have hdx0 : 0 ≤ dx := le_trans hdy hle
  rcases eq_or_lt_of_le hdx0 with h0 | hpos
  · have hdy0 : dy = 0 := by omega
    have hi : i1 = i0 := by omega
    have hj' : j1 = j0 := by rw [hj, hdy0]; ring
    rw [drawLoopX_done _ _ _ _ _ _ _ _ _ _ _ _ _ (by omega)]
    refine ⟨⟨[(i0, j0)], drawCell gridCode iMax value i0 j0 target⟩, rfl, ?_, rfl, ?_, ?_,
      ?_, ?_⟩
    · simp [← h0]
    · simp [hi, hj']
    · simp [List.Chain']
    · intro c hc
      rw [List.mem_singleton] at hc
      subst hc
      simp [hi, hdy0]
    · intro key
      show drawCell gridCode iMax value i0 j0 target key = _
      rw [drawCell_apply]
      simp
  · obtain ⟨r, hr, hlen, hchain, hlast, hmem, _, htar⟩ :=
      drawLoopX_spec gridCode iMax value deltaX deltaY dx dy i1 s hpos hdy hle hs hdir
        dx.toNat fuel i0 j0 (2 * dy - dx) dy (drawCell gridCode iMax value i0 j0 target)
        hfuel (by rw [Int.toNat_of_nonneg hdx0]; omega)
        (by rw [Int.toNat_of_nonneg hdx0]; ring) (by linarith) (by linarith)
    refine ⟨⟨(i0, j0) :: r.visited, r.target⟩, by rw [hr]; rfl, ?_, rfl, ?_, hchain, ?_, ?_⟩
    · simp only [List.length_cons, hlen]
      push_cast
      rw [Int.toNat_of_nonneg hdx0]
    · rw [hlast, hj]
    · intro c hc
      rcases List.mem_cons.mp hc with rfl | hc
      · simp only [sub_self, mul_zero, le_refl, true_and]
        exact ⟨by omega, hdy⟩
      · obtain ⟨h1, h2, h3, h4⟩ := hmem c hc
        exact ⟨by omega, h2, h3, h4⟩
    · exact drawTarget_cons gridCode iMax value (i0, j0) r.visited target r.target htar

/-- The branch `deltaY1 > deltaX1` as a whole, started in the end-point cell `(i0, j0)`
with the smaller row. -/
theorem drawY_branch {α : Type} (gridCode : Int → CellCode) (iMax : Int) (value : α)
    (deltaX deltaY dx dy s i0 j0 i1 j1 : Int) (fuel : Nat) (target : Int → α)
    (hdy : dy = j1 - j0) (hdx : 0 ≤ dx) (hlt : dx < dy) (hs : s = 1 ∨ s = -1)
    (hi : i1 = i0 + s * dx)
    (hdir : ∀ i : Int, (if (deltaX < 0 ∧ deltaY < 0) ∨ (deltaX > 0 ∧ deltaY > 0) then i + 1
      else i - 1) = i + s)
    (hfuel : dy.toNat ≤ fuel) :
    ∃ r, (drawLoopY gridCode iMax value deltaX deltaY dx dy j1 fuel i0 j0 (2 * dx - dy)
          (drawCell gridCode iMax value i0 j0 target)).map
          (fun r => (⟨(i0, j0) :: r.visited, r.target⟩ : DrawResult α)) = some r ∧
      (r.visited.length : Int) = dy + 1 ∧
      r.visited.head? = some (i0, j0) ∧ r.visited.getLast? = some (i1, j1) ∧
      List.Chain' Adjacent8 r.visited ∧
      (∀ c ∈ r.visited, j0 ≤ c.2 ∧ c.2 ≤ j1 ∧ 0 ≤ s * (c.1 - i0) ∧ s * (c.1 - i0) ≤ dx) ∧
      (∀ key, r.target key =
        if (∃ c ∈ r.visited, c.2 * iMax + c.1 = key) ∧ Writable (gridCode key) then value
        else target key) := by
  have hpos : 0 < dy := lt_of_le_of_lt hdx hlt
  obtain ⟨r, hr, hlen, hchain, hlast, hmem, _, htar⟩ :=
    drawLoopY_spec gridCode iMax value deltaX deltaY dx dy j1 s hpos hdx hlt.le hs hdir
      dy.toNat fuel i0 j0 (2 * dx - dy) dx (drawCell gridCode iMax value i0 j0 target)
      hfuel (by rw [Int.toNat_of_nonneg hpos.le]; omega)
      (by rw [Int.toNat_of_nonneg hpos.le]; ring) (by linarith) (by linarith)
  refine ⟨⟨(i0, j0) :: r.visited, r.target⟩, by rw [hr]; rfl, ?_, rfl, ?_, hchain, ?_, ?_⟩
  · simp only [List.length_cons, hlen]
    push_cast
    rw [Int.toNat_of_nonneg hpos.le]
  · rw [hlast, hi]
  · intro c hc
    rcases List.mem_cons.mp hc with rfl | hc
    · simp only [sub_self, mul_zero, le_refl, true_and]
      exact ⟨by omega, hdx⟩
    · obtain ⟨h1, h2, h3, h4⟩ := hmem c hc
      exact ⟨by omega, h2, h3, h4⟩
  · exact drawTarget_cons gridCode iMax value (i0, j0) r.visited target r.target htar

/-- C34. For a line whose end points fall into the grid cells `(iStart, jStart)` and
`(iEnd, jEnd)`, `DrawLinesOnGrid` returns (its loop runs `max(|iEnd - iStart|,
|jEnd - jStart|)` rounds) and visits exactly `max(|iEnd - iStart|, |jEnd - jStart|) + 1`
cells; the first and the last visited cell are the two end-point cells; consecutive
visited cells differ by at most one in each index; every visited cell lies in the
rectangle spanned by the two end-point cells, hence inside the grid; and afterwards the
array holds `value` exactly at the visited cells whose code is not `WALL`,
`CLOSED_CROSSING` or `CLOSED_TRANSITION`, and its former content everywhere else. -/
theorem drawLinesOnGrid_line {α : Type} (fuel : Nat) (gridCode : Int → CellCode)
    (iMax iStart jStart iEnd jEnd : Int) (target : Int → α) (value : α)
    (hfuel : (max |iEnd - iStart| |jEnd - jStart|).toNat ≤ fuel) :
    ∃ r, DrawLinesOnGrid fuel gridCode iMax iStart jStart iEnd jEnd target value = some r ∧
      (r.visited.length : Int) = max |iEnd - iStart| |jEnd - jStart| + 1 ∧
      ((r.visited.head? = some (iStart, jStart) ∧ r.visited.getLast? = some (iEnd, jEnd)) ∨
        (r.visited.head? = some (iEnd, jEnd) ∧
          r.visited.getLast? = some (iStart, jStart))) ∧
      List.Chain' Adjacent8 r.visited ∧
      (∀ c ∈ r.visited, min iStart iEnd ≤ c.1 ∧ c.1 ≤ max iStart iEnd ∧
        min jStart jEnd ≤ c.2 ∧ c.2 ≤ max jStart jEnd) ∧
      (∀ key, r.target key =
        if (∃ c ∈ r.visited, c.2 * iMax + c.1 = key) ∧ Writable (gridCode key) then value
        else target key) := by
  unfold DrawLinesOnGrid
  dsimp only
  have hax : (0 ≤ iEnd - iStart ∧ |iEnd - iStart| = iEnd - iStart) ∨
      (iEnd - iStart < 0 ∧ |iEnd - iStart| = -(iEnd - iStart)) := by
    rcases le_or_lt 0 (iEnd - iStart) with h | h
    · exact Or.inl ⟨h, abs_of_nonneg h⟩
    · exact Or.inr ⟨h, abs_of_neg h⟩
  have hay : (0 ≤ jEnd - jStart ∧ |jEnd - jStart| = jEnd - jStart) ∨
      (jEnd - jStart < 0 ∧ |jEnd - jStart| = -(jEnd - jStart)) := by
    rcases le_or_lt 0 (jEnd - jStart) with h | h
    · exact Or.inl ⟨h, abs_of_nonneg h⟩
    · exact Or.inr ⟨h, abs_of_neg h⟩
  generalize |iEnd - iStart| = dx at *
  generalize |jEnd - jStart| = dy at *
  have hfx : dx.toNat ≤ fuel := le_trans (Int.toNat_le_toNat (le_max_left _ _)) hfuel
  have hfy : dy.toNat ≤ fuel := le_trans (Int.toNat_le_toNat (le_max_right _ _)) hfuel
  by_cases hmaj : dy ≤ dx
  · rw [if_pos hmaj]
    by_cases hX : iEnd - iStart ≥ 0
    · simp only [if_pos hX]
      by_cases hY : jEnd - jStart > 0
      · obtain ⟨r, hr, hlen, hhead, hlast, hchain, hmem, htar⟩ :=
          drawX_branch gridCode iMax value (iEnd - iStart) (jEnd - jStart) dx dy 1
            iStart jStart iEnd jEnd fuel target (by omega) (by omega) hmaj (Or.inl rfl)
            (by omega) (fun j => if_pos (Or.inr ⟨by omega, by omega⟩)) hfx
        exact ⟨r, hr, by omega, Or.inl ⟨hhead, hlast⟩, hchain,
          fun c hc => by have := hmem c hc; omega, htar⟩
      · obtain ⟨r, hr, hlen, hhead, hlast, hchain, hmem, htar⟩ :=
          drawX_branch gridCode iMax value (iEnd - iStart) (jEnd - jStart) dx dy (-1)
            iStart jStart iEnd jEnd fuel target (by omega) (by omega) hmaj (Or.inr rfl)
            (by omega) (fun j => by rw [if_neg (by omega)]; ring) hfx
        exact ⟨r, hr, by omega, Or.inl ⟨hhead, hlast⟩, hchain,
          fun c hc => by have := hmem c hc; omega, htar⟩
    · simp only [if_neg hX]
      by_cases hY : jEnd - jStart < 0
      · obtain ⟨r, hr, hlen, hhead, hlast, hchain, hmem, htar⟩ :=
          drawX_branch gridCode iMax value (iEnd - iStart) (jEnd - jStart) dx dy 1
            iEnd jEnd iStart jStart fuel target (by omega) (by omega) hmaj (Or.inl rfl)
            (by omega) (fun j => if_pos (Or.inl ⟨by omega, by omega⟩)) hfx
        exact ⟨r, hr, by omega, Or.inr ⟨hhead, hlast⟩, hchain,
          fun c hc => by have := hmem c hc; omega, htar⟩
      · obtain ⟨r, hr, hlen, hhead, hlast, hchain, hmem, htar⟩ :=
          drawX_branch gridCode iMax value (iEnd - iStart) (jEnd - jStart) dx dy (-1)
            iEnd jEnd iStart jStart fuel target (by omega) (by omega) hmaj (Or.inr rfl)
            (by omega) (fun j => by rw [if_neg (by omega)]; ring) hfx
        exact ⟨r, hr, by omega, Or.inr ⟨hhead, hlast⟩, hchain,
          fun c hc => by have := hmem c hc; omega, htar⟩
  · rw [if_neg hmaj]
    by_cases hY : jEnd - jStart ≥ 0
    · simp only [if_pos hY]
      by_cases hX : iEnd - iStart > 0
      · obtain ⟨r, hr, hlen, hhead, hlast, hchain, hmem, htar⟩ :=
          drawY_branch gridCode iMax value (iEnd - iStart) (jEnd - jStart) dx dy 1
            iStart jStart iEnd jEnd fuel target (by omega) (by omega) (by omega) (Or.inl rfl)
            (by omega) (fun j => if_pos (Or.inr ⟨by omega, by omega⟩)) hfy
        exact ⟨r, hr, by omega, Or.inl ⟨hhead, hlast⟩, hchain,
          fun c hc => by have := hmem c hc; omega, htar⟩
      · obtain ⟨r, hr, hlen, hhead, hlast, hchain, hmem, htar⟩ :=
          drawY_branch gridCode iMax value (iEnd - iStart) (jEnd - jStart) dx dy (-1)
            iStart jStart iEnd jEnd fuel target (by omega) (by omega) (by omega) (Or.inr rfl)
            (by omega) (fun j => by rw [if_neg (by omega)]; ring) hfy
        exact ⟨r, hr, by omega, Or.inl ⟨hhead, hlast⟩, hchain,
          fun c hc => by have := hmem c hc; omega, htar⟩
    · simp only [if_neg hY]
      by_cases hX : iEnd - iStart < 0
      · obtain ⟨r, hr, hlen, hhead, hlast, hchain, hmem, htar⟩ :=
          drawY_branch gridCode iMax value (iEnd - iStart) (jEnd - jStart) dx dy 1
            iEnd jEnd iStart jStart fuel target (by omega) (by omega) (by omega) (Or.inl rfl)
            (by omega) (fun j => if_pos (Or.inl ⟨by omega, by omega⟩)) hfy
        exact ⟨r, hr, by omega, Or.inr ⟨hhead, hlast⟩, hchain,
          fun c hc => by have := hmem c hc; omega, htar⟩
      · obtain ⟨r, hr, hlen, hhead, hlast, hchain, hmem, htar⟩ :=
          drawY_branch gridCode iMax value (iEnd - iStart) (jEnd - jStart) dx dy (-1)
            iEnd jEnd iStart jStart fuel target (by omega) (by omega) (by omega) (Or.inr rfl)
            (by omega) (fun j => by rw [if_neg (by omega)]; ring) hfy
        exact ⟨r, hr, by omega, Or.inr ⟨hhead, hlast⟩, hchain,
          fun c hc => by have := hmem c hc; omega, htar⟩

theorem drawLinesOnGrid_line_witness :
    (max |(5 : Int) - 0| |(2 : Int) - 0|).toNat ≤ 5 ∧
    ∃ r, DrawLinesOnGrid 5 sampleGridCode 10 0 0 5 2 (fun _ => (0 : Int)) 7 = some r ∧
      (r.visited.length : Int) = max |(5 : Int) - 0| |(2 : Int) - 0| + 1 ∧
      ((r.visited.head? = some (0, 0) ∧ r.visited.getLast? = some (5, 2)) ∨
        (r.visited.head? = some (5, 2) ∧ r.visited.getLast? = some (0, 0))) ∧
      List.Chain' Adjacent8 r.visited ∧
      (∀ c ∈ r.visited, min 0 5 ≤ c.1 ∧ c.1 ≤ max 0 5 ∧ min 0 2 ≤ c.2 ∧ c.2 ≤ max 0 2) ∧
      (∀ key, r.target key =
        if (∃ c ∈ r.visited, c.2 * 10 + c.1 = key) ∧ Writable (sampleGridCode key) then 7
        else (fun _ => (0 : Int)) key) :=
  ⟨by decide, drawLinesOnGrid_line 5 sampleGridCode 10 0 0 5 2 (fun _ => (0 : Int)) 7
    (by decide)⟩

/-- The run of the witness in full: the line from cell `(0, 0)` to cell `(5, 2)` visits six
cells, and the wall cell `(2, 1)` (key 12) is visited but not written. -/
theorem drawLinesOnGrid_sample :
    (DrawLinesOnGrid 5 sampleGridCode 10 0 0 5 2 (fun _ => (0 : Int)) 7).map
        (fun r => (r.visited, r.target 1, r.target 12, r.target 13, r.target 11))
      = some ([(0, 0), (1, 0), (2, 1), (3, 1), (4, 2), (5, 2)], 7, 0, 7, 0) := by
  decide!

/-! ## `UnivFFviaFM::MarkSubroom` -/

theorem neighbours_lt (F : FloorField) (k a : Nat) (hk : k < F.nPoints)
    (h : some a ∈ neighbours F k) : a < F.nPoints := by
  simp only [neighbours, List.mem_cons, List.mem_singleton, List.not_mem_nil, or_false] at h
  rcases h with h | h | h | h
  · unfold nbRight at h
    split at h
    · rename_i hc; injection h with h; omega
    · cases h
  · unfold nbUp at h
    split at h
    · rename_i hc; injection h with h; omega
    · cases h
  · unfold nbLeft at h
    split at h
    · injection h with h; omega
    · cases h
  · unfold nbDown at h
    split at h
    · injection h with h; omega
    · cases h

theorem nullCount_le (n : Nat) (sub : Nat → Option Int) : nullCount n sub ≤ n := by
  unfold nullCount
  exact le_trans (List.countP_le_length _) (by simp)

theorem nullCount_update_le (n : Nat) (sub : Nat → Option Int) (a : Nat) (v : Int) :
    nullCount n (Function.update sub a (some v)) ≤ nullCount n sub := by
  unfold nullCount
  apply List.countP_mono_left
  intro k _ hk
  simp only [decide_eq_true_eq] at hk ⊢
  by_cases hka : k = a
  · subst hka; rw [Function.update_same] at hk; cases hk
  · rwa [Function.update_noteq hka] at hk

theorem nullCount_update_lt (n : Nat) (sub : Nat → Option Int) (a : Nat) (v : Int)
    (ha : a < n) (hnone : sub a = none) :
    nullCount n (Function.update sub a (some v)) + 1 ≤ nullCount n sub := by
  induction n with
  | zero => omega
  | succ m ih =>
    unfold nullCount at ih ⊢
    rw [List.range_succ, List.countP_append, List.countP_append]
    simp only [List.countP_cons, List.countP_nil, zero_add, decide_eq_true_eq]
    by_cases hm : a = m
    · subst hm
      rw [Function.update_same, hnone]
      simp only [if_true]
      have := nullCount_update_le a sub a v
      unfold nullCount at this
      simp only [reduceCtorEq, if_false]
      omega
    · have := ih (by omega)
      rw [Function.update_noteq (Ne.symm hm)]
      split <;> omega

theorem markInsert_inv (F : FloorField) (seed : Nat) (v : Int) (a : Nat) (s : MarkState)
    (hs : MarkInv F seed s) (ha : a < F.nPoints)
    (hr : a = seed ∨ (Fillable (F.gridCode a) ∧ FillReach F seed a)) :
    MarkInv F seed (markInsert v a s) := by
  obtain ⟨h1, h2, h3⟩ := hs
  have hsub : ∀ k, s.subrooms k ≠ none → Function.update s.subrooms a (some v) k ≠ none := by
    intro k hk
    by_cases hka : k = a
    · subst hka; rw [Function.update_same]; exact Option.some_ne_none _
    · rwa [Function.update_noteq hka]
  refine ⟨?_, ?_, h3⟩
  · intro k hk
    simp only [markInsert] at hk ⊢
    have hk' : k = a ∨ k ∈ s.wavefront := by
      split at hk
      · exact Or.inr hk
      · exact List.mem_cons.mp hk
    by_cases hka : k = a
    · subst hka
      exact ⟨ha, (by rw [Function.update_same]; exact Option.some_ne_none _), hr⟩
    · rcases hk' with h | h
      · exact absurd h hka
      · obtain ⟨g1, g2, g3⟩ := h1 k h
        exact ⟨g1, hsub k g2, g3⟩
  · intro k hk
    obtain ⟨g1, g2, g3⟩ := h2 k hk
    exact ⟨g1, hsub k g2, g3⟩

theorem markNeighbor_inv (F : FloorField) (seed : Nat) (v : Int) (current : Nat)
    (s : MarkState) (aux : Option Nat) (hs : MarkInv F seed s)
    (hcur : current < F.nPoints)
    (hreach : current = seed ∨ FillReach F seed current)
    (haux : aux ∈ neighbours F current) :
    MarkInv F seed (markNeighbor v s aux) := by
  cases aux with
  | none => exact hs
  | some a =>
    simp only [markNeighbor]
    split
    · rename_i hc
      have hcode : s.gridCode a = F.gridCode a := by
        by_contra hne
        exact (hs.2.1 a hne).2.1 hc.2
      have hfill : Fillable (F.gridCode a) := hcode ▸ hc.1
      have hstep : FillStep F current a := ⟨haux, hfill⟩
      refine markInsert_inv F seed v a s hs (neighbours_lt F current a hcur haux)
        (Or.inr ⟨hfill, ?_⟩)
      rcases hreach with h | h
      · rw [← h]; exact Relation.TransGen.single hstep
      · exact Relation.TransGen.tail h hstep
    · exact hs

theorem markNeighbor_measure (F : FloorField) (v : Int) (current : Nat) (s : MarkState)
    (aux : Option Nat) (hcur : current < F.nPoints) (haux : aux ∈ neighbours F current) :
    (markNeighbor v s aux).wavefront.length + nullCount F.nPoints (markNeighbor v s aux).subrooms
      ≤ s.wavefront.length + nullCount F.nPoints s.subrooms := by
  cases aux with
  | none => exact le_refl _
  | some a =>
    simp only [markNeighbor]
    split
    · rename_i hc
      have h1 := nullCount_update_lt F.nPoints s.subrooms a v
        (neighbours_lt F current a hcur haux) hc.2
      simp only [markInsert]
      split
      · omega
      · simp only [List.length_cons]; omega
    · exact le_refl _

theorem markLoop_done (F : FloorField) (begin : List Nat → Nat) (v : Int) (fuel : Nat)
    (s : MarkState) (h : s.wavefront = []) : markLoop F begin v fuel s = some s := by
  cases fuel <;> simp [markLoop, h]

/-- The loop of `MarkSubroom` ends: every round takes one cell from the wave front, and
every cell that enters the wave front had a null subroom entry, which it loses. -/
theorem markLoop_terminates (F : FloorField) (begin : List Nat → Nat) (v : Int) (seed : Nat)
    (hbegin : ∀ w, w ≠ [] → begin w ∈ w) :
    ∀ (n : Nat) (s : MarkState), MarkInv F seed s →
      s.wavefront.length + nullCount F.nPoints s.subrooms ≤ n →
      ∀ fuel, n ≤ fuel → ∃ t, markLoop F begin v fuel s = some t ∧ MarkInv F seed t := by
  intro n
  induction n with
  | zero =>
    intro s hs hm fuel _
    have hw : s.wavefront = [] := List.length_eq_zero.mp (by omega)
    exact ⟨s, markLoop_done F begin v fuel s hw, hs⟩
  | succ m ih =>
    intro s hs hm fuel hfuel
    by_cases hw : s.wavefront = []
    · exact ⟨s, markLoop_done F begin v fuel s hw, hs⟩
    · obtain ⟨f, rfl⟩ : ∃ f, fuel = f + 1 := ⟨fuel - 1, by omega⟩
      simp only [markLoop, if_neg hw]
      have hc : begin s.wavefront ∈ s.wavefront := hbegin _ hw
      obtain ⟨hlt, hsub, hreach⟩ := hs.1 _ hc
      have hreach' : begin s.wavefront = seed ∨ FillReach F seed (begin s.wavefront) :=
        hreach.imp id (fun h => h.2)
      have hlen : (s.wavefront.filter (fun k => k ≠ begin s.wavefront)).length + 1
          ≤ s.wavefront.length := by
        have : (s.wavefront.filter (fun k => k ≠ begin s.wavefront)).length
            < s.wavefront.length := by
          rw [List.length_filter_lt_length_iff_exists]
          exact ⟨_, hc, by simp⟩
        omega
      have hs1 : MarkInv F seed
          ⟨Function.update s.gridCode (begin s.wavefront) CellCode.INSIDE, s.subrooms,
            s.wavefront.filter (fun k => k ≠ begin s.wavefront)⟩ := by
        refine ⟨?_, ?_, ?_⟩
        · intro k hk
          exact hs.1 k (List.mem_of_mem_filter hk)
        · intro k hk
          by_cases hkc : k = begin s.wavefront
          · rw [hkc]
            exact ⟨Function.update_same _ _ _, hsub, hreach⟩
          · simp only [Function.update_noteq hkc] at hk ⊢
            exact hs.2.1 k hk
        · by_cases hkc : seed = begin s.wavefront
          · rw [hkc]; exact Function.update_same _ _ _
          · simp only [Function.update_noteq hkc]
            exact hs.2.2
      have hfold := foldl_inv_mem (markNeighbor v)
        (fun t : MarkState => MarkInv F seed t ∧
          t.wavefront.length + nullCount F.nPoints t.subrooms + 1
            ≤ s.wavefront.length + nullCount F.nPoints s.subrooms)
        (neighbours F (begin s.wavefront))
        (fun t aux haux ht =>
          ⟨markNeighbor_inv F seed v _ t aux ht.1 hlt hreach' haux,
            le_trans (Nat.succ_le_succ (markNeighbor_measure F v _ t aux hlt haux)) ht.2⟩)
        _ ⟨hs1, by simp only; omega⟩
      exact ih _ hfold.1 (by omega) f (by omega)

theorem markSeed_length (v : Int) (l : List (Option Nat)) :
    ∀ s : MarkState, (l.foldl (markSeedNeighbor v) s).wavefront.length
      ≤ s.wavefront.length + l.length := by
  induction l with
  | nil => intro s; simp
  | cons a t ih =>
    intro s
    simp only [List.foldl_cons, List.length_cons]
    refine le_trans (ih _) ?_
    have : (markSeedNeighbor v s a).wavefront.length ≤ s.wavefront.length + 1 := by
      cases a with
      | none => simp [markSeedNeighbor]
      | some x =>
        simp only [markSeedNeighbor]
        split
        · simp only [markInsert]
          split
          · omega
          · simp
        · omega
    omega

/-- The state before the loop satisfies the invariant. -/
theorem markSeed_inv (F : FloorField) (subrooms : Nat → Option Int) (seed : Nat) (v : Int)
    (hseed : seed < F.nPoints) :
    MarkInv F seed ((neighbours F seed).foldl (markSeedNeighbor v)
      ⟨Function.update F.gridCode seed CellCode.INSIDE,
        Function.update subrooms seed (some v), []⟩) := by
  have hfold := foldl_inv_mem (markSeedNeighbor v)
    (fun t : MarkState => MarkInv F seed t ∧ ∀ k, k ≠ seed → t.gridCode k = F.gridCode k)
    (neighbours F seed) ?_
    ⟨Function.update F.gridCode seed CellCode.INSIDE,
      Function.update subrooms seed (some v), []⟩ ?_
  · exact hfold.1
  · intro t aux haux ht
    cases aux with
    | none => exact ht
    | some a =>
      simp only [markSeedNeighbor]
      split
      · rename_i hc
        refine ⟨markInsert_inv F seed v a t ht.1 (neighbours_lt F seed a hseed haux) ?_, ht.2⟩
        by_cases has : a = seed
        · exact Or.inl has
        · have hfill : Fillable (F.gridCode a) := by rw [← ht.2 a has]; exact hc
          exact Or.inr ⟨hfill, Relation.TransGen.single ⟨haux, hfill⟩⟩
      · exact ht
  · refine ⟨⟨?_, ?_, ?_⟩, ?_⟩
    · intro k hk; cases hk
    · intro k hk
      by_cases hks : k = seed
      · subst hks
        exact ⟨Function.update_same _ _ _,
          (by simp only [Function.update_same]; exact Option.some_ne_none _), Or.inl rfl⟩
      · simp only [Function.update_noteq hks] at hk
        exact absurd rfl hk
    · exact Function.update_same _ _ _
    · intro k hk
      exact Function.update_noteq hk _ _

/-- C35. `MarkSubroom` returns for every non-null subroom (the loop ends within
`nPoints + 4` rounds, whatever element `begin` takes from the wave front).  If the grid
does not include the inside point nothing is changed; otherwise the seed cell is `INSIDE`
afterwards, and every other cell whose code has changed is `INSIDE` now, was `OUTSIDE`
before and is connected to the seed by a 4-neighbour path of cells that were `INSIDE` or
`OUTSIDE` before; a cell other than the seed whose code was neither `INSIDE` nor `OUTSIDE`
(a wall, a closed door, a door UID) keeps its code. -/
theorem markSubroom_fill (F : FloorField) (begin : List Nat → Nat)
    (subrooms : Nat → Option Int) (includesPoint : Bool) (seedKey : Nat) (v : Int)
    (fuel : Nat)
    (hbegin : ∀ w, w ≠ [] → begin w ∈ w)
    (hseed : includesPoint = true → seedKey < F.nPoints)
    (hfuel : F.nPoints + 4 ≤ fuel) :
    ∃ s, MarkSubroom fuel F begin subrooms includesPoint seedKey (some v) = some s ∧
      (includesPoint = false → s.gridCode = F.gridCode) ∧
      (includesPoint = true → s.gridCode seedKey = CellCode.INSIDE) ∧
      (∀ k, k ≠ seedKey → s.gridCode k ≠ F.gridCode k →
        s.gridCode k = CellCode.INSIDE ∧ F.gridCode k = CellCode.OUTSIDE ∧
          FillReach F seedKey k) ∧
      (∀ k, k ≠ seedKey → ¬ Fillable (F.gridCode k) → s.gridCode k = F.gridCode k) := by
  cases includesPoint with
  | false =>
    refine ⟨⟨F.gridCode, subrooms, []⟩, rfl, fun _ => rfl, (fun h => absurd h (by decide)), ?_, ?_⟩
    · intro k _ hk; exact absurd rfl hk
    · intro k _ _; rfl
  | true =>
    have hs := hseed rfl
    have hinv := markSeed_inv F subrooms seedKey v hs
    have hlen := markSeed_length v (neighbours F seedKey)
      ⟨Function.update F.gridCode seedKey CellCode.INSIDE,
        Function.update subrooms seedKey (some v), []⟩
    have hnull := nullCount_le F.nPoints
      ((neighbours F seedKey).foldl (markSeedNeighbor v)
        ⟨Function.update F.gridCode seedKey CellCode.INSIDE,
          Function.update subrooms seedKey (some v), []⟩).subrooms
    have h4 : (neighbours F seedKey).length = 4 := rfl
    simp only [List.length_nil, zero_add, h4] at hlen
    obtain ⟨t, ht, htinv⟩ := markLoop_terminates F begin v seedKey hbegin (F.nPoints + 4) _
      hinv (by omega) fuel hfuel
    have hchanged : ∀ k, k ≠ seedKey → t.gridCode k ≠ F.gridCode k →
        t.gridCode k = CellCode.INSIDE ∧ F.gridCode k = CellCode.OUTSIDE ∧
          FillReach F seedKey k := by
      intro k hk hne
      obtain ⟨g1, _, g3⟩ := htinv.2.1 k hne
      rcases g3 with g3 | ⟨hf, hr⟩
      · exact absurd g3 hk
      · refine ⟨g1, ?_, hr⟩
        rcases hf with hf | hf
        · rw [g1, hf] at hne; exact absurd rfl hne
        · exact hf
    refine ⟨t, ht, (fun h => absurd h (by decide)), fun _ => htinv.2.2, hchanged, ?_⟩
    intro k hk hnf
    by_contra hne
    exact hnf (Or.inr (hchanged k hk hne).2.1)

theorem headD_mem (w : List Nat) (h : w ≠ []) : w.headD 0 ∈ w := by
  cases w with
  | nil => exact absurd rfl h
  | cons a t => simp

theorem markSubroom_fill_witness :
    markField.nPoints + 4 ≤ 10 ∧ (0 : Nat) < markField.nPoints ∧
    ∃ s, MarkSubroom 10 markField (fun w => w.headD 0) (fun _ => none) true 0 (some 1)
        = some s ∧
      (true = false → s.gridCode = markField.gridCode) ∧
      (true = true → s.gridCode 0 = CellCode.INSIDE) ∧
      (∀ k, k ≠ 0 → s.gridCode k ≠ markField.gridCode k →
        s.gridCode k = CellCode.INSIDE ∧ markField.gridCode k = CellCode.OUTSIDE ∧
          FillReach markField 0 k) ∧
      (∀ k, k ≠ 0 → ¬ Fillable (markField.gridCode k) →
        s.gridCode k = markField.gridCode k) :=
  ⟨by decide, by decide,
    markSubroom_fill markField (fun w => w.headD 0) (fun _ => none) true 0 1 10
      headD_mem (fun _ => by decide) (by decide)⟩

/-- The run of the witness in full: from the seed cell 0 the fill reaches the cell 3 above
it; the wall cells 1 and 4 keep their code, and so do the cells 2 and 5 behind the wall. -/
theorem markSubroom_sample :
    (MarkSubroom 10 markField (fun w => w.headD 0) (fun _ => none) true 0 (some 1)).map
        (fun s => ((List.range 6).map s.gridCode, (List.range 6).map s.subrooms))
      = some ([CellCode.INSIDE, CellCode.WALL, CellCode.OUTSIDE, CellCode.INSIDE,
          CellCode.WALL, CellCode.DOOR 7], [some 1, none, none, some 1, none, none]) := by
  decide!

end JPSCore
